import Mathlib

/-!
Shallow embedding of the graph core of the OS_project repository
(`FinalProject/part7/graph.c` and friends) together with proofs of the
frozen specification claims.

Modelling conventions:
* a C `Graph*` value is `Graph` (a record of the vertex count and the
  adjacency lists); `NULL` pointers are modelled with `Option Graph`
  at the API boundary where a claim mentions them;
* C `int` values that can be negative (vertex arguments, weights,
  return codes) are `Int`; internal vertex indices, which the code
  guarantees to be in `[0, n)`, are `Nat`;
* mutation is modelled by explicit state passing: a C function that
  mutates the graph returns the pair of its return code and the new
  graph;
* `malloc` failure is modelled by boolean oracles passed to the
  function, consulted exactly where the C code calls `malloc`.
-/

/-- One adjacency entry (`EdgeNode` in `graph.c`): a neighbour index and
the edge weight.  The `next` pointer is the list structure itself. -/
structure EdgeNode where
  dst : Nat
  weight : Int
deriving Repr, DecidableEq

/-- A graph (`Graph` in `graph.c`): the number of vertices and one
adjacency list per vertex (the C array `adj[0..n-1]`). -/
structure Graph where
  n : Nat
  adj : List (List EdgeNode)
deriving Repr, DecidableEq

namespace Graph

/-- `in_bounds` from `graph.c` (the `g != NULL` conjunct is handled at
the `Option` boundary): `v >= 0 && v < g->n`. -/
def in_bounds (g : Graph) (v : Int) : Bool :=
  0 ≤ v && v < (g.n : Int)

/-- The adjacency list of vertex `u` (`g->adj[u].head`). -/
def adjList (g : Graph) (u : Nat) : List EdgeNode :=
  g.adj.getD u []

/-- `count_neighbor` from `graph.c`: how many times `v` appears in `u`'s
adjacency list. -/
def count_neighbor (g : Graph) (u v : Nat) : Nat :=
  (g.adjList u).countP (fun e => e.dst == v)

/-- `edge_exists_simple` from `graph.c`: duplicate check for the
undirected edge `u--v` (a self-loop counts as present once two entries
exist). -/
def edge_exists_simple (g : Graph) (u v : Nat) : Bool :=
  if u = v then decide (2 ≤ count_neighbor g u u)
  else decide (1 ≤ count_neighbor g u v)

/-- `graph_create` from `graph.c`: `n <= 0` yields `NULL`; otherwise a
graph with `n` empty adjacency lists.  (Allocation failure is not
modelled here; no claim concerns `create`'s out-of-memory path.) -/
def graph_create (n : Int) : Option Graph :=
  if n ≤ 0 then none
  else some ⟨n.toNat, List.replicate n.toNat []⟩

/-- `graph_add_weighted_edge` from `graph.c`, with the two `malloc`
calls modelled by the oracles `a1 a2 : Bool` (`true` = allocation
succeeds).  Returns the C return code (`0` ok, `-1` out of bounds,
`-2` out of memory, `-3` duplicate) and the resulting graph.  The C
code allocates both entries before mutating either list head, so on
failure the graph is returned untouched. -/
def graph_add_weighted_edge_alloc (a1 a2 : Bool) (g : Graph)
    (u v : Int) (weight : Int) : Int × Graph :=
  if ¬ (g.in_bounds u && g.in_bounds v) then (-1, g)
  else
    let un := u.toNat
    let vn := v.toNat
    if g.edge_exists_simple un vn then (-3, g)
    else if ¬ (a1 && a2) then (-2, g)
    else if un = vn then
      -- self-loop: two entries pushed on `adj[u]` (`e2` ends up first)
      let adj1 := g.adj.set un (⟨un, weight⟩ :: ⟨un, weight⟩ :: g.adjList un)
      (0, { g with adj := adj1 })
    else
      -- regular edge: one entry pushed on each endpoint's list
      let adj1 := g.adj.set un (⟨vn, weight⟩ :: g.adjList un)
      let adj2 := adj1.set vn (⟨un, weight⟩ :: adj1.getD vn [])
      (0, { g with adj := adj2 })

/-- `graph_add_weighted_edge` with both allocations succeeding (the
usual case; claims about the out-of-memory path use the oracle
version). -/
def graph_add_weighted_edge (g : Graph) (u v : Int) (weight : Int) :
    Int × Graph :=
  graph_add_weighted_edge_alloc true true g u v weight

/-- `graph_add_edge` from `graph.c`: default weight 1. -/
def graph_add_edge (g : Graph) (u v : Int) : Int × Graph :=
  graph_add_weighted_edge g u v 1

/-- `graph_get_edge_weight` from `graph.c`, including the `NULL`-graph
behaviour of `in_bounds`: returns the weight of the first entry for `v`
in `u`'s list, `0` when the graph is `NULL`, an index is out of bounds,
or the edge is absent. -/
def graph_get_edge_weight (g? : Option Graph) (u v : Int) : Int :=
  match g? with
  | none => 0
  | some g =>
    if ¬ (g.in_bounds u && g.in_bounds v) then 0
    else
      match (g.adjList u.toNat).find? (fun e => e.dst == v.toNat) with
      | some e => e.weight
      | none => 0

end Graph

/-! ### Generic list lemmas used throughout -/

theorem getD_set_self {α : Type _} (l : List α) (i : Nat) (x d : α)
    (h : i < l.length) : (l.set i x).getD i d = x := by
  rw [List.getD_eq_getElem _ _ (by simpa using h)]
  simp

theorem getD_set_ne {α : Type _} (l : List α) {i j : Nat} (x d : α)
    (h : i ≠ j) : (l.set i x).getD j d = l.getD j d := by
  rw [List.getD_eq_getElem?_getD, List.getElem?_set_ne h,
    ← List.getD_eq_getElem?_getD]

/-! ### C9: allocation failure leaves the graph unchanged -/

/-- C9: if `graph_add_weighted_edge` fails with out-of-memory (`-2`,
one of the two entry allocations failed), the graph is returned
exactly as it was: no adjacency list gained or lost an entry and no
list head was mutated.  This reflects the allocate-then-link order of
the C code: both `malloc` calls happen before either list head is
assigned. -/
theorem add_weighted_edge_oom_leaves_graph_unchanged
    (a1 a2 : Bool) (g : Graph) (u v w : Int)
    (h : (Graph.graph_add_weighted_edge_alloc a1 a2 g u v w).1 = -2) :
    (Graph.graph_add_weighted_edge_alloc a1 a2 g u v w).2 = g := by
  unfold Graph.graph_add_weighted_edge_alloc at h ⊢
  dsimp only at h ⊢
  split_ifs at h ⊢ <;> simp_all

/-- Witness for C9 at a concrete input: with the first allocation
failing, adding edge `0--1` to the two-vertex empty graph reports
out-of-memory and leaves the graph unchanged. -/
theorem add_weighted_edge_oom_leaves_graph_unchanged_witness :
    (Graph.graph_add_weighted_edge_alloc false true ⟨2, [[], []]⟩ 0 1 1).1 = -2 ∧
    (Graph.graph_add_weighted_edge_alloc false true ⟨2, [[], []]⟩ 0 1 1).2
      = ⟨2, [[], []]⟩ :=
  ⟨by decide,
   add_weighted_edge_oom_leaves_graph_unchanged false true ⟨2, [[], []]⟩ 0 1 1
     (by decide)⟩

/-! ### C10: `graph_get_edge_weight` on invalid arguments -/

/-- C10: `graph_get_edge_weight` returns `0` when the graph is `NULL`
or either vertex is outside `[0, n)`, and it returns `0` when the edge
is absent (no entry for `v` in `u`'s list); there is no separate error
signal, so a missing edge and an out-of-bounds query are
indistinguishable, and invalid arguments can never produce a nonzero
value. -/
theorem get_edge_weight_zero_on_invalid_or_missing
    (g? : Option Graph) (u v : Int) :
    ((g? = none ∨
        ∃ g, g? = some g ∧ ¬ (g.in_bounds u = true ∧ g.in_bounds v = true)) →
      Graph.graph_get_edge_weight g? u v = 0) ∧
    (∀ g, g? = some g →
      g.count_neighbor u.toNat v.toNat = 0 →
      Graph.graph_get_edge_weight g? u v = 0) := by
  constructor
  · rintro (rfl | ⟨g, rfl, hb⟩)
    · rfl
    · simp only [Graph.graph_get_edge_weight]
      rw [if_pos]
      simpa [not_and_or] using hb
  · rintro g rfl habs
    simp only [Graph.graph_get_edge_weight]
    have hfind :
        (g.adjList u.toNat).find? (fun e => e.dst == v.toNat) = none := by
      rw [List.find?_eq_none]
      intro e he
      have := List.countP_eq_zero.mp habs e he
      simpa using this
    split_ifs with hb
    · rw [hfind]
    · rfl

/-- Witness for C10: a `NULL` graph, an out-of-bounds query and a
missing-edge query all yield `0`. -/
theorem get_edge_weight_zero_on_invalid_or_missing_witness :
    Graph.graph_get_edge_weight none 0 0 = 0 ∧
    Graph.graph_get_edge_weight (some ⟨2, [[], []]⟩) 0 5 = 0 ∧
    Graph.graph_get_edge_weight (some ⟨2, [[], []]⟩) 0 1 = 0 :=
  ⟨(get_edge_weight_zero_on_invalid_or_missing none 0 0).1 (Or.inl rfl),
   (get_edge_weight_zero_on_invalid_or_missing (some ⟨2, [[], []]⟩) 0 5).1
     (Or.inr ⟨_, rfl, by decide⟩),
   (get_edge_weight_zero_on_invalid_or_missing (some ⟨2, [[], []]⟩) 0 1).2
     _ rfl (by decide)⟩

/-! ### Shape lemmas for successful edge insertion -/

theorem in_bounds_toNat (g : Graph) (v : Int) (h : g.in_bounds v = true) :
    v.toNat < g.n ∧ 0 ≤ v ∧ (v.toNat : Int) = v := by
  simp only [Graph.in_bounds, Bool.and_eq_true, decide_eq_true_eq] at h
  omega

/-- Successful `graph_add_weighted_edge`: the bounds and duplicate
checks passed, and the resulting graph is the input with the new
entries pushed onto the endpoint lists. -/
theorem add_weighted_ok_shape (g : Graph) (u v w : Int)
    (hok : (Graph.graph_add_weighted_edge g u v w).1 = 0) :
    (g.in_bounds u = true ∧ g.in_bounds v = true) ∧
    g.edge_exists_simple u.toNat v.toNat = false ∧
    ((u.toNat = v.toNat ∧
        (Graph.graph_add_weighted_edge g u v w).2 =
          ⟨g.n, g.adj.set u.toNat
              (⟨u.toNat, w⟩ :: ⟨u.toNat, w⟩ :: g.adjList u.toNat)⟩) ∨
     (u.toNat ≠ v.toNat ∧
        (Graph.graph_add_weighted_edge g u v w).2 =
          ⟨g.n,
            (g.adj.set u.toNat (⟨v.toNat, w⟩ :: g.adjList u.toNat)).set
              v.toNat
              (⟨u.toNat, w⟩ ::
                (g.adj.set u.toNat
                  (⟨v.toNat, w⟩ :: g.adjList u.toNat)).getD v.toNat [])⟩)) := by
  unfold Graph.graph_add_weighted_edge Graph.graph_add_weighted_edge_alloc
    at hok ⊢
  dsimp only at hok ⊢
  split_ifs at hok ⊢ with h1 h2 h3 <;> simp_all

/-- Failed `graph_add_weighted_edge` (any nonzero code) leaves the
graph unchanged. -/
theorem add_weighted_fail_unchanged (g : Graph) (u v w : Int)
    (h : (Graph.graph_add_weighted_edge g u v w).1 ≠ 0) :
    (Graph.graph_add_weighted_edge g u v w).2 = g := by
  unfold Graph.graph_add_weighted_edge Graph.graph_add_weighted_edge_alloc
    at h ⊢
  dsimp only at h ⊢
  split_ifs at h ⊢ <;> simp_all

/-- When the bounds check passes and the duplicate check fires,
`graph_add_weighted_edge` reports `-3`. -/
theorem add_weighted_duplicate_code (g : Graph) (u v w : Int)
    (hb : (g.in_bounds u && g.in_bounds v) = true)
    (hex : g.edge_exists_simple u.toNat v.toNat = true) :
    (Graph.graph_add_weighted_edge g u v w).1 = -3 := by
  unfold Graph.graph_add_weighted_edge Graph.graph_add_weighted_edge_alloc
  dsimp only
  rw [if_neg (by simp [hb]), if_pos hex]

/-! ### C5: a fresh undirected edge is symmetric, positive, and
rejected as a duplicate on re-insertion -/

/-- C5: for distinct vertices `u ≠ v`, if `graph_add_edge g u v`
returns ok then in the resulting graph the stored weight is the same
seen from both endpoints and strictly positive (it is the default 1),
and re-adding the edge in either orientation reports `-3`
(duplicate). -/
theorem add_edge_ok_symmetric_positive_then_duplicate
    (g : Graph) (u v : Int) (hlen : g.adj.length = g.n) (huv : u ≠ v)
    (hok : (Graph.graph_add_edge g u v).1 = 0) :
    Graph.graph_get_edge_weight (some (Graph.graph_add_edge g u v).2) u v
      = Graph.graph_get_edge_weight (some (Graph.graph_add_edge g u v).2) v u ∧
    0 < Graph.graph_get_edge_weight (some (Graph.graph_add_edge g u v).2) u v ∧
    (Graph.graph_add_edge (Graph.graph_add_edge g u v).2 u v).1 = -3 ∧
    (Graph.graph_add_edge (Graph.graph_add_edge g u v).2 v u).1 = -3 := by
  unfold Graph.graph_add_edge at hok ⊢
  obtain ⟨⟨hbu, hbv⟩, hdup, hshape⟩ := add_weighted_ok_shape g u v 1 hok
  obtain ⟨hultn, hu0, hucast⟩ := in_bounds_toNat g u hbu
  obtain ⟨hvltn, hv0, hvcast⟩ := in_bounds_toNat g v hbv
  have hsd : u.toNat ≠ v.toNat := by
    intro hEq
    exact huv (by rw [← hucast, ← hvcast, hEq])
  rcases hshape with ⟨hEq, _⟩ | ⟨-, hres⟩
  · exact absurd hEq hsd
  set s := u.toNat with hs
  set d := v.toNat with hd
  have hlen1 : (g.adj.set s (⟨d, 1⟩ :: g.adjList s)).length = g.n := by
    simpa using hlen
  have hadj_s :
      ((Graph.graph_add_weighted_edge g u v 1).2).adjList s = ⟨d, 1⟩ :: g.adjList s := by
    rw [hres]
    show (((g.adj.set s _).set d _).getD s []) = _
    rw [getD_set_ne _ _ _ (Ne.symm hsd), getD_set_self _ _ _ _ (by omega)]
  have hadj_d :
      ((Graph.graph_add_weighted_edge g u v 1).2).adjList d = ⟨s, 1⟩ :: g.adjList d := by
    rw [hres]
    show (((g.adj.set s _).set d _).getD d []) = _
    rw [getD_set_self _ _ _ _ (by omega)]
    have : ((g.adj.set s (⟨d, 1⟩ :: g.adjList s)).getD d []) = g.adjList d :=
      getD_set_ne _ _ _ hsd
    rw [this]
  have hn' : ((Graph.graph_add_weighted_edge g u v 1).2).n = g.n := by rw [hres]
  have hbu' : ((Graph.graph_add_weighted_edge g u v 1).2).in_bounds u = true := by
    simp only [Graph.in_bounds, hn'] at *; exact hbu
  have hbv' : ((Graph.graph_add_weighted_edge g u v 1).2).in_bounds v = true := by
    simp only [Graph.in_bounds, hn'] at *; exact hbv
  have hw_uv :
      Graph.graph_get_edge_weight (some (Graph.graph_add_weighted_edge g u v 1).2) u v
        = 1 := by
    simp only [Graph.graph_get_edge_weight, hbu', hbv', Bool.and_self,
      not_true_eq_false, if_false, ← hs, ← hd, hadj_s]
    rw [List.find?_cons_of_pos _ (by simp)]
  have hw_vu :
      Graph.graph_get_edge_weight (some (Graph.graph_add_weighted_edge g u v 1).2) v u
        = 1 := by
    simp only [Graph.graph_get_edge_weight, hbu', hbv', Bool.and_self,
      not_true_eq_false, if_false, ← hs, ← hd, hadj_d]
    rw [List.find?_cons_of_pos _ (by simp)]
  refine ⟨by rw [hw_uv, hw_vu], by rw [hw_uv]; norm_num, ?_, ?_⟩
  · refine add_weighted_duplicate_code _ u v 1 (by simp [hbu', hbv']) ?_
    simp only [Graph.edge_exists_simple, ← hs, ← hd, if_neg hsd,
      decide_eq_true_eq, Graph.count_neighbor, hadj_s]
    rw [List.countP_cons_of_pos _ _ (by simp)]
    omega
  · refine add_weighted_duplicate_code _ v u 1 (by simp [hbu', hbv']) ?_
    simp only [Graph.edge_exists_simple, ← hs, ← hd, if_neg (Ne.symm hsd),
      decide_eq_true_eq, Graph.count_neighbor, hadj_d]
    rw [List.countP_cons_of_pos _ _ (by simp)]
    omega

/-- Witness for C5 on the two-vertex empty graph and edge `0--1`. -/
theorem add_edge_ok_symmetric_positive_then_duplicate_witness :
    ((⟨2, [[], []]⟩ : Graph).adj.length = (⟨2, [[], []]⟩ : Graph).n) ∧
    ((0 : Int) ≠ 1) ∧
    ((Graph.graph_add_edge ⟨2, [[], []]⟩ 0 1).1 = 0) ∧
    (Graph.graph_get_edge_weight
        (some (Graph.graph_add_edge ⟨2, [[], []]⟩ 0 1).2) 0 1
      = Graph.graph_get_edge_weight
        (some (Graph.graph_add_edge ⟨2, [[], []]⟩ 0 1).2) 1 0 ∧
    0 < Graph.graph_get_edge_weight
        (some (Graph.graph_add_edge ⟨2, [[], []]⟩ 0 1).2) 0 1 ∧
    (Graph.graph_add_edge (Graph.graph_add_edge ⟨2, [[], []]⟩ 0 1).2 0 1).1
      = -3 ∧
    (Graph.graph_add_edge (Graph.graph_add_edge ⟨2, [[], []]⟩ 0 1).2 1 0).1
      = -3) :=
  ⟨by decide, by decide, by decide,
   add_edge_ok_symmetric_positive_then_duplicate ⟨2, [[], []]⟩ 0 1
     (by decide) (by decide) (by decide)⟩

/-! ### C6: the leader/follower server's manual weight rewrite -/

/-- The manual weight-rewrite scan of `process_weighted_request` in
`part8/server.c`: every entry of the list whose target is `dst` gets
its weight overwritten with `w` (`for (edge = head; edge; edge =
edge->next) if (edge->to == dst) edge->weight = w;`). -/
def update_weights_scan (l : List EdgeNode) (dst : Nat) (w : Int) :
    List EdgeNode :=
  l.map fun e => if e.dst = dst then { e with weight := w } else e

/-- Processing of one `[src, dest, weight]` triplet by
`process_weighted_request` (`FinalProject/part8/server.c`): after the
validity check the code calls `graph_add_edge` (ignoring its return
value) and then unconditionally runs the weight-rewrite scan on both
endpoints' lists (only on `src`'s list for a self-loop). -/
def process_weighted_triplet (g : Graph) (src dest w : Int) : Graph :=
  if 0 ≤ src ∧ src < (g.n : Int) ∧ 0 ≤ dest ∧ dest < (g.n : Int) ∧ 0 < w then
    let g1 := (Graph.graph_add_edge g src dest).2
    let s := src.toNat
    let d := dest.toNat
    let g2 : Graph :=
      ⟨g1.n, g1.adj.set s (update_weights_scan (g1.adjList s) d w)⟩
    if src ≠ dest then
      ⟨g2.n, g2.adj.set d (update_weights_scan (g2.adjList d) s w)⟩
    else g2
  else g

/-- Counterexample to C6: starting from the empty two-vertex graph,
the triplet `(0,1,5)` installs edge `0--1` with weight `5`; for the
triplet `(0,1,7)` `graph_add_edge` returns duplicate, yet processing
it changes the graph (the scan rewrites the stored weight to `7`). -/
theorem process_weighted_triplet_duplicate_changes_graph :
    (Graph.graph_add_edge
        (process_weighted_triplet ⟨2, [[], []]⟩ 0 1 5) 0 1).1 = -3 ∧
    process_weighted_triplet
        (process_weighted_triplet ⟨2, [[], []]⟩ 0 1 5) 0 1 7
      ≠ process_weighted_triplet ⟨2, [[], []]⟩ 0 1 5 := by decide

/-- `find?` on a scanned list: if some entry points at `d`, the first
such entry after the scan carries weight `w`. -/
theorem find?_update_weights_scan (l : List EdgeNode) (d : Nat) (w : Int)
    (h : ∃ e ∈ l, e.dst = d) :
    ∃ e, (update_weights_scan l d w).find? (fun e => e.dst == d) = some e ∧
      e.weight = w := by
  induction l with
  | nil => simp at h
  | cons x t ih =>
    by_cases hx : x.dst = d
    · refine ⟨{ x with weight := w }, ?_, rfl⟩
      simp only [update_weights_scan, List.map_cons, if_pos hx]
      rw [List.find?_cons_of_pos _ (by simp [hx])]
    · obtain ⟨e, he, hed⟩ := h
      rcases List.mem_cons.mp he with rfl | het
      · exact absurd hed hx
      · obtain ⟨e', h1, h2⟩ := ih ⟨e, het, hed⟩
        refine ⟨e', ?_, h2⟩
        simp only [update_weights_scan, List.map_cons, if_neg hx]
        rw [List.find?_cons_of_neg _ (by simp [hx])]
        exact h1

/-- C6 (amended): when `graph_add_edge` rejects the triplet's edge as
a duplicate, the scan still runs and overwrites the stored weight of
the existing edge in both endpoint lists with the triplet's weight;
adjacency lists of other vertices are untouched, and within the two
scanned lists exactly the entries pointing at the other endpoint are
rewritten (the hypothesis `hsym` is the undirected-representation
invariant that each endpoint's list mentions the other). -/
theorem process_weighted_triplet_duplicate_rewrites
    (g : Graph) (src dest w : Int) (hlen : g.adj.length = g.n)
    (hsrc : 0 ≤ src ∧ src < (g.n : Int))
    (hdest : 0 ≤ dest ∧ dest < (g.n : Int))
    (hw : 0 < w) (hne : src ≠ dest)
    (hsym : ∀ a : Nat, a < g.n → ∀ b : Nat, b < g.n → a ≠ b →
      g.count_neighbor a b = g.count_neighbor b a)
    (hdup : (Graph.graph_add_edge g src dest).1 = -3) :
    (process_weighted_triplet g src dest w).n = g.n ∧
    (process_weighted_triplet g src dest w).adjList src.toNat
      = update_weights_scan (g.adjList src.toNat) dest.toNat w ∧
    (process_weighted_triplet g src dest w).adjList dest.toNat
      = update_weights_scan (g.adjList dest.toNat) src.toNat w ∧
    (∀ x : Nat, x ≠ src.toNat → x ≠ dest.toNat →
      (process_weighted_triplet g src dest w).adjList x = g.adjList x) ∧
    Graph.graph_get_edge_weight (some (process_weighted_triplet g src dest w))
        src dest = w ∧
    Graph.graph_get_edge_weight (some (process_weighted_triplet g src dest w))
        dest src = w := by
  obtain ⟨hs0, hs1⟩ := hsrc
  obtain ⟨hd0, hd1⟩ := hdest
  have hdup' : (Graph.graph_add_weighted_edge g src dest 1).1 = -3 := hdup
  have hg1 : (Graph.graph_add_edge g src dest).2 = g :=
    add_weighted_fail_unchanged g src dest 1 (by rw [hdup']; decide)
  have hsd : src.toNat ≠ dest.toNat := by
    intro hEq
    apply hne
    omega
  have hslt : src.toNat < g.n := by omega
  have hdlt : dest.toNat < g.n := by omega
  have hcount : 1 ≤ g.count_neighbor src.toNat dest.toNat := by
    unfold Graph.graph_add_weighted_edge
      Graph.graph_add_weighted_edge_alloc at hdup'
    dsimp only at hdup'
    split_ifs at hdup' with h1 h2 h3 <;>
      first
        | (simp only [Graph.edge_exists_simple, if_neg hsd,
            decide_eq_true_eq] at h2
           exact h2)
        | simp at hdup'
  have hcountd : 1 ≤ g.count_neighbor dest.toNat src.toNat := by
    rw [← hsym src.toNat hslt dest.toNat hdlt hsd]
    exact hcount
  have hmem : ∃ e ∈ g.adjList src.toNat, e.dst = dest.toNat := by
    obtain ⟨e, he, hp⟩ := List.countP_pos_iff.mp hcount
    exact ⟨e, he, by simpa using hp⟩
  have hmemd : ∃ e ∈ g.adjList dest.toNat, e.dst = src.toNat := by
    obtain ⟨e, he, hp⟩ := List.countP_pos_iff.mp hcountd
    exact ⟨e, he, by simpa using hp⟩
  have hmain : process_weighted_triplet g src dest w =
      ⟨g.n, (g.adj.set src.toNat
          (update_weights_scan (g.adjList src.toNat) dest.toNat w)).set
        dest.toNat
          (update_weights_scan (g.adjList dest.toNat) src.toNat w)⟩ := by
    unfold process_weighted_triplet
    dsimp only
    rw [if_pos ⟨hs0, hs1, hd0, hd1, hw⟩, if_pos hne, hg1]
    have hinner : ((g.adj.set src.toNat
        (update_weights_scan (g.adjList src.toNat) dest.toNat w)).getD
          dest.toNat []) = g.adjList dest.toNat :=
      getD_set_ne _ _ _ hsd
    show (⟨g.n, _⟩ : Graph) = _
    refine congrArg (Graph.mk g.n) ?_
    show ((g.adj.set src.toNat _).set dest.toNat
        (update_weights_scan ((g.adj.set src.toNat _).getD dest.toNat [])
          src.toNat w)) = _
    rw [hinner]
  have hlen1 : (g.adj.set src.toNat
      (update_weights_scan (g.adjList src.toNat) dest.toNat w)).length
        = g.n := by simpa using hlen
  have hadj_s : (process_weighted_triplet g src dest w).adjList src.toNat
      = update_weights_scan (g.adjList src.toNat) dest.toNat w := by
    rw [hmain]
    show ((g.adj.set src.toNat _).set dest.toNat _).getD src.toNat [] = _
    rw [getD_set_ne _ _ _ (Ne.symm hsd), getD_set_self _ _ _ _ (by omega)]
  have hadj_d : (process_weighted_triplet g src dest w).adjList dest.toNat
      = update_weights_scan (g.adjList dest.toNat) src.toNat w := by
    rw [hmain]
    show ((g.adj.set src.toNat _).set dest.toNat _).getD dest.toNat [] = _
    rw [getD_set_self _ _ _ _ (by omega)]
  have hadj_other : ∀ x : Nat, x ≠ src.toNat → x ≠ dest.toNat →
      (process_weighted_triplet g src dest w).adjList x = g.adjList x := by
    intro x hxs hxd
    rw [hmain]
    show ((g.adj.set src.toNat _).set dest.toNat _).getD x [] = _
    rw [getD_set_ne _ _ _ (Ne.symm hxd), getD_set_ne _ _ _ (Ne.symm hxs)]
    rfl
  have hn : (process_weighted_triplet g src dest w).n = g.n := by
    rw [hmain]
  have hbs : (process_weighted_triplet g src dest w).in_bounds src = true := by
    simp [Graph.in_bounds, hn]
    omega
  have hbd : (process_weighted_triplet g src dest w).in_bounds dest
      = true := by
    simp [Graph.in_bounds, hn]
    omega
  refine ⟨hn, hadj_s, hadj_d, hadj_other, ?_, ?_⟩
  · obtain ⟨e, hfind, hew⟩ :=
      find?_update_weights_scan (g.adjList src.toNat) dest.toNat w hmem
    simp only [Graph.graph_get_edge_weight, hbs, hbd, Bool.and_self,
      not_true_eq_false, if_false, hadj_s, hfind]
    exact hew
  · obtain ⟨e, hfind, hew⟩ :=
      find?_update_weights_scan (g.adjList dest.toNat) src.toNat w hmemd
    simp only [Graph.graph_get_edge_weight, hbs, hbd, Bool.and_self,
      not_true_eq_false, if_false, hadj_d, hfind]
    exact hew

/-- Witness for the amended C6 on the graph holding edge `0--1` with
weight `5`, processing the duplicate triplet `(0,1,7)`. -/
theorem process_weighted_triplet_duplicate_rewrites_witness :
    (process_weighted_triplet
        (process_weighted_triplet ⟨2, [[], []]⟩ 0 1 5) 0 1 7).adjList 0
      = update_weights_scan
          ((process_weighted_triplet ⟨2, [[], []]⟩ 0 1 5).adjList 0) 1 7 :=
  (process_weighted_triplet_duplicate_rewrites
    (process_weighted_triplet ⟨2, [[], []]⟩ 0 1 5) 0 1 7
    (by decide) (by decide) (by decide) (by decide) (by decide)
    (by decide) (by decide)).2.1

/-! ### C7: positivity of stored weights -/

/-- One mutating call of the graph-building API: `graph_add_edge` or
`graph_add_weighted_edge`. -/
inductive GraphOp where
  | add (u v : Int)
  | addW (u v w : Int)
deriving Repr, DecidableEq

/-- Apply one call (failed calls leave the graph unchanged, exactly as
in the C code). -/
def applyOp (g : Graph) : GraphOp → Graph
  | .add u v => (Graph.graph_add_edge g u v).2
  | .addW u v w => (Graph.graph_add_weighted_edge g u v w).2

/-- Apply a sequence of calls left to right. -/
def applyOps (g : Graph) (ops : List GraphOp) : Graph :=
  ops.foldl applyOp g

/-- Every stored adjacency-entry weight is at least 1. -/
def weightsPositive (g : Graph) : Prop :=
  ∀ l ∈ g.adj, ∀ e ∈ l, 1 ≤ e.weight

instance (g : Graph) : Decidable (weightsPositive g) := by
  unfold weightsPositive
  infer_instance

/-- The supplied weight of a call is positive (`add` always is: it
uses the default 1). -/
def GraphOp.posWeight : GraphOp → Prop
  | .add _ _ => True
  | .addW _ _ w => 1 ≤ w

instance : DecidablePred GraphOp.posWeight := by
  intro op
  cases op with
  | add u v => exact isTrue trivial
  | addW u v w => exact inferInstanceAs (Decidable (1 ≤ w))

/-- Counterexample to C7 as stated: `graph_add_weighted_edge` performs
no validation of the weight, so a successful call with weight `0`
installs an adjacency entry whose weight is not a positive integer. -/
theorem add_weighted_edge_accepts_nonpositive_weight :
    (Graph.graph_add_weighted_edge ⟨2, [[], []]⟩ 0 1 0).1 = 0 ∧
    ¬ weightsPositive (Graph.graph_add_weighted_edge ⟨2, [[], []]⟩ 0 1 0).2 := by
  decide

theorem weightsPositive_getD (adj : List (List EdgeNode))
    (h : ∀ l ∈ adj, ∀ e ∈ l, 1 ≤ e.weight) (i : Nat) :
    ∀ e ∈ adj.getD i [], 1 ≤ e.weight := by
  intro e he
  by_cases hi : i < adj.length
  · rw [List.getD_eq_getElem _ _ hi] at he
    exact h _ (List.getElem_mem hi) e he
  · rw [List.getD_eq_default _ _ (le_of_not_lt hi)] at he
    simp at he

theorem weightsPositive_set (adj : List (List EdgeNode))
    (h : ∀ l ∈ adj, ∀ e ∈ l, 1 ≤ e.weight) (i : Nat) (x : List EdgeNode)
    (hx : ∀ e ∈ x, 1 ≤ e.weight) :
    ∀ l ∈ adj.set i x, ∀ e ∈ l, 1 ≤ e.weight := by
  intro l hl e he
  rcases List.mem_or_eq_of_mem_set hl with hl' | rfl
  · exact h l hl' e he
  · exact hx e he

theorem applyOp_preserves_weightsPositive (g : Graph) (op : GraphOp)
    (hpos : GraphOp.posWeight op) (hg : weightsPositive g) :
    weightsPositive (applyOp g op) := by
  have key : ∀ u v w : Int, 1 ≤ w →
      weightsPositive (Graph.graph_add_weighted_edge g u v w).2 := by
    intro u v w hw
    by_cases hc : (Graph.graph_add_weighted_edge g u v w).1 = 0
    · obtain ⟨-, -, hshape⟩ := add_weighted_ok_shape g u v w hc
      have hnew : ∀ e ∈ (⟨v.toNat, w⟩ : EdgeNode) :: g.adjList u.toNat,
          1 ≤ e.weight := by
        intro e1 he1
        rcases List.mem_cons.mp he1 with rfl | he2
        · exact hw
        · exact weightsPositive_getD g.adj hg _ e1 he2
      have hadj1 : ∀ l ∈ g.adj.set u.toNat
          ((⟨v.toNat, w⟩ : EdgeNode) :: g.adjList u.toNat),
          ∀ e ∈ l, 1 ≤ e.weight :=
        weightsPositive_set g.adj hg _ _ hnew
      rcases hshape with ⟨-, hres⟩ | ⟨-, hres⟩ <;> rw [hres]
      · intro l hl e he
        refine weightsPositive_set g.adj hg _ _ ?_ l hl e he
        intro e1 he1
        rcases List.mem_cons.mp he1 with rfl | he2
        · exact hw
        · rcases List.mem_cons.mp he2 with rfl | he3
          · exact hw
          · exact weightsPositive_getD g.adj hg _ e1 he3
      · intro l hl e he
        refine weightsPositive_set _ hadj1 _ _ ?_ l hl e he
        intro e1 he1
        rcases List.mem_cons.mp he1 with rfl | he2
        · exact hw
        · exact weightsPositive_getD _ hadj1 _ e1 he2
    · rw [add_weighted_fail_unchanged g u v w hc]
      exact hg
  cases op with
  | add u v => exact key u v 1 le_rfl
  | addW u v w => exact key u v w hpos

/-- C7 (amended): starting from `create(n)` and applying any sequence
of `add_edge` / `add_weighted_edge` calls in which every supplied
weight is a positive integer (the unspecified default being 1), every
adjacency entry's weight is `≥ 1`.  The code itself performs no
validation of the weight argument, so the positivity of the supplied
weights is a genuine hypothesis (see the counterexample). -/
theorem create_then_ops_weightsPositive (n : Int) (g0 : Graph)
    (hg0 : Graph.graph_create n = some g0) (ops : List GraphOp)
    (hops : ∀ op ∈ ops, GraphOp.posWeight op) :
    weightsPositive (applyOps g0 ops) := by
  have hstart : weightsPositive g0 := by
    unfold Graph.graph_create at hg0
    split_ifs at hg0 with h
    all_goals first
      | exact Option.noConfusion hg0
      | (injection hg0 with h2
         subst h2
         intro l hl e he
         rw [List.eq_of_mem_replicate hl] at he
         simp at he)
  clear hg0
  induction ops generalizing g0 with
  | nil => exact hstart
  | cons op t ih =>
    have h1 : weightsPositive (applyOp g0 op) :=
      applyOp_preserves_weightsPositive g0 op
        (hops op (List.mem_cons_self op t)) hstart
    exact ih (applyOp g0 op)
      (fun o ho => hops o (List.mem_cons_of_mem op ho)) h1

/-- Witness for the amended C7: a three-call sequence on `create(3)`
(one default-weight edge, one weighted edge, one failing duplicate)
leaves all stored weights positive. -/
theorem create_then_ops_weightsPositive_witness :
    Graph.graph_create 3 = some ⟨3, [[], [], []]⟩ ∧
    (∀ op ∈ [GraphOp.add 0 1, GraphOp.addW 1 2 5, GraphOp.add 0 1],
      GraphOp.posWeight op) ∧
    weightsPositive (applyOps ⟨3, [[], [], []]⟩
      [GraphOp.add 0 1, GraphOp.addW 1 2 5, GraphOp.add 0 1]) :=
  ⟨by decide, by decide,
   create_then_ops_weightsPositive 3 ⟨3, [[], [], []]⟩ (by decide)
     [GraphOp.add 0 1, GraphOp.addW 1 2 5, GraphOp.add 0 1] (by decide)⟩

/-! ### Euler-circuit support: degree, DFS connectivity check -/

namespace Graph

/-- `degree_vertex_adj` from `graph.c`: the number of adjacency entries
of `v` (a self-loop is stored twice, so it contributes 2). -/
def degree_vertex_adj (g : Graph) (v : Nat) : Nat :=
  (g.adjList v).length

end Graph

/-- Number of unvisited cells of the DFS `vis` array (only used for
the fuel bound of the DFS loop). -/
def countFalse (vis : List Bool) : Nat :=
  vis.countP (fun b => !b)

/-- The inner loop of the DFS in `is_connected_ignore_isolated`
(`graph.c`): for each adjacency entry of the popped vertex, mark and
push the target if it is unvisited. -/
def visit_neighbors (vis : List Bool) (stack : List Nat)
    (edges : List EdgeNode) : List Bool × List Nat :=
  edges.foldl
    (fun st e =>
      if st.1.getD e.dst false then st
      else (st.1.set e.dst true, e.dst :: st.2))
    (vis, stack)

/-- The DFS loop of `is_connected_ignore_isolated` (`graph.c`): pop a
vertex, mark-and-push its unvisited neighbours, repeat until the stack
is empty.  The `fuel` parameter makes the recursion structural; for a
well-formed graph (every stored target below `n`) the loop provably
finishes within `2 * n + 1` iterations, so the fuel never runs out in
the uses below. -/
def dfs_steps (g : Graph) : Nat → List Bool → List Nat → List Bool
  | 0, vis, _ => vis
  | fuel + 1, vis, stack =>
    match stack with
    | [] => vis
    | u :: rest =>
      let p := visit_neighbors vis rest (g.adjList u)
      dfs_steps g fuel p.1 p.2

namespace Graph

/-- `is_connected_ignore_isolated` from `graph.c`: pick the first
vertex of nonzero degree (if none, the graph counts as connected), run
the stack DFS from it, and check that every vertex of nonzero degree
was visited.  (The C function's `calloc`-failure path, which reports
`0`, is not modelled: the claims concern the algorithmic result.) -/
def is_connected_ignore_isolated (g : Graph) : Bool :=
  match (List.range g.n).find? (fun i => decide (0 < g.degree_vertex_adj i)) with
  | none => true
  | some start =>
    let vis0 := (List.replicate g.n false).set start true
    let vis := dfs_steps g (2 * g.n + 1) vis0 [start]
    decide (∀ i ∈ List.range g.n,
      0 < g.degree_vertex_adj i → vis.getD i false = true)

/-- `graph_has_euler_circuit` from `graph.c` (for a non-`NULL` graph):
connected ignoring isolated vertices, all degrees even, and at least
one adjacency entry (`sumdeg != 0`). -/
def graph_has_euler_circuit (g : Graph) : Bool :=
  if ¬ g.is_connected_ignore_isolated then false
  else if (List.range g.n).any
      (fun i => decide (g.degree_vertex_adj i % 2 ≠ 0)) then false
  else if ((List.range g.n).map (fun i => g.degree_vertex_adj i)).sum = 0 then
    false
  else true

/-- One directed adjacency step: `u`'s list contains an entry for `v`.
Under the undirected representation invariant this relation is
symmetric. -/
def adjacent (g : Graph) (a b : Nat) : Prop :=
  ∃ e ∈ g.adjList a, e.dst = b

/-- A vertex with at least one adjacency entry. -/
def nonIsolated (g : Graph) (u : Nat) : Prop :=
  g.adjList u ≠ []

instance (g : Graph) (a b : Nat) : Decidable (g.adjacent a b) := by
  unfold adjacent
  infer_instance

instance (g : Graph) (u : Nat) : Decidable (g.nonIsolated u) := by
  unfold nonIsolated
  infer_instance

end Graph

section SanityEuler

-- S1 square: Euler circuit exists
example :
    Graph.graph_has_euler_circuit
      ⟨4, [[⟨1, 1⟩, ⟨3, 1⟩], [⟨0, 1⟩, ⟨2, 1⟩], [⟨1, 1⟩, ⟨3, 1⟩],
           [⟨2, 1⟩, ⟨0, 1⟩]]⟩ = true := by decide

-- S2 path: no Euler circuit (odd-degree endpoints)
example :
    Graph.graph_has_euler_circuit
      ⟨4, [[⟨1, 1⟩], [⟨0, 1⟩, ⟨2, 1⟩], [⟨1, 1⟩, ⟨3, 1⟩], [⟨2, 1⟩]]⟩
      = false := by decide

-- two disjoint self-loops: even degrees but disconnected
example :
    Graph.graph_has_euler_circuit
      ⟨3, [[⟨0, 1⟩, ⟨0, 1⟩], [], [⟨2, 1⟩, ⟨2, 1⟩]]⟩ = false := by decide

-- one self-loop plus isolated vertices: connected ignoring isolated
example :
    Graph.graph_has_euler_circuit
      ⟨3, [[], [⟨1, 1⟩, ⟨1, 1⟩], []]⟩ = true := by decide

-- empty graph: no circuit
example :
    Graph.graph_has_euler_circuit ⟨2, [[], []]⟩ = false := by decide

end SanityEuler

/-! ### DFS correctness -/

theorem countFalse_set_true (vis : List Bool) (i : Nat)
    (hi : i < vis.length) (hfalse : vis.getD i false = false) :
    countFalse (vis.set i true) + 1 = countFalse vis := by
  induction vis generalizing i with
  | nil => simp at hi
  | cons b t ih =>
    cases i with
    | zero =>
      simp only [List.getD_cons_zero] at hfalse
      subst hfalse
      simp [countFalse, List.countP_cons]
    | succ j =>
      simp only [List.getD_cons_succ] at hfalse
      have := ih j (by simpa using hi) hfalse
      simp only [List.set_cons_succ, countFalse, List.countP_cons] at this ⊢
      omega

theorem visit_neighbors_spec (edges : List EdgeNode) (vis : List Bool)
    (stack : List Nat) (hdst : ∀ e ∈ edges, e.dst < vis.length) :
    (visit_neighbors vis stack edges).1.length = vis.length ∧
    2 * countFalse (visit_neighbors vis stack edges).1
        + (visit_neighbors vis stack edges).2.length
      ≤ 2 * countFalse vis + stack.length ∧
    (∀ x, vis.getD x false = true →
      (visit_neighbors vis stack edges).1.getD x false = true) ∧
    (∀ x ∈ stack, x ∈ (visit_neighbors vis stack edges).2) ∧
    (∀ e ∈ edges,
      (visit_neighbors vis stack edges).1.getD e.dst false = true) ∧
    (∀ x, (visit_neighbors vis stack edges).1.getD x false = true →
      vis.getD x false = true ∨ ∃ e ∈ edges, e.dst = x) ∧
    (∀ x ∈ (visit_neighbors vis stack edges).2,
      x ∈ stack ∨ ∃ e ∈ edges, e.dst = x) ∧
    (∀ x, (visit_neighbors vis stack edges).1.getD x false = true →
      vis.getD x false = true ∨ x ∈ (visit_neighbors vis stack edges).2) := by
  induction edges generalizing vis stack with
  | nil =>
    refine ⟨rfl, le_rfl, fun x h => h, fun x h => h, by simp, ?_, ?_, ?_⟩
    · exact fun x h => Or.inl h
    · exact fun x h => Or.inl h
    · exact fun x h => Or.inl h
  | cons e t ih =>
    have hdst_e : e.dst < vis.length := hdst e (List.mem_cons_self e t)
    have hdst_t : ∀ e' ∈ t, e'.dst < vis.length :=
      fun e' he' => hdst e' (List.mem_cons_of_mem e he')
    by_cases hvis : vis.getD e.dst false = true
    · have heq : visit_neighbors vis stack (e :: t)
          = visit_neighbors vis stack t := by
        simp only [visit_neighbors, List.foldl_cons, if_pos hvis]
      rw [heq]
      obtain ⟨s1, s2, s3, s4, s5, s6, s7, s8⟩ := ih vis stack hdst_t
      refine ⟨s1, s2, s3, s4, ?_, ?_, ?_, s8⟩
      · intro e' he'
        rcases List.mem_cons.mp he' with rfl | he''
        · exact s3 _ hvis
        · exact s5 e' he''
      · intro x hx
        rcases s6 x hx with h | ⟨e', he', hd⟩
        · exact Or.inl h
        · exact Or.inr ⟨e', List.mem_cons_of_mem e he', hd⟩
      · intro x hx
        rcases s7 x hx with h | ⟨e', he', hd⟩
        · exact Or.inl h
        · exact Or.inr ⟨e', List.mem_cons_of_mem e he', hd⟩
    · have heq : visit_neighbors vis stack (e :: t)
          = visit_neighbors (vis.set e.dst true) (e.dst :: stack) t := by
        simp only [visit_neighbors, List.foldl_cons, hvis]
        rw [if_neg (by simp [hvis])]
      rw [heq]
      have hlen1 : (vis.set e.dst true).length = vis.length := by simp
      obtain ⟨s1, s2, s3, s4, s5, s6, s7, s8⟩ :=
        ih (vis.set e.dst true) (e.dst :: stack)
          (fun e' he' => hlen1 ▸ hdst_t e' he')
      have hgetset : (vis.set e.dst true).getD e.dst false = true :=
        getD_set_self vis e.dst true false hdst_e
      have hmono1 : ∀ x, vis.getD x false = true →
          (vis.set e.dst true).getD x false = true := by
        intro x hx
        by_cases hxe : e.dst = x
        · subst hxe; exact hgetset
        · rw [getD_set_ne vis true false hxe]; exact hx
      have hback1 : ∀ x, (vis.set e.dst true).getD x false = true →
          vis.getD x false = true ∨ x = e.dst := by
        intro x hx
        by_cases hxe : e.dst = x
        · exact Or.inr hxe.symm
        · rw [getD_set_ne vis true false hxe] at hx; exact Or.inl hx
      have hcf : countFalse (vis.set e.dst true) + 1 = countFalse vis :=
        countFalse_set_true vis e.dst hdst_e (by
          cases h : vis.getD e.dst false
          · rfl
          · exact absurd h hvis)
      refine ⟨s1.trans hlen1, ?_, ?_, ?_, ?_, ?_, ?_, ?_⟩
      · have := s2
        simp only [List.length_cons] at this
        omega
      · exact fun x hx => s3 x (hmono1 x hx)
      · exact fun x hx => s4 x (List.mem_cons_of_mem _ hx)
      · intro e' he'
        rcases List.mem_cons.mp he' with rfl | he''
        · exact s3 _ hgetset
        · exact s5 e' he''
      · intro x hx
        rcases s6 x hx with h | ⟨e', he', hd⟩
        · rcases hback1 x h with h' | rfl
          · exact Or.inl h'
          · exact Or.inr ⟨e, List.mem_cons_self e t, rfl⟩
        · exact Or.inr ⟨e', List.mem_cons_of_mem e he', hd⟩
      · intro x hx
        rcases s7 x hx with h | ⟨e', he', hd⟩
        · rcases List.mem_cons.mp h with rfl | h'
          · exact Or.inr ⟨e, List.mem_cons_self e t, rfl⟩
          · exact Or.inl h'
        · exact Or.inr ⟨e', List.mem_cons_of_mem e he', hd⟩
      · intro x hx
        rcases s8 x hx with h | h
        · rcases hback1 x h with h' | rfl
          · exact Or.inl h'
          · exact Or.inr (s4 _ (List.mem_cons_self _ _))
        · exact Or.inr h

theorem dfs_steps_spec (g : Graph)
    (hdst : ∀ u : Nat, ∀ e ∈ g.adjList u, e.dst < g.n) :
    ∀ (fuel : Nat) (vis : List Bool) (stack : List Nat),
    vis.length = g.n →
    2 * countFalse vis + stack.length ≤ fuel →
    (∀ x ∈ stack, vis.getD x false = true) →
    (∀ x, vis.getD x false = true → x ∉ stack →
      ∀ e ∈ g.adjList x, vis.getD e.dst false = true) →
    ((∀ x, vis.getD x false = true →
        (dfs_steps g fuel vis stack).getD x false = true) ∧
     (∀ x, (dfs_steps g fuel vis stack).getD x false = true →
        ∀ e ∈ g.adjList x,
          (dfs_steps g fuel vis stack).getD e.dst false = true) ∧
     (∀ P : Nat → Prop, (∀ x, vis.getD x false = true → P x) →
        (∀ x, ∀ e ∈ g.adjList x, P x → P e.dst) →
        ∀ x, (dfs_steps g fuel vis stack).getD x false = true → P x)) := by
  intro fuel
  induction fuel with
  | zero =>
    intro vis stack hlen hfuel hstk hclosed
    have hstack : stack = [] := by
      have := Nat.le_zero.mp hfuel
      exact List.length_eq_zero.mp (by omega)
    subst hstack
    exact ⟨fun x h => h,
      fun x hx e he => hclosed x hx (List.not_mem_nil x) e he,
      fun P hPsub _ x hx => hPsub x hx⟩
  | succ f ihf =>
    intro vis stack hlen hfuel hstk hclosed
    match stack with
    | [] =>
      exact ⟨fun x h => h,
        fun x hx e he => hclosed x hx (List.not_mem_nil x) e he,
        fun P hPsub _ x hx => hPsub x hx⟩
    | u :: rest =>
      obtain ⟨s1, s2, s3, s4, s5, s6, s7, s8⟩ :=
        visit_neighbors_spec (g.adjList u) vis rest
          (fun e he => by rw [hlen]; exact hdst u e he)
      have hstep : dfs_steps g (f + 1) vis (u :: rest)
          = dfs_steps g f (visit_neighbors vis rest (g.adjList u)).1
              (visit_neighbors vis rest (g.adjList u)).2 := rfl
      have hlen' : (visit_neighbors vis rest (g.adjList u)).1.length = g.n :=
        s1.trans hlen
      have hfuel' : 2 * countFalse (visit_neighbors vis rest (g.adjList u)).1
          + (visit_neighbors vis rest (g.adjList u)).2.length ≤ f := by
        simp only [List.length_cons] at hfuel
        omega
      have hstk' : ∀ x ∈ (visit_neighbors vis rest (g.adjList u)).2,
          (visit_neighbors vis rest (g.adjList u)).1.getD x false = true := by
        intro x hx
        rcases s7 x hx with hx' | ⟨e, he, hd⟩
        · exact s3 x (hstk x (List.mem_cons_of_mem u hx'))
        · exact hd ▸ s5 e he
      have hclosed' : ∀ x,
          (visit_neighbors vis rest (g.adjList u)).1.getD x false = true →
          x ∉ (visit_neighbors vis rest (g.adjList u)).2 →
          ∀ e ∈ g.adjList x,
            (visit_neighbors vis rest (g.adjList u)).1.getD e.dst false
              = true := by
        intro x hx hnx e he
        rcases s8 x hx with hx' | hx'
        · by_cases hxu : x = u
          · subst hxu
            exact s5 e he
          · have hnrest : x ∉ rest := fun hr => hnx (s4 x hr)
            have : x ∉ u :: rest := by
              intro hmem
              rcases List.mem_cons.mp hmem with rfl | h
              · exact hxu rfl
              · exact hnrest h
            exact s3 _ (hclosed x hx' this e he)
        · exact absurd hx' hnx
      obtain ⟨m1, m2, m3⟩ := ihf _ _ hlen' hfuel' hstk' hclosed'
      rw [hstep]
      refine ⟨fun x hx => m1 x (s3 x hx), m2, ?_⟩
      intro P hPsub hPclosed x hx
      refine m3 P ?_ hPclosed x hx
      intro y hy
      rcases s6 y hy with hy' | ⟨e, he, hd⟩
      · exact hPsub y hy'
      · exact hd ▸ hPclosed u e he (hPsub u (hstk u (List.mem_cons_self u rest)))

theorem getD_replicate_false (n x : Nat) :
    (List.replicate n false).getD x false = false := by
  by_cases h : x < n
  · rw [List.getD_eq_getElem _ _ (by simpa using h)]
    simp
  · rw [List.getD_eq_default _ _ (by simpa using Nat.le_of_not_lt h)]

theorem dfs_visited_of_reach (g : Graph) (vis : List Bool)
    (hclosure : ∀ x, vis.getD x false = true →
      ∀ e ∈ g.adjList x, vis.getD e.dst false = true)
    {a b : Nat} (hr : Relation.ReflTransGen g.adjacent a b)
    (ha : vis.getD a false = true) : vis.getD b false = true := by
  induction hr with
  | refl => exact ha
  | tail h1 h2 ih =>
    obtain ⟨e, he, hd⟩ := h2
    exact hd ▸ hclosure _ ih e he

theorem nonIsolated_lt (g : Graph) (hlen : g.adj.length = g.n) (u : Nat)
    (hu : g.nonIsolated u) : u < g.n := by
  by_contra h
  exact hu (List.getD_eq_default _ _ (by omega : g.adj.length ≤ u))

theorem adjacent_lt_left (g : Graph) (hlen : g.adj.length = g.n)
    {a b : Nat} (h : g.adjacent a b) : a < g.n := by
  obtain ⟨e, he, -⟩ := h
  exact nonIsolated_lt g hlen a (fun hnil => by rw [hnil] at he; cases he)

/-- The DFS-based connectivity check in `graph.c` answers exactly
whether all non-isolated vertices lie in one connected component
(isolated vertices are ignored).  The hypotheses are the
representation invariants maintained by the graph API: the adjacency
array has `n` cells, stored targets are below `n`, and adjacency is
symmetric. -/
theorem is_connected_ignore_isolated_iff (g : Graph)
    (hlen : g.adj.length = g.n)
    (hdst : ∀ u : Nat, ∀ e ∈ g.adjList u, e.dst < g.n)
    (hsym : ∀ a : Nat, a < g.n → ∀ b : Nat, b < g.n →
      g.adjacent a b → g.adjacent b a) :
    g.is_connected_ignore_isolated = true ↔
      ∀ u v : Nat, g.nonIsolated u → g.nonIsolated v →
        Relation.ReflTransGen g.adjacent u v := by
  have hsym' : Symmetric g.adjacent := by
    intro a b hab
    have ha : a < g.n := adjacent_lt_left g hlen hab
    have hb : b < g.n := by
      obtain ⟨e, he, hd⟩ := hab
      exact hd ▸ hdst a e he
    exact hsym a ha b hb hab
  unfold Graph.is_connected_ignore_isolated
  cases hfind : (List.range g.n).find?
      (fun i => decide (0 < g.degree_vertex_adj i)) with
  | none =>
    simp only
    constructor
    · intro _ u v hu hv
      exfalso
      have hult : u < g.n := nonIsolated_lt g hlen u hu
      have := List.find?_eq_none.mp hfind u (List.mem_range.mpr hult)
      simp only [decide_eq_true_eq, Nat.pos_iff_ne_zero] at this
      exact hu (List.length_eq_zero.mp (by
        unfold Graph.degree_vertex_adj at this
        omega))
    · intro _
      trivial
  | some start =>
    have hstart_lt : start < g.n :=
      List.mem_range.mp (List.mem_of_find?_eq_some hfind)
    have hstart_deg : 0 < g.degree_vertex_adj start := by
      have := List.find?_some hfind
      simpa using this
    have hstart_noniso : g.nonIsolated start := by
      intro hnil
      unfold Graph.degree_vertex_adj at hstart_deg
      rw [hnil] at hstart_deg
      simp at hstart_deg
    have hvis0_len : ((List.replicate g.n false).set start true).length
        = g.n := by simp
    have hvis0_start :
        ((List.replicate g.n false).set start true).getD start false
          = true :=
      getD_set_self _ _ _ _ (by simpa using hstart_lt)
    have hvis0_char : ∀ x,
        ((List.replicate g.n false).set start true).getD x false = true →
        x = start := by
      intro x hx
      by_contra hne
      rw [getD_set_ne _ _ _ (fun h => hne h.symm),
        getD_replicate_false] at hx
      cases hx
    obtain ⟨mono, closure, sound⟩ :=
      dfs_steps_spec g hdst (2 * g.n + 1)
        ((List.replicate g.n false).set start true) [start]
        hvis0_len
        (by
          have : countFalse ((List.replicate g.n false).set start true)
              ≤ g.n := by
            have := List.countP_le_length
              (l := (List.replicate g.n false).set start true)
              (p := fun b => !b)
            simpa [countFalse] using this
          simp only [List.length_cons, List.length_nil]
          omega)
        (by
          intro x hx
          rcases List.mem_cons.mp hx with rfl | h
          · exact hvis0_start
          · cases h)
        (by
          intro x hx hnx
          exact absurd (hvis0_char x hx) (by
            intro h
            exact hnx (h ▸ List.mem_cons_self _ _)))
    constructor
    · intro hdec u v hu hv
      have hvisited : ∀ i : Nat, g.nonIsolated i →
          (dfs_steps g (2 * g.n + 1)
            ((List.replicate g.n false).set start true) [start]).getD i
              false = true := by
        intro i hi
        have hilt : i < g.n := nonIsolated_lt g hlen i hi
        have := of_decide_eq_true hdec
        refine this i (List.mem_range.mpr hilt) ?_
        unfold Graph.degree_vertex_adj
        cases hadj : g.adjList i with
        | nil => exact absurd hadj hi
        | cons a l => simp [hadj]
      have hreach : ∀ i : Nat, g.nonIsolated i →
          Relation.ReflTransGen g.adjacent start i := by
        intro i hi
        refine sound (Relation.ReflTransGen g.adjacent start) ?_ ?_ i
          (hvisited i hi)
        · intro x hx
          rw [hvis0_char x hx]
        · intro x e he hx
          exact hx.tail ⟨e, he, rfl⟩
      exact ((Relation.ReflTransGen.symmetric hsym')
        (hreach u hu)).trans (hreach v hv)
    · intro hconn
      refine decide_eq_true ?_
      intro i hi hdeg
      have hilt : i < g.n := List.mem_range.mp hi
      have hi_noniso : g.nonIsolated i := by
        intro hnil
        unfold Graph.degree_vertex_adj at hdeg
        rw [hnil] at hdeg
        simp at hdeg
      have hreach : Relation.ReflTransGen g.adjacent start i :=
        hconn start i hstart_noniso hi_noniso
      have hstart_vis :
          (dfs_steps g (2 * g.n + 1)
            ((List.replicate g.n false).set start true) [start]).getD start
              false = true :=
        mono start hvis0_start
      exact dfs_visited_of_reach g _ closure hreach hstart_vis

theorem dst_lt_of_bounded (g : Graph) (hlen : g.adj.length = g.n)
    (h : ∀ u ∈ List.range g.n, ∀ e ∈ g.adjList u, e.dst < g.n) :
    ∀ u : Nat, ∀ e ∈ g.adjList u, e.dst < g.n := by
  intro u e he
  by_cases hu : u < g.n
  · exact h u (List.mem_range.mpr hu) e he
  · rw [Graph.adjList, List.getD_eq_default _ _ (by omega)] at he
    cases he

/-- C4: `graph_has_euler_circuit` returns true exactly when (a) the
graph has at least one adjacency entry (at least one edge), (b) every
vertex has even degree — a stored self-loop contributes two entries,
hence 2 — and (c) all non-isolated vertices lie in one connected
component (isolated vertices are ignored).  The hypotheses are the
representation invariants maintained by the graph API. -/
theorem has_euler_circuit_iff (g : Graph)
    (hlen : g.adj.length = g.n)
    (hdst : ∀ u ∈ List.range g.n, ∀ e ∈ g.adjList u, e.dst < g.n)
    (hsym : ∀ a : Nat, a < g.n → ∀ b : Nat, b < g.n →
      g.adjacent a b → g.adjacent b a) :
    g.graph_has_euler_circuit = true ↔
      ((∃ u : Nat, g.nonIsolated u) ∧
       (∀ u : Nat, g.degree_vertex_adj u % 2 = 0) ∧
       (∀ u v : Nat, g.nonIsolated u → g.nonIsolated v →
         Relation.ReflTransGen g.adjacent u v)) := by
  have hdst' := dst_lt_of_bounded g hlen hdst
  have hbig : g.graph_has_euler_circuit = true ↔
      (g.is_connected_ignore_isolated = true ∧
       ((List.range g.n).any
          (fun i => decide (g.degree_vertex_adj i % 2 ≠ 0)) = false) ∧
       ((List.range g.n).map (fun i => g.degree_vertex_adj i)).sum ≠ 0) := by
    unfold Graph.graph_has_euler_circuit
    split_ifs with h1 h2 h3 <;> simp_all
  have hdeg_iff : ((List.range g.n).any
      (fun i => decide (g.degree_vertex_adj i % 2 ≠ 0)) = false) ↔
      (∀ u : Nat, g.degree_vertex_adj u % 2 = 0) := by
    rw [List.any_eq_false]
    constructor
    · intro h u
      by_cases hu : u < g.n
      · have := h u (List.mem_range.mpr hu)
        simpa using this
      · have hempty : g.adjList u = [] :=
          List.getD_eq_default _ _ (by omega)
        unfold Graph.degree_vertex_adj
        rw [hempty]
        rfl
    · intro h x _
      simpa using h x
  have hsum_iff : (((List.range g.n).map
      (fun i => g.degree_vertex_adj i)).sum ≠ 0) ↔
      (∃ u : Nat, g.nonIsolated u) := by
    constructor
    · intro h
      by_contra hno
      push_neg at hno
      apply h
      apply List.sum_eq_zero
      intro x hx
      obtain ⟨i, -, rfl⟩ := List.mem_map.mp hx
      have hi := hno i
      unfold Graph.nonIsolated at hi
      rw [not_not] at hi
      unfold Graph.degree_vertex_adj
      rw [hi]
      rfl
    · rintro ⟨u, hu⟩ hsum
      have hult : u < g.n := nonIsolated_lt g hlen u hu
      have hmem : g.degree_vertex_adj u ∈
          (List.range g.n).map (fun i => g.degree_vertex_adj i) :=
        List.mem_map.mpr ⟨u, List.mem_range.mpr hult, rfl⟩
      have hz : g.degree_vertex_adj u = 0 :=
        List.sum_eq_zero_iff.mp hsum _ hmem
      unfold Graph.degree_vertex_adj at hz
      exact hu (List.length_eq_zero.mp hz)
  rw [hbig, is_connected_ignore_isolated_iff g hlen hdst' hsym,
    hdeg_iff, hsum_iff]
  tauto

/-- Witness for C4 on the triangle `S3`: the circuit test passes and
the three abstract conditions hold. -/
theorem has_euler_circuit_iff_witness :
    (Graph.graph_has_euler_circuit
        ⟨3, [[⟨1, 1⟩, ⟨2, 1⟩], [⟨0, 1⟩, ⟨2, 1⟩], [⟨0, 1⟩, ⟨1, 1⟩]]⟩ = true)
    ↔ ((∃ u : Nat,
          Graph.nonIsolated
            ⟨3, [[⟨1, 1⟩, ⟨2, 1⟩], [⟨0, 1⟩, ⟨2, 1⟩], [⟨0, 1⟩, ⟨1, 1⟩]]⟩ u) ∧
        (∀ u : Nat,
          Graph.degree_vertex_adj
            ⟨3, [[⟨1, 1⟩, ⟨2, 1⟩], [⟨0, 1⟩, ⟨2, 1⟩], [⟨0, 1⟩, ⟨1, 1⟩]]⟩ u % 2
            = 0) ∧
        (∀ u v : Nat,
          Graph.nonIsolated
            ⟨3, [[⟨1, 1⟩, ⟨2, 1⟩], [⟨0, 1⟩, ⟨2, 1⟩], [⟨0, 1⟩, ⟨1, 1⟩]]⟩ u →
          Graph.nonIsolated
            ⟨3, [[⟨1, 1⟩, ⟨2, 1⟩], [⟨0, 1⟩, ⟨2, 1⟩], [⟨0, 1⟩, ⟨1, 1⟩]]⟩ v →
          Relation.ReflTransGen
            (Graph.adjacent
              ⟨3, [[⟨1, 1⟩, ⟨2, 1⟩], [⟨0, 1⟩, ⟨2, 1⟩], [⟨0, 1⟩, ⟨1, 1⟩]]⟩)
            u v)) :=
  has_euler_circuit_iff
    ⟨3, [[⟨1, 1⟩, ⟨2, 1⟩], [⟨0, 1⟩, ⟨2, 1⟩], [⟨0, 1⟩, ⟨1, 1⟩]]⟩
    (by decide) (by decide) (by decide)

/-! ### Clique search and clique counting
(`OS_project/part7/maxclique.c`, `FinalProject/part7/cliquecount.c`) -/

/-- `build_adjacency_matrix` (identical in `maxclique.c` and
`cliquecount.c`): cell `[u][v]` is set for every adjacency entry of
`u` pointing at `v ≠ u` (self-loops cleared). -/
def adj_matrix (g : Graph) (u v : Nat) : Bool :=
  decide (u ≠ v) && (g.adjList u).any (fun e => e.dst == v)

/-- `is_connected_to_all`: the candidate vertex is adjacent to every
member of the current clique. -/
def is_connected_to_all (A : Nat → Nat → Bool) (v : Nat)
    (cur : List Nat) : Bool :=
  cur.all (fun u => A v u)

/-- The best-clique update at the entry of `max_clique_backtrack`:
keep the current clique if it is strictly larger. -/
def clique_update (cur best : List Nat) : List Nat :=
  if best.length < cur.length then cur else best

/-- `max_clique_backtrack` from `maxclique.c`.  The C loop
`for (v = start_vertex; v < n; v++)` is represented by the explicit
candidate list `cands = [start, ..., n-1]`; the recursive call for a
connected `v` first performs the entry update with the extended clique
and then explores extensions of it by candidates after `v` (the same
tail `rest`). -/
def max_clique_backtrack (A : Nat → Nat → Bool) :
    List Nat → List Nat → List Nat → List Nat
  | [], _, best => best
  | v :: rest, cur, best =>
    if is_connected_to_all A v cur then
      max_clique_backtrack A rest cur
        (max_clique_backtrack A rest (cur ++ [v])
          (clique_update (cur ++ [v]) best))
    else
      max_clique_backtrack A rest cur best

/-- `graph_max_clique` from `maxclique.c`, returning the best clique
found (the C `result->vertices`/`result->size` pair; the reported size
is the length of this list).  `n = 1` is special-cased to `{0}` as in
the C code; for each start vertex the backtracking explores cliques
`[start] ++ s` with `s` drawn from the vertices after `start`. -/
def graph_max_clique (g : Graph) : List Nat :=
  if g.n = 0 then []
  else if g.n = 1 then [0]
  else
    (List.range g.n).foldl
      (fun best start =>
        max_clique_backtrack (adj_matrix g)
          (List.range' (start + 1) (g.n - (start + 1)))
          [start] (clique_update [start] best))
      []

/-- `count_cliques_of_size_recursive` from `cliquecount.c`, with the
`for (v = start_vertex; v < n; v++)` loop represented by the candidate
list (so the pruning quantity `n - start_vertex` is `cands.length`). -/
def count_cliques_of_size_recursive (A : Nat → Nat → Bool)
    (target : Nat) : List Nat → List Nat → Nat
  | cands, cur =>
    if cur.length = target then 1
    else if cur.length + cands.length < target then 0
    else
      match cands with
      | [] => 0
      | v :: rest =>
        (if is_connected_to_all A v cur then
          count_cliques_of_size_recursive A target rest (cur ++ [v])
        else 0)
          + count_cliques_of_size_recursive A target rest cur

/-- `graph_count_cliques_of_size` from `cliquecount.c`: `none` models
the failure return (`clique_size < 1`); `clique_size > n` succeeds
with count 0; otherwise the backtracking count over all vertices. -/
def graph_count_cliques_of_size (g : Graph) (k : Int) : Option Nat :=
  if k < 1 then none
  else if (g.n : Int) < k then some 0
  else some (count_cliques_of_size_recursive (adj_matrix g) k.toNat
    (List.range g.n) [])

/-- A valid ordered extension of the clique `cur`: each added vertex
is adjacent to everything before it (this is exactly the set of
suffixes the two backtracking procedures enumerate). -/
def extClique (A : Nat → Nat → Bool) : List Nat → List Nat → Bool
  | _, [] => true
  | cur, v :: t => is_connected_to_all A v cur && extClique A (cur ++ [v]) t

section SanityClique

-- S3 triangle: max clique of size 3, counts 3/3/1
example :
    (graph_max_clique
      ⟨3, [[⟨1, 1⟩, ⟨2, 1⟩], [⟨0, 1⟩, ⟨2, 1⟩], [⟨0, 1⟩, ⟨1, 1⟩]]⟩).length
      = 3 := by decide

example :
    graph_count_cliques_of_size
      ⟨3, [[⟨1, 1⟩, ⟨2, 1⟩], [⟨0, 1⟩, ⟨2, 1⟩], [⟨0, 1⟩, ⟨1, 1⟩]]⟩ 2
      = some 3 := by decide

example :
    graph_count_cliques_of_size
      ⟨3, [[⟨1, 1⟩, ⟨2, 1⟩], [⟨0, 1⟩, ⟨2, 1⟩], [⟨0, 1⟩, ⟨1, 1⟩]]⟩ 3
      = some 1 := by decide

-- path 0-1-2: max clique 2, no triangle
example :
    (graph_max_clique
      ⟨3, [[⟨1, 1⟩], [⟨0, 1⟩, ⟨2, 1⟩], [⟨1, 1⟩]]⟩).length = 2 := by decide

example :
    graph_count_cliques_of_size
      ⟨3, [[⟨1, 1⟩], [⟨0, 1⟩, ⟨2, 1⟩], [⟨1, 1⟩]]⟩ 3 = some 0 := by decide

example :
    graph_count_cliques_of_size ⟨1, [[]]⟩ 1 = some 1 := by decide

example :
    graph_count_cliques_of_size ⟨2, [[], []]⟩ 5 = some 0 := by decide

example :
    graph_count_cliques_of_size ⟨2, [[], []]⟩ 0 = none := by decide

end SanityClique

theorem count_cliques_pos_of_witness (A : Nat → Nat → Bool)
    (target : Nat) :
    ∀ (cands cur s : List Nat), s.Sublist cands →
    extClique A cur s = true → cur.length + s.length = target →
    1 ≤ count_cliques_of_size_recursive A target cands cur := by
  intro cands
  induction cands with
  | nil =>
    intro cur s hs hext hlenx
    have : s = [] := List.sublist_nil.mp hs
    subst this
    simp only [List.length_nil, Nat.add_zero] at hlenx
    unfold count_cliques_of_size_recursive
    rw [if_pos hlenx]
  | cons v rest ih =>
    intro cur s hs hext hlenx
    unfold count_cliques_of_size_recursive
    dsimp only
    by_cases htgt : cur.length = target
    · rw [if_pos htgt]
    · rw [if_neg htgt, if_neg (by
        have := hs.length_le
        simp only [List.length_cons] at this ⊢
        omega)]
      cases s with
      | nil => simp at hlenx; exact absurd hlenx htgt
      | cons w s' =>
        cases hs with
        | cons _ hs' =>
          -- `w :: s'` already fits inside `rest`
          have h2 := ih cur (w :: s') hs' hext hlenx
          omega
        | cons₂ _ hs' =>
          -- `w = v`: take the branch that extends with `v`
          simp only [extClique, Bool.and_eq_true] at hext
          rw [if_pos hext.1]
          have h1 := ih (cur ++ [v]) s' hs' hext.2 (by
            simp only [List.length_append, List.length_cons,
              List.length_singleton, List.length_nil] at hlenx ⊢
            omega)
          omega

theorem count_cliques_zero_of_no_witness (A : Nat → Nat → Bool)
    (target : Nat) :
    ∀ (cands cur : List Nat),
    (∀ s : List Nat, s.Sublist cands → extClique A cur s = true →
      cur.length + s.length ≠ target) →
    count_cliques_of_size_recursive A target cands cur = 0 := by
  intro cands
  induction cands with
  | nil =>
    intro cur hno
    unfold count_cliques_of_size_recursive
    dsimp only
    rw [if_neg (by
      have := hno [] (List.Sublist.refl []) rfl
      simpa using this)]
    split_ifs <;> rfl
  | cons v rest ih =>
    intro cur hno
    unfold count_cliques_of_size_recursive
    dsimp only
    rw [if_neg (by
      have := hno [] (List.nil_sublist _) rfl
      simpa using this)]
    split_ifs with hprune hconn
    · rfl
    · rw [ih (cur ++ [v]) (by
        intro s hs hext hlen
        refine hno (v :: s) (hs.cons₂ v) ?_ ?_
        · simp only [extClique, Bool.and_eq_true]
          exact ⟨hconn, hext⟩
        · simp only [List.length_append, List.length_cons,
            List.length_singleton, List.length_nil] at hlen ⊢
          omega),
        ih cur (fun s hs hext hlen =>
          hno s (hs.cons v) hext hlen)]
    · rw [ih cur (fun s hs hext hlen => hno s (hs.cons v) hext hlen)]

theorem max_clique_backtrack_ge (A : Nat → Nat → Bool) :
    ∀ (cands cur best : List Nat),
    best.length ≤ (max_clique_backtrack A cands cur best).length ∧
    (∀ s : List Nat, s.Sublist cands → s ≠ [] → extClique A cur s = true →
      cur.length + s.length
        ≤ (max_clique_backtrack A cands cur best).length) := by
  intro cands
  induction cands with
  | nil =>
    intro cur best
    refine ⟨le_rfl, ?_⟩
    intro s hs hne
    exact absurd (List.sublist_nil.mp hs) hne
  | cons v rest ih =>
    intro cur best
    unfold max_clique_backtrack
    split_ifs with hconn
    · have hupd : best.length ≤ (clique_update (cur ++ [v]) best).length := by
        unfold clique_update
        split_ifs with h
        · omega
        · exact le_rfl
      have hupd2 : (cur ++ [v]).length
          ≤ (clique_update (cur ++ [v]) best).length := by
        unfold clique_update
        split_ifs with h
        · exact le_rfl
        · omega
      obtain ⟨ih1a, ih1b⟩ :=
        ih (cur ++ [v]) (clique_update (cur ++ [v]) best)
      obtain ⟨ih2a, ih2b⟩ :=
        ih cur (max_clique_backtrack A rest (cur ++ [v])
          (clique_update (cur ++ [v]) best))
      refine ⟨le_trans hupd (le_trans ih1a ih2a), ?_⟩
      intro s hs hne hext
      cases s with
      | nil => exact absurd rfl hne
      | cons w s' =>
        cases hs with
        | cons _ hs' =>
          exact ih2b (w :: s') hs' hne hext
        | cons₂ _ hs' =>
          simp only [extClique, Bool.and_eq_true] at hext
          rcases eq_or_ne s' [] with rfl | hs'ne
          · have : (cur ++ [v]).length
                ≤ (max_clique_backtrack A rest cur
                    (max_clique_backtrack A rest (cur ++ [v])
                      (clique_update (cur ++ [v]) best))).length :=
              le_trans hupd2 (le_trans ih1a ih2a)
            simp only [List.length_append, List.length_singleton,
              List.length_cons, List.length_nil] at this ⊢
            omega
          · have h1 := ih1b s' hs' hs'ne hext.2
            have h2 := le_trans h1 ih2a
            simp only [List.length_append, List.length_singleton,
              List.length_cons] at h2 ⊢
            omega
    · obtain ⟨iha, ihb⟩ := ih cur best
      refine ⟨iha, ?_⟩
      intro s hs hne hext
      cases s with
      | nil => exact absurd rfl hne
      | cons w s' =>
        cases hs with
        | cons _ hs' => exact ihb (w :: s') hs' hne hext
        | cons₂ _ hs' =>
          simp only [extClique, Bool.and_eq_true] at hext
          exact absurd hext.1 hconn

theorem max_clique_backtrack_provenance (A : Nat → Nat → Bool) :
    ∀ (cands cur best : List Nat),
    max_clique_backtrack A cands cur best = best ∨
    ∃ s : List Nat, s.Sublist cands ∧ s ≠ [] ∧ extClique A cur s = true ∧
      max_clique_backtrack A cands cur best = cur ++ s := by
  intro cands
  induction cands with
  | nil =>
    intro cur best
    exact Or.inl rfl
  | cons v rest ih =>
    intro cur best
    unfold max_clique_backtrack
    split_ifs with hconn
    · rcases ih cur (max_clique_backtrack A rest (cur ++ [v])
        (clique_update (cur ++ [v]) best)) with houter | ⟨s, hs, hne, hext, hres⟩
      · rw [houter]
        rcases ih (cur ++ [v]) (clique_update (cur ++ [v]) best) with
          hinner | ⟨s', hs', hne', hext', hres'⟩
        · rw [hinner]
          unfold clique_update
          split_ifs with h
          · exact Or.inr ⟨[v], (List.nil_sublist rest).cons₂ v, by simp,
              by simp [extClique, hconn], rfl⟩
          · exact Or.inl rfl
        · rw [hres']
          exact Or.inr ⟨v :: s', hs'.cons₂ v, by simp,
            by simp [extClique, hconn, hext'], by simp⟩
      · rw [hres]
        exact Or.inr ⟨s, hs.cons v, hne, hext, rfl⟩
    · rcases ih cur best with h | ⟨s, hs, hne, hext, hres⟩
      · exact Or.inl h
      · exact Or.inr ⟨s, hs.cons v, hne, hext, hres⟩

theorem range'_append_one (s m n : Nat) :
    List.range' s m ++ List.range' (s + m) n = List.range' s (m + n) := by
  have := List.range'_append s m n 1
  simpa [Nat.add_comm] using this

theorem range_split (n v : Nat) (hv : v < n) :
    List.range n = List.range (v + 1) ++ List.range' (v + 1) (n - (v + 1)) := by
  rw [List.range_eq_range' n, List.range_eq_range' (v + 1)]
  rw [show List.range' (v + 1) (n - (v + 1))
      = List.range' (0 + (v + 1)) (n - (v + 1)) by norm_num]
  rw [range'_append_one 0 (v + 1) (n - (v + 1))]
  congr 1
  omega

theorem filter_range_gt (n v : Nat) :
    (List.range n).filter (fun x => decide (v < x))
      = List.range' (v + 1) (n - (v + 1)) := by
  by_cases hv : v < n
  · rw [range_split n v hv, List.filter_append]
    rw [List.filter_eq_nil.mpr (by
      intro x hx
      have := List.mem_range.mp hx
      simp only [decide_eq_true_eq]
      omega)]
    rw [List.filter_eq_self.mpr (by
      intro x hx
      have := List.mem_range'_1.mp hx
      simp only [decide_eq_true_eq]
      omega)]
    simp
  · rw [List.filter_eq_nil.mpr (by
      intro x hx
      have := List.mem_range.mp hx
      simp only [decide_eq_true_eq]
      omega)]
    rw [show n - (v + 1) = 0 by omega]
    rfl

/-- A strictly increasing clique `v :: s` drawn from `range n` has its
tail inside the candidate range `[v+1, n)`. -/
theorem tail_sublist_range' (n v : Nat) (s : List Nat)
    (h : (v :: s).Sublist (List.range n)) :
    s.Sublist (List.range' (v + 1) (n - (v + 1))) := by
  have hpair : (v :: s).Pairwise (· < ·) :=
    (List.pairwise_lt_range n).sublist h
  have hgt : ∀ x ∈ s, v < x := (List.pairwise_cons.mp hpair).1
  have hs : s.Sublist (List.range n) := (List.sublist_cons_self v s).trans h
  have := hs.filter (fun x => decide (v < x))
  rw [List.filter_eq_self.mpr (by
    intro x hx
    simpa using hgt x hx), filter_range_gt n v] at this
  exact this

theorem foldl_length_mono (f : List Nat → Nat → List Nat)
    (hmono : ∀ b x, b.length ≤ (f b x).length) :
    ∀ (l : List Nat) (acc : List Nat), acc.length ≤ (l.foldl f acc).length := by
  intro l
  induction l with
  | nil => intro acc; exact le_rfl
  | cons x t ih => intro acc; exact le_trans (hmono acc x) (ih (f acc x))

theorem foldl_length_ge_of_mem (f : List Nat → Nat → List Nat)
    (hmono : ∀ b x, b.length ≤ (f b x).length) (m v : Nat)
    (hbound : ∀ b, m ≤ (f b v).length) :
    ∀ (l : List Nat), v ∈ l → ∀ acc, m ≤ (l.foldl f acc).length := by
  intro l
  induction l with
  | nil => intro h; cases h
  | cons x t ih =>
    intro hv acc
    rcases List.mem_cons.mp hv with rfl | hv'
    · exact le_trans (hbound acc) (foldl_length_mono f hmono t (f acc v))
    · exact ih hv' (f acc x)

theorem foldl_provenance (f : List Nat → Nat → List Nat)
    (P : List Nat → Prop) :
    ∀ (l : List Nat), (∀ b x, x ∈ l → (f b x = b ∨ P (f b x))) →
    ∀ acc, l.foldl f acc = acc ∨ P (l.foldl f acc) := by
  intro l
  induction l with
  | nil => intro _ acc; exact Or.inl rfl
  | cons x t ih =>
    intro hstep acc
    simp only [List.foldl_cons]
    rcases hstep acc x (List.mem_cons_self x t) with heq | hP
    · rw [heq]
      exact ih (fun b y hy => hstep b y (List.mem_cons_of_mem x hy)) acc
    · rcases ih (fun b y hy => hstep b y (List.mem_cons_of_mem x hy))
        (f acc x) with heq | hP'
      · rw [heq]
        exact Or.inr hP
      · exact Or.inr hP'

theorem graph_max_clique_spec (g : Graph) (hn : 2 ≤ g.n) :
    1 ≤ (graph_max_clique g).length ∧
    (∃ c : List Nat, c.Sublist (List.range g.n) ∧
      extClique (adj_matrix g) [] c = true ∧
      c.length = (graph_max_clique g).length) ∧
    (∀ c : List Nat, c.Sublist (List.range g.n) →
      extClique (adj_matrix g) [] c = true →
      c.length ≤ (graph_max_clique g).length) := by
  have hgmc : graph_max_clique g = (List.range g.n).foldl
      (fun best start =>
        max_clique_backtrack (adj_matrix g)
          (List.range' (start + 1) (g.n - (start + 1)))
          [start] (clique_update [start] best))
      [] := by
    unfold graph_max_clique
    rw [if_neg (by omega), if_neg (by omega)]
  set A := adj_matrix g with hA
  set f : List Nat → Nat → List Nat := fun best start =>
    max_clique_backtrack A
      (List.range' (start + 1) (g.n - (start + 1)))
      [start] (clique_update [start] best) with hf
  have hupd_ge_best : ∀ (c b : List Nat), b.length ≤ (clique_update c b).length := by
    intro c b
    unfold clique_update
    split_ifs with h
    · omega
    · exact le_rfl
  have hupd_ge_cur : ∀ (c b : List Nat), c.length ≤ (clique_update c b).length := by
    intro c b
    unfold clique_update
    split_ifs with h
    · exact le_rfl
    · omega
  have hmono : ∀ b x, b.length ≤ (f b x).length := by
    intro b x
    exact le_trans (hupd_ge_best [x] b)
      (max_clique_backtrack_ge A _ [x] (clique_update [x] b)).1
  have hone : ∀ b x, 1 ≤ (f b x).length := by
    intro b x
    exact le_trans (hupd_ge_cur [x] b)
      (max_clique_backtrack_ge A _ [x] (clique_update [x] b)).1
  have hK1 : 1 ≤ (graph_max_clique g).length := by
    rw [hgmc]
    exact foldl_length_ge_of_mem f hmono 1 0 (fun b => hone b 0)
      (List.range g.n) (List.mem_range.mpr (by omega)) []
  refine ⟨hK1, ?_, ?_⟩
  · -- provenance: the result is itself a valid clique
    have hprov := foldl_provenance f
      (fun c => c.Sublist (List.range g.n) ∧ c ≠ [] ∧
        extClique A [] c = true)
      (List.range g.n)
      (by
        intro b start hstart
        have hstart_lt : start < g.n := List.mem_range.mp hstart
        have hsingle : [start].Sublist (List.range g.n) :=
          List.singleton_sublist.mpr hstart
        have hsingle_ext : extClique A [] [start] = true := rfl
        rcases max_clique_backtrack_provenance A
          (List.range' (start + 1) (g.n - (start + 1)))
          [start] (clique_update [start] b) with heq | ⟨s, hs, hne, hext, hres⟩
        · show f b start = b ∨ _
          rw [hf]
          dsimp only
          rw [heq]
          unfold clique_update
          split_ifs with h
          · exact Or.inr ⟨hsingle, by simp, hsingle_ext⟩
          · exact Or.inl rfl
        · show f b start = b ∨ _
          rw [hf]
          dsimp only
          rw [hres]
          refine Or.inr ⟨?_, by simp, ?_⟩
          · rw [range_split g.n start hstart_lt]
            exact List.Sublist.append
              (List.singleton_sublist.mpr
                (List.mem_range.mpr (by omega))) hs
          · show (is_connected_to_all A start [] &&
              extClique A ([] ++ [start]) s) = true
            simp only [is_connected_to_all, List.all_nil, Bool.true_and,
              List.nil_append]
            exact hext
      ) []
    rw [hgmc]
    rcases hprov with heq | ⟨hsub, hne, hext⟩
    · exfalso
      rw [hgmc, heq] at hK1
      simp at hK1
    · exact ⟨_, hsub, hext, rfl⟩
  · -- maximality: no valid clique is longer
    intro c hsub hext
    cases c with
    | nil => exact Nat.zero_le _
    | cons v s =>
      have hv_mem : v ∈ List.range g.n := hsub.subset (List.mem_cons_self v s)
      have hs_sub : s.Sublist (List.range' (v + 1) (g.n - (v + 1))) :=
        tail_sublist_range' g.n v s hsub
      simp only [extClique, Bool.and_eq_true] at hext
      have hbound : ∀ b, (v :: s).length ≤ (f b v).length := by
        intro b
        show (v :: s).length ≤ (max_clique_backtrack A
          (List.range' (v + 1) (g.n - (v + 1))) [v]
          (clique_update [v] b)).length
        rcases eq_or_ne s [] with rfl | hs_ne
        · simpa using hone b v
        · have := (max_clique_backtrack_ge A
            (List.range' (v + 1) (g.n - (v + 1))) [v]
            (clique_update [v] b)).2 s hs_sub hs_ne (by
              simpa using hext.2)
          simp only [List.length_cons, List.length_singleton] at this ⊢
          omega
      rw [hgmc]
      exact foldl_length_ge_of_mem f hmono (v :: s).length v hbound
        (List.range g.n) hv_mem []

/-- C8: the size reported by `graph_max_clique` is the largest `k`
for which `graph_count_cliques_of_size` reports a strictly positive
count: the count at the reported size is positive, and the count at
every larger size is zero (`k < 1` is the function's failure return
and reports no count). -/
theorem max_clique_size_is_largest_positive_count (g : Graph)
    (hn : 1 ≤ g.n) :
    1 ≤ (graph_max_clique g).length ∧
    (∃ c : Nat, graph_count_cliques_of_size g
        ((graph_max_clique g).length : Int) = some c ∧ 0 < c) ∧
    (∀ k : Int, ((graph_max_clique g).length : Int) < k →
      ∀ c : Nat, graph_count_cliques_of_size g k = some c → c = 0) := by
  by_cases hn1 : g.n = 1
  · have hmc : graph_max_clique g = [0] := by
      unfold graph_max_clique
      rw [if_neg (by omega), if_pos hn1]
    rw [hmc]
    refine ⟨by simp, ?_, ?_⟩
    · refine ⟨count_cliques_of_size_recursive (adj_matrix g) 1
        (List.range g.n) [], ?_, ?_⟩
      · unfold graph_count_cliques_of_size
        rw [if_neg (by simp), if_neg (by rw [hn1]; norm_num)]
        norm_num
      · refine count_cliques_pos_of_witness (adj_matrix g) 1
          (List.range g.n) [] [0] ?_ rfl rfl
        rw [hn1]
        exact List.Sublist.refl _
    · intro k hk c hc
      have hk' : (1 : Int) < k := by simpa using hk
      unfold graph_count_cliques_of_size at hc
      rw [if_neg (by omega), if_pos (by rw [hn1]; push_cast; omega)] at hc
      injection hc with hc
      omega
  · have hn2 : 2 ≤ g.n := by omega
    obtain ⟨hK1, ⟨c, hc_sub, hc_ext, hc_len⟩, hmax⟩ :=
      graph_max_clique_spec g hn2
    have hKn : (graph_max_clique g).length ≤ g.n := by
      rw [← hc_len]
      simpa using hc_sub.length_le
    refine ⟨hK1, ?_, ?_⟩
    · refine ⟨count_cliques_of_size_recursive (adj_matrix g)
        (graph_max_clique g).length (List.range g.n) [], ?_, ?_⟩
      · unfold graph_count_cliques_of_size
        rw [if_neg (by push_cast; omega), if_neg (by push_cast; omega)]
        rw [Int.toNat_natCast]
      · exact count_cliques_pos_of_witness (adj_matrix g) _
          (List.range g.n) [] c hc_sub hc_ext (by simpa using hc_len)
    · intro k hk c' hc'
      unfold graph_count_cliques_of_size at hc'
      rw [if_neg (by omega)] at hc'
      split_ifs at hc' with hbig
      · injection hc' with hc'
        omega
      · injection hc' with hc'
        rw [← hc']
        refine count_cliques_zero_of_no_witness (adj_matrix g) k.toNat
          (List.range g.n) [] ?_
        intro s hs hext hlen
        have := hmax s hs hext
        simp only [List.length_nil, Nat.zero_add] at hlen
        omega

/-- Witness for C8 on the triangle `S3`. -/
theorem max_clique_size_is_largest_positive_count_witness :
    1 ≤ (graph_max_clique
      ⟨3, [[⟨1, 1⟩, ⟨2, 1⟩], [⟨0, 1⟩, ⟨2, 1⟩], [⟨0, 1⟩, ⟨1, 1⟩]]⟩).length ∧
    (∃ c : Nat, graph_count_cliques_of_size
        ⟨3, [[⟨1, 1⟩, ⟨2, 1⟩], [⟨0, 1⟩, ⟨2, 1⟩], [⟨0, 1⟩, ⟨1, 1⟩]]⟩
        ((graph_max_clique
          ⟨3, [[⟨1, 1⟩, ⟨2, 1⟩], [⟨0, 1⟩, ⟨2, 1⟩],
               [⟨0, 1⟩, ⟨1, 1⟩]]⟩).length : Int) = some c ∧ 0 < c) ∧
    (∀ k : Int, ((graph_max_clique
        ⟨3, [[⟨1, 1⟩, ⟨2, 1⟩], [⟨0, 1⟩, ⟨2, 1⟩],
             [⟨0, 1⟩, ⟨1, 1⟩]]⟩).length : Int) < k →
      ∀ c : Nat, graph_count_cliques_of_size
        ⟨3, [[⟨1, 1⟩, ⟨2, 1⟩], [⟨0, 1⟩, ⟨2, 1⟩], [⟨0, 1⟩, ⟨1, 1⟩]]⟩ k
        = some c → c = 0) :=
  max_clique_size_is_largest_positive_count
    ⟨3, [[⟨1, 1⟩, ⟨2, 1⟩], [⟨0, 1⟩, ⟨2, 1⟩], [⟨0, 1⟩, ⟨1, 1⟩]]⟩
    (by decide)

/-! ### Prim MST (`OS_project/part7/mst.c`) -/

/-- `PQ_Node` from `mst.c`: a `{weight, vertex}` pair of the min-heap. -/
structure PQ_Node where
  weight : Int
  vertex : Nat
deriving Repr, DecidableEq

/-- Swap two cells of the heap array (`pq_swap`). -/
def lswap (l : List PQ_Node) (i j : Nat) : List PQ_Node :=
  (l.set i (l.getD j ⟨0, 0⟩)).set j (l.getD i ⟨0, 0⟩)

/-- `pq_heapify_up` from `mst.c`, with an explicit step budget so
that the recursion is structural (each step moves from `i` to
`(i-1)/2 < i`, so a budget of `i` steps always suffices and the
budget-exhausted case is unreachable from `pq_heapify_up`). -/
def pq_heapify_up_go : Nat → List PQ_Node → Nat → List PQ_Node
  | 0, data, _ => data
  | fuel + 1, data, i =>
    if 0 < i then
      let parent := (i - 1) / 2
      if (data.getD parent ⟨0, 0⟩).weight ≤ (data.getD i ⟨0, 0⟩).weight then
        data
      else pq_heapify_up_go fuel (lswap data i parent) parent
    else data

/-- Bubble the cell at `i` up while it is lighter than its parent. -/
def pq_heapify_up (data : List PQ_Node) (i : Nat) : List PQ_Node :=
  pq_heapify_up_go i data i

/-- `pq_push` from `mst.c` (the heap is modelled without the `n*n`
capacity: the C capacity is `n*n` and Prim performs at most
`1 + n*(n-1)` pushes — one initial push plus at most `n-1` relaxation
pushes for each of at most `n` processed vertices — so the
queue-full path of the C function is unreachable). -/
def pq_push (data : List PQ_Node) (w : Int) (v : Nat) : List PQ_Node :=
  pq_heapify_up (data ++ [⟨w, v⟩]) data.length

/-- The `smallest` computation of one `pq_heapify_down` iteration:
compare with the left child, then with the right child. -/
def pq_smallest (data : List PQ_Node) (i : Nat) : Nat :=
  let s1 := if 2 * i + 1 < data.length ∧
      (data.getD (2 * i + 1) ⟨0, 0⟩).weight
        < (data.getD i ⟨0, 0⟩).weight then 2 * i + 1 else i
  if 2 * i + 2 < data.length ∧
      (data.getD (2 * i + 2) ⟨0, 0⟩).weight
        < (data.getD s1 ⟨0, 0⟩).weight then 2 * i + 2 else s1

theorem pq_smallest_spec (data : List PQ_Node) (i : Nat) :
    pq_smallest data i = i ∨
      (i < pq_smallest data i ∧ pq_smallest data i < data.length) := by
  unfold pq_smallest
  dsimp only
  split_ifs with h1 h2 h3 <;> omega

/-- `pq_heapify_down` from `mst.c`, with an explicit step budget (the
index strictly increases and stays below the length, so a budget of
`data.length` always suffices and the budget-exhausted case is
unreachable from `pq_heapify_down`). -/
def pq_heapify_down_go : Nat → List PQ_Node → Nat → List PQ_Node
  | 0, data, _ => data
  | fuel + 1, data, i =>
    let s := pq_smallest data i
    if s = i then data
    else pq_heapify_down_go fuel (lswap data i s) s

/-- Sift the cell at `i` down, always swapping with the smaller
child. -/
def pq_heapify_down (data : List PQ_Node) (i : Nat) : List PQ_Node :=
  pq_heapify_down_go data.length data i

/-- `pq_pop` from `mst.c`: return the root, move the last cell to the
root and sift it down.  (On an empty heap the C code reads
uninitialised memory; the caller only pops under `!pq_is_empty`, so
the `[]` case is never exercised.) -/
def pq_pop (data : List PQ_Node) : PQ_Node × List PQ_Node :=
  match data with
  | [] => (⟨0, 0⟩, [])
  | x :: rest =>
    if rest = [] then (x, [])
    else (x, pq_heapify_down (rest.getLastD ⟨0, 0⟩ :: rest.dropLast) 0)

/-- `INT_MAX`, the initial key sentinel. -/
def INT_MAX : Int := 2147483647

/-- `build_weight_matrix` from `mst.c` as a function: cell `[u][v]`
holds the weight of the last adjacency entry of `u` pointing at
`v ≠ u` (`0` when there is none; self-loops are skipped). -/
def build_weight_matrix (g : Graph) (u v : Nat) : Int :=
  (g.adjList u).foldl
    (fun acc e => if e.dst = v ∧ u ≠ v then e.weight else acc) 0

/-- The mutable state of Prim's main loop in `graph_mst_prim`. -/
structure PrimState where
  pq : List PQ_Node
  in_mst : List Bool
  key : List Int
  parent : List Int
deriving Repr, DecidableEq

/-- The relaxation loop of `graph_mst_prim`: after `u` enters the
tree, every vertex `v` with `0 < weight_matrix[u][v] < key[v]` not yet
in the tree gets its key and parent updated and a new heap entry. -/
def prim_relax (W : Nat → Nat → Int) (n u : Nat) (st : PrimState) :
    PrimState :=
  (List.range n).foldl
    (fun st v =>
      let weight := W u v
      if 0 < weight ∧ st.in_mst.getD v false = false ∧
          weight < st.key.getD v 0 then
        { st with
          key := st.key.set v weight
          parent := st.parent.set v (u : Int)
          pq := pq_push st.pq weight v }
      else st)
    st

/-- One iteration of Prim's `while (!pq_is_empty(pq))` loop: pop the
minimum; skip it if its vertex is already in the tree; otherwise mark
the vertex and relax its neighbours. -/
def prim_step (W : Nat → Nat → Int) (n : Nat) (st : PrimState) :
    PrimState :=
  let p := pq_pop st.pq
  let u := p.1.vertex
  let st1 := { st with pq := p.2 }
  if st1.in_mst.getD u false then st1
  else
    prim_relax W n u { st1 with in_mst := st1.in_mst.set u true }

/-- Prim's main loop with fuel (the loop provably performs at most
`1 + heap size + n * (n + 1)` iterations, see `prim_loop_measure`
below; the fuel used by `graph_mst_prim` is sufficient, so the
exhaustion case is unreachable). -/
def prim_loop (W : Nat → Nat → Int) (n : Nat) : Nat → PrimState → PrimState
  | 0, st => st
  | fuel + 1, st =>
    if st.pq = [] then st
    else prim_loop W n fuel (prim_step W n st)

/-- `MST_Edge`/`MST_Result` from `mst.h`: the emitted edge list, its
total weight and the connectivity flag (`num_edges` is the length of
`edges`). -/
structure MST_Result where
  edges : List (Nat × Nat × Int)
  total_weight : Int
  is_connected : Bool
deriving Repr, DecidableEq

/-- `graph_mst_prim` from `mst.c` (allocation failures, which make the
C function return 0 without a result, are not modelled): run Prim from
vertex 0, report disconnected when some vertex was never reached,
otherwise emit one edge `{parent[v], v, weight_matrix[parent[v]][v]}`
per vertex `v = 1..n-1` with `parent[v] != -1` and their sum. -/
def graph_mst_prim (g : Graph) : Option MST_Result :=
  if g.n < 1 then none
  else if g.n = 1 then some ⟨[], 0, true⟩
  else
    let n := g.n
    let W := build_weight_matrix g
    let st0 : PrimState :=
      { pq := pq_push [] 0 0
        in_mst := List.replicate n false
        key := (List.replicate n INT_MAX).set 0 0
        parent := List.replicate n (-1) }
    let stF := prim_loop W n (1 + 1 + n * (n + 1)) st0
    if (List.range n).countP (fun i => stF.in_mst.getD i false) ≠ n then
      some ⟨[], 0, false⟩
    else
      let emitted := (List.range n).filterMap
        (fun v =>
          if v = 0 then none
          else if stF.parent.getD v 0 = -1 then none
          else some ((stF.parent.getD v 0).toNat, v,
            W (stF.parent.getD v 0).toNat v))
      some ⟨emitted,
        (emitted.map (fun e => e.2.2)).sum, true⟩

theorem length_lswap (l : List PQ_Node) (i j : Nat) :
    (lswap l i j).length = l.length := by
  simp [lswap]

theorem getD_lswap_left (l : List PQ_Node) {i j : Nat} (hi : i < l.length)
    (hj : j < l.length) :
    (lswap l i j).getD i ⟨0, 0⟩
      = if i = j then l.getD i ⟨0, 0⟩ else l.getD j ⟨0, 0⟩ := by
  unfold lswap
  split_ifs with h
  · subst h
    exact getD_set_self _ _ _ _ (by simpa using hi)
  · rw [getD_set_ne _ _ _ (Ne.symm h)]
    exact getD_set_self _ _ _ _ hi

theorem getD_lswap_right (l : List PQ_Node) {i j : Nat} :
    j < l.length →
    (lswap l i j).getD j ⟨0, 0⟩ = l.getD i ⟨0, 0⟩ := by
  intro hj
  unfold lswap
  exact getD_set_self _ _ _ _ (by simpa using hj)

theorem getD_lswap_other (l : List PQ_Node) {i j k : Nat}
    (hki : k ≠ i) (hkj : k ≠ j) :
    (lswap l i j).getD k ⟨0, 0⟩ = l.getD k ⟨0, 0⟩ := by
  unfold lswap
  rw [getD_set_ne _ _ _ (Ne.symm hkj), getD_set_ne _ _ _ (Ne.symm hki)]

theorem mem_lswap_iff (l : List PQ_Node) {i j : Nat} (hi : i < l.length)
    (hj : j < l.length) (x : PQ_Node) :
    x ∈ lswap l i j ↔ x ∈ l := by
  have hgetD : ∀ (k : Nat) (hk : k < l.length), l.getD k ⟨0, 0⟩ = l[k] :=
    fun k hk => List.getD_eq_getElem l _ hk
  constructor
  · intro hx
    unfold lswap at hx
    rcases List.mem_or_eq_of_mem_set hx with hx' | rfl
    · rcases List.mem_or_eq_of_mem_set hx' with hx'' | rfl
      · exact hx''
      · rw [hgetD j hj]
        exact List.getElem_mem hj
    · rw [hgetD i hi]
      exact List.getElem_mem hi
  · intro hx
    obtain ⟨k, hk, rfl⟩ := List.mem_iff_getElem.mp hx
    by_cases hki : k = i
    · subst hki
      have : (lswap l k j).getD j ⟨0, 0⟩ = l[k] := by
        rw [getD_lswap_right l hj, hgetD k hk]
      rw [← this]
      rw [List.getD_eq_getElem _ _ (by rw [length_lswap]; exact hj)]
      exact List.getElem_mem _
    · by_cases hkj : k = j
      · subst hkj
        have : (lswap l i k).getD i ⟨0, 0⟩ = l[k] := by
          rw [getD_lswap_left l hi hk]
          split_ifs with h
          · rw [h, hgetD k hk]
          · rw [hgetD k hk]
        rw [← this]
        rw [List.getD_eq_getElem _ _ (by rw [length_lswap]; exact hi)]
        exact List.getElem_mem _
      · have : (lswap l i j).getD k ⟨0, 0⟩ = l[k] := by
          rw [getD_lswap_other l hki hkj, hgetD k hk]
        rw [← this]
        rw [List.getD_eq_getElem _ _ (by rw [length_lswap]; exact hk)]
        exact List.getElem_mem _

theorem pq_heapify_up_go_mem (fuel : Nat) :
    ∀ (l : List PQ_Node) (i : Nat), i < l.length →
    (pq_heapify_up_go fuel l i).length = l.length ∧
    (∀ x, x ∈ pq_heapify_up_go fuel l i ↔ x ∈ l) := by
  induction fuel with
  | zero => intro l i _; exact ⟨rfl, fun x => Iff.rfl⟩
  | succ f ih =>
    intro l i hi
    unfold pq_heapify_up_go
    dsimp only
    split_ifs with h0 hcmp
    · exact ⟨rfl, fun x => Iff.rfl⟩
    · have hpar : (i - 1) / 2 < l.length := by omega
      have hrec := ih (lswap l i ((i - 1) / 2)) ((i - 1) / 2)
        (by rw [length_lswap]; omega)
      refine ⟨hrec.1.trans (length_lswap _ _ _), fun x => ?_⟩
      rw [hrec.2 x, mem_lswap_iff l hi hpar]
    · exact ⟨rfl, fun x => Iff.rfl⟩

theorem pq_push_mem (data : List PQ_Node) (w : Int) (v : Nat) :
    (pq_push data w v).length = data.length + 1 ∧
    (∀ x, x ∈ pq_push data w v ↔ x ∈ data ∨ x = ⟨w, v⟩) := by
  unfold pq_push pq_heapify_up
  have h := pq_heapify_up_go_mem data.length (data ++ [⟨w, v⟩])
    data.length (by simp)
  refine ⟨h.1.trans (by simp), fun x => ?_⟩
  rw [h.2 x]
  simp

theorem pq_heapify_down_go_mem (fuel : Nat) :
    ∀ (l : List PQ_Node) (i : Nat), i < l.length →
    (pq_heapify_down_go fuel l i).length = l.length ∧
    (∀ x, x ∈ pq_heapify_down_go fuel l i ↔ x ∈ l) := by
  induction fuel with
  | zero => intro l i _; exact ⟨rfl, fun x => Iff.rfl⟩
  | succ f ih =>
    intro l i hi
    unfold pq_heapify_down_go
    dsimp only
    split_ifs with hs
    · exact ⟨rfl, fun x => Iff.rfl⟩
    · rcases pq_smallest_spec l i with h | ⟨h1, h2⟩
      · exact absurd h hs
      · have hrec := ih (lswap l i (pq_smallest l i)) (pq_smallest l i)
          (by rw [length_lswap]; exact h2)
        refine ⟨hrec.1.trans (length_lswap _ _ _), fun x => ?_⟩
        rw [hrec.2 x, mem_lswap_iff l hi h2]

theorem pq_pop_spec (data : List PQ_Node) (hne : data ≠ []) :
    (pq_pop data).2.length + 1 = data.length ∧
    (pq_pop data).1 ∈ data ∧
    (∀ x, x ∈ (pq_pop data).2 → x ∈ data) ∧
    (∀ x, x ∈ data → x = (pq_pop data).1 ∨ x ∈ (pq_pop data).2) := by
  match data with
  | [] => exact absurd rfl hne
  | x :: rest =>
    by_cases hr : rest = []
    · subst hr
      have hpop0 : pq_pop [x] = (x, []) := rfl
      rw [hpop0]
      refine ⟨rfl, List.mem_cons_self _ _, by simp, ?_⟩
      intro y hy
      rcases List.mem_cons.mp hy with rfl | hy'
      · exact Or.inl rfl
      · cases hy'
    · have hpop : pq_pop (x :: rest)
          = (x, pq_heapify_down (rest.getLastD ⟨0, 0⟩ :: rest.dropLast) 0) := by
        show (if rest = [] then (x, ([] : List PQ_Node))
          else (x, pq_heapify_down
            (rest.getLastD ⟨0, 0⟩ :: rest.dropLast) 0)) = _
        rw [if_neg hr]
      have hlen0 : (rest.getLastD ⟨0, 0⟩ :: rest.dropLast).length
          = rest.length := by
        simp only [List.length_cons, List.length_dropLast]
        have := List.length_pos.mpr hr
        omega
      have hmem0 : ∀ y, (y ∈ rest.getLastD ⟨0, 0⟩ :: rest.dropLast ↔
          y ∈ rest) := by
        intro y
        have hgl : rest.getLastD ⟨0, 0⟩ = rest.getLast hr := by
          rw [List.getLastD_eq_getLast?, List.getLast?_eq_getLast rest hr]
          rfl
        constructor
        · intro hy
          rcases List.mem_cons.mp hy with rfl | hy'
          · rw [hgl]
            exact List.getLast_mem hr
          · exact (List.dropLast_sublist rest).mem hy'
        · intro hy
          conv at hy => rw [← List.dropLast_append_getLast hr]
          rcases List.mem_append.mp hy with hy' | hy'
          · exact List.mem_cons_of_mem _ hy'
          · simp only [List.mem_singleton] at hy'
            subst hy'
            rw [← hgl] at *
            exact List.mem_cons_self _ _
      have hdown := pq_heapify_down_go_mem
        (rest.getLastD ⟨0, 0⟩ :: rest.dropLast).length
        (rest.getLastD ⟨0, 0⟩ :: rest.dropLast) 0 (by simp)
      rw [hpop]
      refine ⟨?_, List.mem_cons_self _ _, ?_, ?_⟩
      · show (pq_heapify_down _ 0).length + 1 = rest.length + 1
        unfold pq_heapify_down
        rw [hdown.1, hlen0]
      · intro y hy
        have : y ∈ rest.getLastD ⟨0, 0⟩ :: rest.dropLast :=
          (hdown.2 y).mp hy
        exact List.mem_cons_of_mem x ((hmem0 y).mp this)
      · intro y hy
        rcases List.mem_cons.mp hy with rfl | hy'
        · exact Or.inl rfl
        · exact Or.inr ((hdown.2 y).mpr ((hmem0 y).mpr hy'))

/-- A vertex whose key/parent cells carry a real relaxation record:
the parent is a marked vertex joined by a positive-weight matrix edge
whose weight is the stored key. -/
def properAt (W : Nat → Nat → Int) (n : Nat) (st : PrimState) (v : Nat) :
    Prop :=
  0 ≤ st.parent.getD v 0 ∧ (st.parent.getD v 0).toNat < n ∧
  st.in_mst.getD (st.parent.getD v 0).toNat false = true ∧
  0 < W (st.parent.getD v 0).toNat v ∧
  st.key.getD v 0 = W (st.parent.getD v 0).toNat v

/-- The basic invariant of Prim's loop: array lengths, heap vertices
in range, every heap entry's vertex is the start, already in the
tree, or properly relaxed, and every vertex in the tree other than 0
has a proper parent record. -/
def PrimInv (W : Nat → Nat → Int) (n : Nat) (st : PrimState) : Prop :=
  st.in_mst.length = n ∧ st.key.length = n ∧ st.parent.length = n ∧
  (∀ e ∈ st.pq, e.vertex < n) ∧
  (∀ e ∈ st.pq, e.vertex = 0 ∨ st.in_mst.getD e.vertex false = true ∨
    properAt W n st e.vertex) ∧
  (∀ v : Nat, v < n → st.in_mst.getD v false = true → v ≠ 0 →
    properAt W n st v)

theorem properAt_mono_mark (W : Nat → Nat → Int) (n : Nat)
    (st : PrimState) (u v : Nat)
    (h : properAt W n st v) :
    properAt W n { st with in_mst := st.in_mst.set u true } v := by
  obtain ⟨h1, h2, h3, h4, h5⟩ := h
  refine ⟨h1, h2, ?_, h4, h5⟩
  show (st.in_mst.set u true).getD _ false = true
  by_cases hu : u = (st.parent.getD v 0).toNat
  · rw [← hu]
    by_cases hlt : u < st.in_mst.length
    · exact getD_set_self _ _ _ _ hlt
    · rw [List.set_eq_of_length_le (by omega)]
      rw [hu]
      exact h3
  · rw [getD_set_ne _ _ _ hu]
    exact h3

theorem prim_relax_inv (W : Nat → Nat → Int) (n u : Nat)
    (st : PrimState) (hu : st.in_mst.getD u false = true) (hun : u < n)
    (hinv : PrimInv W n st) :
    PrimInv W n (prim_relax W n u st) ∧
    (prim_relax W n u st).in_mst = st.in_mst := by
  unfold prim_relax
  induction (List.range n) generalizing st with
  | nil => exact ⟨hinv, rfl⟩
  | cons v rest ih =>
    simp only [List.foldl_cons]
    by_cases hcond : 0 < W u v ∧ st.in_mst.getD v false = false ∧
        W u v < st.key.getD v 0
    · rw [if_pos hcond]
      set st' : PrimState :=
        { st with
          key := st.key.set v (W u v)
          parent := st.parent.set v (u : Int)
          pq := pq_push st.pq (W u v) v } with hst'
      obtain ⟨l1, l2, l3, hvert, hB, hT⟩ := hinv
      have hvn : v < n := by
        by_contra hv
        have : st.in_mst.getD v false = false := hcond.2.1
        have hkey : st.key.getD v 0 = 0 := List.getD_eq_default _ _ (by omega)
        have := hcond.2.2
        have := hcond.1
        omega
      have hproper_v : properAt W n st' v := by
        refine ⟨?_, ?_, ?_, ?_, ?_⟩
        · show (0 : Int) ≤ (st.parent.set v (u : Int)).getD v 0
          rw [getD_set_self _ _ _ _ (by omega)]
          omega
        · show ((st.parent.set v (u : Int)).getD v 0).toNat < n
          rw [getD_set_self _ _ _ _ (by omega)]
          simpa using hun
        · show st.in_mst.getD _ false = true
          rw [getD_set_self _ _ _ _ (by omega)]
          simpa using hu
        · rw [getD_set_self _ _ _ _ (by omega)]
          simpa using hcond.1
        · show (st.key.set v (W u v)).getD v 0 = _
          rw [getD_set_self _ _ _ _ (by omega),
            getD_set_self _ _ _ _ (by omega)]
          norm_num
      have hP : st'.parent = st.parent.set v (u : Int) := rfl
      have hK : st'.key = st.key.set v (W u v) := rfl
      have hM : st'.in_mst = st.in_mst := rfl
      have hproper_other : ∀ w : Nat, w ≠ v → properAt W n st w →
          properAt W n st' w := by
        intro w hw hp
        obtain ⟨p1, p2, p3, p4, p5⟩ := hp
        have hpar : st'.parent.getD w 0 = st.parent.getD w 0 := by
          rw [hP, getD_set_ne _ _ _ (fun h => hw h.symm)]
        have hkey : st'.key.getD w 0 = st.key.getD w 0 := by
          rw [hK, getD_set_ne _ _ _ (fun h => hw h.symm)]
        refine ⟨?_, ?_, ?_, ?_, ?_⟩
        · rw [hpar]
          exact p1
        · rw [hpar]
          exact p2
        · rw [hM, hpar]
          exact p3
        · rw [hpar]
          exact p4
        · rw [hkey, hpar]
          exact p5
      have hinv' : PrimInv W n st' := by
        refine ⟨by simpa using l1, by simpa using l2, by simpa using l3,
          ?_, ?_, ?_⟩
        · intro e he
          rcases (pq_push_mem st.pq (W u v) v).2 e |>.mp he with he' | rfl
          · exact hvert e he'
          · exact hvn
        · intro e he
          rcases (pq_push_mem st.pq (W u v) v).2 e |>.mp he with he' | rfl
          · rcases hB e he' with h0 | hm | hp
            · exact Or.inl h0
            · exact Or.inr (Or.inl hm)
            · by_cases hev : e.vertex = v
              · exact Or.inr (Or.inr (hev ▸ hproper_v))
              · exact Or.inr (Or.inr (hproper_other _ hev hp))
          · exact Or.inr (Or.inr hproper_v)
        · intro w hwn hwm hw0
          have hwv : w ≠ v := by
            intro h
            subst h
            rw [show st'.in_mst = st.in_mst from rfl] at hwm
            rw [hwm] at hcond
            exact absurd hcond.2.1 (by simp)
          exact hproper_other w hwv (hT w hwn hwm hw0)
      exact ih st' hu hinv'
    · rw [if_neg hcond]
      exact ih st hu hinv

theorem getD_set_true_mono (l : List Bool) (u x : Nat)
    (h : l.getD x false = true) : (l.set u true).getD x false = true := by
  by_cases hxu : u = x
  · subst hxu
    by_cases hlt : u < l.length
    · exact getD_set_self _ _ _ _ hlt
    · rw [List.set_eq_of_length_le (by omega)]
      exact h
  · rw [getD_set_ne _ _ _ hxu]
    exact h

theorem prim_step_inv (W : Nat → Nat → Int) (n : Nat) (st : PrimState)
    (hne : st.pq ≠ []) (hinv : PrimInv W n st) :
    PrimInv W n (prim_step W n st) ∧
    (∀ v, st.in_mst.getD v false = true →
      (prim_step W n st).in_mst.getD v false = true) := by
  obtain ⟨l1, l2, l3, hvert, hB, hT⟩ := hinv
  obtain ⟨hplen, hpmem, hsub, hsplit⟩ := pq_pop_spec st.pq hne
  unfold prim_step
  dsimp only
  set e := (pq_pop st.pq).1 with he
  set pq' := (pq_pop st.pq).2 with hpq'
  by_cases hmarked : st.in_mst.getD e.vertex false = true
  · rw [if_pos hmarked]
    refine ⟨⟨l1, l2, l3, fun e' he' => hvert e' (hsub e' he'),
      fun e' he' => hB e' (hsub e' he'), hT⟩, fun v hv => hv⟩
  · rw [if_neg hmarked]
    have hu_n : e.vertex < n := hvert e hpmem
    set st2 : PrimState :=
      { pq := pq', in_mst := st.in_mst.set e.vertex true,
        key := st.key, parent := st.parent } with hst2
    have hmark2 : ∀ v, st.in_mst.getD v false = true →
        st2.in_mst.getD v false = true :=
      fun v hv => getD_set_true_mono _ _ _ hv
    have hproper2 : ∀ v, properAt W n st v → properAt W n st2 v := by
      intro v hp
      exact properAt_mono_mark W n { st with pq := pq' } e.vertex v hp
    have hinv2 : PrimInv W n st2 := by
      refine ⟨by simpa using l1, l2, l3,
        fun e' he' => hvert e' (hsub e' he'), ?_, ?_⟩
      · intro e' he'
        rcases hB e' (hsub e' he') with h0 | hm | hp
        · exact Or.inl h0
        · exact Or.inr (Or.inl (hmark2 _ hm))
        · exact Or.inr (Or.inr (hproper2 _ hp))
      · intro v hvn hvm hv0
        by_cases hvu : v = e.vertex
        · subst hvu
          rcases hB e hpmem with h0 | hm | hp
          · exact absurd h0 hv0
          · exact absurd hm hmarked
          · exact hproper2 _ hp
        · have hvm' : st.in_mst.getD v false = true := by
            have : (st.in_mst.set e.vertex true).getD v false = true := hvm
            rwa [getD_set_ne _ _ _ (fun h => hvu h.symm)] at this
          exact hproper2 _ (hT v hvn hvm' hv0)
    have hu2 : st2.in_mst.getD e.vertex false = true := by
      show (st.in_mst.set e.vertex true).getD e.vertex false = true
      exact getD_set_self _ _ _ _ (by omega)
    obtain ⟨hinvR, hmstR⟩ := prim_relax_inv W n e.vertex st2 hu2 hu_n hinv2
    refine ⟨hinvR, ?_⟩
    intro v hv
    rw [hmstR]
    exact hmark2 v hv

theorem prim_loop_inv (W : Nat → Nat → Int) (n : Nat) :
    ∀ (fuel : Nat) (st : PrimState), PrimInv W n st →
    PrimInv W n (prim_loop W n fuel st) ∧
    (∀ v, st.in_mst.getD v false = true →
      (prim_loop W n fuel st).in_mst.getD v false = true) := by
  intro fuel
  induction fuel with
  | zero => exact fun st h => ⟨h, fun v hv => hv⟩
  | succ f ih =>
    intro st hinv
    unfold prim_loop
    by_cases hne : st.pq = []
    · rw [if_pos hne]
      exact ⟨hinv, fun v hv => hv⟩
    · rw [if_neg hne]
      obtain ⟨h1, h2⟩ := prim_step_inv W n st hne hinv
      obtain ⟨h3, h4⟩ := ih (prim_step W n st) h1
      exact ⟨h3, fun v hv => h4 v (h2 v hv)⟩

theorem length_filterMap_as_countP {α β : Type _} (f : α → Option β)
    (l : List α) :
    (l.filterMap f).length = l.countP (fun a => (f a).isSome) := by
  induction l with
  | nil => rfl
  | cons x t ih =>
    by_cases h : (f x).isSome <;>
      simp [List.filterMap_cons, List.countP_cons, h, ih] <;>
      cases hf : f x <;> simp_all

/-- Claim C3, part (a): the reported `total_weight` is the sum of the
emitted edges' weights, in every case (including the disconnected and
single-vertex results, where both are zero). -/
theorem mst_total_eq_sum (g : Graph) (r : MST_Result)
    (h : graph_mst_prim g = some r) :
    r.total_weight = (r.edges.map (fun e => e.2.2)).sum := by
  unfold graph_mst_prim at h
  dsimp only at h
  split_ifs at h with h1 h2 h3
  · injection h with h
    subst h
    rfl
  · injection h with h
    subst h
    rfl
  · injection h with h
    subst h
    rfl

/-- The final state of `graph_mst_prim`'s loop satisfies the basic
invariant. -/
theorem prim_final_inv (g : Graph) (hn : 2 ≤ g.n) :
    PrimInv (build_weight_matrix g) g.n
      (prim_loop (build_weight_matrix g) g.n (1 + 1 + g.n * (g.n + 1))
        { pq := pq_push [] 0 0
          in_mst := List.replicate g.n false
          key := (List.replicate g.n INT_MAX).set 0 0
          parent := List.replicate g.n (-1) }) := by
  refine (prim_loop_inv _ _ _ _ ?_).1
  refine ⟨by simp, by simp, by simp, ?_, ?_, ?_⟩
  · intro e he
    rcases (pq_push_mem [] 0 0).2 e |>.mp he with he' | rfl
    · cases he'
    · show 0 < g.n
      omega
  · intro e he
    rcases (pq_push_mem [] 0 0).2 e |>.mp he with he' | rfl
    · cases he'
    · exact Or.inl rfl
  · intro v _ hv _
    rw [show (List.replicate g.n false).getD v false = false from
      getD_replicate_false g.n v] at hv
    cases hv

/-- Claim C3, part (b): the number of emitted edges is `n - 1` exactly
when the result is flagged connected. -/
theorem mst_edges_iff_connected (g : Graph) (r : MST_Result)
    (h : graph_mst_prim g = some r) :
    (r.edges.length = g.n - 1 ↔ r.is_connected = true) := by
  unfold graph_mst_prim at h
  dsimp only at h
  split_ifs at h with h1 h2 h3
  · injection h with h
    subst h
    constructor
    · intro _
      rfl
    · intro _
      simp only [List.length_nil]
      omega
  · -- disconnected: no edges, n ≥ 2
    injection h with h
    subst h
    simp only [List.length_nil]
    constructor
    · intro h0
      omega
    · intro hfalse
      cases hfalse
  · -- connected: every vertex 1..n-1 has a proper parent
    have hn : 2 ≤ g.n := by omega
    injection h with h
    subst h
    simp only [iff_true]
    have hinv := prim_final_inv g hn
    set stF := prim_loop (build_weight_matrix g) g.n
      (1 + 1 + g.n * (g.n + 1))
      { pq := pq_push [] 0 0
        in_mst := List.replicate g.n false
        key := (List.replicate g.n INT_MAX).set 0 0
        parent := List.replicate g.n (-1) } with hstF
    obtain ⟨l1, l2, l3, hvert, hB, hT⟩ := hinv
    have hall : ∀ i ∈ List.range g.n, stF.in_mst.getD i false = true := by
      have hlen_eq : (List.range g.n).countP
          (fun i => stF.in_mst.getD i false) = (List.range g.n).length := by
        rw [List.length_range]
        exact not_not.mp h3
      exact fun i hi => List.countP_eq_length.mp hlen_eq i hi
    rw [length_filterMap_as_countP]
    have hcong : (List.range g.n).countP
        (fun v => (if v = 0 then (none : Option (Nat × Nat × Int))
          else if stF.parent.getD v 0 = -1 then none
          else some ((stF.parent.getD v 0).toNat, v,
            build_weight_matrix g (stF.parent.getD v 0).toNat v)).isSome)
        = (List.range g.n).countP (fun v => !(v == 0)) := by
      refine List.countP_congr ?_
      intro v hv
      by_cases hv0 : v = 0
      · subst hv0
        simp
      · have hvn : v < g.n := List.mem_range.mp hv
        have hprop := hT v hvn (hall v hv) hv0
        have hne1 : stF.parent.getD v 0 ≠ -1 := by
          have := hprop.1
          omega
        rw [if_neg hv0, if_neg hne1]
        simp [hv0]
    rw [hcong]
    obtain ⟨m, hm⟩ : ∃ m, g.n = m + 1 := ⟨g.n - 1, by omega⟩
    rw [hm, List.range_succ_eq_map]
    simp only [List.countP_cons, List.countP_map]
    have : (List.range m).countP ((fun v => !(v == 0)) ∘ Nat.succ)
        = (List.range m).countP (fun _ => true) := by
      refine List.countP_congr ?_
      intro a _
      simp [Function.comp]
    rw [this, List.countP_true, List.length_range]
    simp

/-! ### Heap ordering -/

/-- The binary min-heap property of the `PriorityQueue` array. -/
def IsMinHeap (l : List PQ_Node) : Prop :=
  ∀ p c : Nat, (c = 2 * p + 1 ∨ c = 2 * p + 2) → c < l.length →
    (l.getD p ⟨0, 0⟩).weight ≤ (l.getD c ⟨0, 0⟩).weight

theorem isMinHeap_root_le (l : List PQ_Node) (hheap : IsMinHeap l) :
    ∀ j, j < l.length →
      (l.getD 0 ⟨0, 0⟩).weight ≤ (l.getD j ⟨0, 0⟩).weight := by
  intro j
  induction j using Nat.strong_induction_on with
  | _ j ih =>
    intro hj
    rcases Nat.eq_zero_or_pos j with rfl | hj0
    · exact le_refl _
    · have hpar : (j - 1) / 2 < j := by omega
      have hchild : j = 2 * ((j - 1) / 2) + 1 ∨ j = 2 * ((j - 1) / 2) + 2 := by
        omega
      exact le_trans (ih _ hpar (by omega)) (hheap _ j hchild hj)

theorem isMinHeap_root_le_mem (l : List PQ_Node) (hheap : IsMinHeap l)
    (x : PQ_Node) (hx : x ∈ l) :
    (l.getD 0 ⟨0, 0⟩).weight ≤ x.weight := by
  obtain ⟨k, hk, rfl⟩ := List.mem_iff_getElem.mp hx
  rw [← List.getD_eq_getElem l ⟨0, 0⟩ hk]
  exact isMinHeap_root_le l hheap k hk

/-- Pre-heap shape for `pq_heapify_up`: all heap pairs hold except
possibly the one into `i`, and `i`'s grandparent already dominates
`i`'s children. -/
def AHup (l : List PQ_Node) (i : Nat) : Prop :=
  (∀ p c : Nat, (c = 2 * p + 1 ∨ c = 2 * p + 2) → c < l.length → c ≠ i →
    (l.getD p ⟨0, 0⟩).weight ≤ (l.getD c ⟨0, 0⟩).weight) ∧
  (∀ c : Nat, (c = 2 * i + 1 ∨ c = 2 * i + 2) → c < l.length → 0 < i →
    (l.getD ((i - 1) / 2) ⟨0, 0⟩).weight ≤ (l.getD c ⟨0, 0⟩).weight)

theorem pq_heapify_up_go_heap (fuel : Nat) :
    ∀ (l : List PQ_Node) (i : Nat), i ≤ fuel → i < l.length → AHup l i →
    IsMinHeap (pq_heapify_up_go fuel l i) := by
  induction fuel with
  | zero =>
    intro l i hif _ hAH
    have hi0 : i = 0 := by omega
    subst hi0
    intro p c hc hclen
    exact hAH.1 p c hc hclen (by omega)
  | succ f ih =>
    intro l i hif hil hAH
    unfold pq_heapify_up_go
    dsimp only
    split_ifs with h0 hcmp
    · -- parent already ≤: the array is a heap
      intro p c hc hclen
      by_cases hci : c = i
      · subst hci
        have hp : p = (c - 1) / 2 := by omega
        rw [hp]
        exact hcmp
      · exact hAH.1 p c hc hclen hci
    · -- swap with the parent and continue
      have hparlt : (i - 1) / 2 < i := by omega
      have hpar_len : (i - 1) / 2 < l.length := by omega
      have hne_ip : i ≠ (i - 1) / 2 := by omega
      have hswl : ∀ k : Nat, k ≠ i → k ≠ (i - 1) / 2 →
          (lswap l i ((i - 1) / 2)).getD k ⟨0, 0⟩ = l.getD k ⟨0, 0⟩ :=
        fun k h1 h2 => getD_lswap_other l h1 h2
      have hswi : (lswap l i ((i - 1) / 2)).getD i ⟨0, 0⟩
          = l.getD ((i - 1) / 2) ⟨0, 0⟩ := by
        rw [getD_lswap_left l hil hpar_len, if_neg hne_ip]
      have hswp : (lswap l i ((i - 1) / 2)).getD ((i - 1) / 2) ⟨0, 0⟩
          = l.getD i ⟨0, 0⟩ := getD_lswap_right l hpar_len
      have hlt : (l.getD i ⟨0, 0⟩).weight
          < (l.getD ((i - 1) / 2) ⟨0, 0⟩).weight := by
        omega
      refine ih (lswap l i ((i - 1) / 2)) ((i - 1) / 2) (by omega)
        (by rw [length_lswap]; omega) ⟨?_, ?_⟩
      · intro p c hc hclen hcp
        rw [length_lswap] at hclen
        by_cases hci : c = i
        · subst hci
          have hp : p = (c - 1) / 2 := by omega
          subst hp
          rw [hswi, hswp]
          exact le_of_lt hlt
        · have hcpar : c ≠ (i - 1) / 2 := hcp
          rw [hswl c hci hcpar]
          by_cases hpi : p = i
          · subst hpi
            rw [hswi]
            have : c = 2 * p + 1 ∨ c = 2 * p + 2 := hc
            exact hAH.2 c hc hclen h0
          · by_cases hppar : p = (i - 1) / 2
            · subst hppar
              rw [hswp]
              exact le_trans (le_of_lt hlt)
                (hAH.1 _ c hc hclen hci)
            · rw [hswl p hpi hppar]
              exact hAH.1 p c hc hclen hci
      · intro c hc hclen hpos
        rw [length_lswap] at hclen
        have hgp_ne_i : ((i - 1) / 2 - 1) / 2 ≠ i := by omega
        have hgp_ne_p : ((i - 1) / 2 - 1) / 2 ≠ (i - 1) / 2 := by omega
        rw [hswl _ hgp_ne_i hgp_ne_p]
        have hpar_child : (i - 1) / 2 = 2 * (((i - 1) / 2 - 1) / 2) + 1 ∨
            (i - 1) / 2 = 2 * (((i - 1) / 2 - 1) / 2) + 2 := by omega
        have hgp_le_par : (l.getD (((i - 1) / 2 - 1) / 2) ⟨0, 0⟩).weight
            ≤ (l.getD ((i - 1) / 2) ⟨0, 0⟩).weight :=
          hAH.1 _ _ hpar_child hpar_len (by omega)
        by_cases hci : c = i
        · subst hci
          rw [hswi]
          exact hgp_le_par
        · have hcpar : c ≠ (i - 1) / 2 := by omega
          rw [hswl c hci hcpar]
          exact le_trans hgp_le_par (hAH.1 _ c hc hclen hci)
    · -- i = 0: nothing to do
      have hi0 : i = 0 := by omega
      subst hi0
      intro p c hc hclen
      exact hAH.1 p c hc hclen (by omega)

theorem getD_append_left_pq (data : List PQ_Node) (x : PQ_Node)
    (k : Nat) (hk : k < data.length) :
    (data ++ [x]).getD k ⟨0, 0⟩ = data.getD k ⟨0, 0⟩ := by
  rw [List.getD_eq_getElem _ _ (by simp; omega),
    List.getD_eq_getElem _ _ hk]
  exact List.getElem_append_left hk

theorem pq_push_heap (data : List PQ_Node) (w : Int) (v : Nat)
    (hheap : IsMinHeap data) : IsMinHeap (pq_push data w v) := by
  unfold pq_push pq_heapify_up
  refine pq_heapify_up_go_heap data.length (data ++ [⟨w, v⟩]) data.length
    le_rfl (by simp) ⟨?_, ?_⟩
  · intro p c hc hclen hci
    have hc_lt : c < data.length := by
      simp only [List.length_append, List.length_singleton] at hclen
      omega
    have hp_lt : p < data.length := by omega
    rw [getD_append_left_pq data _ c hc_lt, getD_append_left_pq data _ p hp_lt]
    exact hheap p c hc hc_lt
  · intro c hc hclen _
    simp only [List.length_append, List.length_singleton] at hclen
    omega

theorem pq_smallest_facts (data : List PQ_Node) (i : Nat) :
    (pq_smallest data i = i ∨
      ((pq_smallest data i = 2 * i + 1 ∨ pq_smallest data i = 2 * i + 2) ∧
        pq_smallest data i < data.length)) ∧
    (data.getD (pq_smallest data i) ⟨0, 0⟩).weight
      ≤ (data.getD i ⟨0, 0⟩).weight ∧
    (2 * i + 1 < data.length →
      (data.getD (pq_smallest data i) ⟨0, 0⟩).weight
        ≤ (data.getD (2 * i + 1) ⟨0, 0⟩).weight) ∧
    (2 * i + 2 < data.length →
      (data.getD (pq_smallest data i) ⟨0, 0⟩).weight
        ≤ (data.getD (2 * i + 2) ⟨0, 0⟩).weight) := by
  unfold pq_smallest
  dsimp only
  split_ifs with h1 h2 h3 <;> refine ⟨?_, ?_, ?_, ?_⟩ <;> omega

/-- Pre-heap shape for `pq_heapify_down`: all heap pairs hold except
possibly the ones out of `i`, and `i`'s parent already dominates
`i`'s children. -/
def AHdown (l : List PQ_Node) (i : Nat) : Prop :=
  (∀ p c : Nat, (c = 2 * p + 1 ∨ c = 2 * p + 2) → c < l.length → p ≠ i →
    (l.getD p ⟨0, 0⟩).weight ≤ (l.getD c ⟨0, 0⟩).weight) ∧
  (∀ c : Nat, (c = 2 * i + 1 ∨ c = 2 * i + 2) → c < l.length → 0 < i →
    (l.getD ((i - 1) / 2) ⟨0, 0⟩).weight ≤ (l.getD c ⟨0, 0⟩).weight)

theorem pq_heapify_down_go_heap (fuel : Nat) :
    ∀ (l : List PQ_Node) (i : Nat), l.length ≤ fuel + i → AHdown l i →
    IsMinHeap (pq_heapify_down_go fuel l i) := by
  induction fuel with
  | zero =>
    intro l i hfuel hAH
    unfold pq_heapify_down_go
    intro p c hc hclen
    by_cases hpi : p = i
    · omega
    · exact hAH.1 p c hc hclen hpi
  | succ f ih =>
    intro l i hfuel hAH
    unfold pq_heapify_down_go
    dsimp only
    have hfacts := pq_smallest_facts l i
    split_ifs with hs
    · -- the cell already dominates both children
      rw [hs] at hfacts
      intro p c hc hclen
      by_cases hpi : p = i
      · subst hpi
        rcases hc with rfl | rfl
        · exact hfacts.2.2.1 hclen
        · exact hfacts.2.2.2 hclen
      · exact hAH.1 p c hc hclen hpi
    · -- swap with the smaller child and continue
      rcases hfacts.1 with heq | ⟨hchild, hslen⟩
      · exact absurd heq hs
      have hilt : i < pq_smallest l i := by omega
      have hilen : i < l.length := by omega
      have hswi : (lswap l i (pq_smallest l i)).getD i ⟨0, 0⟩
          = l.getD (pq_smallest l i) ⟨0, 0⟩ := by
        rw [getD_lswap_left l hilen hslen, if_neg (by omega)]
      have hsws : (lswap l i (pq_smallest l i)).getD (pq_smallest l i) ⟨0, 0⟩
          = l.getD i ⟨0, 0⟩ := getD_lswap_right l hslen
      have hswo : ∀ k : Nat, k ≠ i → k ≠ pq_smallest l i →
          (lswap l i (pq_smallest l i)).getD k ⟨0, 0⟩ = l.getD k ⟨0, 0⟩ :=
        fun k h1 h2 => getD_lswap_other l h1 h2
      refine ih (lswap l i (pq_smallest l i)) (pq_smallest l i)
        (by rw [length_lswap]; omega) ⟨?_, ?_⟩
      · intro p c hc hclen hps
        rw [length_lswap] at hclen
        by_cases hpi : p = i
        · rw [hpi]
          by_cases hcs : c = pq_smallest l i
          · rw [hcs, hswi, hsws]
            exact hfacts.2.1
          · rw [hswi, hswo c (by omega) hcs]
            have hcc : c = 2 * i + 1 ∨ c = 2 * i + 2 := by omega
            rcases hcc with h | h
            · subst h
              exact hfacts.2.2.1 hclen
            · subst h
              exact hfacts.2.2.2 hclen
        · by_cases hci : c = i
          · rw [hci, hswi, hswo p hpi hps]
            have hp : (i - 1) / 2 = p := by omega
            have := hAH.2 (pq_smallest l i) hchild hslen (by omega)
            rw [hp] at this
            exact this
          · by_cases hcs : c = pq_smallest l i
            · exact absurd (by omega : p = i) hpi
            · rw [hswo p hpi hps, hswo c hci hcs]
              exact hAH.1 p c hc hclen hpi
      · intro c hc hclen _
        rw [length_lswap] at hclen
        have hgp : (pq_smallest l i - 1) / 2 = i := by omega
        rw [hgp, hswi, hswo c (by omega) (by omega)]
        exact hAH.1 (pq_smallest l i) c hc hclen (by omega)

theorem getD_popbody (rest : List PQ_Node) (k : Nat) (h1 : 1 ≤ k)
    (h2 : k < rest.length) :
    (rest.getLastD ⟨0, 0⟩ :: rest.dropLast).getD k ⟨0, 0⟩
      = rest.getD (k - 1) ⟨0, 0⟩ := by
  obtain ⟨j, rfl⟩ : ∃ j, k = j + 1 := ⟨k - 1, by omega⟩
  rw [List.getD_cons_succ]
  have hdl : j < rest.dropLast.length := by
    rw [List.length_dropLast]; omega
  rw [List.getD_eq_getElem _ _ hdl, List.getD_eq_getElem _ _ (by omega)]
  simp [List.getElem_dropLast]

theorem pq_pop_fst (data : List PQ_Node) (hne : data ≠ []) :
    (pq_pop data).1 = data.getD 0 ⟨0, 0⟩ := by
  match data with
  | [] => exact absurd rfl hne
  | x :: rest =>
    unfold pq_pop
    dsimp only
    split_ifs <;> rfl

theorem pq_pop_root_min (data : List PQ_Node) (hne : data ≠ [])
    (hheap : IsMinHeap data) :
    ∀ x, x ∈ data → (pq_pop data).1.weight ≤ x.weight := by
  intro x hx
  rw [pq_pop_fst data hne]
  exact isMinHeap_root_le_mem data hheap x hx

theorem pq_pop_heap (data : List PQ_Node) (hheap : IsMinHeap data) :
    IsMinHeap (pq_pop data).2 := by
  match data with
  | [] =>
    have h0 : (pq_pop ([] : List PQ_Node)).2 = [] := rfl
    rw [h0]
    intro p c hc hclen
    exact absurd hclen (by simp)
  | x :: rest =>
    by_cases hr : rest = []
    · subst hr
      have hpop0 : pq_pop [x] = (x, []) := rfl
      rw [hpop0]
      intro p c hc hclen
      exact absurd hclen (by simp)
    · have hpop : (pq_pop (x :: rest)).2
          = pq_heapify_down (rest.getLastD ⟨0, 0⟩ :: rest.dropLast) 0 := by
        show (if rest = [] then (x, ([] : List PQ_Node))
          else (x, pq_heapify_down
            (rest.getLastD ⟨0, 0⟩ :: rest.dropLast) 0)).2 = _
        rw [if_neg hr]
      rw [hpop]
      unfold pq_heapify_down
      have hrpos : 0 < rest.length := List.length_pos.mpr hr
      have hlen0 : (rest.getLastD ⟨0, 0⟩ :: rest.dropLast).length
          = rest.length := by
        simp only [List.length_cons, List.length_dropLast]
        omega
      refine pq_heapify_down_go_heap _ _ 0 (by omega) ⟨?_, ?_⟩
      · intro p c hc hclen hp0
        rw [hlen0] at hclen
        have hp1 : 1 ≤ p := by omega
        have hplt : p < rest.length := by omega
        rw [getD_popbody rest p hp1 hplt, getD_popbody rest c (by omega) hclen]
        have hcd : rest.getD (c - 1) ⟨0, 0⟩ = (x :: rest).getD c ⟨0, 0⟩ := by
          obtain ⟨j, rfl⟩ : ∃ j, c = j + 1 := ⟨c - 1, by omega⟩
          have hj : j + 1 - 1 = j := by omega
          rw [hj, List.getD_cons_succ]
        have hpd : rest.getD (p - 1) ⟨0, 0⟩ = (x :: rest).getD p ⟨0, 0⟩ := by
          obtain ⟨j, rfl⟩ : ∃ j, p = j + 1 := ⟨p - 1, by omega⟩
          have hj : j + 1 - 1 = j := by omega
          rw [hj, List.getD_cons_succ]
        rw [hcd, hpd]
        exact hheap p c hc (by simp; omega)
      · intro c hc hclen hpos
        omega

/-! ### Minimality of Prim: relaxation specs -/

/-- The body of the relaxation loop, one candidate vertex at a time
(definitionally the function folded by `prim_relax`). -/
def relaxCell (W : Nat → Nat → Int) (u : Nat) (st : PrimState) (v : Nat) :
    PrimState :=
  let weight := W u v
  if 0 < weight ∧ st.in_mst.getD v false = false ∧
      weight < st.key.getD v 0 then
    { st with
      key := st.key.set v weight
      parent := st.parent.set v (u : Int)
      pq := pq_push st.pq weight v }
  else st

theorem prim_relax_eq (W : Nat → Nat → Int) (n u : Nat) (st : PrimState) :
    prim_relax W n u st = (List.range n).foldl (relaxCell W u) st := rfl

theorem prim_relax_fold_spec (W : Nat → Nat → Int) (u n : Nat) :
    ∀ (l : List Nat) (st : PrimState), (∀ v ∈ l, v < n) →
    st.key.length = n →
    (l.foldl (relaxCell W u) st).in_mst = st.in_mst ∧
    (l.foldl (relaxCell W u) st).key.length = n ∧
    (∀ v : Nat, (l.foldl (relaxCell W u) st).key.getD v 0
      ≤ st.key.getD v 0) ∧
    (∀ v ∈ l, st.in_mst.getD v false = false → 0 < W u v →
      (l.foldl (relaxCell W u) st).key.getD v 0 ≤ W u v) ∧
    (∀ v : Nat, st.in_mst.getD v false = true →
      (l.foldl (relaxCell W u) st).parent.getD v 0
        = st.parent.getD v 0) := by
  intro l
  induction l with
  | nil =>
    intro st _ hkl
    exact ⟨rfl, hkl, fun v => le_rfl, by simp, fun v _ => rfl⟩
  | cons x t ih =>
    intro st hl hkl
    have hxn : x < n := hl x (List.mem_cons_self _ _)
    simp only [List.foldl_cons]
    by_cases hcond : 0 < W u x ∧ st.in_mst.getD x false = false ∧
        W u x < st.key.getD x 0
    · have hx : relaxCell W u st x =
          { st with
            key := st.key.set x (W u x)
            parent := st.parent.set x (u : Int)
            pq := pq_push st.pq (W u x) x } := by
        unfold relaxCell
        dsimp only
        rw [if_pos hcond]
      rw [hx]
      set st1 : PrimState :=
        { st with
          key := st.key.set x (W u x)
          parent := st.parent.set x (u : Int)
          pq := pq_push st.pq (W u x) x } with hst1
      have hk1 : st1.key.length = n := by
        show (st.key.set x (W u x)).length = n
        simp [hkl]
      obtain ⟨hmst, hlen, hmono, hproc, hpar⟩ :=
        ih st1 (fun v hv => hl v (List.mem_cons_of_mem _ hv)) hk1
      have hkey1 : ∀ v : Nat, st1.key.getD v 0 ≤ st.key.getD v 0 := by
        intro v
        show (st.key.set x (W u x)).getD v 0 ≤ st.key.getD v 0
        by_cases hvx : x = v
        · subst hvx
          rw [getD_set_self _ _ _ _ (by omega)]
          exact le_of_lt hcond.2.2
        · rw [getD_set_ne _ _ _ hvx]
      refine ⟨hmst, hlen, ?_, ?_, ?_⟩
      · exact fun v => le_trans (hmono v) (hkey1 v)
      · intro v hv hvm hw
        rcases List.mem_cons.mp hv with rfl | hvt
        · refine le_trans (hmono v) ?_
          show (st.key.set v (W u v)).getD v 0 ≤ W u v
          rw [getD_set_self _ _ _ _ (by omega)]
        · exact hproc v hvt hvm hw
      · intro v hvm
        have hvx : x ≠ v := by
          intro h
          subst h
          rw [hvm] at hcond
          exact absurd hcond.2.1 (by simp)
        have : st1.parent.getD v 0 = st.parent.getD v 0 := by
          show (st.parent.set x (u : Int)).getD v 0 = st.parent.getD v 0
          rw [getD_set_ne _ _ _ hvx]
        rw [hpar v hvm, this]
    · have hx : relaxCell W u st x = st := by
        unfold relaxCell
        dsimp only
        rw [if_neg hcond]
      rw [hx]
      obtain ⟨hmst, hlen, hmono, hproc, hpar⟩ :=
        ih st (fun v hv => hl v (List.mem_cons_of_mem _ hv)) hkl
      refine ⟨hmst, hlen, hmono, ?_, hpar⟩
      intro v hv hvm hw
      rcases List.mem_cons.mp hv with rfl | hvt
      · have hnk : ¬W u v < st.key.getD v 0 := by
          intro h
          exact hcond ⟨hw, hvm, h⟩
        exact le_trans (hmono v) (by omega)
      · exact hproc v hvt hvm hw

theorem prim_relax_fold_hinv (W : Nat → Nat → Int) (u n : Nat) :
    ∀ (l : List Nat) (st : PrimState), (∀ v ∈ l, v < n) →
    st.key.length = n →
    IsMinHeap st.pq →
    (∀ e ∈ st.pq, st.in_mst.getD e.vertex false = false →
      st.key.getD e.vertex 0 ≤ e.weight) →
    (∀ v : Nat, v < n → st.in_mst.getD v false = false →
      st.key.getD v 0 < INT_MAX →
      ∃ e ∈ st.pq, e.vertex = v ∧ e.weight = st.key.getD v 0) →
    IsMinHeap (l.foldl (relaxCell W u) st).pq ∧
    (∀ e ∈ (l.foldl (relaxCell W u) st).pq,
      (l.foldl (relaxCell W u) st).in_mst.getD e.vertex false = false →
      (l.foldl (relaxCell W u) st).key.getD e.vertex 0 ≤ e.weight) ∧
    (∀ v : Nat, v < n →
      (l.foldl (relaxCell W u) st).in_mst.getD v false = false →
      (l.foldl (relaxCell W u) st).key.getD v 0 < INT_MAX →
      ∃ e ∈ (l.foldl (relaxCell W u) st).pq, e.vertex = v ∧
        e.weight = (l.foldl (relaxCell W u) st).key.getD v 0) := by
  intro l
  induction l with
  | nil =>
    intro st _ _ hheap hH1 hH2
    exact ⟨hheap, hH1, hH2⟩
  | cons x t ih =>
    intro st hl hkl hheap hH1 hH2
    have hxn : x < n := hl x (List.mem_cons_self _ _)
    simp only [List.foldl_cons]
    by_cases hcond : 0 < W u x ∧ st.in_mst.getD x false = false ∧
        W u x < st.key.getD x 0
    · have hx : relaxCell W u st x =
          { st with
            key := st.key.set x (W u x)
            parent := st.parent.set x (u : Int)
            pq := pq_push st.pq (W u x) x } := by
        unfold relaxCell
        dsimp only
        rw [if_pos hcond]
      rw [hx]
      set st1 : PrimState :=
        { st with
          key := st.key.set x (W u x)
          parent := st.parent.set x (u : Int)
          pq := pq_push st.pq (W u x) x } with hst1
      have hk1 : st1.key.length = n := by
        show (st.key.set x (W u x)).length = n
        simp [hkl]
      have hkey1x : st1.key.getD x 0 = W u x := by
        show (st.key.set x (W u x)).getD x 0 = W u x
        rw [getD_set_self _ _ _ _ (by omega)]
      have hkey1o : ∀ v : Nat, v ≠ x → st1.key.getD v 0 = st.key.getD v 0 := by
        intro v hv
        show (st.key.set x (W u x)).getD v 0 = st.key.getD v 0
        rw [getD_set_ne _ _ _ (fun h => hv h.symm)]
      refine ih st1 (fun v hv => hl v (List.mem_cons_of_mem _ hv)) hk1
        (pq_push_heap _ _ _ hheap) ?_ ?_
      · intro e he hem
        rcases (pq_push_mem st.pq (W u x) x).2 e |>.mp he with he' | rfl
        · by_cases hev : e.vertex = x
          · rw [hev, hkey1x]
            refine le_trans (le_of_lt hcond.2.2) ?_
            exact hev ▸ hH1 e he' hem
          · rw [hkey1o _ hev]
            exact hH1 e he' hem
        · show st1.key.getD x 0 ≤ W u x
          rw [hkey1x]
      · intro v hvn hvm hvk
        by_cases hvx : v = x
        · subst hvx
          refine ⟨⟨W u v, v⟩, ?_, rfl, ?_⟩
          · exact (pq_push_mem st.pq (W u v) v).2 _ |>.mpr (Or.inr rfl)
          · rw [hkey1x]
        · rw [hkey1o _ hvx] at hvk ⊢
          obtain ⟨e, he, hev, hew⟩ := hH2 v hvn hvm hvk
          exact ⟨e, (pq_push_mem st.pq (W u x) x).2 e |>.mpr (Or.inl he),
            hev, hew⟩
    · have hx : relaxCell W u st x = st := by
        unfold relaxCell
        dsimp only
        rw [if_neg hcond]
      rw [hx]
      exact ih st (fun v hv => hl v (List.mem_cons_of_mem _ hv)) hkl
        hheap hH1 hH2

/-- The heap/key invariant of Prim's loop: the priority queue is a
min-heap; every queued entry for a not-yet-included vertex dominates
that vertex's key; every not-yet-included vertex with a non-sentinel
key has a queue entry carrying exactly that key; and every key of a
not-yet-included vertex is at most the weight of every positive matrix
edge from the tree to it. -/
def PrimInvM (W : Nat → Nat → Int) (n : Nat) (st : PrimState) : Prop :=
  IsMinHeap st.pq ∧
  (∀ e ∈ st.pq, st.in_mst.getD e.vertex false = false →
    st.key.getD e.vertex 0 ≤ e.weight) ∧
  (∀ v : Nat, v < n → st.in_mst.getD v false = false →
    st.key.getD v 0 < INT_MAX →
    ∃ e ∈ st.pq, e.vertex = v ∧ e.weight = st.key.getD v 0) ∧
  (∀ v : Nat, v < n → st.in_mst.getD v false = false →
    ∀ m : Nat, m < n → st.in_mst.getD m false = true → 0 < W m v →
    st.key.getD v 0 ≤ W m v)

theorem prim_step_invM (W : Nat → Nat → Int) (n : Nat) (st : PrimState)
    (hne : st.pq ≠ []) (hinv : PrimInv W n st) (hm : PrimInvM W n st) :
    PrimInvM W n (prim_step W n st) := by
  obtain ⟨l1, l2, l3, hvert, hB, hT⟩ := hinv
  obtain ⟨hheap, hH1, hH2, hK1⟩ := hm
  obtain ⟨hplen, hpmem, hsub, hsplit⟩ := pq_pop_spec st.pq hne
  have hpop_heap := pq_pop_heap st.pq hheap
  unfold prim_step
  dsimp only
  set e := (pq_pop st.pq).1 with he
  set pq' := (pq_pop st.pq).2 with hpq'
  by_cases hmarked : st.in_mst.getD e.vertex false = true
  · rw [if_pos hmarked]
    refine ⟨hpop_heap, ?_, ?_, hK1⟩
    · exact fun e' he' hm' => hH1 e' (hsub e' he') hm'
    · intro v hvn hvm hvk
      obtain ⟨e'', he'', hev, hew⟩ := hH2 v hvn hvm hvk
      rcases hsplit e'' he'' with rfl | hin
      · rw [hev] at hmarked
        rw [hmarked] at hvm
        cases hvm
      · exact ⟨e'', hin, hev, hew⟩
  · rw [if_neg hmarked]
    have hu_n : e.vertex < n := hvert e hpmem
    rw [prim_relax_eq]
    set st2 : PrimState :=
      { pq := pq', in_mst := st.in_mst.set e.vertex true,
        key := st.key, parent := st.parent } with hst2
    have hk2 : st2.key.length = n := l2
    have hrange : ∀ v ∈ List.range n, v < n := fun v hv => List.mem_range.mp hv
    have hunm2 : ∀ v : Nat, st2.in_mst.getD v false = false →
        v ≠ e.vertex ∧ st.in_mst.getD v false = false := by
      intro v hv
      have hvne : v ≠ e.vertex := by
        intro h
        subst h
        have : st2.in_mst.getD e.vertex false = true := by
          show (st.in_mst.set e.vertex true).getD e.vertex false = true
          exact getD_set_self _ _ _ _ (by omega)
        rw [this] at hv
        cases hv
      refine ⟨hvne, ?_⟩
      have : st2.in_mst.getD v false = st.in_mst.getD v false := by
        show (st.in_mst.set e.vertex true).getD v false = _
        rw [getD_set_ne _ _ _ (fun h => hvne h.symm)]
      rw [← this]
      exact hv
    have hH1₂ : ∀ e' ∈ st2.pq, st2.in_mst.getD e'.vertex false = false →
        st2.key.getD e'.vertex 0 ≤ e'.weight := by
      intro e' he' hm'
      exact hH1 e' (hsub e' he') (hunm2 _ hm').2
    have hH2₂ : ∀ v : Nat, v < n → st2.in_mst.getD v false = false →
        st2.key.getD v 0 < INT_MAX →
        ∃ e' ∈ st2.pq, e'.vertex = v ∧ e'.weight = st2.key.getD v 0 := by
      intro v hvn hvm hvk
      obtain ⟨hvne, hvm0⟩ := hunm2 v hvm
      obtain ⟨e'', he'', hev, hew⟩ := hH2 v hvn hvm0 hvk
      rcases hsplit e'' he'' with rfl | hin
      · exact absurd hev hvne.symm
      · exact ⟨e'', hin, hev, hew⟩
    obtain ⟨hRheap, hRH1, hRH2⟩ :=
      prim_relax_fold_hinv W e.vertex n (List.range n) st2 hrange hk2
        hpop_heap hH1₂ hH2₂
    obtain ⟨hmst, hlenk, hmono, hproc, hpar⟩ :=
      prim_relax_fold_spec W e.vertex n (List.range n) st2 hrange hk2
    refine ⟨hRheap, hRH1, hRH2, ?_⟩
    intro v hvn hvm m hmn hmm hw
    have hvm2 : st2.in_mst.getD v false = false := by
      rw [← hmst]
      exact hvm
    obtain ⟨hvne, hvm0⟩ := hunm2 v hvm2
    by_cases hmu : m = e.vertex
    · subst hmu
      exact hproc v (List.mem_range.mpr hvn) hvm2 hw
    · have hmm2 : st2.in_mst.getD m false = true := by
        rw [← hmst]
        exact hmm
      have hmm0 : st.in_mst.getD m false = true := by
        have : st2.in_mst.getD m false = st.in_mst.getD m false := by
          show (st.in_mst.set e.vertex true).getD m false = _
          rw [getD_set_ne _ _ _ (fun h => hmu h.symm)]
        rw [← this]
        exact hmm2
      exact le_trans (hmono v) (hK1 v hvn hvm0 m hmn hmm0 hw)

theorem prim_loop_invM (W : Nat → Nat → Int) (n : Nat) :
    ∀ (fuel : Nat) (st : PrimState), PrimInv W n st → PrimInvM W n st →
    PrimInvM W n (prim_loop W n fuel st) := by
  intro fuel
  induction fuel with
  | zero => exact fun st _ h => h
  | succ f ih =>
    intro st hinv hm
    unfold prim_loop
    by_cases hne : st.pq = []
    · rw [if_pos hne]
      exact hm
    · rw [if_neg hne]
      exact ih (prim_step W n st)
        (prim_step_inv W n st hne hinv).1
        (prim_step_invM W n st hne hinv hm)

theorem getD_replicate_set_int (n v : Nat) (hv : v < n) :
    ((List.replicate n INT_MAX).set 0 0).getD v 0
      = if v = 0 then 0 else INT_MAX := by
  split_ifs with h0
  · subst h0
    exact getD_set_self _ _ _ _ (by simpa using hv)
  · rw [getD_set_ne _ _ _ (fun h => h0 h.symm),
      List.getD_eq_getElem _ _ (by simpa using hv)]
    simp

/-- The initial state of `graph_mst_prim`'s loop satisfies the
heap/key invariant. -/
theorem prim_initial_invM (W : Nat → Nat → Int) (n : Nat) (hn : 1 ≤ n) :
    PrimInvM W n
      { pq := pq_push [] 0 0
        in_mst := List.replicate n false
        key := (List.replicate n INT_MAX).set 0 0
        parent := List.replicate n (-1) } := by
  have hmem : ∀ e : PQ_Node, e ∈ pq_push [] 0 0 → e = ⟨0, 0⟩ := by
    intro e he
    rcases (pq_push_mem [] 0 0).2 e |>.mp he with he' | rfl
    · cases he'
    · rfl
  refine ⟨pq_push_heap [] 0 0 (by intro p c hc hclen; simp at hclen),
    ?_, ?_, ?_⟩
  · intro e he _
    rw [hmem e he]
    show ((List.replicate n INT_MAX).set 0 0).getD 0 0 ≤ 0
    rw [getD_replicate_set_int n 0 (by omega), if_pos rfl]
  · intro v hvn _ hvk
    by_cases hv0 : v = 0
    · subst hv0
      refine ⟨⟨0, 0⟩, (pq_push_mem [] 0 0).2 _ |>.mpr (Or.inr rfl), rfl, ?_⟩
      show (0 : Int) = ((List.replicate n INT_MAX).set 0 0).getD 0 0
      rw [getD_replicate_set_int n 0 (by omega), if_pos rfl]
    · rw [show ((List.replicate n INT_MAX).set 0 0).getD v 0 = INT_MAX by
        rw [getD_replicate_set_int n v hvn, if_neg hv0]] at hvk
      exact absurd hvk (by omega)
  · intro v _ _ m _ hmm _
    rw [show (List.replicate n false).getD m false = false from
      getD_replicate_false n m] at hmm
    cases hmm

/-! ### Connectivity over finite edge sets -/

/-- One step along an undirected edge of the finite edge set `E`
(either orientation of a stored pair). -/
def estep (E : Finset (Nat × Nat)) (a b : Nat) : Prop :=
  (a, b) ∈ E ∨ (b, a) ∈ E

instance (E : Finset (Nat × Nat)) (a b : Nat) : Decidable (estep E a b) := by
  unfold estep
  infer_instance

theorem estep_symmetric (E : Finset (Nat × Nat)) : Symmetric (estep E) :=
  fun _ _ h => h.symm

theorem rtg_symm {E : Finset (Nat × Nat)} {a b : Nat}
    (h : Relation.ReflTransGen (estep E) a b) :
    Relation.ReflTransGen (estep E) b a :=
  Relation.ReflTransGen.symmetric (estep_symmetric E) h

theorem estep_rtg_mono {E F : Finset (Nat × Nat)} (hEF : E ⊆ F) {a b : Nat}
    (h : Relation.ReflTransGen (estep E) a b) :
    Relation.ReflTransGen (estep F) a b := by
  refine Relation.ReflTransGen.mono ?_ h
  intro x y hxy
  rcases hxy with h1 | h1
  · exact Or.inl (hEF h1)
  · exact Or.inr (hEF h1)

theorem chain_snoc (R : Nat → Nat → Prop) :
    ∀ (l : List Nat) (x c : Nat), List.Chain R x l →
    R ((x :: l).getLastD 0) c → List.Chain R x (l ++ [c]) := by
  intro l
  induction l with
  | nil =>
    intro x c _ hR
    exact List.Chain.cons (by simpa using hR) List.Chain.nil
  | cons y t ih =>
    intro x c hch hR
    rw [List.chain_cons] at hch
    refine List.chain_cons.mpr ⟨hch.1, ih y c hch.2 ?_⟩
    have hlast : (x :: y :: t).getLastD 0 = (y :: t).getLastD 0 := by
      simp [List.getLastD_cons]
    rwa [hlast] at hR

theorem rtg_to_chain (E : Finset (Nat × Nat)) {x y : Nat}
    (h : Relation.ReflTransGen (estep E) x y) :
    ∃ l : List Nat, List.Chain (estep E) x l ∧ (x :: l).getLastD 0 = y := by
  induction h with
  | refl => exact ⟨[], List.Chain.nil, by simp [List.getLastD_cons]⟩
  | @tail b c hab hbc ih =>
    obtain ⟨l, hch, hlast⟩ := ih
    refine ⟨l ++ [c], chain_snoc _ l x c hch (by rwa [hlast]), ?_⟩
    rw [show x :: (l ++ [c]) = (x :: l) ++ [c] from rfl]
    exact List.getLastD_concat _ _ _

/-- Walking from an unmarked vertex to a marked one, some edge of the
walk crosses the cut, and the walk reaches its unmarked endpoint
without using that edge. -/
theorem chain_first_cross (T : Finset (Nat × Nat)) (M : Nat → Bool) :
    ∀ (l : List Nat) (x : Nat), List.Chain (estep T) x l → M x = false →
    M ((x :: l).getLastD 0) = true →
    ∃ f ∈ T, ∃ a b : Nat, (f = (a, b) ∨ f = (b, a)) ∧ M a = false ∧
      M b = true ∧ Relation.ReflTransGen (estep (T.erase f)) x a := by
  intro l
  induction l with
  | nil =>
    intro x _ hx hlast
    rw [show ((x :: []).getLastD 0) = x by simp [List.getLastD_cons]] at hlast
    rw [hx] at hlast
    cases hlast
  | cons y t ih =>
    intro x hch hx hlast
    rw [List.chain_cons] at hch
    by_cases hy : M y = true
    · rcases hch.1 with hxy | hyx
      · exact ⟨(x, y), hxy, x, y, Or.inl rfl, hx, hy,
          Relation.ReflTransGen.refl⟩
      · exact ⟨(y, x), hyx, x, y, Or.inr rfl, hx, hy,
          Relation.ReflTransGen.refl⟩
    · have hy' : M y = false := by
        revert hy
        cases M y <;> simp
      have hlast' : M ((y :: t).getLastD 0) = true := by
        rw [show ((x :: y :: t).getLastD 0) = ((y :: t).getLastD 0) by
          simp [List.getLastD_cons]] at hlast
        exact hlast
      obtain ⟨f, hf, a, b, hfab, ha, hb, hrtg⟩ := ih y hch.2 hy' hlast'
      have hne : ∀ p q : Nat, M p = false → M q = false → (p, q) ≠ f := by
        intro p q hp hq heq
        rcases hfab with rfl | rfl
        · obtain ⟨h1, h2⟩ := Prod.mk.inj heq
          rw [h2] at hq
          rw [hq] at hb
          cases hb
        · obtain ⟨h1, h2⟩ := Prod.mk.inj heq
          rw [h1] at hp
          rw [hp] at hb
          cases hb
      have hstep : estep (T.erase f) x y := by
        rcases hch.1 with hxy | hyx
        · exact Or.inl (Finset.mem_erase.mpr ⟨hne x y hx hy', hxy⟩)
        · exact Or.inr (Finset.mem_erase.mpr ⟨hne y x hy' hx, hyx⟩)
      exact ⟨f, hf, a, b, hfab, ha, hb,
        Relation.ReflTransGen.head hstep hrtg⟩

/-- If the endpoints of `f` stay connected in `E'` and `E'` contains
everything else of `E`, every `E`-connection survives in `E'`. -/
theorem rtg_replace_edge (E : Finset (Nat × Nat)) (f : Nat × Nat)
    (E' : Finset (Nat × Nat)) (hsub : E.erase f ⊆ E')
    (hf : Relation.ReflTransGen (estep E') f.1 f.2) :
    ∀ x y : Nat, Relation.ReflTransGen (estep E) x y →
      Relation.ReflTransGen (estep E') x y := by
  intro x y h
  induction h with
  | refl => exact Relation.ReflTransGen.refl
  | @tail b c hab hbc ih =>
    refine ih.trans ?_
    rcases hbc with hbc1 | hbc1
    · by_cases hbf : (b, c) = f
      · have h1 : b = f.1 := by rw [← hbf]
        have h2 : c = f.2 := by rw [← hbf]
        rw [h1, h2]
        exact hf
      · exact Relation.ReflTransGen.single
          (Or.inl (hsub (Finset.mem_erase.mpr ⟨hbf, hbc1⟩)))
    · by_cases hcf : (c, b) = f
      · have h1 : c = f.1 := by rw [← hcf]
        have h2 : b = f.2 := by rw [← hcf]
        rw [h1, h2]
        exact rtg_symm hf
      · exact Relation.ReflTransGen.single
          (Or.inr (hsub (Finset.mem_erase.mpr ⟨hcf, hbc1⟩)))

/-! ### Candidate edge sets and the recorded tree -/

/-- The candidate undirected edges of the weight matrix: normalised
pairs `(a, b)` with `a < b < n` joined by a positive matrix entry. -/
def validPairs (W : Nat → Nat → Int) (n : Nat) : Finset (Nat × Nat) :=
  (Finset.range n ×ˢ Finset.range n).filter
    (fun e => e.1 < e.2 ∧ 0 < W e.1 e.2)

/-- An edge set connects the `n` vertices when every vertex is
reachable from vertex `0`. -/
def connOn (n : Nat) (E : Finset (Nat × Nat)) : Prop :=
  ∀ v : Nat, v < n → Relation.ReflTransGen (estep E) 0 v

/-- Total matrix weight of a finite edge set. -/
def wsum (W : Nat → Nat → Int) (E : Finset (Nat × Nat)) : Int :=
  E.sum fun e => W e.1 e.2

/-- A minimum-weight connected spanning edge set. -/
def minConn (W : Nat → Nat → Int) (n : Nat) (T : Finset (Nat × Nat)) :
    Prop :=
  T ⊆ validPairs W n ∧ connOn n T ∧
  ∀ T' : Finset (Nat × Nat), T' ⊆ validPairs W n → connOn n T' →
    wsum W T ≤ wsum W T'

theorem validPairs_spec (W : Nat → Nat → Int) (n : Nat) (e : Nat × Nat)
    (he : e ∈ validPairs W n) :
    e.1 < e.2 ∧ e.1 < n ∧ e.2 < n ∧ 0 < W e.1 e.2 := by
  unfold validPairs at he
  rw [Finset.mem_filter, Finset.mem_product] at he
  obtain ⟨⟨h1, h2⟩, h3, h4⟩ := he
  exact ⟨h3, Finset.mem_range.mp h1, Finset.mem_range.mp h2, h4⟩

theorem exists_minConn (W : Nat → Nat → Int) (n : Nat)
    (h : ∃ T₀ : Finset (Nat × Nat), T₀ ⊆ validPairs W n ∧ connOn n T₀) :
    ∃ T : Finset (Nat × Nat), minConn W n T := by
  classical
  obtain ⟨T₀, hT₀v, hT₀c⟩ := h
  have hfin : {T : Finset (Nat × Nat) |
      T ⊆ validPairs W n ∧ connOn n T}.Finite := by
    refine Set.Finite.subset
      (Finset.finite_toSet (validPairs W n).powerset) ?_
    intro T hT
    rw [Finset.mem_coe, Finset.mem_powerset]
    exact hT.1
  have hne : {T : Finset (Nat × Nat) |
      T ⊆ validPairs W n ∧ connOn n T}.Nonempty := ⟨T₀, hT₀v, hT₀c⟩
  obtain ⟨T, hTS, hmin⟩ := Set.exists_min_image _ (wsum W) hfin hne
  exact ⟨T, hTS.1, hTS.2, fun T' h1 h2 => hmin T' ⟨h1, h2⟩⟩

/-- The normalised (smaller endpoint first) form of an edge pair. -/
def normPair (a b : Nat) : Nat × Nat := if a < b then (a, b) else (b, a)

theorem normPair_eq_iff (a b c d : Nat) :
    normPair a b = normPair c d ↔ (a = c ∧ b = d) ∨ (a = d ∧ b = c) := by
  unfold normPair
  split_ifs <;> simp [Prod.ext_iff] <;> omega

theorem W_normPair (W : Nat → Nat → Int) (n : Nat)
    (hWsym : ∀ a b : Nat, a < n → b < n → W a b = W b a)
    (a b : Nat) (ha : a < n) (hb : b < n) :
    W (normPair a b).1 (normPair a b).2 = W a b := by
  unfold normPair
  split_ifs with h
  · rfl
  · exact hWsym b a hb ha

theorem normPair_mem_validPairs (W : Nat → Nat → Int) (n : Nat)
    (hWsym : ∀ a b : Nat, a < n → b < n → W a b = W b a)
    (a b : Nat) (ha : a < n) (hb : b < n) (hab : a ≠ b)
    (hw : 0 < W a b) : normPair a b ∈ validPairs W n := by
  unfold normPair validPairs
  split_ifs with h
  · refine Finset.mem_filter.mpr ⟨Finset.mem_product.mpr
      ⟨Finset.mem_range.mpr ha, Finset.mem_range.mpr hb⟩, h, hw⟩
  · refine Finset.mem_filter.mpr ⟨Finset.mem_product.mpr
      ⟨Finset.mem_range.mpr hb, Finset.mem_range.mpr ha⟩, by omega, ?_⟩
    rw [hWsym b a hb ha]
    exact hw

/-- The edges recorded so far by Prim's loop: the normalised pair
`{parent[v], v}` for every included vertex `v ≠ 0`, as a list over the
vertex range. -/
def ArecList (st : PrimState) (n : Nat) : List (Nat × Nat) :=
  (List.range n).filterMap (fun v =>
    if v ≠ 0 ∧ st.in_mst.getD v false = true then
      some (normPair (st.parent.getD v 0).toNat v)
    else none)

/-- The recorded edges as a finite set. -/
def Arec (st : PrimState) (n : Nat) : Finset (Nat × Nat) :=
  (ArecList st n).toFinset

theorem mem_Arec (st : PrimState) (n : Nat) (e : Nat × Nat) :
    e ∈ Arec st n ↔ ∃ v : Nat, v < n ∧ v ≠ 0 ∧
      st.in_mst.getD v false = true ∧
      e = normPair ((st.parent.getD v 0).toNat) v := by
  unfold Arec ArecList
  rw [List.mem_toFinset, List.mem_filterMap]
  constructor
  · rintro ⟨v, hv, hfv⟩
    rw [List.mem_range] at hv
    by_cases hc : v ≠ 0 ∧ st.in_mst.getD v false = true
    · rw [if_pos hc] at hfv
      injection hfv with hfv
      exact ⟨v, hv, hc.1, hc.2, hfv.symm⟩
    · rw [if_neg hc] at hfv
      cases hfv
  · rintro ⟨v, hv, hv0, hvm, rfl⟩
    exact ⟨v, List.mem_range.mpr hv, by rw [if_pos ⟨hv0, hvm⟩]⟩

theorem Arec_congr (stA stB : PrimState) (n : Nat)
    (hm : stB.in_mst = stA.in_mst)
    (hp : ∀ v : Nat, stA.in_mst.getD v false = true →
      stB.parent.getD v 0 = stA.parent.getD v 0) :
    Arec stB n = Arec stA n := by
  apply Finset.ext
  intro e
  rw [mem_Arec, mem_Arec]
  constructor
  · rintro ⟨v, h1, h2, h3, rfl⟩
    rw [hm] at h3
    exact ⟨v, h1, h2, h3, by rw [hp v h3]⟩
  · rintro ⟨v, h1, h2, h3, rfl⟩
    exact ⟨v, h1, h2, by rw [hm]; exact h3, by rw [hp v h3]⟩

theorem Arec_set_mark (st : PrimState) (n u : Nat)
    (hulen : u < st.in_mst.length) (hu0 : u ≠ 0) (hun : u < n) :
    Arec { st with in_mst := st.in_mst.set u true } n
      = insert (normPair ((st.parent.getD u 0).toNat) u) (Arec st n) := by
  apply Finset.ext
  intro e
  rw [mem_Arec, Finset.mem_insert, mem_Arec]
  constructor
  · rintro ⟨v, h1, h2, h3, rfl⟩
    by_cases hvu : v = u
    · exact Or.inl (by rw [hvu])
    · right
      refine ⟨v, h1, h2, ?_, rfl⟩
      have h3' : (st.in_mst.set u true).getD v false = true := h3
      rwa [getD_set_ne _ _ _ (fun h => hvu h.symm)] at h3'
  · rintro (heq | ⟨v, h1, h2, h3, rfl⟩)
    · refine ⟨u, hun, hu0, ?_, heq⟩
      show (st.in_mst.set u true).getD u false = true
      exact getD_set_self _ _ _ _ hulen
    · exact ⟨v, h1, h2, getD_set_true_mono _ _ _ h3, rfl⟩

theorem Arec_set_mark0 (st : PrimState) (n : Nat) :
    Arec { st with in_mst := st.in_mst.set 0 true } n = Arec st n := by
  apply Finset.ext
  intro e
  rw [mem_Arec, mem_Arec]
  constructor
  · rintro ⟨v, h1, h2, h3, rfl⟩
    refine ⟨v, h1, h2, ?_, rfl⟩
    have h3' : (st.in_mst.set 0 true).getD v false = true := h3
    rwa [getD_set_ne _ _ _ (fun h => h2 h.symm)] at h3'
  · rintro ⟨v, h1, h2, h3, rfl⟩
    exact ⟨v, h1, h2, getD_set_true_mono _ _ _ h3, rfl⟩

theorem Arec_edge_props (W : Nat → Nat → Int) (n : Nat) (st : PrimState)
    (hWsym : ∀ a b : Nat, a < n → b < n → W a b = W b a)
    (hWdiag : ∀ a : Nat, a < n → W a a = 0)
    (hinv : PrimInv W n st) :
    ∀ e ∈ Arec st n, st.in_mst.getD e.1 false = true ∧
      st.in_mst.getD e.2 false = true ∧ e ∈ validPairs W n := by
  obtain ⟨l1, l2, l3, hvert, hB, hT⟩ := hinv
  intro e he
  obtain ⟨v, hvn, hv0, hvm, rfl⟩ := (mem_Arec st n e).mp he
  obtain ⟨hp0, hpn, hpm, hpw, hpk⟩ := hT v hvn hvm hv0
  have hpv : (st.parent.getD v 0).toNat ≠ v := by
    intro h
    rw [h] at hpw
    rw [hWdiag v hvn] at hpw
    exact absurd hpw (by omega)
  refine ⟨?_, ?_, normPair_mem_validPairs W n hWsym _ v hpn hvn hpv hpw⟩
  · unfold normPair
    split_ifs with h
    · exact hpm
    · exact hvm
  · unfold normPair
    split_ifs with h
    · exact hvm
    · exact hpm

theorem estep_normPair (E : Finset (Nat × Nat)) (a b : Nat)
    (h : normPair a b ∈ E) : estep E a b := by
  unfold normPair at h
  split_ifs at h
  · exact Or.inl h
  · exact Or.inr h

theorem build_weight_matrix_diag (g : Graph) (v : Nat) :
    build_weight_matrix g v v = 0 := by
  unfold build_weight_matrix
  suffices h : ∀ (l : List EdgeNode) (acc : Int),
      l.foldl (fun acc e => if e.dst = v ∧ v ≠ v then e.weight else acc)
        acc = acc by
    exact h _ 0
  intro l
  induction l with
  | nil => intro acc; rfl
  | cons x t ih =>
    intro acc
    simp only [List.foldl_cons]
    rw [if_neg (by simp)]
    exact ih acc

/-- The spanning/ordering invariant: every included vertex is
connected to the start through the recorded edges, and the recorded
parent links are acyclic (witnessed by a rank function). -/
def PrimInvT (n : Nat) (st : PrimState) : Prop :=
  (∀ v : Nat, v < n → st.in_mst.getD v false = true →
    Relation.ReflTransGen (estep (Arec st n)) 0 v) ∧
  ∃ r : Nat → Nat, ∃ B : Nat,
    (∀ v : Nat, v < n → st.in_mst.getD v false = true → r v ≤ B) ∧
    (∀ v : Nat, v < n → st.in_mst.getD v false = true → v ≠ 0 →
      r ((st.parent.getD v 0).toNat) < r v)

/-- The exchange invariant: as long as some connected spanning edge
set exists at all, the recorded edges extend to a minimum-weight
connected spanning edge set. -/
def PrimInvX (W : Nat → Nat → Int) (n : Nat) (st : PrimState) : Prop :=
  (∃ T₀ : Finset (Nat × Nat), T₀ ⊆ validPairs W n ∧ connOn n T₀) →
  ∃ T : Finset (Nat × Nat), minConn W n T ∧ Arec st n ⊆ T

theorem prim_step_invTX (W : Nat → Nat → Int) (n : Nat) (st : PrimState)
    (hne : st.pq ≠ [])
    (hWsym : ∀ a b : Nat, a < n → b < n → W a b = W b a)
    (hWdiag : ∀ a : Nat, a < n → W a a = 0)
    (hWmax : ∀ a b : Nat, a < n → b < n → W a b < INT_MAX)
    (hinv : PrimInv W n st) (hm : PrimInvM W n st)
    (ht : PrimInvT n st) (hx : PrimInvX W n st) :
    PrimInvT n (prim_step W n st) ∧ PrimInvX W n (prim_step W n st) := by
  obtain ⟨l1, l2, l3, hvert, hB, hTprop⟩ := hinv
  obtain ⟨hheap, hH1, hH2, hK1⟩ := hm
  obtain ⟨hTR, r, B, hrB, hrlt⟩ := ht
  obtain ⟨hplen, hpmem, hsub, hsplit⟩ := pq_pop_spec st.pq hne
  unfold prim_step
  dsimp only
  set e := (pq_pop st.pq).1 with he
  set pq' := (pq_pop st.pq).2 with hpq'
  by_cases hmarked : st.in_mst.getD e.vertex false = true
  · rw [if_pos hmarked]
    have hA : Arec { st with pq := pq' } n = Arec st n :=
      Arec_congr _ _ _ rfl (fun v _ => rfl)
    constructor
    · refine ⟨?_, r, B, hrB, hrlt⟩
      intro v hv hvm
      rw [hA]
      exact hTR v hv hvm
    · intro hS
      obtain ⟨T, hT1, hT2⟩ := hx hS
      rw [hA]
      exact ⟨T, hT1, hT2⟩
  · rw [if_neg hmarked]
    have hu_n : e.vertex < n := hvert e hpmem
    set u := e.vertex with hu
    have humf : st.in_mst.getD u false = false := by
      cases h : st.in_mst.getD u false with
      | false => rfl
      | true => exact absurd h hmarked
    rw [prim_relax_eq]
    set st2 : PrimState :=
      { pq := pq', in_mst := st.in_mst.set u true,
        key := st.key, parent := st.parent } with hst2
    obtain ⟨hmst, hlenk, hmono, hproc, hpar⟩ :=
      prim_relax_fold_spec W u n (List.range n) st2
        (fun v hv => List.mem_range.mp hv) l2
    set stR := (List.range n).foldl (relaxCell W u) st2 with hstR
    have hAR : Arec stR n = Arec st2 n :=
      Arec_congr st2 stR n hmst hpar
    have hmR : ∀ v : Nat, stR.in_mst.getD v false
        = (st.in_mst.set u true).getD v false := by
      intro v
      rw [hmst]
    by_cases hu0 : u = 0
    · -- first extraction: nothing is recorded
      have hA0 : Arec st2 n = Arec st n := by
        have h1 : Arec st2 n
            = Arec { st with in_mst := st.in_mst.set 0 true } n := by
          refine Arec_congr _ _ _ ?_ (fun v _ => rfl)
          show st.in_mst.set u true = st.in_mst.set 0 true
          rw [hu0]
        rw [h1, Arec_set_mark0]
      constructor
      · constructor
        · intro v hvn hvm
          rw [hAR, hA0]
          rw [hmR v] at hvm
          by_cases hvu : v = u
          · rw [hvu, hu0]
          · rw [getD_set_ne _ _ _ (fun h => hvu h.symm)] at hvm
            exact hTR v hvn hvm
        · refine ⟨(fun x => if x = u then B + 1 else r x), B + 1, ?_, ?_⟩
          · intro v hvn hvm
            dsimp only
            split_ifs with hvu
            · exact le_rfl
            · rw [hmR v] at hvm
              rw [getD_set_ne _ _ _ (fun h => hvu h.symm)] at hvm
              exact le_trans (hrB v hvn hvm) (by omega)
          · intro v hvn hvm hv0
            dsimp only
            rw [hmR v] at hvm
            have hvu : v ≠ u := fun h => hv0 (h.trans hu0)
            rw [getD_set_ne _ _ _ (fun h => hvu h.symm)] at hvm
            have hparv : stR.parent.getD v 0 = st.parent.getD v 0 := by
              refine hpar v ?_
              show (st.in_mst.set u true).getD v false = true
              exact getD_set_true_mono _ _ _ hvm
            have hppm := (hTprop v hvn hvm hv0).2.2.1
            have hppar : (st.parent.getD v 0).toNat ≠ u := by
              intro h
              rw [h] at hppm
              exact hmarked hppm
            rw [hparv, if_neg hppar, if_neg hvu]
            exact hrlt v hvn hvm hv0
      · intro hS
        obtain ⟨T, hT1, hT2⟩ := hx hS
        rw [hAR, hA0]
        exact ⟨T, hT1, hT2⟩
    · -- a real vertex is included and its edge recorded
      have hprop_u : properAt W n st u := by
        rcases hB e hpmem with h0 | hm' | hp
        · exact absurd h0 hu0
        · exact absurd hm' hmarked
        · exact hp
      obtain ⟨hp0, hpn, hpm, hpw, hpk⟩ := hprop_u
      set pu := (st.parent.getD u 0).toNat with hpu
      have hpune : pu ≠ u := by
        intro h
        rw [h] at hpm
        exact hmarked hpm
      have hAmark : Arec st2 n = insert (normPair pu u) (Arec st n) := by
        have h1 : Arec st2 n
            = Arec { st with in_mst := st.in_mst.set u true } n :=
          Arec_congr _ _ _ rfl (fun v _ => rfl)
        rw [h1]
        exact Arec_set_mark st n u (by omega) hu0 hu_n
      have hsubA : Arec st n ⊆ Arec stR n := by
        rw [hAR, hAmark]
        exact Finset.subset_insert _ _
      have hTRnew : ∀ v : Nat, v < n → stR.in_mst.getD v false = true →
          Relation.ReflTransGen (estep (Arec stR n)) 0 v := by
        intro v hvn hvm
        rw [hmR v] at hvm
        by_cases hvu : v = u
        · rw [hvu]
          have h0pu : Relation.ReflTransGen (estep (Arec stR n)) 0 pu :=
            estep_rtg_mono hsubA (hTR pu hpn hpm)
          have hedge : estep (Arec stR n) pu u := by
            refine estep_normPair _ _ _ ?_
            rw [hAR, hAmark]
            exact Finset.mem_insert_self _ _
          exact h0pu.tail hedge
        · rw [getD_set_ne _ _ _ (fun h => hvu h.symm)] at hvm
          exact estep_rtg_mono hsubA (hTR v hvn hvm)
      constructor
      · refine ⟨hTRnew, (fun x => if x = u then B + 1 else r x), B + 1,
          ?_, ?_⟩
        · intro v hvn hvm
          dsimp only
          split_ifs with hvu
          · exact le_rfl
          · rw [hmR v] at hvm
            rw [getD_set_ne _ _ _ (fun h => hvu h.symm)] at hvm
            exact le_trans (hrB v hvn hvm) (by omega)
        · intro v hvn hvm hv0
          dsimp only
          rw [hmR v] at hvm
          by_cases hvu : v = u
          · have hparu : stR.parent.getD u 0 = st.parent.getD u 0 := by
              refine hpar u ?_
              show (st.in_mst.set u true).getD u false = true
              exact getD_set_self _ _ _ _ (by omega)
            rw [hvu, hparu, if_neg hpune, if_pos rfl]
            exact lt_of_le_of_lt (hrB pu hpn hpm) (by omega)
          · rw [getD_set_ne _ _ _ (fun h => hvu h.symm)] at hvm
            have hparv : stR.parent.getD v 0 = st.parent.getD v 0 := by
              refine hpar v ?_
              show (st.in_mst.set u true).getD v false = true
              exact getD_set_true_mono _ _ _ hvm
            have hppm := (hTprop v hvn hvm hv0).2.2.1
            have hppar : (st.parent.getD v 0).toNat ≠ u := by
              intro h
              rw [h] at hppm
              exact hmarked hppm
            rw [hparv, if_neg hppar, if_neg hvu]
            exact hrlt v hvn hvm hv0
      · intro hS
        obtain ⟨T, ⟨hTval, hTconn, hTmin⟩, hAT⟩ := hx hS
        rw [hAR, hAmark]
        set eu := normPair pu u with heu
        by_cases heT : eu ∈ T
        · refine ⟨T, ⟨hTval, hTconn, hTmin⟩, ?_⟩
          intro z hz
          rcases Finset.mem_insert.mp hz with rfl | hz'
          · exact heT
          · exact hAT hz'
        · -- the recorded edge is swapped into the optimal set
          have hcut : ∀ a b : Nat, a < n → b < n →
              st.in_mst.getD a false = false →
              st.in_mst.getD b false = true → 0 < W b a →
              e.weight ≤ W b a := by
            intro a b han hbn hau hbm hwab
            have hka : st.key.getD a 0 ≤ W b a := hK1 a han hau b hbn hbm hwab
            have hkalt : st.key.getD a 0 < INT_MAX :=
              lt_of_le_of_lt hka (hWmax b a hbn han)
            obtain ⟨e', he', hev, hew⟩ := hH2 a han hau hkalt
            have hmin := pq_pop_root_min st.pq hne hheap e' he'
            rw [← he] at hmin
            omega
          have hkeyu : W pu u ≤ e.weight := by
            rw [← hpk]
            exact hH1 e hpmem humf
          have hTup : Relation.ReflTransGen (estep T) u pu :=
            (rtg_symm (hTconn u hu_n)).trans (hTconn pu hpn)
          obtain ⟨l, hch, hlast⟩ := rtg_to_chain T hTup
          obtain ⟨f, hfT, a, b, hfab, hMa, hMb, hua⟩ :=
            chain_first_cross T (fun w => st.in_mst.getD w false) l u hch
              humf (by rw [hlast]; exact hpm)
          have hfval := validPairs_spec W n f (hTval hfT)
          have habn : a < n ∧ b < n := by
            rcases hfab with rfl | rfl
            · exact ⟨hfval.2.1, hfval.2.2.1⟩
            · exact ⟨hfval.2.2.1, hfval.2.1⟩
          have hWab : 0 < W b a ∧ W b a = W f.1 f.2 := by
            rcases hfab with rfl | rfl
            · refine ⟨?_, hWsym b a habn.2 habn.1⟩
              rw [hWsym b a habn.2 habn.1]
              exact hfval.2.2.2
            · exact ⟨hfval.2.2.2, rfl⟩
          have hcutf : e.weight ≤ W f.1 f.2 := by
            rw [← hWab.2]
            exact hcut a b habn.1 habn.2 hMa hMb hWab.1
          set T' := insert eu (T.erase f) with hT'
          have heuT' : eu ∉ T.erase f := fun h => heT (Finset.mem_erase.mp h).2
          have heuval : eu ∈ validPairs W n :=
            normPair_mem_validPairs W n hWsym pu u hpn hu_n hpune hpw
          have hAsubE : Arec st n ⊆ T.erase f := by
            intro z hz
            obtain ⟨hz1, hz2, hz3⟩ := Arec_edge_props W n st hWsym hWdiag
              ⟨l1, l2, l3, hvert, hB, hTprop⟩ z hz
            refine Finset.mem_erase.mpr ⟨?_, hAT hz⟩
            intro hzf
            rcases hfab with rfl | rfl
            · have h1 : st.in_mst.getD a false = true := by
                rw [hzf] at hz1
                exact hz1
              rw [hMa] at h1
              cases h1
            · have h1 : st.in_mst.getD a false = true := by
                rw [hzf] at hz2
                exact hz2
              rw [hMa] at h1
              cases h1
          have hsubT' : T.erase f ⊆ T' := Finset.subset_insert _ _
          have hconn_ab : Relation.ReflTransGen (estep T') a b := by
            have ha_u : Relation.ReflTransGen (estep T') a u :=
              rtg_symm (estep_rtg_mono hsubT' hua)
            have hu_pu : Relation.ReflTransGen (estep T') u pu :=
              Relation.ReflTransGen.single
                (estep_symmetric _ (estep_normPair _ _ _
                  (Finset.mem_insert_self _ _)))
            have hpu_0 : Relation.ReflTransGen (estep T') pu 0 :=
              rtg_symm (estep_rtg_mono (fun z hz => hsubT' (hAsubE hz))
                (hTR pu hpn hpm))
            have h0_b : Relation.ReflTransGen (estep T') 0 b :=
              estep_rtg_mono (fun z hz => hsubT' (hAsubE hz))
                (hTR b habn.2 hMb)
            exact ((ha_u.trans hu_pu).trans hpu_0).trans h0_b
          have hfT' : Relation.ReflTransGen (estep T') f.1 f.2 := by
            rcases hfab with rfl | rfl
            · exact hconn_ab
            · exact rtg_symm hconn_ab
          have hconn' : connOn n T' := by
            intro v hvn2
            exact rtg_replace_edge T f T' hsubT' hfT' 0 v (hTconn v hvn2)
          have hval' : T' ⊆ validPairs W n := by
            intro z hz
            rcases Finset.mem_insert.mp hz with rfl | hz'
            · exact heuval
            · exact hTval (Finset.mem_erase.mp hz').2
          have hsum' : wsum W T' ≤ wsum W T := by
            unfold wsum
            rw [hT', Finset.sum_insert heuT']
            have hsplitT : (T.erase f).sum (fun z => W z.1 z.2) + W f.1 f.2
                = T.sum (fun z => W z.1 z.2) :=
              Finset.sum_erase_add T _ hfT
            rw [← hsplitT]
            have heuW : W eu.1 eu.2 = W pu u :=
              W_normPair W n hWsym pu u hpn hu_n
            have : W eu.1 eu.2 ≤ W f.1 f.2 := by
              rw [heuW]
              exact le_trans hkeyu hcutf
            omega
          refine ⟨T', ⟨hval', hconn', fun T'' h1 h2 =>
            le_trans hsum' (hTmin T'' h1 h2)⟩, ?_⟩
          intro z hz
          rcases Finset.mem_insert.mp hz with rfl | hz'
          · exact Finset.mem_insert_self _ _
          · exact Finset.mem_insert_of_mem (hAsubE hz')

theorem prim_loop_invTX (W : Nat → Nat → Int) (n : Nat)
    (hWsym : ∀ a b : Nat, a < n → b < n → W a b = W b a)
    (hWdiag : ∀ a : Nat, a < n → W a a = 0)
    (hWmax : ∀ a b : Nat, a < n → b < n → W a b < INT_MAX) :
    ∀ (fuel : Nat) (st : PrimState), PrimInv W n st → PrimInvM W n st →
    PrimInvT n st → PrimInvX W n st →
    PrimInvT n (prim_loop W n fuel st) ∧
    PrimInvX W n (prim_loop W n fuel st) := by
  intro fuel
  induction fuel with
  | zero => exact fun st _ _ ht hx => ⟨ht, hx⟩
  | succ f ih =>
    intro st hinv hm ht hx
    unfold prim_loop
    by_cases hne : st.pq = []
    · rw [if_pos hne]
      exact ⟨ht, hx⟩
    · rw [if_neg hne]
      obtain ⟨ht', hx'⟩ :=
        prim_step_invTX W n st hne hWsym hWdiag hWmax hinv hm ht hx
      exact ih (prim_step W n st)
        (prim_step_inv W n st hne hinv).1
        (prim_step_invM W n st hne hinv hm) ht' hx'

/-- The initial state of `graph_mst_prim`'s loop satisfies the basic
invariant. -/
theorem prim_initial_inv (W : Nat → Nat → Int) (n : Nat) (hn : 1 ≤ n) :
    PrimInv W n
      { pq := pq_push [] 0 0
        in_mst := List.replicate n false
        key := (List.replicate n INT_MAX).set 0 0
        parent := List.replicate n (-1) } := by
  refine ⟨by simp, by simp, by simp, ?_, ?_, ?_⟩
  · intro e he
    rcases (pq_push_mem [] 0 0).2 e |>.mp he with he' | rfl
    · cases he'
    · show 0 < n
      omega
  · intro e he
    rcases (pq_push_mem [] 0 0).2 e |>.mp he with he' | rfl
    · cases he'
    · exact Or.inl rfl
  · intro v _ hv _
    rw [show (List.replicate n false).getD v false = false from
      getD_replicate_false n v] at hv
    cases hv

theorem prim_initial_invT (n : Nat) :
    PrimInvT n
      { pq := pq_push [] 0 0
        in_mst := List.replicate n false
        key := (List.replicate n INT_MAX).set 0 0
        parent := List.replicate n (-1) } := by
  constructor
  · intro v _ hvm
    rw [show (List.replicate n false).getD v false = false from
      getD_replicate_false n v] at hvm
    cases hvm
  · refine ⟨fun _ => 0, 0, ?_, ?_⟩
    · intro v _ hvm
      rw [show (List.replicate n false).getD v false = false from
        getD_replicate_false n v] at hvm
    · intro v _ hvm _
      rw [show (List.replicate n false).getD v false = false from
        getD_replicate_false n v] at hvm
      exact absurd hvm (by simp)

theorem prim_initial_invX (W : Nat → Nat → Int) (n : Nat) :
    PrimInvX W n
      { pq := pq_push [] 0 0
        in_mst := List.replicate n false
        key := (List.replicate n INT_MAX).set 0 0
        parent := List.replicate n (-1) } := by
  intro hS
  obtain ⟨T, hT⟩ := exists_minConn W n hS
  refine ⟨T, hT, ?_⟩
  intro z hz
  obtain ⟨v, _, _, h3, _⟩ := (mem_Arec _ n z).mp hz
  rw [show (List.replicate n false).getD v false = false from
    getD_replicate_false n v] at h3
  cases h3

theorem filterMap_congr_mem {α β : Type _} (f g : α → Option β) :
    ∀ (l : List α), (∀ a ∈ l, f a = g a) →
    l.filterMap f = l.filterMap g := by
  intro l
  induction l with
  | nil => intro _; rfl
  | cons x t ih =>
    intro h
    cases hgx : g x <;>
      simp [List.filterMap_cons, h x (List.mem_cons_self _ _), hgx,
        ih (fun a ha => h a (List.mem_cons_of_mem _ ha))]

theorem nodup_filterMap_bounded {β : Type _} (n : Nat) (f : Nat → Option β)
    (hinj : ∀ a b : Nat, ∀ c : β, a < n → b < n → f a = some c →
      f b = some c → a = b) :
    ∀ l : List Nat, (∀ v ∈ l, v < n) → l.Nodup →
    (l.filterMap f).Nodup := by
  intro l
  induction l with
  | nil => intro _ _; exact List.nodup_nil
  | cons x t ih =>
    intro hb hnd
    rw [List.filterMap_cons]
    obtain ⟨hxt, hndt⟩ := List.nodup_cons.mp hnd
    cases hfx : f x with
    | none => exact ih (fun v hv => hb v (List.mem_cons_of_mem _ hv)) hndt
    | some c =>
      refine List.nodup_cons.mpr ⟨?_,
        ih (fun v hv => hb v (List.mem_cons_of_mem _ hv)) hndt⟩
      intro hc
      obtain ⟨b, hbt, hfb⟩ := List.mem_filterMap.mp hc
      have hbx : b = x := hinj b x c
        (hb b (List.mem_cons_of_mem _ hbt))
        (hb x (List.mem_cons_self _ _)) hfb hfx
      rw [hbx] at hbt
      exact hxt hbt

/-- In a final state where every vertex was included, the recorded
edges are exactly the emitted edges (as normalised pairs), they form a
connected subgraph of the positive-weight edges without repetition,
their weights sum to the emitted total, and that total is minimal
among all connected spanning edge sets. -/
theorem prim_spanning_facts (W : Nat → Nat → Int) (n : Nat)
    (st : PrimState)
    (hWsym : ∀ a b : Nat, a < n → b < n → W a b = W b a)
    (hWdiag : ∀ a : Nat, a < n → W a a = 0)
    (hinv : PrimInv W n st) (ht : PrimInvT n st) (hx : PrimInvX W n st)
    (hall : ∀ v : Nat, v < n → st.in_mst.getD v false = true) :
    ((List.range n).filterMap (fun v =>
        if v = 0 then none
        else if st.parent.getD v 0 = -1 then none
        else some ((st.parent.getD v 0).toNat, v,
          W (st.parent.getD v 0).toNat v))).map
      (fun e => normPair e.1 e.2.1) = ArecList st n ∧
    Arec st n ⊆ validPairs W n ∧
    connOn n (Arec st n) ∧
    (ArecList st n).Nodup ∧
    (((List.range n).filterMap (fun v =>
        if v = 0 then none
        else if st.parent.getD v 0 = -1 then none
        else some ((st.parent.getD v 0).toNat, v,
          W (st.parent.getD v 0).toNat v))).map (fun e => e.2.2)).sum
      = wsum W (Arec st n) ∧
    (∀ T : Finset (Nat × Nat), T ⊆ validPairs W n → connOn n T →
      wsum W (Arec st n) ≤ wsum W T) := by
  have hTprop : ∀ v : Nat, v < n → st.in_mst.getD v false = true →
      v ≠ 0 → properAt W n st v := hinv.2.2.2.2.2
  have hcell : ∀ v : Nat, v < n → v ≠ 0 →
      (if v = 0 then (none : Option (Nat × Nat × Int))
       else if st.parent.getD v 0 = -1 then none
       else some ((st.parent.getD v 0).toNat, v,
         W (st.parent.getD v 0).toNat v))
        = some ((st.parent.getD v 0).toNat, v,
            W (st.parent.getD v 0).toNat v) ∧
      (if v ≠ 0 ∧ st.in_mst.getD v false = true then
        some (normPair ((st.parent.getD v 0).toNat) v) else none)
        = some (normPair ((st.parent.getD v 0).toNat) v) ∧
      (st.parent.getD v 0).toNat < n := by
    intro v hvn hv0
    have hprop := hTprop v hvn (hall v hvn) hv0
    have hne : st.parent.getD v 0 ≠ -1 := by
      have := hprop.1
      omega
    refine ⟨by rw [if_neg hv0, if_neg hne], by rw [if_pos ⟨hv0, hall v hvn⟩],
      hprop.2.1⟩
  have hA : ((List.range n).filterMap (fun v =>
      if v = 0 then none
      else if st.parent.getD v 0 = -1 then none
      else some ((st.parent.getD v 0).toNat, v,
        W (st.parent.getD v 0).toNat v))).map
      (fun e => normPair e.1 e.2.1) = ArecList st n := by
    rw [List.map_filterMap]
    unfold ArecList
    refine filterMap_congr_mem _ _ _ ?_
    intro v hv
    have hvn := List.mem_range.mp hv
    by_cases hv0 : v = 0
    · simp [hv0]
    · obtain ⟨he1, he2, _⟩ := hcell v hvn hv0
      rw [he1, he2]
      rfl
  have hnd : (ArecList st n).Nodup := by
    unfold ArecList
    obtain ⟨r, B, hrB, hrlt⟩ := ht.2
    refine nodup_filterMap_bounded n _ ?_ (List.range n)
      (fun v hv => List.mem_range.mp hv) (List.nodup_range n)
    intro a b c han hbn hfa hfb
    by_cases hca : a ≠ 0 ∧ st.in_mst.getD a false = true
    · by_cases hcb : b ≠ 0 ∧ st.in_mst.getD b false = true
      · rw [if_pos hca] at hfa
        rw [if_pos hcb] at hfb
        injection hfa with hfa'
        injection hfb with hfb'
        have heq : normPair ((st.parent.getD a 0).toNat) a
            = normPair ((st.parent.getD b 0).toNat) b := by
          rw [hfa', hfb']
        rcases (normPair_eq_iff _ _ _ _).mp heq with ⟨h1, h2⟩ | ⟨h1, h2⟩
        · exact h2
        · have ra := hrlt a han hca.2 hca.1
          have rb := hrlt b hbn hcb.2 hcb.1
          rw [h1] at ra
          rw [← h2] at rb
          omega
      · rw [if_neg hcb] at hfb
        exact Option.noConfusion hfb
    · rw [if_neg hca] at hfa
      exact Option.noConfusion hfa
  have hsubV : Arec st n ⊆ validPairs W n :=
    fun z hz => (Arec_edge_props W n st hWsym hWdiag hinv z hz).2.2
  have hconn : connOn n (Arec st n) :=
    fun v hv => ht.1 v hv (hall v hv)
  have hsum : (((List.range n).filterMap (fun v =>
      if v = 0 then none
      else if st.parent.getD v 0 = -1 then none
      else some ((st.parent.getD v 0).toNat, v,
        W (st.parent.getD v 0).toNat v))).map (fun e => e.2.2)).sum
      = wsum W (Arec st n) := by
    unfold wsum Arec
    rw [List.sum_toFinset _ hnd, List.map_filterMap]
    unfold ArecList
    rw [List.map_filterMap]
    refine congrArg List.sum (filterMap_congr_mem _ _ _ ?_)
    intro v hv
    have hvn := List.mem_range.mp hv
    by_cases hv0 : v = 0
    · simp [hv0]
    · obtain ⟨he1, he2, hpn⟩ := hcell v hvn hv0
      rw [he1, he2]
      show some (W ((st.parent.getD v 0).toNat) v)
        = some (W (normPair ((st.parent.getD v 0).toNat) v).1
            (normPair ((st.parent.getD v 0).toNat) v).2)
      rw [W_normPair W n hWsym _ v hpn hvn]
  have hmin : ∀ T : Finset (Nat × Nat), T ⊆ validPairs W n → connOn n T →
      wsum W (Arec st n) ≤ wsum W T := by
    intro T hTv hTc
    obtain ⟨Tm, hTm, hsubA⟩ := hx ⟨T, hTv, hTc⟩
    refine le_trans ?_ (hTm.2.2 T hTv hTc)
    unfold wsum
    refine Finset.sum_le_sum_of_subset_of_nonneg hsubA ?_
    intro z hzT hzA
    exact le_of_lt (validPairs_spec W n z (hTm.1 hzT)).2.2.2
  exact ⟨hA, hsubV, hconn, hnd, hsum, hmin⟩

/-- Claim C3: for every graph whose weight matrix is symmetric with
entries below `INT_MAX`, `graph_mst_prim`'s result `r` satisfies:
`r.total_weight` equals the sum of the emitted edges' weights; the
number of emitted edges equals `n - 1` exactly when `r.is_connected`;
and when connected, the emitted edges (as normalised pairs) form a
spanning tree — a repetition-free connected subset of the
positive-weight matrix edges with `n - 1` elements — whose total
weight is at most the weight of every connected spanning edge set of
the matrix, in particular of every spanning tree. -/
theorem mst_prim_correct (g : Graph) (r : MST_Result)
    (hWsym : ∀ a : Nat, a < g.n → ∀ b : Nat, b < g.n →
      build_weight_matrix g a b = build_weight_matrix g b a)
    (hWmax : ∀ a : Nat, a < g.n → ∀ b : Nat, b < g.n →
      build_weight_matrix g a b < INT_MAX)
    (h : graph_mst_prim g = some r) :
    r.total_weight = (r.edges.map (fun e => e.2.2)).sum ∧
    (r.edges.length = g.n - 1 ↔ r.is_connected = true) ∧
    (r.is_connected = true →
      (r.edges.map (fun e => normPair e.1 e.2.1)).toFinset
          ⊆ validPairs (build_weight_matrix g) g.n ∧
      connOn g.n (r.edges.map (fun e => normPair e.1 e.2.1)).toFinset ∧
      (r.edges.map (fun e => normPair e.1 e.2.1)).toFinset.card
          = g.n - 1 ∧
      ∀ T : Finset (Nat × Nat),
        T ⊆ validPairs (build_weight_matrix g) g.n → connOn g.n T →
        r.total_weight ≤ wsum (build_weight_matrix g) T) := by
  refine ⟨mst_total_eq_sum g r h, mst_edges_iff_connected g r h, ?_⟩
  intro hconn
  have hlen := (mst_edges_iff_connected g r h).mpr hconn
  unfold graph_mst_prim at h
  dsimp only at h
  split_ifs at h with h1 h2 h3
  · -- single vertex: no edges, weight zero
    injection h with h
    subst h
    refine ⟨?_, ?_, ?_, ?_⟩
    · intro z hz
      simp at hz
    · intro v hv
      have hv0 : v = 0 := by omega
      subst hv0
      exact Relation.ReflTransGen.refl
    · rw [h2]
      simp
    · intro T hTv hTc
      show (0 : Int) ≤ wsum (build_weight_matrix g) T
      refine Finset.sum_nonneg ?_
      intro z hz
      exact le_of_lt (validPairs_spec _ _ z (hTv hz)).2.2.2
  · -- disconnected results are excluded by the premise
    injection h with h
    subst h
    exact absurd hconn (by simp)
  · -- connected: use the loop invariants at the final state
    have hn2 : 2 ≤ g.n := by omega
    have hWdiag : ∀ a : Nat, a < g.n → build_weight_matrix g a a = 0 :=
      fun a _ => build_weight_matrix_diag g a
    set st0 : PrimState :=
      { pq := pq_push [] 0 0
        in_mst := List.replicate g.n false
        key := (List.replicate g.n INT_MAX).set 0 0
        parent := List.replicate g.n (-1) } with hst0
    set stF := prim_loop (build_weight_matrix g) g.n
      (1 + 1 + g.n * (g.n + 1)) st0 with hstF
    have hI := prim_initial_inv (build_weight_matrix g) g.n (by omega)
    have hIM := prim_initial_invM (build_weight_matrix g) g.n (by omega)
    have hF : PrimInv (build_weight_matrix g) g.n stF :=
      (prim_loop_inv _ _ _ st0 hI).1
    have hFM : PrimInvM (build_weight_matrix g) g.n stF :=
      prim_loop_invM _ _ _ st0 hI hIM
    have hWsym2 : ∀ a b : Nat, a < g.n → b < g.n →
        build_weight_matrix g a b = build_weight_matrix g b a :=
      fun a b ha hb => hWsym a ha b hb
    have hWmax2 : ∀ a b : Nat, a < g.n → b < g.n →
        build_weight_matrix g a b < INT_MAX :=
      fun a b ha hb => hWmax a ha b hb
    obtain ⟨hFT, hFX⟩ := prim_loop_invTX (build_weight_matrix g) g.n
      hWsym2 hWdiag hWmax2 _ st0 hI hIM (prim_initial_invT g.n)
      (prim_initial_invX _ g.n)
    have hall : ∀ v : Nat, v < g.n → stF.in_mst.getD v false = true := by
      have hlen_eq : (List.range g.n).countP
          (fun i => stF.in_mst.getD i false)
          = (List.range g.n).length := by
        rw [List.length_range]
        exact not_not.mp h3
      exact fun v hv =>
        List.countP_eq_length.mp hlen_eq v (List.mem_range.mpr hv)
    obtain ⟨hA, hsubV, hconnA, hnd, hsum, hmin⟩ :=
      prim_spanning_facts (build_weight_matrix g) g.n stF hWsym2 hWdiag
        hF hFT hFX hall
    injection h with h
    subst h
    have hPA : (((List.range g.n).filterMap (fun v =>
        if v = 0 then none
        else if stF.parent.getD v 0 = -1 then none
        else some ((stF.parent.getD v 0).toNat, v,
          build_weight_matrix g (stF.parent.getD v 0).toNat v))).map
        (fun e => normPair e.1 e.2.1)).toFinset
        = Arec stF g.n := by
      rw [hA]
      rfl
    refine ⟨?_, ?_, ?_, ?_⟩
    · rw [hPA]
      exact hsubV
    · rw [hPA]
      exact hconnA
    · rw [hPA]
      show (ArecList stF g.n).toFinset.card = g.n - 1
      rw [List.toFinset_card_of_nodup hnd, ← hA, List.length_map]
      exact hlen
    · intro T hTv hTc
      show ((((List.range g.n).filterMap (fun v =>
          if v = 0 then none
          else if stF.parent.getD v 0 = -1 then none
          else some ((stF.parent.getD v 0).toNat, v,
            build_weight_matrix g (stF.parent.getD v 0).toNat v))).map
          (fun e => e.2.2)).sum : Int)
        ≤ wsum (build_weight_matrix g) T
      rw [hsum]
      exact hmin T hTv hTc

/-- Concrete run of `mst_prim_correct` on the weighted triangle. -/
theorem mst_prim_correct_witness :
    (∀ a : Nat, a < 3 → ∀ b : Nat, b < 3 →
      build_weight_matrix
          ⟨3, [[⟨1, 1⟩, ⟨2, 1⟩], [⟨0, 1⟩, ⟨2, 1⟩], [⟨0, 1⟩, ⟨1, 1⟩]]⟩ a b
        = build_weight_matrix
          ⟨3, [[⟨1, 1⟩, ⟨2, 1⟩], [⟨0, 1⟩, ⟨2, 1⟩], [⟨0, 1⟩, ⟨1, 1⟩]]⟩ b a) ∧
    graph_mst_prim ⟨3, [[⟨1, 1⟩, ⟨2, 1⟩], [⟨0, 1⟩, ⟨2, 1⟩], [⟨0, 1⟩, ⟨1, 1⟩]]⟩
      = some ⟨[(0, 1, 1), (0, 2, 1)], 2, true⟩ ∧
    ((2 : Int) = ([(0, 1, 1), (0, 2, 1)].map
        (fun e : Nat × Nat × Int => e.2.2)).sum ∧
      ([(0, 1, 1), (0, 2, 1)].length = 3 - 1 ↔ true = true) ∧
      (true = true →
        ([(0, 1, 1), (0, 2, 1)].map
            (fun e : Nat × Nat × Int => normPair e.1 e.2.1)).toFinset
          ⊆ validPairs (build_weight_matrix
              ⟨3, [[⟨1, 1⟩, ⟨2, 1⟩], [⟨0, 1⟩, ⟨2, 1⟩], [⟨0, 1⟩, ⟨1, 1⟩]]⟩) 3 ∧
        connOn 3 ([(0, 1, 1), (0, 2, 1)].map
            (fun e : Nat × Nat × Int => normPair e.1 e.2.1)).toFinset ∧
        ([(0, 1, 1), (0, 2, 1)].map
            (fun e : Nat × Nat × Int => normPair e.1 e.2.1)).toFinset.card
          = 3 - 1 ∧
        ∀ T : Finset (Nat × Nat),
          T ⊆ validPairs (build_weight_matrix
            ⟨3, [[⟨1, 1⟩, ⟨2, 1⟩], [⟨0, 1⟩, ⟨2, 1⟩], [⟨0, 1⟩, ⟨1, 1⟩]]⟩) 3 →
          connOn 3 T →
          (2 : Int) ≤ wsum (build_weight_matrix
            ⟨3, [[⟨1, 1⟩, ⟨2, 1⟩], [⟨0, 1⟩, ⟨2, 1⟩], [⟨0, 1⟩, ⟨1, 1⟩]]⟩) T)) :=
  ⟨by decide, by decide,
    mst_prim_correct
      ⟨3, [[⟨1, 1⟩, ⟨2, 1⟩], [⟨0, 1⟩, ⟨2, 1⟩], [⟨0, 1⟩, ⟨1, 1⟩]]⟩
      ⟨[(0, 1, 1), (0, 2, 1)], 2, true⟩
      (by decide) (by decide) (by decide)⟩

/-! ### Euler circuit: the edge view (`build_edge_view` from `graph.c`) -/

/-- `EdgeView` from `graph.c`: the undirected edge list (normalised
`u ≤ v` pairs) and, per vertex, the incidence list of edge indices
(a self-loop index is stored twice). -/
structure EdgeView where
  n : Nat
  edges : List (Nat × Nat)
  incid : List (List Nat)
deriving Repr, DecidableEq

/-- The working state of `build_edge_view`: edges and incidences so
far, plus the per-vertex half-loop counters (`loop_half`). -/
structure BEV where
  edges : List (Nat × Nat)
  incid : List (List Nat)
  lh : List Nat
deriving Repr, DecidableEq

/-- One adjacency entry of vertex `u` processed by `build_edge_view`:
every second `u → u` entry records one self-loop edge (its index
pushed twice on `incid[u]`), a `u → v` entry with `u < v` records the
edge `(u, v)` (index pushed on `incid[u]` then `incid[v]`), entries
with `u > v` are skipped. -/
def bev_entry (u : Nat) (st : BEV) (e : EdgeNode) : BEV :=
  let v := e.dst
  if u = v then
    let c := st.lh.getD u 0 + 1
    if c % 2 = 0 then
      let idx := st.edges.length
      ⟨st.edges ++ [(u, u)],
       st.incid.set u ((st.incid.getD u []) ++ [idx, idx]),
       st.lh.set u c⟩
    else ⟨st.edges, st.incid, st.lh.set u c⟩
  else if u < v then
    let idx := st.edges.length
    let incid1 := st.incid.set u ((st.incid.getD u []) ++ [idx])
    ⟨st.edges ++ [(u, v)],
     incid1.set v ((incid1.getD v []) ++ [idx]),
     st.lh⟩
  else st

/-- `build_edge_view` from `graph.c` (allocation failures are not
modelled): process every adjacency entry of every vertex in order. -/
def build_edge_view (g : Graph) : EdgeView :=
  let st := (List.range g.n).foldl
    (fun st u => (g.adjList u).foldl (bev_entry u) st)
    ⟨[], List.replicate g.n [], List.replicate g.n 0⟩
  ⟨g.n, st.edges, st.incid⟩

/-- How often vertex `x` occurs as an endpoint of the undirected edge
`e` (2 for a self-loop at `x`). -/
def evMult (e : Nat × Nat) (x : Nat) : Nat :=
  (if e.1 = x then 1 else 0) + (if e.2 = x then 1 else 0)

/-- Total incidence degree of `x` over an edge list. -/
def evDegAll (edges : List (Nat × Nat)) (x : Nat) : Nat :=
  (edges.map (fun e => evMult e x)).sum

/-! ### Euler circuit: Hierholzer's walk (`graph_find_euler_circuit`) -/

/-- The mutable state of the walk: the vertex stack (top first), the
output path so far (most recently emitted vertex first — the C code
appends and reverses at the very end, which yields this list), the
used-edge flags and the per-vertex incidence iterators. -/
structure EulerState where
  stack : List Nat
  path : List Nat
  used : List Bool
  it : List Nat
deriving Repr, DecidableEq

/-- The iterator-advancing loop
`while (it[u] < n && used[incid[u][it[u]]]) it[u]++`, with an explicit
step budget (`|incid[u]| - i` steps always suffice). -/
def skip_used (incu : List Nat) (used : List Bool) : Nat → Nat → Nat
  | 0, i => i
  | fuel + 1, i =>
    if i < incu.length ∧ used.getD (incu.getD i 0) false = true then
      skip_used incu used fuel (i + 1)
    else i

/-- One iteration of the Hierholzer loop: advance the top vertex's
iterator past used edges; if exhausted, move the top vertex to the
path, otherwise traverse (and mark) the next incident edge. -/
def euler_step (ev : EdgeView) (σ : EulerState) : EulerState :=
  match σ.stack with
  | [] => σ
  | u :: rest =>
    let incu := ev.incid.getD u []
    let i := skip_used incu σ.used (incu.length + 1) (σ.it.getD u 0)
    if i = incu.length then
      ⟨rest, u :: σ.path, σ.used, σ.it.set u i⟩
    else
      let ei := incu.getD i 0
      if σ.used.getD ei false = true then
        ⟨u :: rest, σ.path, σ.used, σ.it.set u (i + 1)⟩
      else
        let p := ev.edges.getD ei (0, 0)
        let v := if u = p.1 then p.2 else p.1
        ⟨v :: u :: rest, σ.path, σ.used.set ei true, σ.it.set u (i + 1)⟩

/-- The `while (stack.n)` loop with an explicit step budget (the
potential `2·Σ remaining iterator capacity + stack size` strictly
decreases, so the budget used by `graph_find_euler_circuit` below
always suffices). -/
def euler_loop (ev : EdgeView) : Nat → EulerState → EulerState
  | 0, σ => σ
  | fuel + 1, σ =>
    if σ.stack = [] then σ
    else euler_loop ev fuel (euler_step ev σ)

/-- `graph_find_euler_circuit` from `graph.c` (allocation failures are
not modelled): fail unless `graph_has_euler_circuit` passes, build the
edge view, start at the first vertex with incident edges, run the
stack walk, and return the collected path (already in final order
here, see `EulerState.path`). -/
def graph_find_euler_circuit (g : Graph) : Option (List Nat) :=
  if ¬ g.graph_has_euler_circuit then none
  else
    let ev := build_edge_view g
    match (List.range ev.n).find? (fun i => !(ev.incid.getD i []).isEmpty) with
    | none => none
    | some start =>
      let σF := euler_loop ev (2 * (ev.incid.map List.length).sum + 2)
        ⟨[start], [], List.replicate ev.edges.length false,
          List.replicate ev.n 0⟩
      if σF.path.length < 1 then none else some σF.path

/-! ### Euler circuit: pair multisets -/

/-- The consecutive unordered pairs of a vertex sequence. -/
def pairsOf : List Nat → Multiset (Nat × Nat)
  | [] => 0
  | [_] => 0
  | a :: b :: t => normPair a b ::ₘ pairsOf (b :: t)

/-- The multiset of edges marked used. -/
def usedPairs (edges : List (Nat × Nat)) (used : List Bool) :
    Multiset (Nat × Nat) :=
  ((edges.zip used).filterMap (fun p => if p.2 then some p.1 else none) :
    List (Nat × Nat))

/-- Remaining (unused) incidence degree of `x`. -/
def unusedDeg (edges : List (Nat × Nat)) (used : List Bool) (x : Nat) :
    Nat :=
  ((edges.zip used).map (fun p => if p.2 then 0 else evMult p.1 x)).sum

theorem getD_append_left_gen {α : Type _} (l l2 : List α) (d : α)
    (k : Nat) (hk : k < l.length) : (l ++ l2).getD k d = l.getD k d := by
  rw [List.getD_eq_getElem _ _ (by rw [List.length_append]; omega),
    List.getD_eq_getElem _ _ hk]
  exact List.getElem_append_left hk

theorem getD_append_self {α : Type _} (l : List α) (a d : α) :
    (l ++ [a]).getD l.length d = a := by
  rw [List.getD_eq_getElem _ _ (by rw [List.length_append]; simp)]
  rw [List.getElem_append_right le_rfl]
  simp

/-- The invariant of `build_edge_view`'s fold: array lengths, each
recorded edge is a normalised in-range pair backed by an adjacency
entry, each incidence entry indexes an edge with that endpoint, and
each edge is present in both endpoints' incidence lists. -/
def BEVinv (g : Graph) (n : Nat) (st : BEV) : Prop :=
  st.incid.length = n ∧ st.lh.length = n ∧
  (∀ p ∈ st.edges, p.1 ≤ p.2 ∧ p.2 < n ∧ ∃ e ∈ g.adjList p.1, e.dst = p.2) ∧
  (∀ x : Nat, ∀ idx ∈ st.incid.getD x [], idx < st.edges.length ∧
    ((st.edges.getD idx (0, 0)).1 = x ∨ (st.edges.getD idx (0, 0)).2 = x)) ∧
  (∀ idx : Nat, idx < st.edges.length →
    idx ∈ st.incid.getD (st.edges.getD idx (0, 0)).1 [] ∧
    idx ∈ st.incid.getD (st.edges.getD idx (0, 0)).2 [])

theorem evDegAll_append (l l2 : List (Nat × Nat)) (x : Nat) :
    evDegAll (l ++ l2) x = evDegAll l x + evDegAll l2 x := by
  unfold evDegAll
  rw [List.map_append, List.sum_append]

theorem bev_entry_inv (g : Graph) (n u : Nat) (hun : u < n) (st : BEV)
    (e : EdgeNode) (he : e ∈ g.adjList u) (hdst : e.dst < n)
    (hinv : BEVinv g n st) :
    BEVinv g n (bev_entry u st e) ∧
    (∀ idx : Nat, idx < st.edges.length →
      (bev_entry u st e).edges.getD idx (0, 0)
        = st.edges.getD idx (0, 0)) ∧
    st.edges.length ≤ (bev_entry u st e).edges.length ∧
    (∀ p ∈ st.edges, p ∈ (bev_entry u st e).edges) ∧
    (u < e.dst → (u, e.dst) ∈ (bev_entry u st e).edges) ∧
    (∀ x : Nat, evDegAll (bev_entry u st e).edges x % 2
      = (evDegAll st.edges x +
         (if x = u ∧ u < e.dst then 1 else 0) +
         (if e.dst = x ∧ u < x then 1 else 0)) % 2) := by
  obtain ⟨hIl, hLl, hE, hI1, hM1⟩ := hinv
  unfold bev_entry
  dsimp only
  split_ifs with h1 h2 h3
  · -- completed self-loop: record edge (u, u)
    set idx0 := st.edges.length with hidx0
    refine ⟨⟨by simp [hIl], by simp [hLl], ?_, ?_, ?_⟩, ?_, ?_, ?_, ?_, ?_⟩
    · intro p hp
      rcases List.mem_append.mp hp with hp' | hp'
      · exact hE p hp'
      · rw [List.mem_singleton.mp hp']
        exact ⟨le_rfl, hun, ⟨e, he, h1.symm⟩⟩
    · intro x idx hidx
      by_cases hx : x = u
      · subst hx
        rw [getD_set_self _ _ _ _ (by omega)] at hidx
        rcases List.mem_append.mp hidx with hidx' | hidx'
        · obtain ⟨hlt, hend⟩ := hI1 x idx hidx'
          rw [List.length_append, List.length_singleton]
          exact ⟨by omega, by rw [getD_append_left_gen _ _ _ _ hlt]; exact hend⟩
        · have hid : idx = idx0 := by
            simpa using hidx'
          subst hid
          rw [List.length_append, List.length_singleton]
          refine ⟨by omega, ?_⟩
          rw [getD_append_self]
          exact Or.inl rfl
      · rw [getD_set_ne _ _ _ (fun h => hx h.symm)] at hidx
        obtain ⟨hlt, hend⟩ := hI1 x idx hidx
        rw [List.length_append, List.length_singleton]
        exact ⟨by omega, by rw [getD_append_left_gen _ _ _ _ hlt]; exact hend⟩
    · intro idx hidx
      rw [List.length_append, List.length_singleton] at hidx
      by_cases hlt : idx < st.edges.length
      · rw [getD_append_left_gen _ _ _ _ hlt]
        obtain ⟨hm1, hm2⟩ := hM1 idx hlt
        constructor
        · by_cases hp : (st.edges.getD idx (0, 0)).1 = u
          · rw [hp]
            rw [getD_set_self _ _ _ _ (by omega)]
            exact List.mem_append_left _ (hp ▸ hm1)
          · rw [getD_set_ne _ _ _ (fun h => hp h.symm)]
            exact hm1
        · by_cases hp : (st.edges.getD idx (0, 0)).2 = u
          · rw [hp]
            rw [getD_set_self _ _ _ _ (by omega)]
            exact List.mem_append_left _ (hp ▸ hm2)
          · rw [getD_set_ne _ _ _ (fun h => hp h.symm)]
            exact hm2
      · have hid : idx = idx0 := by omega
        subst hid
        rw [getD_append_self]
        rw [getD_set_self _ _ _ _ (by omega)]
        constructor
        · exact List.mem_append_right _ (by simp)
        · exact List.mem_append_right _ (by simp)
    · intro idx hidx
      exact getD_append_left_gen _ _ _ _ hidx
    · rw [List.length_append]
      omega
    · intro p hp
      exact List.mem_append_left _ hp
    · intro hlt
      exact absurd hlt (by omega)
    · intro x
      dsimp only
      rw [evDegAll_append]
      have hm : evDegAll [(u, u)] x = if x = u then 2 else 0 := by
        unfold evDegAll evMult
        by_cases hx : x = u
        · simp [hx]
        · have hux : u ≠ x := fun h => hx h.symm
          simp [hx, hux]
      rw [hm]
      have hc1 : (if x = u ∧ u < e.dst then 1 else 0) = 0 := by
        rw [if_neg]
        intro hcon
        omega
      have hc2 : (if e.dst = x ∧ u < x then 1 else 0) = 0 := by
        rw [if_neg]
        intro hcon
        omega
      rw [hc1, hc2]
      split_ifs with hx <;> omega
  · -- half self-loop: only the counter moves
    refine ⟨⟨hIl, by simp [hLl], hE, hI1, hM1⟩, fun idx _ => rfl, le_rfl,
      fun p hp => hp, ?_, ?_⟩
    · intro hlt
      exact absurd hlt (by omega)
    · intro x
      have hc1 : (if x = u ∧ u < e.dst then 1 else 0) = 0 := by
        rw [if_neg]
        intro hcon
        omega
      have hc2 : (if e.dst = x ∧ u < x then 1 else 0) = 0 := by
        rw [if_neg]
        intro hcon
        omega
      rw [hc1, hc2]
      dsimp only
      omega
  · -- new cross edge (u, e.dst)
    set idx0 := st.edges.length with hidx0
    have hne : u ≠ e.dst := h1
    refine ⟨⟨by simp [hIl], hLl, ?_, ?_, ?_⟩, ?_, ?_, ?_, ?_, ?_⟩
    · intro p hp
      rcases List.mem_append.mp hp with hp' | hp'
      · exact hE p hp'
      · rw [List.mem_singleton.mp hp']
        exact ⟨le_of_lt h3, hdst, ⟨e, he, rfl⟩⟩
    · intro x idx hidx
      have hgx : ((st.incid.set u ((st.incid.getD u []) ++ [idx0])).set e.dst
          (((st.incid.set u ((st.incid.getD u []) ++ [idx0])).getD e.dst [])
            ++ [idx0])).getD x []
          = if x = e.dst then (st.incid.getD e.dst []) ++ [idx0]
            else if x = u then (st.incid.getD u []) ++ [idx0]
            else st.incid.getD x [] := by
        by_cases hxv : x = e.dst
        · rw [if_pos hxv, hxv,
            getD_set_self _ _ _ _ (by rw [List.length_set]; omega),
            getD_set_ne _ _ _ hne]
        · rw [if_neg hxv, getD_set_ne _ _ _ (fun h => hxv h.symm)]
          by_cases hxu : x = u
          · rw [if_pos hxu, hxu, getD_set_self _ _ _ _ (by omega)]
          · rw [if_neg hxu, getD_set_ne _ _ _ (fun h => hxu h.symm)]
      rw [hgx] at hidx
      rw [List.length_append, List.length_singleton]
      split_ifs at hidx with hxv hxu
      · rcases List.mem_append.mp hidx with hidx' | hidx'
        · obtain ⟨hlt, hend⟩ := hI1 x idx (hxv ▸ hidx')
          exact ⟨by omega, by rw [getD_append_left_gen _ _ _ _ hlt]; exact hend⟩
        · have hid : idx = idx0 := List.mem_singleton.mp hidx'
          subst hid
          refine ⟨by omega, ?_⟩
          rw [getD_append_self]
          exact Or.inr hxv.symm
      · rcases List.mem_append.mp hidx with hidx' | hidx'
        · obtain ⟨hlt, hend⟩ := hI1 x idx (hxu ▸ hidx')
          exact ⟨by omega, by rw [getD_append_left_gen _ _ _ _ hlt]; exact hend⟩
        · have hid : idx = idx0 := List.mem_singleton.mp hidx'
          subst hid
          refine ⟨by omega, ?_⟩
          rw [getD_append_self]
          exact Or.inl hxu.symm
      · obtain ⟨hlt, hend⟩ := hI1 x idx hidx
        exact ⟨by omega, by rw [getD_append_left_gen _ _ _ _ hlt]; exact hend⟩
    · intro idx hidx
      rw [List.length_append, List.length_singleton] at hidx
      have hgx : ∀ y : Nat,
          ((st.incid.set u ((st.incid.getD u []) ++ [idx0])).set e.dst
          (((st.incid.set u ((st.incid.getD u []) ++ [idx0])).getD e.dst [])
            ++ [idx0])).getD y []
          = if y = e.dst then (st.incid.getD e.dst []) ++ [idx0]
            else if y = u then (st.incid.getD u []) ++ [idx0]
            else st.incid.getD y [] := by
        intro y
        by_cases hxv : y = e.dst
        · rw [if_pos hxv, hxv,
            getD_set_self _ _ _ _ (by rw [List.length_set]; omega),
            getD_set_ne _ _ _ hne]
        · rw [if_neg hxv, getD_set_ne _ _ _ (fun h => hxv h.symm)]
          by_cases hxu : y = u
          · rw [if_pos hxu, hxu, getD_set_self _ _ _ _ (by omega)]
          · rw [if_neg hxu, getD_set_ne _ _ _ (fun h => hxu h.symm)]
      by_cases hlt : idx < st.edges.length
      · rw [getD_append_left_gen _ _ _ _ hlt]
        obtain ⟨hm1, hm2⟩ := hM1 idx hlt
        constructor
        · rw [hgx]
          split_ifs with hp hq
          · exact List.mem_append_left _ (hp ▸ hm1)
          · exact List.mem_append_left _ (hq ▸ hm1)
          · exact hm1
        · rw [hgx]
          split_ifs with hp hq
          · exact List.mem_append_left _ (hp ▸ hm2)
          · exact List.mem_append_left _ (hq ▸ hm2)
          · exact hm2
      · have hid : idx = idx0 := by omega
        subst hid
        rw [getD_append_self]
        dsimp only
        constructor
        · rw [hgx u, if_neg hne, if_pos rfl]
          exact List.mem_append_right _ (by simp)
        · rw [hgx e.dst, if_pos rfl]
          exact List.mem_append_right _ (by simp)
    · intro idx hidx
      exact getD_append_left_gen _ _ _ _ hidx
    · rw [List.length_append]
      omega
    · intro p hp
      exact List.mem_append_left _ hp
    · intro _
      exact List.mem_append_right _ (by simp)
    · intro x
      dsimp only
      rw [evDegAll_append]
      have hm : evDegAll [(u, e.dst)] x
          = (if u = x then 1 else 0) + (if e.dst = x then 1 else 0) := by
        unfold evDegAll evMult
        simp
      rw [hm]
      split_ifs <;> omega
  · -- entry with u > v: skipped
    refine ⟨⟨hIl, hLl, hE, hI1, hM1⟩, fun idx _ => rfl, le_rfl,
      fun p hp => hp, ?_, ?_⟩
    · intro hlt
      exact absurd hlt h3
    · intro x
      have hc1 : (if x = u ∧ u < e.dst then 1 else 0) = 0 := by
        rw [if_neg]
        intro hcon
        exact h3 hcon.2
      have hc2 : (if e.dst = x ∧ u < x then 1 else 0) = 0 := by
        rw [if_neg]
        intro hcon
        omega
      rw [hc1, hc2]
      omega

theorem countP_lt_succ (l : List EdgeNode) (k : Nat) :
    l.countP (fun e => decide (e.dst < k + 1))
      = l.countP (fun e => decide (e.dst < k))
        + l.countP (fun e => e.dst == k) := by
  induction l with
  | nil => rfl
  | cons x t ih =>
    simp only [List.countP_cons]
    by_cases h1 : x.dst < k + 1 <;> by_cases h2 : x.dst < k <;>
      by_cases h3 : x.dst = k <;> simp [h1, h2, h3] <;> omega

theorem countP_dst_lt (l : List EdgeNode) :
    ∀ k : Nat, ((List.range k).map
      (fun u => l.countP (fun e => e.dst == u))).sum
      = l.countP (fun e => decide (e.dst < k)) := by
  intro k
  induction k with
  | zero =>
    simp [List.countP_eq_zero]
  | succ k ih =>
    rw [List.range_succ, List.map_append, List.sum_append]
    simp only [List.map_cons, List.map_nil, List.sum_cons, List.sum_nil]
    rw [ih, countP_lt_succ]
    omega

theorem countP_trichotomy (l : List EdgeNode) (x : Nat) :
    l.length = l.countP (fun e => decide (e.dst < x))
      + l.countP (fun e => e.dst == x)
      + l.countP (fun e => decide (x < e.dst)) := by
  induction l with
  | nil => rfl
  | cons a t ih =>
    simp only [List.countP_cons, List.length_cons]
    by_cases h1 : a.dst < x <;> by_cases h2 : a.dst = x <;>
      by_cases h3 : x < a.dst <;> simp [h1, h2, h3] <;> omega

theorem sum_ite_eq_single (x : Nat) (A : Nat → Nat) :
    ∀ n : Nat, x < n →
    ((List.range n).map (fun u => if x = u then A u else 0)).sum = A x := by
  intro n
  induction n with
  | zero => omega
  | succ n ih =>
    intro hx
    rw [List.range_succ, List.map_append, List.sum_append]
    simp only [List.map_cons, List.map_nil, List.sum_cons, List.sum_nil]
    by_cases hxn : x = n
    · subst hxn
      rw [if_pos rfl]
      have hz : ((List.range x).map
          (fun u => if x = u then A u else 0)).sum = 0 := by
        refine List.sum_eq_zero ?_
        intro y hy
        obtain ⟨u, hu, rfl⟩ := List.mem_map.mp hy
        rw [if_neg]
        intro h
        rw [← h] at hu
        exact absurd (List.mem_range.mp hu) (lt_irrefl x)
      rw [hz]
      omega
    · rw [if_neg hxn, ih (by omega)]
      omega

theorem sum_ite_lt (x : Nat) (B : Nat → Nat) :
    ∀ n : Nat, x ≤ n →
    ((List.range n).map (fun u => if u < x then B u else 0)).sum
      = ((List.range x).map B).sum := by
  intro n
  induction n with
  | zero =>
    intro hx
    have hx0 : x = 0 := by omega
    subst hx0
    rfl
  | succ n ih =>
    intro hx
    rw [List.range_succ, List.map_append, List.sum_append]
    simp only [List.map_cons, List.map_nil, List.sum_cons, List.sum_nil]
    by_cases hxn : x = n + 1
    · subst hxn
      rw [if_pos (by omega)]
      have hmap : ((List.range n).map
          (fun u => if u < n + 1 then B u else 0)).sum
          = ((List.range n).map B).sum := by
        refine congrArg List.sum (List.map_congr_left ?_)
        intro u hu
        rw [if_pos (by have := List.mem_range.mp hu; omega)]
      rw [hmap, List.range_succ, List.map_append, List.sum_append]
      simp
    · rw [if_neg (by omega), ih (by omega)]
      omega

theorem bev_fold_inner (g : Graph) (n u : Nat) (hun : u < n) :
    ∀ (l : List EdgeNode) (st : BEV), (∀ e ∈ l, e ∈ g.adjList u) →
    (∀ e ∈ l, e.dst < n) → BEVinv g n st →
    BEVinv g n (l.foldl (bev_entry u) st) ∧
    st.edges.length ≤ (l.foldl (bev_entry u) st).edges.length ∧
    (∀ p ∈ st.edges, p ∈ (l.foldl (bev_entry u) st).edges) ∧
    (∀ b : Nat, u < b → (∃ e ∈ l, e.dst = b) →
      (u, b) ∈ (l.foldl (bev_entry u) st).edges) ∧
    (∀ x : Nat, evDegAll (l.foldl (bev_entry u) st).edges x % 2
      = (evDegAll st.edges x +
         (if x = u then l.countP (fun e => decide (u < e.dst)) else 0) +
         (if u < x then l.countP (fun e => e.dst == x) else 0)) % 2) := by
  intro l
  induction l with
  | nil =>
    intro st _ _ hinv
    refine ⟨hinv, le_rfl, fun p hp => hp, ?_, ?_⟩
    · rintro b _ ⟨e, he, _⟩
      cases he
    · intro x
      simp
  | cons e t ih =>
    intro st hmem hdst hinv
    have heA : e ∈ g.adjList u := hmem e (List.mem_cons_self _ _)
    have heD : e.dst < n := hdst e (List.mem_cons_self _ _)
    obtain ⟨hinv1, hpre1, hlen1, hmemo1, hx1, hdeg1⟩ :=
      bev_entry_inv g n u hun st e heA heD hinv
    simp only [List.foldl_cons]
    obtain ⟨hinvF, hlenF, hmemoF, hxF, hdegF⟩ :=
      ih (bev_entry u st e)
        (fun e' he' => hmem e' (List.mem_cons_of_mem _ he'))
        (fun e' he' => hdst e' (List.mem_cons_of_mem _ he')) hinv1
    refine ⟨hinvF, le_trans hlen1 hlenF,
      fun p hp => hmemoF p (hmemo1 p hp), ?_, ?_⟩
    · rintro b hb ⟨e', he', hde'⟩
      rcases List.mem_cons.mp he' with rfl | he'
      · have hub : u < e'.dst := by omega
        rw [← hde']
        exact hmemoF _ (hx1 hub)
      · exact hxF b hb ⟨e', he', hde'⟩
    · intro x
      have h1 := hdeg1 x
      have h2 := hdegF x
      rw [h2]
      simp only [List.countP_cons, decide_eq_true_eq, beq_iff_eq]
      split_ifs at h1 ⊢ <;> omega

theorem bev_fold_outer_mono (g : Graph) (n : Nat)
    (hdst : ∀ u : Nat, ∀ e ∈ g.adjList u, e.dst < n) :
    ∀ (U : List Nat) (st : BEV), (∀ u ∈ U, u < n) → BEVinv g n st →
    ∀ p ∈ st.edges,
      p ∈ (U.foldl (fun st u => (g.adjList u).foldl (bev_entry u) st)
        st).edges := by
  intro U
  induction U with
  | nil => exact fun st _ _ p hp => hp
  | cons w tw ihw =>
    intro st hU hinv p hp
    simp only [List.foldl_cons]
    have hwn : w < n := hU w (List.mem_cons_self _ _)
    obtain ⟨hinvw, _, hmemow, _, _⟩ :=
      bev_fold_inner g n w hwn (g.adjList w) st (fun e he => he)
        (fun e he => hdst w e he) hinv
    exact ihw _ (fun z hz => hU z (List.mem_cons_of_mem _ hz)) hinvw
      p (hmemow p hp)

theorem bev_fold_outer (g : Graph) (n : Nat)
    (hdst : ∀ u : Nat, ∀ e ∈ g.adjList u, e.dst < n) :
    ∀ (U : List Nat) (st : BEV), (∀ u ∈ U, u < n) → BEVinv g n st →
    BEVinv g n (U.foldl (fun st u => (g.adjList u).foldl (bev_entry u) st)
      st) ∧
    (∀ u ∈ U, ∀ b : Nat, u < b → (∃ e ∈ g.adjList u, e.dst = b) →
      (u, b) ∈ (U.foldl (fun st u => (g.adjList u).foldl (bev_entry u) st)
        st).edges) ∧
    (∀ x : Nat,
      evDegAll (U.foldl (fun st u => (g.adjList u).foldl (bev_entry u) st)
        st).edges x % 2
      = (evDegAll st.edges x +
         (U.map (fun u =>
           (if x = u then
             (g.adjList u).countP (fun e => decide (u < e.dst)) else 0) +
           (if u < x then
             (g.adjList u).countP (fun e => e.dst == x) else 0))).sum)
        % 2) := by
  intro U
  induction U with
  | nil =>
    intro st _ hinv
    refine ⟨hinv, ?_, ?_⟩
    · rintro u hu
      cases hu
    · intro x
      simp
  | cons u t ih =>
    intro st hU hinv
    have hun : u < n := hU u (List.mem_cons_self _ _)
    obtain ⟨hinv1, hlen1, hmemo1, hx1, hdeg1⟩ :=
      bev_fold_inner g n u hun (g.adjList u) st (fun e he => he)
        (fun e he => hdst u e he) hinv
    simp only [List.foldl_cons]
    obtain ⟨hinvF, hxF, hdegF⟩ :=
      ih ((g.adjList u).foldl (bev_entry u) st)
        (fun v hv => hU v (List.mem_cons_of_mem _ hv)) hinv1
    refine ⟨hinvF, ?_, ?_⟩
    · intro v hv b hb hex
      rcases List.mem_cons.mp hv with rfl | hv'
      · -- recorded while processing v's own row, then preserved
        exact bev_fold_outer_mono g n hdst t _
          (fun z hz => hU z (List.mem_cons_of_mem _ hz)) hinv1
          _ (hx1 b hb hex)
      · exact hxF v hv' b hb hex
    · intro x
      have h1 := hdeg1 x
      have h2 := hdegF x
      rw [h2]
      simp only [List.map_cons, List.sum_cons]
      omega

theorem sum_map_add (U : List Nat) (A B : Nat → Nat) :
    (U.map (fun u => A u + B u)).sum = (U.map A).sum + (U.map B).sum := by
  induction U with
  | nil => rfl
  | cons u t ih =>
    simp only [List.map_cons, List.sum_cons]
    omega

theorem getD_replicate_nil (n x : Nat) :
    (List.replicate n ([] : List Nat)).getD x [] = [] := by
  by_cases hx : x < n
  · rw [List.getD_eq_getElem _ _ (by simpa using hx)]
    simp
  · rw [List.getD_eq_default _ _ (by simpa using hx)]

/-- The global facts of `build_edge_view` for a well-formed graph:
edges are normalised in-range pairs backed by adjacency entries,
incidence lists index edges with the right endpoint, every edge occurs
in both endpoints' incidence lists, every `a < b` adjacency entry has
its edge recorded, and (for symmetric entry counts, even self-loop
counts and even degrees) every vertex has even incidence degree. -/
theorem build_edge_view_facts (g : Graph)
    (hdst : ∀ u : Nat, ∀ e ∈ g.adjList u, e.dst < g.n)
    (hcnt : ∀ a : Nat, a < g.n → ∀ b : Nat, b < g.n →
      g.count_neighbor a b = g.count_neighbor b a)
    (hloop : ∀ a : Nat, a < g.n → g.count_neighbor a a % 2 = 0)
    (hdeg : ∀ x : Nat, g.degree_vertex_adj x % 2 = 0) :
    (build_edge_view g).n = g.n ∧
    (build_edge_view g).incid.length = g.n ∧
    (∀ p ∈ (build_edge_view g).edges, p.1 ≤ p.2 ∧ p.2 < g.n ∧
      ∃ e ∈ g.adjList p.1, e.dst = p.2) ∧
    (∀ x : Nat, ∀ idx ∈ (build_edge_view g).incid.getD x [],
      idx < (build_edge_view g).edges.length ∧
      (((build_edge_view g).edges.getD idx (0, 0)).1 = x ∨
        ((build_edge_view g).edges.getD idx (0, 0)).2 = x)) ∧
    (∀ idx : Nat, idx < (build_edge_view g).edges.length →
      idx ∈ (build_edge_view g).incid.getD
        ((build_edge_view g).edges.getD idx (0, 0)).1 [] ∧
      idx ∈ (build_edge_view g).incid.getD
        ((build_edge_view g).edges.getD idx (0, 0)).2 []) ∧
    (∀ a b : Nat, a < g.n → a < b → (∃ e ∈ g.adjList a, e.dst = b) →
      (a, b) ∈ (build_edge_view g).edges) ∧
    (∀ x : Nat, x < g.n → evDegAll (build_edge_view g).edges x % 2 = 0) := by
  have hinv0 : BEVinv g g.n ⟨[], List.replicate g.n [],
      List.replicate g.n 0⟩ := by
    refine ⟨by simp, by simp, ?_, ?_, ?_⟩
    · intro p hp
      cases hp
    · intro x idx hidx
      rw [show (⟨[], List.replicate g.n [], List.replicate g.n 0⟩ :
          BEV).incid.getD x [] = [] from getD_replicate_nil g.n x] at hidx
      cases hidx
    · intro idx hidx
      simp at hidx
  obtain ⟨hinvF, hxF, hdegF⟩ :=
    bev_fold_outer g g.n hdst (List.range g.n)
      ⟨[], List.replicate g.n [], List.replicate g.n 0⟩
      (fun u hu => List.mem_range.mp hu) hinv0
  obtain ⟨hIl, hLl, hE, hI1, hM1⟩ := hinvF
  refine ⟨rfl, hIl, hE, hI1, hM1, ?_, ?_⟩
  · intro a b han hab hex
    exact hxF a (List.mem_range.mpr han) b hab hex
  · intro x hx
    unfold build_edge_view
    dsimp only
    have h := hdegF x
    rw [show evDegAll (⟨[], List.replicate g.n [],
        List.replicate g.n 0⟩ : BEV).edges x = 0 from rfl] at h
    rw [sum_map_add] at h
    rw [sum_ite_eq_single x _ g.n hx] at h
    rw [sum_ite_lt x _ g.n (by omega)] at h
    have hconv : ((List.range x).map
        (fun u => (g.adjList u).countP (fun e => e.dst == x))).sum
        = ((List.range x).map
          (fun u => (g.adjList x).countP (fun e => e.dst == u))).sum := by
      refine congrArg List.sum (List.map_congr_left ?_)
      intro u hu
      have hux : u < x := List.mem_range.mp hu
      exact hcnt u (by omega) x hx
    rw [hconv, countP_dst_lt] at h
    have htri := countP_trichotomy (g.adjList x) x
    have hdx := hdeg x
    have hlx := hloop x hx
    unfold Graph.degree_vertex_adj at hdx
    unfold Graph.count_neighbor at hlx
    omega

theorem usedPairs_cons (p : Nat × Nat) (ps : List (Nat × Nat))
    (b : Bool) (bs : List Bool) :
    usedPairs (p :: ps) (b :: bs)
      = (if b = true then {p} else 0) + usedPairs ps bs := by
  unfold usedPairs
  cases b <;> simp [List.filterMap_cons, Multiset.cons_coe]

theorem unusedDeg_cons (p : Nat × Nat) (ps : List (Nat × Nat))
    (b : Bool) (bs : List Bool) (x : Nat) :
    unusedDeg (p :: ps) (b :: bs) x
      = (if b = true then 0 else evMult p x) + unusedDeg ps bs x := by
  unfold unusedDeg
  cases b <;> simp [List.zip_cons_cons]

theorem usedPairs_set (edges : List (Nat × Nat)) :
    ∀ (used : List Bool) (ei : Nat), edges.length = used.length →
    ei < used.length → used.getD ei false = false →
    usedPairs edges (used.set ei true)
      = edges.getD ei (0, 0) ::ₘ usedPairs edges used := by
  induction edges with
  | nil =>
    intro used ei hlen hei _
    simp only [List.length_nil] at hlen
    omega
  | cons p ps ih =>
    intro used ei hlen hei hfalse
    cases used with
    | nil => simp at hei
    | cons b bs =>
      cases ei with
      | zero =>
        have hb : b = false := hfalse
        subst hb
        rw [List.set_cons_zero, usedPairs_cons, usedPairs_cons,
          List.getD_cons_zero]
        simp [Multiset.singleton_add]
      | succ k =>
        have hlen' : ps.length = bs.length := by
          simp only [List.length_cons] at hlen
          omega
        have hei' : k < bs.length := by
          simp only [List.length_cons] at hei
          omega
        have htail := ih bs k hlen' hei' hfalse
        rw [List.set_cons_succ, usedPairs_cons, usedPairs_cons, htail,
          List.getD_cons_succ]
        cases b <;> simp [Multiset.singleton_add]

theorem unusedDeg_set (edges : List (Nat × Nat)) (x : Nat) :
    ∀ (used : List Bool) (ei : Nat), edges.length = used.length →
    ei < used.length → used.getD ei false = false →
    unusedDeg edges used x
      = unusedDeg edges (used.set ei true) x
        + evMult (edges.getD ei (0, 0)) x := by
  induction edges with
  | nil =>
    intro used ei hlen hei _
    simp only [List.length_nil] at hlen
    omega
  | cons p ps ih =>
    intro used ei hlen hei hfalse
    cases used with
    | nil => simp at hei
    | cons b bs =>
      cases ei with
      | zero =>
        have hb : b = false := hfalse
        subst hb
        rw [List.set_cons_zero, unusedDeg_cons, unusedDeg_cons,
          List.getD_cons_zero]
        have e1 : (if (false = true) then (0 : Nat) else evMult p x)
            = evMult p x := rfl
        have e2 : (if (true = true) then (0 : Nat) else evMult p x)
            = 0 := rfl
        rw [e1, e2]
        omega
      | succ k =>
        have hlen' : ps.length = bs.length := by
          simp only [List.length_cons] at hlen
          omega
        have hei' : k < bs.length := by
          simp only [List.length_cons] at hei
          omega
        have htail := ih bs k hlen' hei' hfalse
        rw [List.set_cons_succ, unusedDeg_cons, unusedDeg_cons,
          List.getD_cons_succ]
        omega

theorem usedPairs_false (edges : List (Nat × Nat)) :
    usedPairs edges (List.replicate edges.length false) = 0 := by
  induction edges with
  | nil => rfl
  | cons p ps ih =>
    rw [List.length_cons, List.replicate_succ, usedPairs_cons, ih]
    simp

theorem unusedDeg_false (edges : List (Nat × Nat)) (x : Nat) :
    unusedDeg edges (List.replicate edges.length false) x
      = evDegAll edges x := by
  induction edges with
  | nil => rfl
  | cons p ps ih =>
    rw [List.length_cons, List.replicate_succ, unusedDeg_cons, ih]
    unfold evDegAll
    simp only [List.map_cons, List.sum_cons]
    rw [if_neg (by simp)]

theorem usedPairs_all (edges : List (Nat × Nat)) :
    ∀ used : List Bool, edges.length = used.length →
    (∀ i : Nat, i < used.length → used.getD i false = true) →
    usedPairs edges used = ↑edges := by
  induction edges with
  | nil =>
    intro used hlen _
    rfl
  | cons p ps ih =>
    intro used hlen hall
    cases used with
    | nil => simp at hlen
    | cons b bs =>
      have hb : b = true := hall 0 (by simp)
      subst hb
      rw [usedPairs_cons]
      rw [ih bs (by simpa using hlen)
        (fun i hi => hall (i + 1) (by simpa using hi))]
      simp [Multiset.singleton_add, Multiset.cons_coe]

theorem unusedDeg_zero_of_all_used (edges : List (Nat × Nat)) (x : Nat)
    (used : List Bool)
    (h : ∀ i : Nat, i < edges.length →
      ((edges.getD i (0, 0)).1 = x ∨ (edges.getD i (0, 0)).2 = x) →
      used.getD i false = true) :
    unusedDeg edges used x = 0 := by
  unfold unusedDeg
  refine List.sum_eq_zero ?_
  intro y hy
  obtain ⟨q, hq, rfl⟩ := List.mem_map.mp hy
  obtain ⟨i, hi, hzip⟩ := List.mem_iff_getElem.mp hq
  have hilen : i < edges.length := by
    have := @List.length_zip _ _ edges used
    omega
  have h1 : q.1 = edges.getD i (0, 0) := by
    rw [← hzip]
    rw [List.getElem_zip]
    rw [List.getD_eq_getElem _ _ hilen]
  have h2 : q.2 = used.getD i false := by
    have hiu : i < used.length := by
      have := @List.length_zip _ _ edges used
      omega
    rw [← hzip]
    rw [List.getElem_zip]
    rw [List.getD_eq_getElem _ _ hiu]
  by_cases hm : evMult q.1 x = 0
  · split_ifs <;> omega
  · have hend : (edges.getD i (0, 0)).1 = x ∨ (edges.getD i (0, 0)).2 = x := by
      unfold evMult at hm
      rw [h1] at hm
      split_ifs at hm with ha hb hb
      · exact Or.inl ha
      · exact Or.inl ha
      · exact Or.inr hb
      · omega
    have := h i hilen hend
    rw [← h2] at this
    rw [this]
    rfl

theorem pairsOf_card :
    ∀ l : List Nat, l ≠ [] → Multiset.card (pairsOf l) + 1 = l.length := by
  intro l
  induction l with
  | nil => exact fun h => absurd rfl h
  | cons a t ih =>
    intro _
    cases t with
    | nil => rfl
    | cons b t' =>
      have := ih (by simp)
      rw [show pairsOf (a :: b :: t') = normPair a b ::ₘ pairsOf (b :: t')
        from rfl]
      rw [Multiset.card_cons]
      simp only [List.length_cons] at this ⊢
      omega

theorem pairsOf_mem :
    ∀ (l : List Nat) (x y : Nat), (x, y) ∈ pairsOf l → x ∈ l ∧ y ∈ l := by
  intro l
  induction l with
  | nil =>
    intro x y h
    cases h
  | cons a t ih =>
    intro x y h
    cases t with
    | nil => cases h
    | cons b t' =>
      rw [show pairsOf (a :: b :: t') = normPair a b ::ₘ pairsOf (b :: t')
        from rfl] at h
      rcases Multiset.mem_cons.mp h with heq | hmem
      · unfold normPair at heq
        split_ifs at heq with hab
        · obtain ⟨h1, h2⟩ := Prod.mk.inj heq.symm
          rw [← h1, ← h2]
          exact ⟨List.mem_cons_self _ _,
            List.mem_cons_of_mem _ (List.mem_cons_self _ _)⟩
        · obtain ⟨h1, h2⟩ := Prod.mk.inj heq.symm
          rw [← h1, ← h2]
          exact ⟨List.mem_cons_of_mem _ (List.mem_cons_self _ _),
            List.mem_cons_self _ _⟩
      · obtain ⟨hx, hy⟩ := ih x y hmem
        exact ⟨List.mem_cons_of_mem _ hx, List.mem_cons_of_mem _ hy⟩

theorem skip_used_spec (incu : List Nat) (used : List Bool) :
    ∀ (fuel i : Nat), incu.length ≤ fuel + i → i ≤ incu.length →
    i ≤ skip_used incu used fuel i ∧
    skip_used incu used fuel i ≤ incu.length ∧
    (∀ k : Nat, i ≤ k → k < skip_used incu used fuel i →
      used.getD (incu.getD k 0) false = true) ∧
    (skip_used incu used fuel i < incu.length →
      used.getD (incu.getD (skip_used incu used fuel i) 0) false
        = false) := by
  intro fuel
  induction fuel with
  | zero =>
    intro i hf hi
    unfold skip_used
    refine ⟨le_rfl, hi, ?_, ?_⟩
    · intro k h1 h2
      omega
    · intro h
      omega
  | succ f ih =>
    intro i hf hi
    unfold skip_used
    split_ifs with h
    · obtain ⟨ih1, ih2, ih3, ih4⟩ := ih (i + 1) (by omega) (by omega)
      refine ⟨by omega, ih2, ?_, ih4⟩
      intro k h1 h2
      rcases Nat.eq_or_lt_of_le h1 with rfl | h1'
      · exact h.2
      · exact ih3 k (by omega) h2
    · refine ⟨le_rfl, hi, ?_, ?_⟩
      · intro k h1 h2
        omega
      · intro hlt
        rcases Bool.eq_false_or_eq_true
            (used.getD (incu.getD i 0) false) with hb | hb
        · exact absurd ⟨hlt, hb⟩ h
        · exact hb

/-- The termination potential of the walk loop. -/
def emeasure (ev : EdgeView) (σ : EulerState) : Nat :=
  2 * ((List.range ev.n).map
    (fun x => (ev.incid.getD x []).length - σ.it.getD x 0)).sum
  + σ.stack.length

theorem sum_map_le_with_slack (f g : Nat → Nat) (u d : Nat) :
    ∀ l : List Nat, (∀ x ∈ l, g x ≤ f x) → u ∈ l → g u + d ≤ f u →
    (l.map g).sum + d ≤ (l.map f).sum := by
  intro l
  induction l with
  | nil =>
    intro _ hu
    cases hu
  | cons x t ih =>
    intro hle hu hud
    simp only [List.map_cons, List.sum_cons]
    rcases List.mem_cons.mp hu with rfl | hu'
    · have hrest : (t.map g).sum ≤ (t.map f).sum :=
        List.sum_le_sum (fun y hy => hle y (List.mem_cons_of_mem _ hy))
      omega
    · have hx : g x ≤ f x := hle x (List.mem_cons_self _ _)
      have := ih (fun y hy => hle y (List.mem_cons_of_mem _ hy)) hu' hud
      omega

theorem euler_loop_fixed (ev : EdgeView) :
    ∀ (fuel : Nat) (σ : EulerState), σ.stack = [] →
    euler_loop ev fuel σ = σ := by
  intro fuel
  induction fuel with
  | zero => exact fun σ _ => rfl
  | succ f ih =>
    intro σ h
    unfold euler_loop
    rw [if_pos h]

theorem normPair_comm (a b : Nat) : normPair a b = normPair b a := by
  unfold normPair
  split_ifs <;> simp [Prod.ext_iff] <;> omega

theorem normPair_eq_self (p : Nat × Nat) (h : p.1 ≤ p.2) (u v : Nat)
    (huv : u = p.1 ∧ v = p.2 ∨ u = p.2 ∧ v = p.1) : normPair u v = p := by
  unfold normPair
  rcases huv with ⟨h1, h2⟩ | ⟨h1, h2⟩ <;> subst h1 <;> subst h2 <;>
    split_ifs with hlt <;> simp [Prod.ext_iff] <;> omega

/-- The loop invariant of the Hierholzer walk: array lengths; stack
and path vertices in range; iterators within bounds, having skipped
only used edges; stack bottom and path bottom are the start vertex;
emitted vertices are exhausted; and the used edges split into the
stack walk, the path walk and (once something was emitted) one
junction edge at an anchor vertex, with the unused degrees even
except at the walk's two loose ends. -/
structure WINV (ev : EdgeView) (start : Nat) (σ : EulerState) : Prop where
  hused : σ.used.length = ev.edges.length
  hit : σ.it.length = ev.n
  hstk : ∀ v ∈ σ.stack, v < ev.n
  hpth : ∀ v ∈ σ.path, v < ev.n
  hiter : ∀ x : Nat, x < ev.n → σ.it.getD x 0 ≤ (ev.incid.getD x []).length
  hiterU : ∀ x : Nat, x < ev.n → ∀ i : Nat, i < σ.it.getD x 0 →
    σ.used.getD ((ev.incid.getD x []).getD i 0) false = true
  hlastS : σ.stack ≠ [] → σ.stack.getLast? = some start
  hlastP : σ.path ≠ [] → σ.path.getLast? = some start
  hexh : ∀ x ∈ σ.path, σ.it.getD x 0 = (ev.incid.getD x []).length
  hstruct0 : ∀ u : Nat, ∀ s' : List Nat, σ.stack = u :: s' → σ.path = [] →
    usedPairs ev.edges σ.used = pairsOf σ.stack ∧
    (∀ x : Nat, x < ev.n → unusedDeg ev.edges σ.used x % 2
      = ((if x = u then 1 else 0) + (if x = start then 1 else 0)) % 2)
  hstruct1 : ∀ u : Nat, ∀ s' : List Nat, ∀ p : Nat, ∀ p' : List Nat,
    σ.stack = u :: s' → σ.path = p :: p' →
    ∃ a : Nat, a ∈ σ.stack ∧
      usedPairs ev.edges σ.used
        = pairsOf σ.stack + pairsOf σ.path + {normPair a p} ∧
      (∀ x : Nat, x < ev.n → unusedDeg ev.edges σ.used x % 2
        = ((if x = u then 1 else 0) + (if x = a then 1 else 0)) % 2)

/-- The state reached when the walk's stack empties: the collected
path is a closed trail at `start` spelling exactly the used edges,
and every vertex on it has exhausted its incidence list. -/
structure EFINAL (ev : EdgeView) (start : Nat) (σ : EulerState) :
    Prop where
  hstke : σ.stack = []
  hne : σ.path ≠ []
  hhead : σ.path.head? = some start
  hlast : σ.path.getLast? = some start
  hpairs : usedPairs ev.edges σ.used = pairsOf σ.path
  hpth : ∀ v ∈ σ.path, v < ev.n
  hexh : ∀ x ∈ σ.path, σ.it.getD x 0 = (ev.incid.getD x []).length
  hused : σ.used.length = ev.edges.length
  hiterU : ∀ x : Nat, x < ev.n → ∀ i : Nat, i < σ.it.getD x 0 →
    σ.used.getD ((ev.incid.getD x []).getD i 0) false = true

theorem ms_add_singleton (X : Multiset (Nat × Nat)) (y : Nat × Nat) :
    X + {y} = y ::ₘ X := by
  rw [add_comm, Multiset.singleton_add]

theorem euler_step_inv (ev : EdgeView) (start : Nat)
    (hE : ∀ p ∈ ev.edges, p.1 ≤ p.2 ∧ p.2 < ev.n)
    (hI1 : ∀ x : Nat, ∀ idx ∈ ev.incid.getD x [],
      idx < ev.edges.length ∧
      ((ev.edges.getD idx (0, 0)).1 = x ∨ (ev.edges.getD idx (0, 0)).2 = x))
    (hM1 : ∀ idx : Nat, idx < ev.edges.length →
      idx ∈ ev.incid.getD ((ev.edges.getD idx (0, 0)).1) [] ∧
      idx ∈ ev.incid.getD ((ev.edges.getD idx (0, 0)).2) [])
    (σ : EulerState) (hne : σ.stack ≠ []) (hW : WINV ev start σ) :
    (WINV ev start (euler_step ev σ) ∧ (euler_step ev σ).stack ≠ []) ∨
    EFINAL ev start (euler_step ev σ) := by
  obtain ⟨stk, pth, usd, itl⟩ := σ
  rcases stk with _ | ⟨u, rest⟩
  · exact absurd rfl hne
  have husedlen : usd.length = ev.edges.length := hW.hused
  have hitlen : itl.length = ev.n := hW.hit
  have hstkold : ∀ v ∈ u :: rest, v < ev.n := hW.hstk
  have hpthold : ∀ v ∈ pth, v < ev.n := hW.hpth
  have hiterold : ∀ x : Nat, x < ev.n →
      itl.getD x 0 ≤ (ev.incid.getD x []).length := hW.hiter
  have hiterUold : ∀ x : Nat, x < ev.n → ∀ k : Nat, k < itl.getD x 0 →
      usd.getD ((ev.incid.getD x []).getD k 0) false = true := hW.hiterU
  have hlastSold : u :: rest ≠ [] → (u :: rest).getLast? = some start :=
    hW.hlastS
  have hlastPold : pth ≠ [] → pth.getLast? = some start := hW.hlastP
  have hexhold : ∀ x ∈ pth, itl.getD x 0 = (ev.incid.getD x []).length :=
    hW.hexh
  have hun : u < ev.n := hstkold u (List.mem_cons_self _ _)
  obtain ⟨hsk1, hsk2, hsk3, hsk4⟩ :=
    skip_used_spec (ev.incid.getD u []) usd
      ((ev.incid.getD u []).length + 1) (itl.getD u 0)
      (by omega) (hiterold u hun)
  unfold euler_step
  dsimp only
  set i := skip_used (ev.incid.getD u []) usd
    ((ev.incid.getD u []).length + 1) (itl.getD u 0) with hidef
  have hitset_u : (itl.set u i).getD u 0 = i :=
    getD_set_self itl u i 0 (by omega)
  by_cases hieq : i = (ev.incid.getD u []).length
  · -- the top vertex is exhausted: pop it to the path
    rw [if_pos hieq]
    have hall_used : ∀ idx ∈ ev.incid.getD u [],
        usd.getD idx false = true := by
      intro idx hidx
      obtain ⟨k, hk, hkeq⟩ := List.mem_iff_getElem.mp hidx
      have hkg : (ev.incid.getD u []).getD k 0 = idx := by
        rw [List.getD_eq_getElem _ _ hk, hkeq]
      rw [← hkg]
      by_cases hko : k < itl.getD u 0
      · exact hiterUold u hun k hko
      · exact hsk3 k (by omega) (by omega)
    have hdeg_u : unusedDeg ev.edges usd u = 0 := by
      refine unusedDeg_zero_of_all_used ev.edges u usd ?_
      intro idx hidxlen hend
      refine hall_used idx ?_
      obtain ⟨hm1, hm2⟩ := hM1 idx hidxlen
      rcases hend with h | h
      · rw [h] at hm1
        exact hm1
      · rw [h] at hm2
        exact hm2
    have hiter' : ∀ x : Nat, x < ev.n →
        (itl.set u i).getD x 0 ≤ (ev.incid.getD x []).length := by
      intro x hx
      by_cases hxu : u = x
      · subst hxu
        rw [hitset_u]
        exact hsk2
      · rw [getD_set_ne itl i 0 hxu]
        exact hiterold x hx
    have hiterU' : ∀ x : Nat, x < ev.n → ∀ k : Nat,
        k < (itl.set u i).getD x 0 →
        usd.getD ((ev.incid.getD x []).getD k 0) false = true := by
      intro x hx k hk
      by_cases hxu : u = x
      · subst hxu
        rw [hitset_u] at hk
        by_cases hko : k < itl.getD u 0
        · exact hiterUold u hun k hko
        · exact hsk3 k (by omega) hk
      · rw [getD_set_ne itl i 0 hxu] at hk
        exact hiterUold x hx k hk
    have hexh' : ∀ x ∈ u :: pth, (itl.set u i).getD x 0
        = (ev.incid.getD x []).length := by
      intro x hx
      by_cases hxu : u = x
      · subst hxu
        rw [hitset_u]
        exact hieq
      · rw [getD_set_ne itl i 0 hxu]
        rcases List.mem_cons.mp hx with heq | hmem
      
        · exact absurd heq.symm hxu
        · exact hexhold x hmem
    rcases pth with _ | ⟨p, p'⟩
    · -- the path was empty: the popped vertex must be the start vertex
      obtain ⟨hpairs0, hPAR0⟩ := hW.hstruct0 u rest rfl rfl
      have hpairs0' : usedPairs ev.edges usd = pairsOf (u :: rest) :=
        hpairs0
      have hPAR0' : ∀ x : Nat, x < ev.n → unusedDeg ev.edges usd x % 2
          = ((if x = u then 1 else 0) + (if x = start then 1 else 0)) % 2
        := hPAR0
      have hu_start : u = start := by
        by_cases hus : u = start
        · exact hus
        · have h := hPAR0' u hun
          rw [hdeg_u, if_pos rfl, if_neg hus] at h
          omega
      rcases rest with _ | ⟨w, r'⟩
      · -- the stack empties: final state with path [u]
        refine Or.inr ⟨rfl, by simp, ?_, ?_, ?_, ?_, hexh', husedlen,
          hiterU'⟩
        · show ([u] : List Nat).head? = some start
          rw [hu_start]
          rfl
        · show ([u] : List Nat).getLast? = some start
          rw [hu_start]
          rfl
        · exact hpairs0'
        · intro v hv
          have hv' : v = u := by simpa using hv
          rw [hv']
          exact hun
      · -- stack still nonempty: new junction edge between w and u
        refine Or.inl ⟨⟨husedlen, by rw [List.length_set]; exact hitlen,
          ?_, ?_, hiter', hiterU', ?_, ?_, hexh', ?_, ?_⟩, by simp⟩
        · intro z hz
          exact hstkold z (List.mem_cons_of_mem _ hz)
        · intro z hz
          have hz' : z = u := by simpa using hz
          rw [hz']
          exact hun
        · intro _
          show (w :: r').getLast? = some start
          have h := hlastSold (by simp)
          rw [List.getLast?_cons_cons] at h
          exact h
        · intro _
          show ([u] : List Nat).getLast? = some start
          rw [hu_start]
          rfl
        · intro b s' hs hp
          exact absurd hp (by simp)
        · intro b s' q q' hs hp
          have hs' : w :: r' = b :: s' := hs
          have hp' : [u] = q :: q' := hp
          injection hs' with hb1 hb2
          injection hp' with hq1 hq2
          refine ⟨w, List.mem_cons_self _ _, ?_, ?_⟩
          · show usedPairs ev.edges usd
              = pairsOf (w :: r') + pairsOf ([u] : List Nat)
                + {normPair w q}
            rw [← hq1, hpairs0', normPair_comm w u,
              show pairsOf ([u] : List Nat) = 0 from rfl, add_zero,
              ms_add_singleton]
            rfl
          · intro x hx
            show unusedDeg ev.edges usd x % 2
              = ((if x = b then 1 else 0) + (if x = w then 1 else 0)) % 2
            rw [← hb1]
            have h := hPAR0' x hx
            rw [← hu_start] at h
            split_ifs at h ⊢ <;> omega
    · -- the path was nonempty: the popped vertex must be the anchor
      obtain ⟨a, haS, hpairs1, hPAR1⟩ := hW.hstruct1 u rest p p' rfl rfl
      have haS' : a ∈ u :: rest := haS
      have hpairs1' : usedPairs ev.edges usd
          = pairsOf (u :: rest) + pairsOf (p :: p') + {normPair a p} :=
        hpairs1
      have hPAR1' : ∀ x : Nat, x < ev.n → unusedDeg ev.edges usd x % 2
          = ((if x = u then 1 else 0) + (if x = a then 1 else 0)) % 2 :=
        hPAR1
      have hau : a = u := by
        by_cases hau0 : a = u
        · exact hau0
        · have h := hPAR1' u hun
          rw [hdeg_u, if_pos rfl, if_neg (fun hh => hau0 hh.symm)] at h
          omega
      rw [hau] at hpairs1' hPAR1' haS'
      rcases rest with _ | ⟨w, r'⟩
      · -- the stack empties: final state with path u :: p :: p'
        have hu_start : u = start := by
          have h := hlastSold (by simp)
          simp at h
          exact h
        refine Or.inr ⟨rfl, by simp, ?_, ?_, ?_, ?_, hexh', husedlen,
          hiterU'⟩
        · show (u :: p :: p').head? = some start
          rw [List.head?_cons, hu_start]
        · show (u :: p :: p').getLast? = some start
          rw [List.getLast?_cons_cons]
          exact hlastPold (by simp)
        · show usedPairs ev.edges usd = pairsOf (u :: p :: p')
          rw [hpairs1',
            show pairsOf ([u] : List Nat) = 0 from rfl, zero_add,
            ms_add_singleton]
          rfl
        · intro z hz
          rcases List.mem_cons.mp hz with rfl | hz'
          · exact hun
          · exact hpthold z hz'
      · -- stack still nonempty: the junction edge moves to (w, u)
        refine Or.inl ⟨⟨husedlen, by rw [List.length_set]; exact hitlen,
          ?_, ?_, hiter', hiterU', ?_, ?_, hexh', ?_, ?_⟩, by simp⟩
        · intro z hz
          exact hstkold z (List.mem_cons_of_mem _ hz)
        · intro z hz
          rcases List.mem_cons.mp hz with rfl | hz'
          · exact hun
          · exact hpthold z hz'
        · intro _
          show (w :: r').getLast? = some start
          have h := hlastSold (by simp)
          rw [List.getLast?_cons_cons] at h
          exact h
        · intro _
          show (u :: p :: p').getLast? = some start
          rw [List.getLast?_cons_cons]
          exact hlastPold (by simp)
        · intro b s' hs hp
          exact absurd hp (by simp)
        · intro b s' q q' hs hp
          have hs' : w :: r' = b :: s' := hs
          have hp' : u :: p :: p' = q :: q' := hp
          injection hs' with hb1 hb2
          injection hp' with hq1 hq2
          refine ⟨w, List.mem_cons_self _ _, ?_, ?_⟩
          · show usedPairs ev.edges usd
              = pairsOf (w :: r') + pairsOf (u :: p :: p')
                + {normPair w q}
            rw [← hq1, hpairs1', normPair_comm w u,
              show pairsOf (u :: w :: r')
                = normPair u w ::ₘ pairsOf (w :: r') from rfl,
              show pairsOf (u :: p :: p')
                = normPair u p ::ₘ pairsOf (p :: p') from rfl,
              ← Multiset.singleton_add (normPair u w) (pairsOf (w :: r')),
              ← Multiset.singleton_add (normPair u p) (pairsOf (p :: p'))]
            abel
          · intro x hx
            show unusedDeg ev.edges usd x % 2
              = ((if x = b then 1 else 0) + (if x = w then 1 else 0)) % 2
            rw [← hb1]
            have h := hPAR1' x hx
            split_ifs at h ⊢ <;> omega
  · -- an unused incident edge remains: traverse it
    rw [if_neg hieq]
    have hilt : i < (ev.incid.getD u []).length := lt_of_le_of_ne hsk2 hieq
    set ei := (ev.incid.getD u []).getD i 0 with heidef
    have heimem : ei ∈ ev.incid.getD u [] := by
      rw [heidef, List.getD_eq_getElem _ _ hilt]
      exact List.getElem_mem hilt
    obtain ⟨heilt, heiend⟩ := hI1 u ei heimem
    have heiunused : usd.getD ei false = false := hsk4 hilt
    rw [if_neg (by rw [heiunused]; exact Bool.false_ne_true)]
    set p2 := ev.edges.getD ei (0, 0) with hp2def
    set v := if u = p2.1 then p2.2 else p2.1 with hvdef
    have hp2mem : p2 ∈ ev.edges := by
      rw [hp2def, List.getD_eq_getElem _ _ heilt]
      exact List.getElem_mem heilt
    obtain ⟨hp2le, hp2n⟩ := hE p2 hp2mem
    have huv : u = p2.1 ∧ v = p2.2 ∨ u = p2.2 ∧ v = p2.1 := by
      rcases heiend with h | h
      · left
        exact ⟨h.symm, by rw [hvdef, if_pos h.symm]⟩
      · by_cases hup : u = p2.1
        · left
          exact ⟨hup, by rw [hvdef, if_pos hup]⟩
        · right
          exact ⟨h.symm, by rw [hvdef, if_neg hup]⟩
    have hvn : v < ev.n := by
      rcases huv with ⟨h1, h2⟩ | ⟨h1, h2⟩
      · rw [h2]
        exact hp2n
      · rw [h2]
        omega
    have hnp1 : normPair u v = p2 := normPair_eq_self p2 hp2le u v huv
    have hnp2 : normPair v u = p2 := by
      rw [normPair_comm]
      exact hnp1
    have hupdP : usedPairs ev.edges (usd.set ei true)
        = p2 ::ₘ usedPairs ev.edges usd := by
      have h := usedPairs_set ev.edges usd ei husedlen.symm
        (by omega) heiunused
      rw [← hp2def] at h
      exact h
    have hupdD : ∀ x : Nat, unusedDeg ev.edges usd x
        = unusedDeg ev.edges (usd.set ei true) x + evMult p2 x := by
      intro x
      have h := unusedDeg_set ev.edges x usd ei husedlen.symm
        (by omega) heiunused
      rw [← hp2def] at h
      exact h
    have hevm : ∀ x : Nat, evMult p2 x
        = (if x = u then 1 else 0) + (if x = v then 1 else 0) := by
      intro x
      unfold evMult
      rcases huv with ⟨h1, h2⟩ | ⟨h1, h2⟩ <;> split_ifs <;> omega
    have hmono : ∀ j : Nat, usd.getD j false = true →
        (usd.set ei true).getD j false = true := by
      intro j hj
      by_cases hje : ei = j
      · subst hje
        exact getD_set_self usd ei true false (by omega)
      · rw [getD_set_ne usd true false hje]
        exact hj
    have husede : (usd.set ei true).getD ei false = true :=
      getD_set_self usd ei true false (by omega)
    have hitset_u1 : (itl.set u (i + 1)).getD u 0 = i + 1 :=
      getD_set_self itl u (i + 1) 0 (by omega)
    have hiter' : ∀ x : Nat, x < ev.n →
        (itl.set u (i + 1)).getD x 0 ≤ (ev.incid.getD x []).length := by
      intro x hx
      by_cases hxu : u = x
      · subst hxu
        rw [hitset_u1]
        omega
      · rw [getD_set_ne itl (i + 1) 0 hxu]
        exact hiterold x hx
    have hiterU' : ∀ x : Nat, x < ev.n → ∀ k : Nat,
        k < (itl.set u (i + 1)).getD x 0 →
        (usd.set ei true).getD ((ev.incid.getD x []).getD k 0) false
          = true := by
      intro x hx k hk
      by_cases hxu : u = x
      · subst hxu
        rw [hitset_u1] at hk
        by_cases hki : i = k
        · subst hki
          rw [← heidef]
          exact husede
        · refine hmono _ ?_
          by_cases hko : k < itl.getD u 0
          · exact hiterUold u hun k hko
          · exact hsk3 k (by omega) (by omega)
      · rw [getD_set_ne itl (i + 1) 0 hxu] at hk
        exact hmono _ (hiterUold x hx k hk)
    have hexh' : ∀ x ∈ pth, (itl.set u (i + 1)).getD x 0
        = (ev.incid.getD x []).length := by
      intro x hx
      by_cases hxu : u = x
      · subst hxu
        have h := hexhold u hx
        exact absurd h (by omega)
      · rw [getD_set_ne itl (i + 1) 0 hxu]
        exact hexhold x hx
    refine Or.inl ⟨⟨by rw [List.length_set]; exact husedlen,
      by rw [List.length_set]; exact hitlen,
      ?_, hpthold, hiter', hiterU', ?_, hlastPold, hexh', ?_, ?_⟩,
      by simp⟩
    · intro z hz
      rcases List.mem_cons.mp hz with rfl | hz'
      · exact hvn
      · exact hstkold z hz'
    · intro _
      show (v :: u :: rest).getLast? = some start
      rw [List.getLast?_cons_cons]
      exact hlastSold (by simp)
    · intro b s' hs hp
      have hs' : v :: u :: rest = b :: s' := hs
      injection hs' with hb1 hb2
      obtain ⟨hpairs0, hPAR0⟩ := hW.hstruct0 u rest rfl hp
      have hpairs0' : usedPairs ev.edges usd = pairsOf (u :: rest) :=
        hpairs0
      have hPAR0' : ∀ x : Nat, x < ev.n → unusedDeg ev.edges usd x % 2
          = ((if x = u then 1 else 0) + (if x = start then 1 else 0)) % 2
        := hPAR0
      constructor
      · show usedPairs ev.edges (usd.set ei true)
          = pairsOf (v :: u :: rest)
        rw [hupdP, hpairs0',
          show pairsOf (v :: u :: rest)
            = normPair v u ::ₘ pairsOf (u :: rest) from rfl,
          hnp2]
      · intro x hx
        show unusedDeg ev.edges (usd.set ei true) x % 2
          = ((if x = b then 1 else 0) + (if x = start then 1 else 0)) % 2
        rw [← hb1]
        have h := hPAR0' x hx
        have hd := hupdD x
        rw [hevm x] at hd
        split_ifs at h hd ⊢ <;> omega
    · intro b s' q q' hs hp
      have hs' : v :: u :: rest = b :: s' := hs
      have hpq : pth = q :: q' := hp
      injection hs' with hb1 hb2
      obtain ⟨a, haS, hpairs1, hPAR1⟩ := hW.hstruct1 u rest q q' rfl hpq
      have haS' : a ∈ u :: rest := haS
      have hpairs1' : usedPairs ev.edges usd
          = pairsOf (u :: rest) + pairsOf pth + {normPair a q} := hpairs1
      have hPAR1' : ∀ x : Nat, x < ev.n → unusedDeg ev.edges usd x % 2
          = ((if x = u then 1 else 0) + (if x = a then 1 else 0)) % 2 :=
        hPAR1
      refine ⟨a, ?_, ?_, ?_⟩
      · show a ∈ v :: u :: rest
        exact List.mem_cons_of_mem _ haS'
      · show usedPairs ev.edges (usd.set ei true)
          = pairsOf (v :: u :: rest) + pairsOf pth + {normPair a q}
        rw [hupdP, hpairs1',
          show pairsOf (v :: u :: rest)
            = normPair v u ::ₘ pairsOf (u :: rest) from rfl,
          hnp2, Multiset.cons_add, Multiset.cons_add]
      · intro x hx
        show unusedDeg ev.edges (usd.set ei true) x % 2
          = ((if x = b then 1 else 0) + (if x = a then 1 else 0)) % 2
        rw [← hb1]
        have h := hPAR1' x hx
        have hd := hupdD x
        rw [hevm x] at hd
        split_ifs at h hd ⊢ <;> omega

theorem euler_step_measure (ev : EdgeView) (start : Nat)
    (σ : EulerState) (hne : σ.stack ≠ []) (hW : WINV ev start σ) :
    emeasure ev (euler_step ev σ) < emeasure ev σ := by
  obtain ⟨stk, pth, usd, itl⟩ := σ
  rcases stk with _ | ⟨u, rest⟩
  · exact absurd rfl hne
  have hitlen : itl.length = ev.n := hW.hit
  have hstkold : ∀ v ∈ u :: rest, v < ev.n := hW.hstk
  have hiterold : ∀ x : Nat, x < ev.n →
      itl.getD x 0 ≤ (ev.incid.getD x []).length := hW.hiter
  have hun : u < ev.n := hstkold u (List.mem_cons_self _ _)
  obtain ⟨hsk1, hsk2, hsk3, hsk4⟩ :=
    skip_used_spec (ev.incid.getD u []) usd
      ((ev.incid.getD u []).length + 1) (itl.getD u 0)
      (by omega) (hiterold u hun)
  unfold euler_step
  dsimp only
  set i := skip_used (ev.incid.getD u []) usd
    ((ev.incid.getD u []).length + 1) (itl.getD u 0) with hidef
  have hpoint : ∀ j : Nat, itl.getD u 0 ≤ j → ∀ x ∈ List.range ev.n,
      (ev.incid.getD x []).length - (itl.set u j).getD x 0
        ≤ (ev.incid.getD x []).length - itl.getD x 0 := by
    intro j hj x hx
    by_cases hxu : u = x
    · subst hxu
      rw [getD_set_self itl u j 0 (by omega)]
      omega
    · rw [getD_set_ne itl j 0 hxu]
  by_cases hieq : i = (ev.incid.getD u []).length
  · rw [if_pos hieq]
    unfold emeasure
    dsimp only
    have hS : ((List.range ev.n).map
        (fun x => (ev.incid.getD x []).length - (itl.set u i).getD x 0)).sum
        ≤ ((List.range ev.n).map
          (fun x => (ev.incid.getD x []).length - itl.getD x 0)).sum :=
      List.sum_le_sum (fun x hx => hpoint i hsk1 x hx)
    simp only [List.length_cons]
    omega
  · rw [if_neg hieq]
    have hilt : i < (ev.incid.getD u []).length := lt_of_le_of_ne hsk2 hieq
    set ei := (ev.incid.getD u []).getD i 0 with heidef
    have heiunused : usd.getD ei false = false := hsk4 hilt
    rw [if_neg (by rw [heiunused]; exact Bool.false_ne_true)]
    unfold emeasure
    dsimp only
    have hS : ((List.range ev.n).map
        (fun x => (ev.incid.getD x []).length
          - (itl.set u (i + 1)).getD x 0)).sum + 1
        ≤ ((List.range ev.n).map
          (fun x => (ev.incid.getD x []).length - itl.getD x 0)).sum := by
      refine sum_map_le_with_slack _ _ u 1 (List.range ev.n)
        (fun x hx => hpoint (i + 1) (by omega) x hx)
        (List.mem_range.mpr hun) ?_
      dsimp only
      rw [getD_set_self itl u (i + 1) 0 (by omega)]
      omega
    simp only [List.length_cons]
    omega

theorem euler_loop_final (ev : EdgeView) (start : Nat)
    (hE : ∀ p ∈ ev.edges, p.1 ≤ p.2 ∧ p.2 < ev.n)
    (hI1 : ∀ x : Nat, ∀ idx ∈ ev.incid.getD x [],
      idx < ev.edges.length ∧
      ((ev.edges.getD idx (0, 0)).1 = x ∨ (ev.edges.getD idx (0, 0)).2 = x))
    (hM1 : ∀ idx : Nat, idx < ev.edges.length →
      idx ∈ ev.incid.getD ((ev.edges.getD idx (0, 0)).1) [] ∧
      idx ∈ ev.incid.getD ((ev.edges.getD idx (0, 0)).2) []) :
    ∀ (fuel : Nat) (σ : EulerState), WINV ev start σ → σ.stack ≠ [] →
    emeasure ev σ ≤ fuel →
    EFINAL ev start (euler_loop ev fuel σ) := by
  intro fuel
  induction fuel with
  | zero =>
    intro σ hW hne hm
    have hlen0 : σ.stack.length ≠ 0 :=
      fun h => hne (List.length_eq_zero.mp h)
    unfold emeasure at hm
    omega
  | succ f ih =>
    intro σ hW hne hm
    unfold euler_loop
    rw [if_neg hne]
    rcases euler_step_inv ev start hE hI1 hM1 σ hne hW with ⟨hW', hne'⟩ | hF
    · refine ih (euler_step ev σ) hW' hne' ?_
      have := euler_step_measure ev start σ hne hW
      omega
    · rw [euler_loop_fixed ev f _ hF.hstke]
      exact hF

theorem euler_initial_inv (ev : EdgeView) (start : Nat)
    (hstart : start < ev.n)
    (hdeg : ∀ x : Nat, x < ev.n → evDegAll ev.edges x % 2 = 0) :
    WINV ev start ⟨[start], [], List.replicate ev.edges.length false,
      List.replicate ev.n 0⟩ := by
  have hrep0 : ∀ x : Nat, (List.replicate ev.n (0 : Nat)).getD x 0 = 0 := by
    intro x
    by_cases hx : x < ev.n
    · rw [List.getD_eq_getElem _ _ (by simpa using hx)]
      simp
    · rw [List.getD_eq_default _ _ (by simpa using Nat.le_of_not_lt hx)]
  refine ⟨by simp, by simp, ?_, ?_, ?_, ?_, ?_, ?_, ?_, ?_, ?_⟩
  · intro v hv
    have hv' : v = start := by simpa using hv
    rw [hv']
    exact hstart
  · intro v hv
    exact absurd hv (List.not_mem_nil v)
  · intro x hx
    rw [hrep0 x]
    exact Nat.zero_le _
  · intro x hx k hk
    rw [hrep0 x] at hk
    exact absurd hk (Nat.not_lt_zero k)
  · intro _
    rfl
  · intro h
    exact absurd rfl h
  · intro x hx
    exact absurd hx (List.not_mem_nil x)
  · intro b s' hs hp
    have hs' : [start] = b :: s' := hs
    injection hs' with hb1 hb2
    constructor
    · show usedPairs ev.edges (List.replicate ev.edges.length false)
        = pairsOf [start]
      rw [usedPairs_false]
      rfl
    · intro x hx
      show unusedDeg ev.edges (List.replicate ev.edges.length false) x % 2
        = ((if x = b then 1 else 0) + (if x = start then 1 else 0)) % 2
      rw [unusedDeg_false]
      have h := hdeg x hx
      rw [← hb1]
      split_ifs <;> omega
  · intro b s' q q' hs hp
    have hp' : ([] : List Nat) = q :: q' := hp
    exact absurd hp' (by simp)

theorem mem_usedPairs_of_used (edges : List (Nat × Nat)) :
    ∀ (used : List Bool) (idx : Nat), edges.length = used.length →
    idx < edges.length → used.getD idx false = true →
    edges.getD idx (0, 0) ∈ usedPairs edges used := by
  induction edges with
  | nil =>
    intro used idx hlen hidx _
    exact absurd hidx (by simp)
  | cons p ps ih =>
    intro used idx hlen hidx htrue
    cases used with
    | nil => simp at hlen
    | cons b bs =>
      cases idx with
      | zero =>
        have hb : b = true := htrue
        subst hb
        rw [usedPairs_cons, List.getD_cons_zero, if_pos rfl]
        exact Multiset.mem_add.mpr (Or.inl (Multiset.mem_singleton_self p))
      | succ k =>
        rw [usedPairs_cons, List.getD_cons_succ]
        refine Multiset.mem_add.mpr (Or.inr ?_)
        exact ih bs k (by simpa using hlen) (by simpa using hidx) htrue

theorem efinal_path_closed (ev : EdgeView) (start : Nat) (σ : EulerState)
    (hF : EFINAL ev start σ)
    (hM1 : ∀ idx : Nat, idx < ev.edges.length →
      idx ∈ ev.incid.getD ((ev.edges.getD idx (0, 0)).1) [] ∧
      idx ∈ ev.incid.getD ((ev.edges.getD idx (0, 0)).2) [])
    (x y : Nat) (hx : x ∈ σ.path) (hxn : x < ev.n)
    (hxy : (x, y) ∈ ev.edges ∨ (y, x) ∈ ev.edges) : y ∈ σ.path := by
  have key : ∀ e : Nat × Nat, e ∈ ev.edges → (e.1 = x ∨ e.2 = x) →
      e ∈ usedPairs ev.edges σ.used := by
    intro e he hend
    obtain ⟨idx, hidx, hidxe⟩ := List.mem_iff_getElem.mp he
    have hgetd : ev.edges.getD idx (0, 0) = e := by
      rw [List.getD_eq_getElem _ _ hidx, hidxe]
    have hmem : idx ∈ ev.incid.getD x [] := by
      obtain ⟨hm1, hm2⟩ := hM1 idx hidx
      rcases hend with h | h
      · rw [hgetd, h] at hm1
        exact hm1
      · rw [hgetd, h] at hm2
        exact hm2
    obtain ⟨k, hk, hkeq⟩ := List.mem_iff_getElem.mp hmem
    have hkd : (ev.incid.getD x []).getD k 0 = idx := by
      rw [List.getD_eq_getElem _ _ hk, hkeq]
    have hkx : k < σ.it.getD x 0 := by
      rw [hF.hexh x hx]
      exact hk
    have hu := hF.hiterU x hxn k hkx
    rw [hkd] at hu
    have hin := mem_usedPairs_of_used ev.edges σ.used idx hF.hused.symm
      hidx hu
    rw [hgetd] at hin
    exact hin
  rcases hxy with h | h
  · have hin := key (x, y) h (Or.inl rfl)
    rw [hF.hpairs] at hin
    exact (pairsOf_mem σ.path x y hin).2
  · have hin := key (y, x) h (Or.inr rfl)
    rw [hF.hpairs] at hin
    exact (pairsOf_mem σ.path y x hin).1

theorem efinal_all_used (ev : EdgeView) (start : Nat) (σ : EulerState)
    (hF : EFINAL ev start σ)
    (hE : ∀ p ∈ ev.edges, p.1 ≤ p.2 ∧ p.2 < ev.n)
    (hM1 : ∀ idx : Nat, idx < ev.edges.length →
      idx ∈ ev.incid.getD ((ev.edges.getD idx (0, 0)).1) [] ∧
      idx ∈ ev.incid.getD ((ev.edges.getD idx (0, 0)).2) [])
    (hcover : ∀ idx : Nat, idx < ev.edges.length →
      (ev.edges.getD idx (0, 0)).1 ∈ σ.path) :
    usedPairs ev.edges σ.used = ↑ev.edges := by
  refine usedPairs_all ev.edges σ.used hF.hused.symm ?_
  intro idx hidx
  rw [hF.hused] at hidx
  have hemem : ev.edges.getD idx (0, 0) ∈ ev.edges := by
    rw [List.getD_eq_getElem _ _ hidx]
    exact List.getElem_mem hidx
  have hx : (ev.edges.getD idx (0, 0)).1 ∈ σ.path := hcover idx hidx
  have hxn : (ev.edges.getD idx (0, 0)).1 < ev.n := by
    have h := hE _ hemem
    omega
  have hmem : idx ∈ ev.incid.getD (ev.edges.getD idx (0, 0)).1 [] :=
    (hM1 idx hidx).1
  obtain ⟨k, hk, hkeq⟩ := List.mem_iff_getElem.mp hmem
  have hkx : k < σ.it.getD (ev.edges.getD idx (0, 0)).1 0 := by
    rw [hF.hexh _ hx]
    exact hk
  have hu := hF.hiterU _ hxn k hkx
  rw [show (ev.incid.getD (ev.edges.getD idx (0, 0)).1 []).getD k 0 = idx
    from by rw [List.getD_eq_getElem _ _ hk, hkeq]] at hu
  exact hu

theorem sum_getD_lengths :
    ∀ l : List (List Nat),
    ((List.range l.length).map (fun x => (l.getD x []).length)).sum
      = (l.map List.length).sum := by
  intro l
  induction l with
  | nil => rfl
  | cons a t ih =>
    rw [List.length_cons, List.range_succ_eq_map]
    simp only [List.map_cons, List.sum_cons, List.map_map]
    have hcomp : ((List.range t.length).map
        ((fun x => ((a :: t).getD x []).length) ∘ Nat.succ)).sum
        = ((List.range t.length).map (fun x => (t.getD x []).length)).sum := by
      refine congrArg List.sum (List.map_congr_left ?_)
      intro x _
      rfl
    rw [hcomp, ih]
    rfl

/-- C1: when `graph_find_euler_circuit` returns a cycle, the returned
vertex sequence traverses each undirected edge of the graph exactly
once (the multiset of its consecutive unordered pairs equals the edge
multiset of the edge view, in which a self-loop is one edge), its
length is `m + 1` where `m` is the number of undirected edges, and its
first vertex equals its last vertex.  The hypotheses are the
representation invariants maintained by the graph API: `n` adjacency
cells, in-range targets, symmetric neighbour counts and an even number
of self-loop entries at every vertex. -/
theorem find_euler_circuit_correct (g : Graph) (cycle : List Nat)
    (hlen : g.adj.length = g.n)
    (hdst : ∀ u : Nat, u < g.n → ∀ e ∈ g.adjList u, e.dst < g.n)
    (hcnt : ∀ a : Nat, a < g.n → ∀ b : Nat, b < g.n →
      g.count_neighbor a b = g.count_neighbor b a)
    (hloop : ∀ a : Nat, a < g.n → g.count_neighbor a a % 2 = 0)
    (hres : graph_find_euler_circuit g = some cycle) :
    pairsOf cycle = ↑(build_edge_view g).edges ∧
    cycle.length = (build_edge_view g).edges.length + 1 ∧
    cycle.head? = cycle.getLast? := by
  have hdstA : ∀ u : Nat, ∀ e ∈ g.adjList u, e.dst < g.n := by
    intro u e he
    by_cases hu : u < g.n
    · exact hdst u hu e he
    · unfold Graph.adjList at he
      rw [List.getD_eq_default _ _ (by omega)] at he
      cases he
  unfold graph_find_euler_circuit at hres
  have hok : g.graph_has_euler_circuit = true := by
    by_contra h
    rw [if_pos h] at hres
    exact Option.noConfusion hres
  rw [if_neg (not_not_intro hok)] at hres
  have hconn0 : g.is_connected_ignore_isolated = true := by
    unfold Graph.graph_has_euler_circuit at hok
    by_contra h
    rw [if_pos h] at hok
    simp at hok
  have hdeg0 : ∀ i : Nat, i < g.n → g.degree_vertex_adj i % 2 = 0 := by
    intro i hi
    unfold Graph.graph_has_euler_circuit at hok
    rw [if_neg (by simp [hconn0])] at hok
    by_contra h
    have hany : (List.range g.n).any
        (fun i => decide (g.degree_vertex_adj i % 2 ≠ 0)) = true := by
      rw [List.any_eq_true]
      exact ⟨i, List.mem_range.mpr hi, by simpa using h⟩
    rw [if_pos hany] at hok
    simp at hok
  have hdeg : ∀ x : Nat, g.degree_vertex_adj x % 2 = 0 := by
    intro x
    by_cases hx : x < g.n
    · exact hdeg0 x hx
    · unfold Graph.degree_vertex_adj Graph.adjList
      rw [List.getD_eq_default _ _ (by omega)]
      rfl
  have hsym : ∀ a : Nat, a < g.n → ∀ b : Nat, b < g.n →
      g.adjacent a b → g.adjacent b a := by
    intro a ha b hb hab
    obtain ⟨e, he, hed⟩ := hab
    have hpos : 0 < g.count_neighbor a b := by
      unfold Graph.count_neighbor
      rw [List.countP_pos]
      exact ⟨e, he, by simpa using hed⟩
    rw [hcnt a ha b hb] at hpos
    unfold Graph.count_neighbor at hpos
    rw [List.countP_pos] at hpos
    obtain ⟨e', he', hd⟩ := hpos
    exact ⟨e', he', by simpa using hd⟩
  have hconn := (is_connected_ignore_isolated_iff g hlen hdstA hsym).mp hconn0
  obtain ⟨hevn, hIl, hE2, hI1, hM1, hX1, hevdeg⟩ :=
    build_edge_view_facts g hdstA hcnt hloop hdeg
  dsimp only at hres
  set ev := build_edge_view g with hev
  have hE : ∀ p ∈ ev.edges, p.1 ≤ p.2 ∧ p.2 < ev.n := by
    intro p hp
    obtain ⟨h1, h2, _⟩ := hE2 p hp
    exact ⟨h1, by omega⟩
  rcases hcase : (List.range ev.n).find?
      (fun i => !(ev.incid.getD i []).isEmpty) with _ | start
  · rw [hcase] at hres
    exact Option.noConfusion hres
  rw [hcase] at hres
  dsimp only at hres
  set σF := euler_loop ev (2 * (ev.incid.map List.length).sum + 2)
    ⟨[start], [], List.replicate ev.edges.length false,
      List.replicate ev.n 0⟩ with hsF
  rcases Nat.lt_or_ge σF.path.length 1 with hlen1 | hlen1
  · rw [if_pos hlen1] at hres
    exact Option.noConfusion hres
  rw [if_neg (by omega)] at hres
  have hcyc : σF.path = cycle := Option.some.inj hres
  have hstart : start < ev.n :=
    List.mem_range.mp (List.mem_of_find?_eq_some hcase)
  have hstart_ne : ev.incid.getD start [] ≠ [] := by
    have h := List.find?_some hcase
    simpa using h
  have hdegev : ∀ x : Nat, x < ev.n → evDegAll ev.edges x % 2 = 0 := by
    intro x hx
    exact hevdeg x (by omega)
  have hW0 := euler_initial_inv ev start hstart hdegev
  have hfuel : emeasure ev ⟨[start], [],
      List.replicate ev.edges.length false, List.replicate ev.n 0⟩
      ≤ 2 * (ev.incid.map List.length).sum + 2 := by
    unfold emeasure
    dsimp only
    have hz : ∀ x ∈ List.range ev.n,
        (ev.incid.getD x []).length
          - (List.replicate ev.n (0 : Nat)).getD x 0
          = (ev.incid.getD x []).length := by
      intro x hx
      have hz0 : (List.replicate ev.n (0 : Nat)).getD x 0 = 0 := by
        by_cases hxn : x < ev.n
        · rw [List.getD_eq_getElem _ _ (by simpa using hxn)]
          simp
        · rw [List.getD_eq_default _ _
            (by simpa using Nat.le_of_not_lt hxn)]
      rw [hz0]
      omega
    rw [List.map_congr_left hz]
    have hrange : List.range ev.n = List.range ev.incid.length := by
      rw [hIl, hevn]
    rw [hrange, sum_getD_lengths]
    simp only [List.length_cons, List.length_nil]
    omega
  have hF : EFINAL ev start σF := by
    rw [hsF]
    exact euler_loop_final ev start hE hI1 hM1 _ _ hW0 (by simp) hfuel
  have hstart_on : start ∈ σF.path := List.mem_of_mem_head? hF.hhead
  have hreach : ∀ z : Nat, Relation.ReflTransGen g.adjacent start z →
      z ∈ σF.path := by
    intro z hz
    induction hz with
    | refl => exact hstart_on
    | @tail b c hxb hbc ih =>
      have hbn : b < g.n := adjacent_lt_left g hlen hbc
      obtain ⟨e, he, hed⟩ := hbc
      have hcn : c < g.n := by
        have := hdstA b e he
        omega
      by_cases hbc' : b = c
      · rw [← hbc']
        exact ih
      · by_cases hblt : b < c
        · have hedge : (b, c) ∈ ev.edges := hX1 b c hbn hblt ⟨e, he, hed⟩
          exact efinal_path_closed ev start σF hF hM1 b c ih (by omega)
            (Or.inl hedge)
        · have hclt : c < b := by omega
          have hadj : g.adjacent c b := hsym b hbn c hcn ⟨e, he, hed⟩
          obtain ⟨e', he', hed'⟩ := hadj
          have hedge : (c, b) ∈ ev.edges :=
            hX1 c b hcn hclt ⟨e', he', hed'⟩
          exact efinal_path_closed ev start σF hF hM1 b c ih (by omega)
            (Or.inr hedge)
  have hnoniso_of_edge : ∀ p : Nat × Nat, p ∈ ev.edges →
      g.nonIsolated p.1 ∧ g.nonIsolated p.2 := by
    intro p hp
    obtain ⟨hple, hpn, e, he, hed⟩ := hE2 p hp
    constructor
    · intro hnil
      rw [hnil] at he
      cases he
    · have hp1n : p.1 < g.n := by omega
      have hpos : 0 < g.count_neighbor p.1 p.2 := by
        unfold Graph.count_neighbor
        rw [List.countP_pos]
        exact ⟨e, he, by simpa using hed⟩
      rw [hcnt p.1 hp1n p.2 hpn] at hpos
      unfold Graph.count_neighbor at hpos
      rw [List.countP_pos] at hpos
      obtain ⟨e', he', _⟩ := hpos
      intro hnil
      rw [hnil] at he'
      cases he'
  have hstart_noniso : g.nonIsolated start := by
    obtain ⟨idx0, hidx0⟩ := List.exists_mem_of_ne_nil _ hstart_ne
    obtain ⟨hidx0lt, hidx0end⟩ := hI1 start idx0 hidx0
    have he0 : ev.edges.getD idx0 (0, 0) ∈ ev.edges := by
      rw [List.getD_eq_getElem _ _ hidx0lt]
      exact List.getElem_mem hidx0lt
    obtain ⟨hn1, hn2⟩ := hnoniso_of_edge _ he0
    rcases hidx0end with h | h
    · rw [← h]
      exact hn1
    · rw [← h]
      exact hn2
  have hcover : ∀ idx : Nat, idx < ev.edges.length →
      (ev.edges.getD idx (0, 0)).1 ∈ σF.path := by
    intro idx hidx
    have hemem : ev.edges.getD idx (0, 0) ∈ ev.edges := by
      rw [List.getD_eq_getElem _ _ hidx]
      exact List.getElem_mem hidx
    have hni := (hnoniso_of_edge _ hemem).1
    exact hreach _ (hconn start _ hstart_noniso hni)
  have hall := efinal_all_used ev start σF hF hE hM1 hcover
  rw [hF.hpairs] at hall
  refine ⟨by rw [← hcyc]; exact hall, ?_, ?_⟩
  · have hcard := pairsOf_card σF.path hF.hne
    rw [hall, Multiset.coe_card] at hcard
    rw [← hcyc]
    omega
  · rw [← hcyc, hF.hhead, hF.hlast]

theorem find_euler_circuit_correct_witness :
    graph_find_euler_circuit
      ⟨3, [[⟨1, 1⟩, ⟨2, 1⟩], [⟨0, 1⟩, ⟨2, 1⟩], [⟨0, 1⟩, ⟨1, 1⟩]]⟩
      = some [0, 1, 2, 0] ∧
    (pairsOf [0, 1, 2, 0]
        = ↑(build_edge_view
            ⟨3, [[⟨1, 1⟩, ⟨2, 1⟩], [⟨0, 1⟩, ⟨2, 1⟩], [⟨0, 1⟩, ⟨1, 1⟩]]⟩).edges ∧
     ([0, 1, 2, 0] : List Nat).length
        = (build_edge_view
            ⟨3, [[⟨1, 1⟩, ⟨2, 1⟩], [⟨0, 1⟩, ⟨2, 1⟩], [⟨0, 1⟩, ⟨1, 1⟩]]⟩).edges.length + 1 ∧
     ([0, 1, 2, 0] : List Nat).head? = ([0, 1, 2, 0] : List Nat).getLast?) :=
  ⟨by decide,
   find_euler_circuit_correct
     ⟨3, [[⟨1, 1⟩, ⟨2, 1⟩], [⟨0, 1⟩, ⟨2, 1⟩], [⟨0, 1⟩, ⟨1, 1⟩]]⟩
     [0, 1, 2, 0] (by decide) (by decide) (by decide) (by decide)
     (by decide)⟩



/-! ### C2: Edmonds–Karp max flow (`maxflow.c`) -/

/-- Entry in a capacity matrix (row `u`, column `v`, default 0). -/
def capAt (m : List (List Int)) (u v : Nat) : Int :=
  (m.getD u []).getD v 0

/-- One adjacency entry of `build_capacity_matrix`:
`if (u != v) capacity_matrix[u][v] = edge->weight`. -/
def bcm_entry (u : Nat) (m : List (List Int)) (e : EdgeNode) :
    List (List Int) :=
  if u ≠ e.dst then m.set u ((m.getD u []).set e.dst e.weight) else m

/-- `build_capacity_matrix` from `maxflow.c`: an `n × n` matrix of
zeros overwritten with each adjacency entry's weight (self-loops are
skipped). -/
def build_capacity_matrix (g : Graph) : List (List Int) :=
  (List.range g.n).foldl
    (fun m u => (g.adjList u).foldl (bcm_entry u) m)
    (List.replicate g.n (List.replicate g.n 0))

/-- The state of `bfs_find_path`: the visited flags, the parent array
(`-1` at the source), the queue (front first) and the found flag. -/
structure BFSState where
  vis : List Bool
  par : List Int
  queue : List Nat
  found : Bool
deriving Repr, DecidableEq

/-- The inner `for (v = 0; v < n; v++)` scan of `bfs_find_path` over a
dequeued vertex `u`, including the early `break` when the sink is
discovered. -/
def bfs_scan (res : List (List Int)) (sink u : Nat) :
    List Nat → BFSState → BFSState
  | [], st => st
  | v :: vs, st =>
    if st.vis.getD v false = false ∧ 0 < capAt res u v then
      let st' : BFSState :=
        ⟨st.vis.set v true, st.par.set v (u : Int), st.queue ++ [v],
         st.found⟩
      if v = sink then ⟨st'.vis, st'.par, st'.queue, true⟩
      else bfs_scan res sink u vs st'
    else bfs_scan res sink u vs st

/-- The `while (!queue_is_empty(q) && !found)` loop of
`bfs_find_path`, with an explicit step budget. -/
def bfs_loop (res : List (List Int)) (n sink : Nat) :
    Nat → BFSState → BFSState
  | 0, st => st
  | fuel + 1, st =>
    match st.queue, st.found with
    | [], _ => st
    | _, true => st
    | u :: q', false =>
      bfs_loop res n sink fuel
        (bfs_scan res sink u (List.range n) ⟨st.vis, st.par, q', false⟩)

/-- `bfs_find_path` from `maxflow.c`: breadth-first search for an
augmenting path in the residual matrix, recording parents. -/
def bfs_find_path (res : List (List Int)) (n source sink : Nat) :
    BFSState :=
  bfs_loop res n sink (2 * n + 1)
    ⟨(List.replicate n false).set source true,
     (List.replicate n 0).set source (-1), [source], false⟩

/-- The `for (v = sink; v != source; v = parent[v])` walk of
`find_path_flow`, with an explicit step budget. -/
def fpf_walk (res : List (List Int)) (par : List Int) (source : Nat) :
    Nat → Nat → Int → Int
  | 0, _, acc => acc
  | fuel + 1, v, acc =>
    if v = source then acc
    else
      fpf_walk res par source fuel (par.getD v 0).toNat
        (min acc (capAt res (par.getD v 0).toNat v))

/-- `find_path_flow` from `maxflow.c` (`path_flow` starts at
`INT_MAX`). -/
def find_path_flow (res : List (List Int)) (par : List Int)
    (source sink : Nat) : Int :=
  fpf_walk res par source par.length sink 2147483647

/-- One step of `update_residual_graph`:
`res_graph[u][v] -= path_flow; res_graph[v][u] += path_flow`. -/
def updEdge (pf : Int) (res : List (List Int)) (u v : Nat) :
    List (List Int) :=
  let res1 := res.set u ((res.getD u []).set v (capAt res u v - pf))
  res1.set v ((res1.getD v []).set u (capAt res1 v u + pf))

/-- The walk of `update_residual_graph`, with an explicit step
budget. -/
def upd_walk (par : List Int) (source : Nat) (pf : Int) :
    Nat → Nat → List (List Int) → List (List Int)
  | 0, _, res => res
  | fuel + 1, v, res =>
    if v = source then res
    else
      upd_walk par source pf fuel (par.getD v 0).toNat
        (updEdge pf res (par.getD v 0).toNat v)

/-- `update_residual_graph` from `maxflow.c`. -/
def update_residual_graph (res : List (List Int)) (par : List Int)
    (source sink : Nat) (pf : Int) : List (List Int) :=
  upd_walk par source pf par.length sink res

/-- The Edmonds–Karp main loop of `graph_max_flow`, with an explicit
step budget (each iteration augments by at least 1, and the flow value
is bounded by the total capacity, so the budget chosen by
`graph_max_flow` below always suffices). -/
def maxflow_loop (n source sink : Nat) :
    Nat → List (List Int) × Int → List (List Int) × Int
  | 0, st => st
  | fuel + 1, (res, f) =>
    let b := bfs_find_path res n source sink
    if b.found then
      let pf := find_path_flow res b.par source sink
      maxflow_loop n source sink fuel
        (update_residual_graph res b.par source sink pf, f + pf)
    else (res, f)

/-- `graph_max_flow` from `maxflow.c` (allocation failures are not
modelled; the `NULL` graph and out-parameter are handled at the
`Option` boundary): validate the endpoints, build the capacity matrix
and run Edmonds–Karp. -/
def graph_max_flow (g : Graph) (source sink : Int) : Option Int :=
  if source < 0 ∨ sink < 0 ∨ (g.n : Int) ≤ source ∨ (g.n : Int) ≤ sink ∨
      source = sink then none
  else
    let cap := build_capacity_matrix g
    let fuel := (cap.map (fun row => (row.map Int.natAbs).sum)).sum + 1
    some (maxflow_loop g.n source.toNat sink.toNat fuel (cap, 0)).2


/-! ### C2: matrix well-formedness and entry lemmas -/

/-- An `n × n` integer matrix. -/
def Mat (n : Nat) (m : List (List Int)) : Prop :=
  m.length = n ∧ ∀ u : Nat, u < n → (m.getD u []).length = n

theorem capAt_oob_row {n : Nat} {m : List (List Int)} (hM : Mat n m)
    (u v : Nat) (hu : n ≤ u) : capAt m u v = 0 := by
  obtain ⟨h1, h2⟩ := hM
  unfold capAt
  rw [List.getD_eq_default _ _ (by omega : m.length ≤ u)]
  rfl

theorem capAt_oob_col {n : Nat} {m : List (List Int)} (hM : Mat n m)
    (u v : Nat) (hv : n ≤ v) : capAt m u v = 0 := by
  obtain ⟨h1, h2⟩ := hM
  unfold capAt
  by_cases hu : u < n
  · rw [List.getD_eq_default _ _ (by rw [h2 u hu]; omega)]
  · rw [List.getD_eq_default _ _ (by omega : m.length ≤ u)]
    rfl

theorem updEdge_mat {n : Nat} {m : List (List Int)} (hM : Mat n m)
    (pf : Int) (u v : Nat) : Mat n (updEdge pf m u v) := by
  obtain ⟨h1, h2⟩ := hM
  constructor
  · unfold updEdge
    simp [h1]
  · intro a ha
    unfold updEdge
    dsimp only
    by_cases hav : a = v
    · subst hav
      by_cases hvlen : a < m.length
      · rw [getD_set_self _ _ _ _ (by rw [List.length_set]; omega)]
        rw [List.length_set]
        by_cases hvu : a = u
        · subst hvu
          rw [getD_set_self _ _ _ _ hvlen, List.length_set]
          exact h2 a ha
        · rw [getD_set_ne _ _ _ (fun hh => hvu hh.symm)]
          exact h2 a ha
      · exact absurd ha (by omega)
    · rw [getD_set_ne _ _ _ (fun hh => hav hh.symm)]
      by_cases hau : a = u
      · subst hau
        by_cases hulen : a < m.length
        · rw [getD_set_self _ _ _ _ hulen, List.length_set]
          exact h2 a ha
        · exact absurd ha (by omega)
      · rw [getD_set_ne _ _ _ (fun hh => hau hh.symm)]
        exact h2 a ha

theorem updEdge_capAt_fwd {n : Nat} {m : List (List Int)} (hM : Mat n m)
    (pf : Int) (u v : Nat) (hu : u < n) (hv : v < n) (hne : u ≠ v) :
    capAt (updEdge pf m u v) u v = capAt m u v - pf := by
  obtain ⟨h1, h2⟩ := hM
  unfold updEdge capAt
  dsimp only
  rw [getD_set_ne _ _ _ (fun hh => hne hh.symm)]
  rw [getD_set_self _ _ _ _ (by omega)]
  rw [getD_set_self _ _ _ _ (by rw [h2 u hu]; omega)]

theorem updEdge_capAt_bwd {n : Nat} {m : List (List Int)} (hM : Mat n m)
    (pf : Int) (u v : Nat) (hu : u < n) (hv : v < n) (hne : u ≠ v) :
    capAt (updEdge pf m u v) v u = capAt m v u + pf := by
  obtain ⟨h1, h2⟩ := hM
  unfold updEdge capAt
  dsimp only
  have hrow : (m.set u ((m.getD u []).set v
        ((m.getD u []).getD v 0 - pf))).getD v [] = m.getD v [] :=
    getD_set_ne _ _ _ hne
  rw [getD_set_self _ _ _ _ (by rw [List.length_set]; omega)]
  rw [hrow]
  rw [getD_set_self _ _ _ _ (by rw [h2 v hv]; omega)]

theorem updEdge_capAt_other {n : Nat} {m : List (List Int)} (hM : Mat n m)
    (pf : Int) (u v a b : Nat) (hne : u ≠ v) (hab1 : ¬(a = u ∧ b = v))
    (hab2 : ¬(a = v ∧ b = u)) :
    capAt (updEdge pf m u v) a b = capAt m a b := by
  obtain ⟨h1, h2⟩ := hM
  by_cases han : a < n
  · unfold updEdge capAt
    dsimp only
    by_cases hav : a = v
    · subst hav
      have hbu : b ≠ u := fun hh => hab2 ⟨rfl, hh⟩
      have hau : a ≠ u := fun hh => hne (by omega)
      rw [getD_set_self _ _ _ _ (by rw [List.length_set, h1]; omega)]
      rw [getD_set_ne _ _ _ (fun hh => hbu hh.symm)]
      rw [getD_set_ne _ _ _ (fun hh => hau hh.symm)]
    · rw [getD_set_ne _ _ _ (fun hh => hav hh.symm)]
      by_cases hau : a = u
      · subst hau
        have hbv : b ≠ v := fun hh => hab1 ⟨rfl, hh⟩
        by_cases hulen : a < m.length
        · rw [getD_set_self _ _ _ _ hulen]
          rw [getD_set_ne _ _ _ (fun hh => hbv hh.symm)]
        · exact absurd han (by omega)
      · rw [getD_set_ne _ _ _ (fun hh => hau hh.symm)]
  · rw [capAt_oob_row (updEdge_mat ⟨h1, h2⟩ pf u v) a b (by omega),
      capAt_oob_row ⟨h1, h2⟩ a b (by omega)]

/-! ### C2: net flow, flow invariant and cut duality -/

/-- The net flow across the ordered pair `(u, v)`: built capacity
minus current residual capacity. -/
def Fnet (cap res : List (List Int)) (u v : Nat) : Int :=
  capAt cap u v - capAt res u v

/-- The capacity of the cut `(S, range n \ S)`. -/
def cutCap (cap : List (List Int)) (n : Nat) (S : Finset Nat) : Int :=
  ∑ u ∈ S, ∑ v ∈ Finset.range n \ S, capAt cap u v

/-- The Edmonds–Karp loop invariant: the residual matrix is an
`n × n` nonnegative matrix, each unordered pair's residual total is
the capacity total, the net flow is conserved away from the endpoints
and its divergence at the source is the accumulated value `f`. -/
structure FlowInv (cap res : List (List Int)) (n s t : Nat) (f : Int) :
    Prop where
  hmat : Mat n res
  hnn : ∀ u v : Nat, 0 ≤ capAt res u v
  hsum : ∀ u v : Nat, u < n → v < n →
    capAt res u v + capAt res v u = capAt cap u v + capAt cap v u
  hcons : ∀ w : Nat, w < n → w ≠ s → w ≠ t →
    (∑ v ∈ Finset.range n, Fnet cap res w v) = 0
  hval : (∑ v ∈ Finset.range n, Fnet cap res s v) = f

theorem flow_cut_identity (F : Nat → Nat → Int) (n s t : Nat)
    (hanti : ∀ u v : Nat, u < n → v < n → F u v = - F v u)
    (hcons : ∀ w : Nat, w < n → w ≠ s → w ≠ t →
      (∑ v ∈ Finset.range n, F w v) = 0)
    (S : Finset Nat) (hS : S ⊆ Finset.range n) (hsS : s ∈ S)
    (htS : t ∉ S) :
    (∑ v ∈ Finset.range n, F s v)
      = ∑ u ∈ S, ∑ v ∈ Finset.range n \ S, F u v := by
  have hsplit : ∀ u ∈ S, (∑ v ∈ Finset.range n, F u v)
      = (∑ v ∈ S, F u v) + ∑ v ∈ Finset.range n \ S, F u v := by
    intro u _
    rw [← Finset.sum_union Finset.disjoint_sdiff,
      Finset.union_sdiff_of_subset hS]
  have hrows : (∑ u ∈ S, ∑ v ∈ Finset.range n, F u v)
      = ∑ v ∈ Finset.range n, F s v := by
    refine Finset.sum_eq_single s ?_ ?_
    · intro w hw hws
      refine hcons w (Finset.mem_range.mp (hS hw)) hws ?_
      intro hwt
      rw [hwt] at hw
      exact htS hw
    · intro hs
      exact absurd hsS hs
  have hSS : (∑ u ∈ S, ∑ v ∈ S, F u v) = 0 := by
    have h2 : (∑ u ∈ S, ∑ v ∈ S, F u v) = ∑ v ∈ S, ∑ u ∈ S, F u v :=
      Finset.sum_comm
    have h3 : (∑ v ∈ S, ∑ u ∈ S, F u v)
        = - ∑ v ∈ S, ∑ u ∈ S, F v u := by
      rw [← Finset.sum_neg_distrib]
      refine Finset.sum_congr rfl ?_
      intro v hv
      rw [← Finset.sum_neg_distrib]
      refine Finset.sum_congr rfl ?_
      intro u hu
      exact hanti u v (Finset.mem_range.mp (hS hu))
        (Finset.mem_range.mp (hS hv))
    rw [h2] at *
    omega
  calc (∑ v ∈ Finset.range n, F s v)
      = ∑ u ∈ S, ∑ v ∈ Finset.range n, F u v := hrows.symm
    _ = ∑ u ∈ S, ((∑ v ∈ S, F u v) + ∑ v ∈ Finset.range n \ S, F u v) :=
        Finset.sum_congr rfl hsplit
    _ = (∑ u ∈ S, ∑ v ∈ S, F u v)
        + ∑ u ∈ S, ∑ v ∈ Finset.range n \ S, F u v := Finset.sum_add_distrib
    _ = ∑ u ∈ S, ∑ v ∈ Finset.range n \ S, F u v := by
        rw [hSS, zero_add]

theorem flowinv_anti {cap res : List (List Int)} {n s t : Nat} {f : Int}
    (hF : FlowInv cap res n s t f) :
    ∀ u v : Nat, u < n → v < n → Fnet cap res u v = - Fnet cap res v u := by
  intro u v hu hv
  have h := hF.hsum u v hu hv
  unfold Fnet
  omega

theorem flowinv_cut_eq {cap res : List (List Int)} {n s t : Nat} {f : Int}
    (hF : FlowInv cap res n s t f) (S : Finset Nat)
    (hS : S ⊆ Finset.range n) (hsS : s ∈ S) (htS : t ∉ S) :
    f = ∑ u ∈ S, ∑ v ∈ Finset.range n \ S, Fnet cap res u v := by
  rw [← hF.hval]
  exact flow_cut_identity (Fnet cap res) n s t (flowinv_anti hF)
    hF.hcons S hS hsS htS

theorem flowinv_le_cut {cap res : List (List Int)} {n s t : Nat} {f : Int}
    (hF : FlowInv cap res n s t f) (S : Finset Nat)
    (hS : S ⊆ Finset.range n) (hsS : s ∈ S) (htS : t ∉ S) :
    f ≤ cutCap cap n S := by
  rw [flowinv_cut_eq hF S hS hsS htS]
  unfold cutCap
  refine Finset.sum_le_sum ?_
  intro u hu
  refine Finset.sum_le_sum ?_
  intro v hv
  have := hF.hnn u v
  unfold Fnet
  omega

/-! ### C2: BFS scan lemmas -/

/-- Number of unvisited vertices. -/
def unvisCount (n : Nat) (vis : List Bool) : Nat :=
  ((List.range n).filter (fun v => vis.getD v false = false)).length

theorem scan_lengths (res : List (List Int)) (sink u : Nat) :
    ∀ (vs : List Nat) (st : BFSState),
    (bfs_scan res sink u vs st).vis.length = st.vis.length ∧
    (bfs_scan res sink u vs st).par.length = st.par.length := by
  intro vs
  induction vs with
  | nil => exact fun st => ⟨rfl, rfl⟩
  | cons v vs ih =>
    intro st
    unfold bfs_scan
    dsimp only
    split_ifs with h1 h2
    · exact ⟨by simp, by simp⟩
    · obtain ⟨ha, hb⟩ := ih ⟨st.vis.set v true, st.par.set v (u : Int),
        st.queue ++ [v], st.found⟩
      rw [ha, hb]
      exact ⟨by simp, by simp⟩
    · exact ih st

theorem scan_vis_mono (res : List (List Int)) (sink u : Nat) :
    ∀ (vs : List Nat) (st : BFSState) (x : Nat),
    st.vis.getD x false = true →
    (bfs_scan res sink u vs st).vis.getD x false = true := by
  intro vs
  induction vs with
  | nil => exact fun st x hx => hx
  | cons v vs ih =>
    intro st x hx
    unfold bfs_scan
    dsimp only
    have hset : (st.vis.set v true).getD x false = true := by
      by_cases hxv : v = x
      · subst hxv
        by_cases hvl : v < st.vis.length
        · exact getD_set_self _ _ _ _ hvl
        · rw [List.getD_eq_default _ _ (by omega)] at hx
          cases hx
      · rw [getD_set_ne _ _ _ hxv]
        exact hx
    split_ifs with h1 h2
    · exact hset
    · exact ih _ x hset
    · exact ih st x hx

theorem scan_par_keep (res : List (List Int)) (sink u : Nat) :
    ∀ (vs : List Nat) (st : BFSState) (x : Nat),
    st.vis.getD x false = true →
    (bfs_scan res sink u vs st).par.getD x 0 = st.par.getD x 0 := by
  intro vs
  induction vs with
  | nil => exact fun st x _ => rfl
  | cons v vs ih =>
    intro st x hx
    unfold bfs_scan
    dsimp only
    split_ifs with h1 h2
    · dsimp only
      have hxv : v ≠ x := by
        intro hh
        rw [hh] at h1
        rw [hx] at h1
        exact absurd h1.1 (by simp)
      exact getD_set_ne _ _ _ hxv
    · have hxv : v ≠ x := by
        intro hh
        rw [hh] at h1
        rw [hx] at h1
        exact absurd h1.1 (by simp)
      have hset : (st.vis.set v true).getD x false = true := by
        rw [getD_set_ne _ _ _ hxv]
        exact hx
      rw [ih ⟨st.vis.set v true, st.par.set v (u : Int),
        st.queue ++ [v], st.found⟩ x hset]
      exact getD_set_ne _ _ _ hxv
    · exact ih st x hx

theorem scan_vis_new (res : List (List Int)) (n sink u : Nat) :
    ∀ (vs : List Nat) (st : BFSState), st.vis.length = n →
    st.par.length = n → (∀ v ∈ vs, v < n) →
    ∀ x : Nat, (bfs_scan res sink u vs st).vis.getD x false = true →
    st.vis.getD x false = true ∨
    (x ∈ vs ∧ 0 < capAt res u x ∧
      (bfs_scan res sink u vs st).par.getD x 0 = (u : Int) ∧
      st.vis.getD x false = false) := by
  intro vs
  induction vs with
  | nil => exact fun st _ _ _ x hx => Or.inl hx
  | cons v vs ih =>
    intro st hvl hpl hvsn x hx
    have hvn : v < n := hvsn v (List.mem_cons_self _ _)
    unfold bfs_scan at hx ⊢
    dsimp only at hx ⊢
    split_ifs at hx ⊢ with h1 h2
    · dsimp only at hx
      by_cases hxv : x = v
      · subst hxv
        refine Or.inr ⟨List.mem_cons_self _ _, h1.2, ?_, h1.1⟩
        exact getD_set_self _ _ _ _ (by omega)
      · rw [getD_set_ne _ _ _ (fun hh => hxv hh.symm)] at hx
        exact Or.inl hx
    · by_cases hxv : x = v
      · subst hxv
        refine Or.inr ⟨List.mem_cons_self _ _, h1.2, ?_, h1.1⟩
        have hkeep := scan_par_keep res sink u vs
          ⟨st.vis.set x true, st.par.set x (u : Int),
            st.queue ++ [x], st.found⟩ x
          (getD_set_self _ _ _ _ (by omega))
        rw [hkeep]
        exact getD_set_self _ _ _ _ (by omega)
      · have := ih ⟨st.vis.set v true, st.par.set v (u : Int),
          st.queue ++ [v], st.found⟩ (by simp [hvl]) (by simp [hpl])
          (fun w hw => hvsn w (List.mem_cons_of_mem _ hw)) x hx
        rcases this with h | ⟨hmem, hcap, hpar, hfalse⟩
        · rw [show (⟨st.vis.set v true, st.par.set v (u : Int),
            st.queue ++ [v], st.found⟩ : BFSState).vis = st.vis.set v true
            from rfl] at h
          rw [getD_set_ne _ _ _ (fun hh => hxv hh.symm)] at h
          exact Or.inl h
        · refine Or.inr ⟨List.mem_cons_of_mem _ hmem, hcap, hpar, ?_⟩
          rw [show (⟨st.vis.set v true, st.par.set v (u : Int),
            st.queue ++ [v], st.found⟩ : BFSState).vis = st.vis.set v true
            from rfl] at hfalse
          rw [getD_set_ne _ _ _ (fun hh => hxv hh.symm)] at hfalse
          exact hfalse
    · rcases ih st hvl hpl (fun w hw => hvsn w (List.mem_cons_of_mem _ hw))
        x hx with h | ⟨hmem, hcap, hpar, hfalse⟩
      · exact Or.inl h
      · exact Or.inr ⟨List.mem_cons_of_mem _ hmem, hcap, hpar, hfalse⟩

theorem scan_queue (res : List (List Int)) (n sink u : Nat) :
    ∀ (vs : List Nat) (st : BFSState), st.vis.length = n →
    (∀ v ∈ vs, v < n) →
    ∃ new : List Nat,
      (bfs_scan res sink u vs st).queue = st.queue ++ new ∧
      ∀ v ∈ new, v < n ∧
        (bfs_scan res sink u vs st).vis.getD v false = true := by
  intro vs
  induction vs with
  | nil =>
    intro st _ _
    exact ⟨[], by rw [List.append_nil]; rfl,
      fun v hv => absurd hv (List.not_mem_nil v)⟩
  | cons v vs ih =>
    intro st hvl hvsn
    have hvn : v < n := hvsn v (List.mem_cons_self _ _)
    unfold bfs_scan
    dsimp only
    split_ifs with h1 h2
    · refine ⟨[v], rfl, ?_⟩
      intro w hw
      have hwv : w = v := by simpa using hw
      subst hwv
      exact ⟨hvn, getD_set_self _ _ _ _ (by omega)⟩
    · obtain ⟨new', hq', hnew'⟩ := ih
        ⟨st.vis.set v true, st.par.set v (u : Int),
          st.queue ++ [v], st.found⟩ (by simp [hvl])
        (fun w hw => hvsn w (List.mem_cons_of_mem _ hw))
      refine ⟨v :: new', ?_, ?_⟩
      · rw [hq']
        simp
      · intro w hw
        rcases List.mem_cons.mp hw with rfl | hw'
        · refine ⟨hvn, ?_⟩
          exact scan_vis_mono res sink u vs _ w
            (getD_set_self _ _ _ _ (by omega))
        · exact hnew' w hw'
    · obtain ⟨new', hq', hnew'⟩ := ih st hvl
        (fun w hw => hvsn w (List.mem_cons_of_mem _ hw))
      exact ⟨new', hq', hnew'⟩

theorem scan_closure (res : List (List Int)) (n sink u : Nat) :
    ∀ (vs : List Nat) (st : BFSState), st.vis.length = n →
    (∀ v ∈ vs, v < n) →
    (bfs_scan res sink u vs st).found = false →
    ∀ v ∈ vs, 0 < capAt res u v →
    (bfs_scan res sink u vs st).vis.getD v false = true := by
  intro vs
  induction vs with
  | nil =>
    intro st _ _ _ v hv
    exact absurd hv (List.not_mem_nil v)
  | cons v vs ih =>
    intro st hvl hvsn hf w hw hcap
    have hvn : v < n := hvsn v (List.mem_cons_self _ _)
    unfold bfs_scan at hf ⊢
    dsimp only at hf ⊢
    split_ifs at hf ⊢ with h1 h2
    · rcases List.mem_cons.mp hw with rfl | hw'
      · exact scan_vis_mono res sink u vs _ w
          (getD_set_self _ _ _ _ (by omega))
      · exact ih ⟨st.vis.set v true, st.par.set v (u : Int),
          st.queue ++ [v], st.found⟩ (by simp [hvl])
          (fun z hz => hvsn z (List.mem_cons_of_mem _ hz)) hf w hw' hcap
    · rcases List.mem_cons.mp hw with rfl | hw'
      · have hvis : st.vis.getD w false = true := by
          rcases Bool.eq_false_or_eq_true (st.vis.getD w false) with h | h
          · exact h
          · exact absurd ⟨h, hcap⟩ h1
        exact scan_vis_mono res sink u vs st w hvis
      · exact ih st hvl (fun z hz => hvsn z (List.mem_cons_of_mem _ hz))
          hf w hw' hcap

theorem scan_sink_keep (res : List (List Int)) (sink u : Nat) :
    ∀ (vs : List Nat) (st : BFSState),
    (bfs_scan res sink u vs st).found = false →
    (bfs_scan res sink u vs st).vis.getD sink false
      = st.vis.getD sink false := by
  intro vs
  induction vs with
  | nil => exact fun st _ => rfl
  | cons v vs ih =>
    intro st hf
    unfold bfs_scan at hf ⊢
    dsimp only at hf ⊢
    split_ifs at hf ⊢ with h1 h2
    · rw [ih _ hf]
      show (st.vis.set v true).getD sink false = st.vis.getD sink false
      exact getD_set_ne _ _ _ h2
    · exact ih st hf

theorem scan_found_spread (res : List (List Int)) (n sink u : Nat) :
    ∀ (vs : List Nat) (st : BFSState), st.vis.length = n → sink < n →
    st.found = false →
    (bfs_scan res sink u vs st).found = true →
    (bfs_scan res sink u vs st).vis.getD sink false = true := by
  intro vs
  induction vs with
  | nil =>
    intro st _ _ hf0 hf1
    have hf1' : st.found = true := hf1
    rw [hf0] at hf1'
    cases hf1'
  | cons v vs ih =>
    intro st hvl hsn hf0 hf1
    unfold bfs_scan at hf1 ⊢
    dsimp only at hf1 ⊢
    split_ifs at hf1 ⊢ with h1 h2
    · subst h2
      exact getD_set_self _ _ _ _ (by omega)
    · exact ih ⟨st.vis.set v true, st.par.set v (u : Int),
        st.queue ++ [v], st.found⟩ (by simp [hvl]) hsn hf0 hf1
    · exact ih st hvl hsn hf0 hf1

theorem countP_unvis_set (vis : List Bool) (v : Nat)
    (hfalse : vis.getD v false = false) (hvl : v < vis.length) :
    ∀ l : List Nat, l.Nodup → v ∈ l →
    l.countP (fun x => (vis.set v true).getD x false == false) + 1
      = l.countP (fun x => vis.getD x false == false) := by
  intro l
  induction l with
  | nil =>
    intro _ hv
    exact absurd hv (List.not_mem_nil v)
  | cons a l ih =>
    intro hnd hv
    rw [List.countP_cons, List.countP_cons]
    rcases List.mem_cons.mp hv with rfl | hv'
    · have hvnotl : v ∉ l := (List.nodup_cons.mp hnd).1
      have htail : l.countP (fun x => (vis.set v true).getD x false == false)
          = l.countP (fun x => vis.getD x false == false) := by
        refine List.countP_congr ?_
        intro x hx
        rw [getD_set_ne _ _ _ (fun hh => hvnotl (by rw [hh]; exact hx))]
      rw [htail]
      rw [show ((vis.set v true).getD v false == false) = false from by
        rw [getD_set_self _ _ _ _ hvl]; rfl]
      rw [show (vis.getD v false == false) = true from by rw [hfalse]; rfl]
      rw [if_neg (by decide), if_pos (by decide)]
    · have hav : a ≠ v := by
        intro hh
        subst hh
        exact (List.nodup_cons.mp hnd).1 hv'
      rw [show ((vis.set v true).getD a false == false)
          = (vis.getD a false == false) from by
        rw [getD_set_ne _ _ _ (fun hh => hav hh.symm)]]
      rw [← ih (List.nodup_cons.mp hnd).2 hv']
      omega

theorem unvisCount_set (n : Nat) (vis : List Bool) (v : Nat) (hv : v < n)
    (hvl : v < vis.length) (hfalse : vis.getD v false = false) :
    unvisCount n (vis.set v true) + 1 = unvisCount n vis := by
  unfold unvisCount
  rw [← List.countP_eq_length_filter, ← List.countP_eq_length_filter]
  exact countP_unvis_set vis v hfalse hvl (List.range n) (List.nodup_range n)
    (List.mem_range.mpr hv)

theorem scan_measure (res : List (List Int)) (n sink u : Nat) :
    ∀ (vs : List Nat) (st : BFSState), st.vis.length = n →
    (∀ v ∈ vs, v < n) →
    2 * unvisCount n (bfs_scan res sink u vs st).vis
        + (bfs_scan res sink u vs st).queue.length
      ≤ 2 * unvisCount n st.vis + st.queue.length := by
  intro vs
  induction vs with
  | nil => exact fun st _ _ => le_rfl
  | cons v vs ih =>
    intro st hvl hvsn
    have hvn : v < n := hvsn v (List.mem_cons_self _ _)
    unfold bfs_scan
    dsimp only
    split_ifs with h1 h2
    · dsimp only
      have := unvisCount_set n st.vis v hvn (by omega) h1.1
      simp only [List.length_append, List.length_singleton]
      omega
    · have hstep := unvisCount_set n st.vis v hvn (by omega) h1.1
      have := ih ⟨st.vis.set v true, st.par.set v (u : Int),
        st.queue ++ [v], st.found⟩ (by simp [hvl])
        (fun z hz => hvsn z (List.mem_cons_of_mem _ hz))
      dsimp only at this
      simp only [List.length_append, List.length_singleton] at this
      omega
    · exact ih st hvl (fun z hz => hvsn z (List.mem_cons_of_mem _ hz))

theorem scan_queue_prefix (res : List (List Int)) (sink u : Nat) :
    ∀ (vs : List Nat) (st : BFSState),
    ∃ new : List Nat, (bfs_scan res sink u vs st).queue
      = st.queue ++ new := by
  intro vs
  induction vs with
  | nil => exact fun st => ⟨[], by rw [List.append_nil]; rfl⟩
  | cons v vs ih =>
    intro st
    unfold bfs_scan
    dsimp only
    split_ifs with h1 h2
    · exact ⟨[v], rfl⟩
    · obtain ⟨new', hq'⟩ := ih ⟨st.vis.set v true, st.par.set v (u : Int),
        st.queue ++ [v], st.found⟩
      refine ⟨v :: new', ?_⟩
      rw [hq']
      simp
    · exact ih st

theorem scan_new_in_queue (res : List (List Int)) (sink u : Nat) :
    ∀ (vs : List Nat) (st : BFSState) (x : Nat),
    st.vis.getD x false = false →
    (bfs_scan res sink u vs st).vis.getD x false = true →
    x ∈ (bfs_scan res sink u vs st).queue := by
  intro vs
  induction vs with
  | nil =>
    intro st x h0 h1
    rw [show (bfs_scan res sink u [] st) = st from rfl] at h1
    rw [h0] at h1
    cases h1
  | cons v vs ih =>
    intro st x h0 h1
    unfold bfs_scan at h1 ⊢
    dsimp only at h1 ⊢
    split_ifs at h1 ⊢ with hc1 hc2
    · dsimp only at h1 ⊢
      by_cases hxv : x = v
      · subst hxv
        exact List.mem_append.mpr (Or.inr (List.mem_singleton_self x))
      · rw [getD_set_ne _ _ _ (fun hh => hxv hh.symm)] at h1
        rw [h0] at h1
        cases h1
    · by_cases hxv : x = v
      · subst hxv
        obtain ⟨new', hq'⟩ := scan_queue_prefix res sink u vs
          ⟨st.vis.set x true, st.par.set x (u : Int),
            st.queue ++ [x], st.found⟩
        rw [hq']
        show x ∈ st.queue ++ [x] ++ new'
        refine List.mem_append.mpr (Or.inl ?_)
        exact List.mem_append.mpr (Or.inr (List.mem_singleton_self x))
      · have h0' : (st.vis.set v true).getD x false = false := by
          rw [getD_set_ne _ _ _ (fun hh => hxv hh.symm)]
          exact h0
        exact ih _ x h0' h1
    · exact ih st x h0 h1

/-- The BFS loop invariant: array lengths, the source is visited,
queued vertices are visited and in range, parents of visited vertices
form a positive-residual forest rooted at the source (witnessed by a
bounded rank), every visited vertex is either still queued or fully
scanned, and the sink is visited exactly when `found` is set. -/
structure BFSInv (res : List (List Int)) (n source sink : Nat)
    (st : BFSState) : Prop where
  hvl : st.vis.length = n
  hpl : st.par.length = n
  hsrc : st.vis.getD source false = true
  hq : ∀ v ∈ st.queue, v < n ∧ st.vis.getD v false = true
  hpar : ∃ r : Nat → Nat, ∃ B : Nat, (∀ v : Nat, v < n → r v ≤ B) ∧
    ∀ v : Nat, v < n → st.vis.getD v false = true → v ≠ source →
    ∃ u : Nat, u < n ∧ st.par.getD v 0 = (u : Int) ∧
      st.vis.getD u false = true ∧ 0 < capAt res u v ∧ r u < r v
  hproc : st.found = false → ∀ u : Nat, u < n →
    st.vis.getD u false = true → u ∈ st.queue ∨
    (∀ v : Nat, v < n → 0 < capAt res u v →
      st.vis.getD v false = true)
  hsnk : st.found = false → st.vis.getD sink false = false
  hfnd : st.found = true → st.vis.getD sink false = true

theorem bfs_loop_spec (res : List (List Int)) (n source sink : Nat)
    (hsn : sink < n) :
    ∀ (fuel : Nat) (st : BFSState), BFSInv res n source sink st →
    2 * unvisCount n st.vis + st.queue.length ≤ fuel →
    BFSInv res n source sink (bfs_loop res n sink fuel st) ∧
    ((bfs_loop res n sink fuel st).queue = [] ∨
      (bfs_loop res n sink fuel st).found = true) := by
  classical
  intro fuel
  induction fuel with
  | zero =>
    intro st hI hm
    refine ⟨hI, Or.inl ?_⟩
    have hq0 : st.queue.length = 0 := by omega
    exact List.length_eq_zero.mp hq0
  | succ f ih =>
    intro st hI hm
    obtain ⟨vis, par, queue, found⟩ := st
    unfold bfs_loop
    dsimp only
    rcases queue with _ | ⟨u, q'⟩
    · cases found <;> exact ⟨hI, Or.inl rfl⟩
    · cases found
      · dsimp only
        obtain ⟨hun, huvis⟩ := hI.hq u (List.mem_cons_self _ _)
        have huvis' : vis.getD u false = true := huvis
        have hrange : ∀ v ∈ List.range n, v < n :=
          fun v hv => List.mem_range.mp hv
        set st1 : BFSState := ⟨vis, par, q', false⟩ with hst1
        obtain ⟨hL1, hL2⟩ := scan_lengths res sink u (List.range n) st1
        have hvl1 : st1.vis.length = n := hI.hvl
        have hpl1 : st1.par.length = n := hI.hpl
        set st2 := bfs_scan res sink u (List.range n) st1 with hst2
        obtain ⟨new, hqnew, hnewfacts⟩ :=
          scan_queue res n sink u (List.range n) st1 hvl1 hrange
        have hvismono : ∀ x : Nat, vis.getD x false = true →
            st2.vis.getD x false = true := fun x hx =>
          scan_vis_mono res sink u (List.range n) st1 x hx
        have hInew : BFSInv res n source sink st2 := by
          refine ⟨by rw [hst2, hL1]; exact hI.hvl,
            by rw [hst2, hL2]; exact hI.hpl,
            hvismono source hI.hsrc, ?_, ?_, ?_, ?_, ?_⟩
          · intro v hv
            rw [hqnew] at hv
            rcases List.mem_append.mp hv with hv' | hv'
            · obtain ⟨h1, h2⟩ := hI.hq v (List.mem_cons_of_mem _ hv')
              exact ⟨h1, hvismono v h2⟩
            · exact hnewfacts v hv'
          · obtain ⟨r, B, hB, hp⟩ := hI.hpar
            refine ⟨fun x => if vis.getD x false = true then r x else B + 1,
              B + 1, ?_, ?_⟩
            · intro v hv
              dsimp only
              split_ifs with h
              · exact Nat.le_succ_of_le (hB v hv)
              · exact le_rfl
            · intro v hv hvis hvs
              rcases scan_vis_new res n sink u (List.range n) st1 hvl1 hpl1
                  hrange v hvis with hold | ⟨_, hcap, hparu, hfalse⟩
              · have hold' : vis.getD v false = true := hold
                obtain ⟨u0, hu0n, hu0par, hu0vis, hu0cap, hu0r⟩ :=
                  hp v hv hold hvs
                have hu0vis' : vis.getD u0 false = true := hu0vis
                refine ⟨u0, hu0n, ?_, hvismono u0 hu0vis, hu0cap, ?_⟩
                · rw [hst2,
                    scan_par_keep res sink u (List.range n) st1 v hold]
                  exact hu0par
                · dsimp only
                  rw [if_pos hold', if_pos hu0vis']
                  exact hu0r
              · have hfalse' : vis.getD v false = false := hfalse
                refine ⟨u, hun, hparu, hvismono u huvis, hcap, ?_⟩
                dsimp only
                rw [if_pos huvis', if_neg (by rw [hfalse']; simp)]
                have := hB u hun
                omega
          · intro hf2 w hw hwvis
            rcases scan_vis_new res n sink u (List.range n) st1 hvl1 hpl1
                hrange w hwvis with hold | ⟨_, _, _, hfalse⟩
            · rcases hI.hproc rfl w hw hold with hinq | hdone
              · rcases List.mem_cons.mp hinq with rfl | hq'
                · refine Or.inr ?_
                  intro v hv hcap
                  exact scan_closure res n sink w (List.range n) st1 hvl1
                    hrange hf2 v (List.mem_range.mpr hv) hcap
                · refine Or.inl ?_
                  rw [hqnew]
                  exact List.mem_append.mpr (Or.inl hq')
              · refine Or.inr ?_
                intro v hv hcap
                exact hvismono v (hdone v hv hcap)
            · refine Or.inl ?_
              exact scan_new_in_queue res sink u (List.range n) st1 w
                hfalse hwvis
          · intro hf2
            rw [hst2, scan_sink_keep res sink u (List.range n) st1 hf2]
            exact hI.hsnk rfl
          · intro hf2
            exact scan_found_spread res n sink u (List.range n) st1 hvl1
              hsn rfl hf2
        refine ih st2 hInew ?_
        have hms := scan_measure res n sink u (List.range n) st1 hvl1 hrange
        have hq2 : st2.queue.length = q'.length + new.length := by
          rw [hqnew]
          simp
        rw [← hst2] at hms
        have hql : 2 * unvisCount n vis + (u :: q').length ≤ f + 1 := hm
        rw [List.length_cons] at hql
        have hq1 : st1.queue.length = q'.length := rfl
        have hv1 : st1.vis = vis := rfl
        rw [hq1, hv1] at hms
        omega
      · dsimp only
        exact ⟨hI, Or.inr rfl⟩

theorem bfs_initial_inv (res : List (List Int)) (n source sink : Nat)
    (hsrc : source < n) (hsink : sink < n) (hne : source ≠ sink) :
    BFSInv res n source sink
      ⟨(List.replicate n false).set source true,
        (List.replicate n 0).set source (-1), [source], false⟩ := by
  have hvl : ((List.replicate n false).set source true).length = n := by
    simp
  have hsrcv : ((List.replicate n false).set source true).getD source false
      = true := getD_set_self _ _ _ _ (by simp; omega)
  have honly : ∀ v : Nat,
      ((List.replicate n false).set source true).getD v false = true →
      v = source := by
    intro v hv
    by_contra hvs
    rw [getD_set_ne _ _ _ (fun hh => hvs hh.symm)] at hv
    by_cases hvn : v < n
    · rw [List.getD_eq_getElem _ _ (by simp; omega)] at hv
      simp at hv
    · rw [List.getD_eq_default _ _ (by simp; omega)] at hv
      cases hv
  refine ⟨hvl, by simp, hsrcv, ?_, ?_, ?_, ?_, ?_⟩
  · intro v hv
    have hv' : v = source := by simpa using hv
    subst hv'
    exact ⟨hsrc, hsrcv⟩
  · refine ⟨fun _ => 0, 0, fun v _ => le_rfl, ?_⟩
    intro v hv hvis hvs
    exact absurd (honly v hvis) hvs
  · intro _ u hu huvis
    refine Or.inl ?_
    rw [honly u huvis]
    exact List.mem_singleton_self _
  · intro _
    rw [getD_set_ne _ _ _ hne]
    by_cases hvn : sink < n
    · rw [List.getD_eq_getElem _ _ (by simp; omega)]
      simp
    · rw [List.getD_eq_default _ _ (by simp; omega)]
  · intro h
    cases h

theorem unvisCount_le (n : Nat) (vis : List Bool) : unvisCount n vis ≤ n := by
  unfold unvisCount
  calc ((List.range n).filter _).length ≤ (List.range n).length :=
        List.length_filter_le _ _
    _ = n := List.length_range n

theorem bfs_find_path_inv (res : List (List Int)) (n source sink : Nat)
    (hsrc : source < n) (hsink : sink < n) (hne : source ≠ sink) :
    BFSInv res n source sink (bfs_find_path res n source sink) ∧
    ((bfs_find_path res n source sink).queue = [] ∨
      (bfs_find_path res n source sink).found = true) := by
  unfold bfs_find_path
  refine bfs_loop_spec res n source sink hsink (2 * n + 1) _
    (bfs_initial_inv res n source sink hsrc hsink hne) ?_
  have := unvisCount_le n ((List.replicate n false).set source true)
  simp only [List.length_cons, List.length_nil]
  omega

/-- From the parent forest of a successful BFS, extract the parent
chain (sink first) down to the source. -/
theorem parchain_extract (res : List (List Int)) (n source : Nat)
    (par : List Int) (vis : List Bool) (r : Nat → Nat)
    (hpar : ∀ v : Nat, v < n → vis.getD v false = true → v ≠ source →
      ∃ u : Nat, u < n ∧ par.getD v 0 = (u : Int) ∧
        vis.getD u false = true ∧ 0 < capAt res u v ∧ r u < r v) :
    ∀ (k v : Nat), r v ≤ k → v < n → vis.getD v false = true →
    ∃ q : List Nat, q.head? = some v ∧ q.getLast? = some source ∧
      (∀ w ∈ q, w < n ∧ r w ≤ r v) ∧ q.Nodup ∧
      List.Chain' (fun a b => par.getD a 0 = (b : Int) ∧
        0 < capAt res b a) q := by
  intro k
  induction k with
  | zero =>
    intro v hr hv hvis
    by_cases hvs : v = source
    · subst hvs
      exact ⟨[v], rfl, rfl, fun w hw => by
        rw [List.mem_singleton.mp hw]; exact ⟨hv, le_rfl⟩, by simp, by simp⟩
    · obtain ⟨u, hun, hupar, huvis, hucap, hur⟩ := hpar v hv hvis hvs
      omega
  | succ k ih =>
    intro v hr hv hvis
    by_cases hvs : v = source
    · subst hvs
      exact ⟨[v], rfl, rfl, fun w hw => by
        rw [List.mem_singleton.mp hw]; exact ⟨hv, le_rfl⟩, by simp, by simp⟩
    · obtain ⟨u, hun, hupar, huvis, hucap, hur⟩ := hpar v hv hvis hvs
      obtain ⟨q', hh', hl', hwq, hnd', hc'⟩ := ih u (by omega) hun huvis
      refine ⟨v :: q', rfl, ?_, ?_, ?_, ?_⟩
      · rcases q' with _ | ⟨a, q''⟩
        · cases hh'
        · rw [List.getLast?_cons_cons]
          exact hl'
      · intro w hw
        rcases List.mem_cons.mp hw with rfl | hw'
        · exact ⟨hv, le_rfl⟩
        · obtain ⟨h1, h2⟩ := hwq _ hw'
          exact ⟨h1, by omega⟩
      · rw [List.nodup_cons]
        refine ⟨?_, hnd'⟩
        intro hmem
        obtain ⟨_, h2⟩ := hwq v hmem
        omega
      · rw [List.chain'_cons']
        refine ⟨?_, hc'⟩
        intro b hb
        rw [hh'] at hb
        have hb' : u = b := by
          simpa using hb
        subst hb'
        exact ⟨hupar, hucap⟩

theorem bfs_find_path_false (res : List (List Int)) (n source sink : Nat)
    (hsrc : source < n) (hsink : sink < n) (hne : source ≠ sink)
    (hf : (bfs_find_path res n source sink).found = false) :
    (bfs_find_path res n source sink).vis.getD source false = true ∧
    (bfs_find_path res n source sink).vis.getD sink false = false ∧
    (∀ u : Nat, u < n →
      (bfs_find_path res n source sink).vis.getD u false = true →
      ∀ v : Nat, v < n → 0 < capAt res u v →
      (bfs_find_path res n source sink).vis.getD v false = true) := by
  obtain ⟨hI, hend⟩ := bfs_find_path_inv res n source sink hsrc hsink hne
  rcases hend with hqe | hfnd
  · refine ⟨hI.hsrc, hI.hsnk hf, ?_⟩
    intro u hu huvis v hv hcap
    rcases hI.hproc hf u hu huvis with hinq | hdone
    · rw [hqe] at hinq
      cases hinq
    · exact hdone v hv hcap
  · rw [hf] at hfnd
    cases hfnd

theorem bfs_find_path_true (res : List (List Int)) (n source sink : Nat)
    (hsrc : source < n) (hsink : sink < n) (hne : source ≠ sink)
    (hf : (bfs_find_path res n source sink).found = true) :
    ∃ q : List Nat, q.head? = some sink ∧ q.getLast? = some source ∧
      q.Nodup ∧ (∀ w ∈ q, w < n) ∧
      List.Chain' (fun a b =>
        (bfs_find_path res n source sink).par.getD a 0 = (b : Int) ∧
        0 < capAt res b a) q := by
  obtain ⟨hI, _⟩ := bfs_find_path_inv res n source sink hsrc hsink hne
  obtain ⟨r, B, hB, hp⟩ := hI.hpar
  obtain ⟨q, h1, h2, h3, h4, h5⟩ := parchain_extract res n source _ _ r hp
    (r sink) sink le_rfl hsink (hI.hfnd hf)
  exact ⟨q, h1, h2, h4, fun w hw => (h3 w hw).1, h5⟩

/-! ### C2: the augmenting walk as a fold over the parent chain -/

/-- Apply the residual update along a list of `(child, parent)`
pairs. -/
def applyAug (pf : Int) : List (Nat × Nat) → List (List Int) →
    List (List Int)
  | [], res => res
  | e :: E, res => applyAug pf E (updEdge pf res e.2 e.1)

theorem fpf_walk_chain (res : List (List Int)) (par : List Int)
    (source : Nat) :
    ∀ (rest : List Nat) (v : Nat) (fuel : Nat) (acc : Int),
    (v :: rest).getLast? = some source → (v :: rest).Nodup →
    List.Chain' (fun a b => par.getD a 0 = (b : Int) ∧ 0 < capAt res b a)
      (v :: rest) →
    rest.length ≤ fuel →
    fpf_walk res par source fuel v acc
      = List.foldl (fun a e => min a (capAt res e.2 e.1)) acc
          ((v :: rest).zip rest) := by
  intro rest
  induction rest with
  | nil =>
    intro v fuel acc hlast hnd hch hf
    have hv : v = source := by simpa using hlast
    subst hv
    cases fuel with
    | zero => rfl
    | succ k =>
      unfold fpf_walk
      rw [if_pos rfl]
      rfl
  | cons u rest ih =>
    intro v fuel acc hlast hnd hch hf
    have hsrc_mem : source ∈ u :: rest := by
      rw [List.getLast?_cons_cons] at hlast
      exact List.mem_of_mem_getLast? hlast
    have hvs : v ≠ source := by
      intro hh
      rw [hh] at hnd
      exact (List.nodup_cons.mp hnd).1 hsrc_mem
    cases fuel with
    | zero =>
      rw [List.length_cons] at hf
      omega
    | succ k =>
      unfold fpf_walk
      rw [if_neg hvs]
      have hpv := (List.chain'_cons.mp hch).1
      rw [hpv.1]
      rw [show ((u : Int)).toNat = u from Int.toNat_natCast u]
      rw [ih u k (min acc (capAt res u v))
        (by rw [List.getLast?_cons_cons] at hlast; exact hlast)
        (List.nodup_cons.mp hnd).2
        (List.chain'_cons.mp hch).2
        (by rw [List.length_cons] at hf; omega)]
      rfl

theorem upd_walk_chain (par : List Int) (source : Nat) (pf : Int)
    (res0 : List (List Int)) :
    ∀ (rest : List Nat) (v : Nat) (fuel : Nat),
    (v :: rest).getLast? = some source → (v :: rest).Nodup →
    List.Chain' (fun a b => par.getD a 0 = (b : Int) ∧
      0 < capAt res0 b a) (v :: rest) →
    rest.length ≤ fuel →
    ∀ res : List (List Int),
    upd_walk par source pf fuel v res
      = applyAug pf ((v :: rest).zip rest) res := by
  intro rest
  induction rest with
  | nil =>
    intro v fuel hlast hnd hch hf res
    have hv : v = source := by simpa using hlast
    subst hv
    cases fuel with
    | zero => rfl
    | succ k =>
      unfold upd_walk
      rw [if_pos rfl]
      rfl
  | cons u rest ih =>
    intro v fuel hlast hnd hch hf res
    have hsrc_mem : source ∈ u :: rest := by
      rw [List.getLast?_cons_cons] at hlast
      exact List.mem_of_mem_getLast? hlast
    have hvs : v ≠ source := by
      intro hh
      rw [hh] at hnd
      exact (List.nodup_cons.mp hnd).1 hsrc_mem
    cases fuel with
    | zero =>
      rw [List.length_cons] at hf
      omega
    | succ k =>
      unfold upd_walk
      rw [if_neg hvs]
      have hpv := (List.chain'_cons.mp hch).1
      rw [hpv.1]
      rw [show ((u : Int)).toNat = u from Int.toNat_natCast u]
      rw [ih u k
        (by rw [List.getLast?_cons_cons] at hlast; exact hlast)
        (List.nodup_cons.mp hnd).2
        (List.chain'_cons.mp hch).2
        (by rw [List.length_cons] at hf; omega)]
      rfl

theorem applyAug_mat {n : Nat} (pf : Int) :
    ∀ (E : List (Nat × Nat)) (res : List (List Int)), Mat n res →
    Mat n (applyAug pf E res) := by
  intro E
  induction E with
  | nil => exact fun res hM => hM
  | cons e E ih =>
    intro res hM
    exact ih _ (updEdge_mat hM pf e.2 e.1)

theorem applyAug_capAt {n : Nat} (pf : Int) :
    ∀ (E : List (Nat × Nat)) (res : List (List Int)), Mat n res →
    (∀ e ∈ E, e.1 < n ∧ e.2 < n ∧ e.1 ≠ e.2) →
    ∀ a b : Nat,
    capAt (applyAug pf E res) a b
      = capAt res a b - pf * (E.count (b, a) : Int)
        + pf * (E.count (a, b) : Int) := by
  intro E
  induction E with
  | nil =>
    intro res hM _ a b
    simp [applyAug]
  | cons e E ih =>
    intro res hM hE a b
    obtain ⟨he1, he2, hene⟩ := hE e (List.mem_cons_self _ _)
    have hM' : Mat n (updEdge pf res e.2 e.1) := updEdge_mat hM pf e.2 e.1
    rw [show applyAug pf (e :: E) res
      = applyAug pf E (updEdge pf res e.2 e.1) from rfl]
    rw [ih (updEdge pf res e.2 e.1) hM'
      (fun x hx => hE x (List.mem_cons_of_mem _ hx)) a b]
    rw [List.count_cons, List.count_cons]
    simp only [beq_iff_eq]
    by_cases hba : e = (b, a)
    · subst hba
      dsimp only at he1 he2 hene ⊢
      rw [if_pos rfl, if_neg (by
        intro hh
        exact hene (congrArg Prod.fst hh))]
      rw [updEdge_capAt_fwd hM pf a b he2 he1 (fun hh => hene hh.symm)]
      push_cast
      ring
    · by_cases hab : e = (a, b)
      · subst hab
        dsimp only at he1 he2 hene ⊢
        rw [if_neg (by
          intro hh
          exact hene (congrArg Prod.fst hh)), if_pos rfl]
        rw [updEdge_capAt_bwd hM pf b a he2 he1 (fun hh => hene hh.symm)]
        push_cast
        ring
      · rw [if_neg (fun hh => hba hh), if_neg (fun hh => hab hh)]
        rw [updEdge_capAt_other hM pf e.2 e.1 a b (fun hh => hene hh.symm)
          (by
            intro hh
            exact hba (Prod.ext hh.2.symm hh.1.symm))
          (by
            intro hh
            exact hab (Prod.ext hh.1.symm hh.2.symm))]
        push_cast
        ring

/-! ### C2: fold-min facts and chain pair combinatorics -/

theorem foldl_min_le_acc : ∀ (l : List (Nat × Nat)) (f : Nat × Nat → Int)
    (acc : Int), List.foldl (fun a e => min a (f e)) acc l ≤ acc := by
  intro l
  induction l with
  | nil => exact fun f acc => le_rfl
  | cons e l ih =>
    intro f acc
    calc List.foldl (fun a e => min a (f e)) (min acc (f e)) l
        ≤ min acc (f e) := ih f _
      _ ≤ acc := min_le_left _ _

theorem foldl_min_le_mem : ∀ (l : List (Nat × Nat)) (f : Nat × Nat → Int)
    (acc : Int) (x : Nat × Nat), x ∈ l →
    List.foldl (fun a e => min a (f e)) acc l ≤ f x := by
  intro l
  induction l with
  | nil =>
    intro f acc x hx
    exact absurd hx (List.not_mem_nil x)
  | cons e l ih =>
    intro f acc x hx
    rcases List.mem_cons.mp hx with rfl | hx'
    · calc List.foldl (fun a e => min a (f e)) (min acc (f x)) l
          ≤ min acc (f x) := foldl_min_le_acc l f _
        _ ≤ f x := min_le_right _ _
    · exact ih f _ x hx'

theorem le_foldl_min : ∀ (l : List (Nat × Nat)) (f : Nat × Nat → Int)
    (acc c : Int), c ≤ acc → (∀ x ∈ l, c ≤ f x) →
    c ≤ List.foldl (fun a e => min a (f e)) acc l := by
  intro l
  induction l with
  | nil => exact fun f acc c hc _ => hc
  | cons e l ih =>
    intro f acc c hc hl
    refine ih f _ c (le_min hc (hl e (List.mem_cons_self _ _))) ?_
    intro x hx
    exact hl x (List.mem_cons_of_mem _ hx)

theorem zip_pairs_mem : ∀ (q : List Nat) (x y : Nat),
    (x, y) ∈ q.zip q.tail → x ∈ q ∧ y ∈ q.tail := by
  intro q x y h
  obtain ⟨h1, h2⟩ := List.of_mem_zip h
  exact ⟨h1, h2⟩

theorem zip_pairs_ne : ∀ (q : List Nat), q.Nodup →
    ∀ e ∈ q.zip q.tail, e.1 ≠ e.2 := by
  intro q
  induction q with
  | nil =>
    intro _ e he
    cases he
  | cons a t ih =>
    intro hnd e he
    cases t with
    | nil => cases he
    | cons b t' =>
      rw [show (a :: b :: t').zip (a :: b :: t').tail
        = (a, b) :: (b :: t').zip (b :: t').tail from rfl] at he
      rcases List.mem_cons.mp he with rfl | he'
      · intro hh
        dsimp only at hh
        rw [hh] at hnd
        exact (List.nodup_cons.mp hnd).1 (List.mem_cons_self _ _)
      · exact ih (List.nodup_cons.mp hnd).2 e he'

theorem zip_pairs_no_sym : ∀ (q : List Nat), q.Nodup →
    ∀ a b : Nat, (a, b) ∈ q.zip q.tail → (b, a) ∈ q.zip q.tail → False := by
  intro q
  induction q with
  | nil =>
    intro _ a b h1 _
    cases h1
  | cons v t ih =>
    intro hnd a b h1 h2
    cases t with
    | nil => cases h1
    | cons u t' =>
      rw [show (v :: u :: t').zip (v :: u :: t').tail
        = (v, u) :: (u :: t').zip (u :: t').tail from rfl] at h1 h2
      have hvnot : v ∉ u :: t' := (List.nodup_cons.mp hnd).1
      rcases List.mem_cons.mp h1 with he1 | h1'
      · rcases List.mem_cons.mp h2 with he2 | h2'
        · have hbv : b = v := congrArg Prod.fst he2
          have hbu : b = u := congrArg Prod.snd he1
          have hvu : v = u := by omega
          rw [hvu] at hvnot
          exact hvnot (List.mem_cons_self _ _)
        · have hav : a = v := congrArg Prod.fst he1
          obtain ⟨_, hmem⟩ := zip_pairs_mem (u :: t') b a h2'
          rw [hav] at hmem
          exact hvnot (List.mem_cons_of_mem u hmem)
      · rcases List.mem_cons.mp h2 with he2 | h2'
        · have hbv : b = v := congrArg Prod.fst he2
          obtain ⟨_, hmem⟩ := zip_pairs_mem (u :: t') a b h1'
          rw [hbv] at hmem
          exact hvnot (List.mem_cons_of_mem u hmem)
        · exact ih (List.nodup_cons.mp hnd).2 a b h1' h2'

theorem zip_countP_fst (w : Nat) : ∀ q : List Nat, q.Nodup →
    (q.zip q.tail).countP (fun e => e.1 == w)
      = if w ∈ q.dropLast then 1 else 0 := by
  intro q
  induction q with
  | nil =>
    intro _
    simp
  | cons a t ih =>
    intro hnd
    cases t with
    | nil => simp
    | cons b t' =>
      rw [show (a :: b :: t').zip (a :: b :: t').tail
        = (a, b) :: (b :: t').zip (b :: t').tail from rfl]
      rw [List.countP_cons, ih (List.nodup_cons.mp hnd).2]
      rw [show (a :: b :: t').dropLast = a :: (b :: t').dropLast from rfl]
      by_cases hwa : w = a
      · rw [show ((a, b).1 == w) = true from by simp [hwa]]
        rw [if_pos rfl]
        have hnot : w ∉ (b :: t').dropLast := by
          intro hmem
          rw [hwa] at hmem
          exact (List.nodup_cons.mp hnd).1 (List.dropLast_subset _ hmem)
        rw [if_neg hnot, if_pos (List.mem_cons.mpr (Or.inl hwa))]
      · rw [show ((a, b).1 == w) = false from by
          simp only [beq_eq_false_iff_ne]
          exact fun hh => hwa hh.symm]
        rw [if_neg (show ¬(false = true) from by decide)]
        by_cases hmem : w ∈ (b :: t').dropLast
        · rw [if_pos hmem, if_pos (List.mem_cons_of_mem _ hmem)]
        · rw [if_neg hmem, if_neg (by
            intro h
            rcases List.mem_cons.mp h with h | h
            · exact hwa h
            · exact hmem h)]

theorem zip_countP_snd (w : Nat) : ∀ q : List Nat, q.Nodup →
    (q.zip q.tail).countP (fun e => e.2 == w)
      = if w ∈ q.tail then 1 else 0 := by
  intro q
  induction q with
  | nil =>
    intro _
    simp
  | cons a t ih =>
    intro hnd
    cases t with
    | nil => simp
    | cons b t' =>
      rw [show (a :: b :: t').zip (a :: b :: t').tail
        = (a, b) :: (b :: t').zip (b :: t').tail from rfl]
      rw [List.countP_cons, ih (List.nodup_cons.mp hnd).2]
      rw [show (a :: b :: t').tail = b :: t' from rfl]
      by_cases hwb : w = b
      · rw [show ((a, b).2 == w) = true from by simp [hwb]]
        rw [if_pos rfl]
        have hnot : w ∉ (b :: t').tail := by
          intro hmem
          rw [hwb] at hmem
          exact (List.nodup_cons.mp (List.nodup_cons.mp hnd).2).1 hmem
        rw [if_neg hnot, if_pos (List.mem_cons.mpr (Or.inl hwb))]
      · rw [show ((a, b).2 == w) = false from by
          simp only [beq_eq_false_iff_ne]
          exact fun hh => hwb hh.symm]
        rw [if_neg (show ¬(false = true) from by decide)]
        by_cases hmem : w ∈ (b :: t').tail
        · rw [if_pos hmem,
            if_pos (List.mem_cons_of_mem b (show w ∈ t' from hmem))]
        · rw [if_neg hmem, if_neg (by
            intro h
            rcases List.mem_cons.mp h with h | h
            · exact hwb h
            · exact hmem h)]

theorem sum_count_fst {n : Nat} (w : Nat) :
    ∀ E : List (Nat × Nat), (∀ e ∈ E, e.2 < n) →
    (∑ v ∈ Finset.range n, (E.count (w, v) : Int))
      = (E.countP (fun e => e.1 == w) : Int) := by
  intro E
  induction E with
  | nil =>
    intro _
    simp
  | cons e E ih =>
    intro hE
    have he2 : e.2 < n := hE e (List.mem_cons_self _ _)
    simp only [List.count_cons, List.countP_cons]
    push_cast
    rw [Finset.sum_add_distrib]
    rw [ih (fun x hx => hE x (List.mem_cons_of_mem _ hx))]
    have hinner : (∑ v ∈ Finset.range n,
        ((if e == (w, v) then 1 else 0) : Int))
        = if e.1 = w then 1 else 0 := by
      by_cases he1 : e.1 = w
      · rw [if_pos he1]
        rw [Finset.sum_eq_single e.2]
        · rw [if_pos (by
            rw [beq_iff_eq]
            exact Prod.ext he1 rfl)]
        · intro v hv hvne
          rw [if_neg (by
            rw [beq_iff_eq]
            intro hh
            exact hvne (congrArg Prod.snd hh).symm)]
        · intro hmem
          exact absurd (Finset.mem_range.mpr he2) hmem
      · rw [if_neg he1]
        refine Finset.sum_eq_zero ?_
        intro v hv
        rw [if_neg (by
          rw [beq_iff_eq]
          intro hh
          exact he1 (congrArg Prod.fst hh))]
    rw [hinner]
    by_cases he1 : e.1 = w
    · rw [if_pos he1, if_pos (by rw [beq_iff_eq]; exact he1)]
    · rw [if_neg he1, if_neg (by
        rw [beq_iff_eq]
        exact he1)]

theorem sum_count_snd {n : Nat} (w : Nat) :
    ∀ E : List (Nat × Nat), (∀ e ∈ E, e.1 < n) →
    (∑ v ∈ Finset.range n, (E.count (v, w) : Int))
      = (E.countP (fun e => e.2 == w) : Int) := by
  intro E
  induction E with
  | nil =>
    intro _
    simp
  | cons e E ih =>
    intro hE
    have he1 : e.1 < n := hE e (List.mem_cons_self _ _)
    simp only [List.count_cons, List.countP_cons]
    push_cast
    rw [Finset.sum_add_distrib]
    rw [ih (fun x hx => hE x (List.mem_cons_of_mem _ hx))]
    have hinner : (∑ v ∈ Finset.range n,
        ((if e == (v, w) then 1 else 0) : Int))
        = if e.2 = w then 1 else 0 := by
      by_cases he2 : e.2 = w
      · rw [if_pos he2]
        rw [Finset.sum_eq_single e.1]
        · rw [if_pos (by
            rw [beq_iff_eq]
            exact Prod.ext rfl he2)]
        · intro v hv hvne
          rw [if_neg (by
            rw [beq_iff_eq]
            intro hh
            exact hvne (congrArg Prod.fst hh).symm)]
        · intro hmem
          exact absurd (Finset.mem_range.mpr he1) hmem
      · rw [if_neg he2]
        refine Finset.sum_eq_zero ?_
        intro v hv
        rw [if_neg (by
          rw [beq_iff_eq]
          intro hh
          exact he2 (congrArg Prod.snd hh))]
    rw [hinner]
    by_cases he2 : e.2 = w
    · rw [if_pos he2, if_pos (by rw [beq_iff_eq]; exact he2)]
    · rw [if_neg he2, if_neg (by
        rw [beq_iff_eq]
        exact he2)]

theorem zip_pairs_nodup : ∀ q : List Nat, q.Nodup → (q.zip q.tail).Nodup := by
  intro q
  induction q with
  | nil =>
    intro _
    simp
  | cons a t ih =>
    intro hnd
    cases t with
    | nil => simp
    | cons b t' =>
      rw [show (a :: b :: t').zip (a :: b :: t').tail
        = (a, b) :: (b :: t').zip (b :: t').tail from rfl]
      rw [List.nodup_cons]
      refine ⟨?_, ih (List.nodup_cons.mp hnd).2⟩
      intro hmem
      obtain ⟨h1, _⟩ := zip_pairs_mem (b :: t') a b hmem
      exact (List.nodup_cons.mp hnd).1 h1

theorem getLast_not_mem_dropLast :
    ∀ (q : List Nat) (x : Nat), q.Nodup → q.getLast? = some x →
    x ∉ q.dropLast := by
  intro q
  induction q with
  | nil =>
    intro x _ hx
    cases hx
  | cons a t ih =>
    intro x hnd hx
    cases t with
    | nil =>
      intro hmem
      cases hmem
    | cons b t' =>
      rw [List.getLast?_cons_cons] at hx
      rw [show (a :: b :: t').dropLast = a :: (b :: t').dropLast from rfl]
      intro hmem
      rcases List.mem_cons.mp hmem with rfl | hmem'
      · exact (List.nodup_cons.mp hnd).1 (List.mem_of_mem_getLast? hx)
      · exact ih x (List.nodup_cons.mp hnd).2 hx hmem'

theorem mem_dropLast_of_ne_last :
    ∀ (q : List Nat) (w x : Nat), w ∈ q → q.getLast? = some x → w ≠ x →
    w ∈ q.dropLast := by
  intro q
  induction q with
  | nil =>
    intro w x hw
    cases hw
  | cons a t ih =>
    intro w x hw hx hwx
    cases t with
    | nil =>
      have hwa : w = a := by simpa using hw
      have hxa : a = x := by simpa using hx
      exact absurd (hwa.trans hxa) hwx
    | cons b t' =>
      rw [List.getLast?_cons_cons] at hx
      rw [show (a :: b :: t').dropLast = a :: (b :: t').dropLast from rfl]
      rcases List.mem_cons.mp hw with rfl | hw'
      · exact List.mem_cons_self _ _
      · exact List.mem_cons_of_mem _ (ih w x hw' hx hwx)

theorem nodup_count_le_one_pairs : ∀ (E : List (Nat × Nat)), E.Nodup →
    ∀ x : Nat × Nat, E.count x ≤ 1 := by
  intro E
  induction E with
  | nil =>
    intro _ x
    simp
  | cons e E ih =>
    intro h x
    rw [List.count_cons]
    obtain ⟨hne, hnd⟩ := List.nodup_cons.mp h
    by_cases hex : e = x
    · subst hex
      rw [List.count_eq_zero.mpr hne]
      simp
    · have := ih hnd x
      split_ifs with hcond
      · exact absurd (by rwa [beq_iff_eq] at hcond) hex
      · omega

theorem augment_preserves (cap res : List (List Int)) (n s t : Nat)
    (f pf : Int) (hF : FlowInv cap res n s t f) (hsn : s < n) (htn : t < n)
    (hst : s ≠ t) (q : List Nat) (hh : q.head? = some t)
    (hl : q.getLast? = some s) (hnd : q.Nodup) (hqn : ∀ w ∈ q, w < n)
    (hpf1 : 1 ≤ pf)
    (hpfle : ∀ e ∈ q.zip q.tail, pf ≤ capAt res e.2 e.1) :
    FlowInv cap (applyAug pf (q.zip q.tail) res) n s t (f + pf) := by
  have hEfacts : ∀ e ∈ q.zip q.tail, e.1 < n ∧ e.2 < n ∧ e.1 ≠ e.2 := by
    intro e he
    obtain ⟨h1, h2⟩ := zip_pairs_mem q e.1 e.2 he
    exact ⟨hqn e.1 h1, hqn e.2 (List.tail_subset q h2),
      zip_pairs_ne q hnd e he⟩
  have hEnodup := zip_pairs_nodup q hnd
  have hcnt_le : ∀ x, (q.zip q.tail).count x ≤ 1 :=
    nodup_count_le_one_pairs (q.zip q.tail) hEnodup
  have hmat' := applyAug_mat pf (q.zip q.tail) res hF.hmat
  have hcap' := applyAug_capAt pf (q.zip q.tail) res hF.hmat hEfacts
  have hts : t ≠ s := fun hh' => hst hh'.symm
  have htq : t ∈ q := List.mem_of_mem_head? hh
  have hsq : s ∈ q := List.mem_of_mem_getLast? hl
  have hs_tail : s ∈ q.tail := by
    cases hq2 : q with
    | nil =>
      rw [hq2] at hh
      cases hh
    | cons a r =>
      rw [hq2] at hh hsq
      have ha : a = t := by simpa using hh
      rcases List.mem_cons.mp hsq with rfl | h
      · exact absurd ha.symm hts
      · exact h
  have hs_not_drop : s ∉ q.dropLast := getLast_not_mem_dropLast q s hnd hl
  have hrow : ∀ w : Nat, w < n →
      (∑ v ∈ Finset.range n, Fnet cap (applyAug pf (q.zip q.tail) res) w v)
      = (∑ v ∈ Finset.range n, Fnet cap res w v)
        + pf * (if w ∈ q.tail then 1 else 0)
        - pf * (if w ∈ q.dropLast then 1 else 0) := by
    intro w hw
    have hpt : ∀ v ∈ Finset.range n,
        Fnet cap (applyAug pf (q.zip q.tail) res) w v
        = Fnet cap res w v + pf * ((q.zip q.tail).count (v, w) : Int)
          - pf * ((q.zip q.tail).count (w, v) : Int) := by
      intro v hv
      unfold Fnet
      rw [hcap' w v]
      ring
    rw [Finset.sum_congr rfl hpt]
    rw [Finset.sum_sub_distrib, Finset.sum_add_distrib]
    rw [← Finset.mul_sum, ← Finset.mul_sum]
    rw [sum_count_snd w (q.zip q.tail) (fun e he => (hEfacts e he).1)]
    rw [sum_count_fst w (q.zip q.tail) (fun e he => (hEfacts e he).2.1)]
    rw [zip_countP_snd w q hnd, zip_countP_fst w q hnd]
    push_cast
    ring
  refine ⟨hmat', ?_, ?_, ?_, ?_⟩
  · intro a b
    rw [hcap' a b]
    by_cases hab : (a, b) ∈ q.zip q.tail
    · have h1 : (q.zip q.tail).count (a, b) = 1 := by
        have h2 := hcnt_le (a, b)
        have hpos : 0 < (q.zip q.tail).count (a, b) :=
          List.count_pos_iff.mpr hab
        omega
      have h0 : (q.zip q.tail).count (b, a) = 0 := by
        rw [List.count_eq_zero]
        intro hmem
        exact zip_pairs_no_sym q hnd b a hmem hab
      rw [h1, h0]
      have := hF.hnn a b
      push_cast
      omega
    · have h0 : (q.zip q.tail).count (a, b) = 0 := List.count_eq_zero.mpr hab
      by_cases hba : (b, a) ∈ q.zip q.tail
      · have h1 : (q.zip q.tail).count (b, a) = 1 := by
          have h2 := hcnt_le (b, a)
          have hpos : 0 < (q.zip q.tail).count (b, a) :=
            List.count_pos_iff.mpr hba
          omega
        rw [h0, h1]
        have hle := hpfle (b, a) hba
        dsimp only at hle
        push_cast
        omega
      · rw [h0, List.count_eq_zero.mpr hba]
        have := hF.hnn a b
        push_cast
        omega
  · intro u v hu hv
    rw [hcap' u v, hcap' v u]
    have hsum := hF.hsum u v hu hv
    linear_combination hsum
  · intro w hw hws hwt
    rw [hrow w hw]
    rw [hF.hcons w hw hws hwt]
    by_cases hwq : w ∈ q
    · have hw_tail : w ∈ q.tail := by
        cases hq2 : q with
        | nil =>
          rw [hq2] at hwq
          cases hwq
        | cons a r =>
          rw [hq2] at hh hwq
          have ha : a = t := by simpa using hh
          rcases List.mem_cons.mp hwq with rfl | h
          · exact absurd ha hwt
          · exact h
      have hw_drop : w ∈ q.dropLast :=
        mem_dropLast_of_ne_last q w s hwq hl hws
      rw [if_pos hw_tail, if_pos hw_drop]
      ring
    · rw [if_neg (fun hmem => hwq (List.tail_subset q hmem)),
        if_neg (fun hmem => hwq (List.dropLast_subset q hmem))]
      ring
  · rw [hrow s hsn, hF.hval]
    rw [if_pos hs_tail, if_neg hs_not_drop]
    ring

theorem chain'_zip_pairs {R : Nat → Nat → Prop} :
    ∀ q : List Nat, List.Chain' R q → ∀ e ∈ q.zip q.tail, R e.1 e.2 := by
  intro q
  induction q with
  | nil =>
    intro _ e he
    cases he
  | cons a t ih =>
    intro hch e he
    cases t with
    | nil => cases he
    | cons b t' =>
      rw [show (a :: b :: t').zip (a :: b :: t').tail
        = (a, b) :: (b :: t').zip (b :: t').tail from rfl] at he
      rcases List.mem_cons.mp he with rfl | he'
      · exact (List.chain'_cons.mp hch).1
      · exact ih (List.chain'_cons.mp hch).2 e he'

theorem nodup_length_le (n : Nat) (q : List Nat) (hnd : q.Nodup)
    (hb : ∀ w ∈ q, w < n) : q.length ≤ n := by
  classical
  have h1 : q.toFinset.card = q.length := List.toFinset_card_of_nodup hnd
  have h2 : q.toFinset ⊆ Finset.range n := by
    intro x hx
    exact Finset.mem_range.mpr (hb x (List.mem_toFinset.mp hx))
  have h3 := Finset.card_le_card h2
  rw [h1] at h3
  simpa using h3

theorem flowinv_val_le {cap res : List (List Int)} {n s t : Nat} {f : Int}
    (hF : FlowInv cap res n s t f) :
    f ≤ ∑ v ∈ Finset.range n, capAt cap s v := by
  rw [← hF.hval]
  refine Finset.sum_le_sum ?_
  intro v hv
  have := hF.hnn s v
  unfold Fnet
  omega

theorem maxflow_loop_spec (cap : List (List Int)) (n s t : Nat)
    (hsn : s < n) (htn : t < n) (hst : s ≠ t) :
    ∀ (fuel : Nat) (res : List (List Int)) (f : Int),
    FlowInv cap res n s t f →
    (∑ v ∈ Finset.range n, capAt cap s v) < f + fuel →
    FlowInv cap (maxflow_loop n s t fuel (res, f)).1 n s t
      (maxflow_loop n s t fuel (res, f)).2 ∧
    (bfs_find_path (maxflow_loop n s t fuel (res, f)).1 n s t).found
      = false ∧
    f ≤ (maxflow_loop n s t fuel (res, f)).2 := by
  intro fuel
  induction fuel with
  | zero =>
    intro res f hF hb
    have := flowinv_val_le hF
    push_cast at hb
    omega
  | succ fuel ih =>
    intro res f hF hb
    have hstep : maxflow_loop n s t (fuel + 1) (res, f)
        = if (bfs_find_path res n s t).found then
            maxflow_loop n s t fuel
              (update_residual_graph res (bfs_find_path res n s t).par s t
                (find_path_flow res (bfs_find_path res n s t).par s t),
               f + find_path_flow res (bfs_find_path res n s t).par s t)
          else (res, f) := rfl
    cases hfound : (bfs_find_path res n s t).found
    · rw [hstep, if_neg (by rw [hfound]; simp)]
      exact ⟨hF, hfound, le_rfl⟩
    · obtain ⟨q, hqh, hql, hqnd, hqn, hqch⟩ :=
        bfs_find_path_true res n s t hsn htn hst hfound
      obtain ⟨rest, hq⟩ : ∃ rest, q = t :: rest := by
        cases q with
        | nil => cases hqh
        | cons a r =>
          have ha : a = t := by simpa using hqh
          exact ⟨r, by rw [ha]⟩
      subst hq
      have hplen : (bfs_find_path res n s t).par.length = n :=
        (bfs_find_path_inv res n s t hsn htn hst).1.hpl
      have hrlen : rest.length ≤ (bfs_find_path res n s t).par.length := by
        have hlen := nodup_length_le n (t :: rest) hqnd hqn
        rw [List.length_cons] at hlen
        omega
      have hfpf : find_path_flow res (bfs_find_path res n s t).par s t
          = List.foldl (fun a e => min a (capAt res e.2 e.1)) 2147483647
            ((t :: rest).zip rest) := by
        unfold find_path_flow
        exact fpf_walk_chain res _ s rest t _ 2147483647 hql hqnd hqch hrlen
      have hpos : ∀ e ∈ (t :: rest).zip rest, 0 < capAt res e.2 e.1 := by
        intro e he
        exact (chain'_zip_pairs (t :: rest) hqch e he).2
      have hpf1 : 1 ≤ find_path_flow res (bfs_find_path res n s t).par s t := by
        rw [hfpf]
        refine le_foldl_min _ _ _ 1 (by norm_num) ?_
        intro x hx
        have := hpos x hx
        omega
      have hpfle : ∀ e ∈ (t :: rest).zip rest,
          find_path_flow res (bfs_find_path res n s t).par s t
            ≤ capAt res e.2 e.1 := by
        intro e he
        rw [hfpf]
        exact foldl_min_le_mem _ _ _ e he
      have hupd : update_residual_graph res (bfs_find_path res n s t).par s t
          (find_path_flow res (bfs_find_path res n s t).par s t)
          = applyAug (find_path_flow res (bfs_find_path res n s t).par s t)
              ((t :: rest).zip rest) res := by
        unfold update_residual_graph
        exact upd_walk_chain _ s _ res rest t _ hql hqnd hqch hrlen res
      have hF' := augment_preserves cap res n s t f
        (find_path_flow res (bfs_find_path res n s t).par s t) hF hsn htn
        hst (t :: rest) hqh hql hqnd hqn hpf1
        (by
          intro e he
          exact hpfle e he)
      rw [hstep, if_pos (by rw [hfound])]
      rw [hupd]
      obtain ⟨hc1, hc2, hc3⟩ := ih
        (applyAug (find_path_flow res (bfs_find_path res n s t).par s t)
          ((t :: rest).zip rest) res)
        (f + find_path_flow res (bfs_find_path res n s t).par s t)
        hF' (by push_cast at hb ⊢; omega)
      exact ⟨hc1, hc2, by omega⟩

theorem flowinv_init (cap : List (List Int)) (n s t : Nat)
    (hmat : Mat n cap) (hnn : ∀ u v : Nat, 0 ≤ capAt cap u v) :
    FlowInv cap cap n s t 0 := by
  refine ⟨hmat, hnn, fun u v _ _ => rfl, ?_, ?_⟩
  · intro w _ _ _
    refine Finset.sum_eq_zero ?_
    intro v _
    unfold Fnet
    omega
  · refine Finset.sum_eq_zero ?_
    intro v _
    unfold Fnet
    omega

theorem final_cut (cap res : List (List Int)) (n s t : Nat) (f : Int)
    (hF : FlowInv cap res n s t f) (hsn : s < n) (htn : t < n)
    (hst : s ≠ t)
    (hfound : (bfs_find_path res n s t).found = false) :
    ∃ S : Finset Nat, S ⊆ Finset.range n ∧ s ∈ S ∧ t ∉ S ∧
      f = cutCap cap n S := by
  classical
  obtain ⟨hvs, hvt, hclosure⟩ :=
    bfs_find_path_false res n s t hsn htn hst hfound
  have hSsub : ((Finset.range n).filter
      (fun v => (bfs_find_path res n s t).vis.getD v false = true))
      ⊆ Finset.range n := Finset.filter_subset _ _
  have hsS : s ∈ (Finset.range n).filter
      (fun v => (bfs_find_path res n s t).vis.getD v false = true) :=
    Finset.mem_filter.mpr ⟨Finset.mem_range.mpr hsn, hvs⟩
  have htS : t ∉ (Finset.range n).filter
      (fun v => (bfs_find_path res n s t).vis.getD v false = true) := by
    intro hmem
    have h2 := (Finset.mem_filter.mp hmem).2
    rw [hvt] at h2
    cases h2
  refine ⟨_, hSsub, hsS, htS, ?_⟩
  rw [flowinv_cut_eq hF _ hSsub hsS htS]
  unfold cutCap
  refine Finset.sum_congr rfl ?_
  intro u hu
  refine Finset.sum_congr rfl ?_
  intro v hv
  obtain ⟨hur, huvis⟩ := Finset.mem_filter.mp hu
  obtain ⟨hvr, hvnot⟩ := Finset.mem_sdiff.mp hv
  have hvfalse : (bfs_find_path res n s t).vis.getD v false = false := by
    rcases Bool.eq_false_or_eq_true
        ((bfs_find_path res n s t).vis.getD v false) with h | h
    · exact absurd (Finset.mem_filter.mpr ⟨hvr, h⟩) hvnot
    · exact h
  have hres0 : capAt res u v = 0 := by
    have hnn := hF.hnn u v
    rcases lt_or_eq_of_le hnn with hlt | heq
    · have := hclosure u (Finset.mem_range.mp hur) huvis v
        (Finset.mem_range.mp hvr) hlt
      rw [hvfalse] at this
      cases this
    · exact heq.symm
  unfold Fnet
  omega

theorem cutCap_nonneg (cap : List (List Int)) (n : Nat)
    (hnn : ∀ u v : Nat, 0 ≤ capAt cap u v) (S : Finset Nat) :
    0 ≤ cutCap cap n S := by
  unfold cutCap
  refine Finset.sum_nonneg ?_
  intro u _
  refine Finset.sum_nonneg ?_
  intro v _
  exact hnn u v

theorem sum_range_getD_int :
    ∀ l : List Int,
    (∑ v ∈ Finset.range l.length, l.getD v 0)
      ≤ ((l.map Int.natAbs).sum : Int) := by
  intro l
  induction l with
  | nil => simp
  | cons a t ih =>
    rw [List.length_cons, Finset.sum_range_succ']
    simp only [List.map_cons, List.sum_cons]
    have h1 : (∑ i ∈ Finset.range t.length, (a :: t).getD (i + 1) 0)
        = ∑ i ∈ Finset.range t.length, t.getD i 0 := by
      refine Finset.sum_congr rfl ?_
      intro i _
      rfl
    rw [h1]
    have h2 : (a :: t).getD 0 0 = a := rfl
    rw [h2]
    have h3 : a ≤ (a.natAbs : Int) := Int.le_natAbs
    push_cast at *
    omega

/-! ### C2: facts about the built capacity matrix -/

theorem capAt_set_entry {n : Nat} {m : List (List Int)} (hM : Mat n m)
    (u v : Nat) (w : Int) (a b : Nat) (hun : u < n) (hvn : v < n) :
    capAt (m.set u ((m.getD u []).set v w)) a b
      = if a = u ∧ b = v then w else capAt m a b := by
  obtain ⟨h1, h2⟩ := hM
  unfold capAt
  by_cases hau : a = u
  · subst hau
    rw [getD_set_self _ _ _ _ (by omega)]
    by_cases hbv : b = v
    · subst hbv
      rw [getD_set_self _ _ _ _ (by rw [h2 a hun]; omega)]
      rw [if_pos ⟨rfl, rfl⟩]
    · rw [getD_set_ne _ _ _ (fun hh => hbv hh.symm)]
      rw [if_neg (fun hh => hbv hh.2)]
  · rw [getD_set_ne _ _ _ (fun hh => hau hh.symm)]
    rw [if_neg (fun hh => hau hh.1)]

/-- The invariant of the `build_capacity_matrix` fold: the matrix is
`n × n` and every nonzero entry comes from an adjacency entry with
that exact weight (and is off the diagonal). -/
def BCMinv (g : Graph) (m : List (List Int)) : Prop :=
  Mat g.n m ∧
  ∀ u v : Nat, capAt m u v ≠ 0 →
    u ≠ v ∧ ∃ e ∈ g.adjList u, e.dst = v ∧ e.weight = capAt m u v

theorem bcm_entry_inv (g : Graph) (u : Nat) (hu : u < g.n)
    (m : List (List Int)) (hI : BCMinv g m) (e : EdgeNode)
    (he : e ∈ g.adjList u) : BCMinv g (bcm_entry u m e) := by
  obtain ⟨hmat, hsup⟩ := hI
  unfold bcm_entry
  split_ifs with hne
  · by_cases hdn : e.dst < g.n
    · constructor
      · constructor
        · rw [List.length_set]
          exact hmat.1
        · intro a ha
          by_cases hau : a = u
          · subst hau
            rw [getD_set_self _ _ _ _ (by
              have := hmat.1
              omega)]
            rw [List.length_set]
            exact hmat.2 a ha
          · rw [getD_set_ne _ _ _ (fun hh => hau hh.symm)]
            exact hmat.2 a ha
      · intro a b hab
        rw [capAt_set_entry hmat u e.dst e.weight a b hu hdn] at hab ⊢
        split_ifs at hab ⊢ with hcond
        · obtain ⟨ha, hb⟩ := hcond
          subst ha
          subst hb
          exact ⟨hne, e, he, rfl, rfl⟩
        · exact hsup a b hab
    · -- the inner set is out of bounds: the matrix is unchanged
      have hrow : (m.getD u []).set e.dst e.weight = m.getD u [] := by
        refine List.set_eq_of_length_le ?_
        rw [hmat.2 u hu]
        omega
      rw [hrow]
      have hm : m.set u (m.getD u []) = m := by
        refine List.ext_getElem (by rw [List.length_set]) ?_
        intro i h1 h2
        by_cases hiu : i = u
        · subst hiu
          rw [List.getElem_set_self]
          rw [List.getD_eq_getElem _ _ h2]
        · rw [List.getElem_set_ne (fun hh => hiu hh.symm)]
      rw [hm]
      exact ⟨hmat, hsup⟩
  · exact ⟨hmat, hsup⟩

theorem build_capacity_matrix_facts (g : Graph) :
    BCMinv g (build_capacity_matrix g) := by
  have hinit : BCMinv g (List.replicate g.n (List.replicate g.n 0)) := by
    constructor
    · constructor
      · simp
      · intro u hu
        rw [List.getD_eq_getElem _ _ (by simp; omega)]
        simp
    · have hrow : ∀ u : Nat, u < g.n →
          (List.replicate g.n (List.replicate g.n (0 : Int))).getD u []
            = List.replicate g.n 0 := by
        intro u hu
        rw [List.getD_eq_getElem _ _ (by simp; omega)]
        simp
      intro u v hab
      exfalso
      refine hab ?_
      unfold capAt
      by_cases hu : u < g.n
      · rw [hrow u hu]
        by_cases hv : v < g.n
        · rw [List.getD_eq_getElem _ _ (by simp; omega)]
          simp
        · rw [List.getD_eq_default _ _ (by simp; omega)]
      · rw [show (List.replicate g.n
            (List.replicate g.n (0 : Int))).getD u [] = [] from
          List.getD_eq_default _ _ (by simp; omega)]
        rfl
  unfold build_capacity_matrix
  have hgen : ∀ (us : List Nat), (∀ x ∈ us, x < g.n) →
      ∀ m : List (List Int), BCMinv g m →
      BCMinv g (us.foldl (fun m u => (g.adjList u).foldl (bcm_entry u) m) m)
      := by
    intro us
    induction us with
    | nil => exact fun _ m hm => hm
    | cons x us ih =>
      intro hus m hm
      rw [List.foldl_cons]
      refine ih (fun z hz => hus z (List.mem_cons_of_mem _ hz)) _ ?_
      have hx : x < g.n := hus x (List.mem_cons_self _ _)
      have hinner : ∀ (es : List EdgeNode), (∀ e ∈ es, e ∈ g.adjList x) →
          ∀ m : List (List Int), BCMinv g m →
          BCMinv g (es.foldl (bcm_entry x) m) := by
        intro es
        induction es with
        | nil => exact fun _ m hm => hm
        | cons e es ihe =>
          intro hes m hm
          rw [List.foldl_cons]
          exact ihe (fun z hz => hes z (List.mem_cons_of_mem _ hz)) _
            (bcm_entry_inv g x hx m hm e (hes e (List.mem_cons_self _ _)))
      exact hinner _ (fun e he => he) m hm
  exact hgen (List.range g.n) (fun x hx => List.mem_range.mp hx) _ hinit

theorem graph_max_flow_mincut (g : Graph) (s t : Nat) (f : Int)
    (hlen : g.adj.length = g.n)
    (hsn : s < g.n) (htn : t < g.n) (hst : s ≠ t)
    (hw : ∀ u : Nat, u < g.n → ∀ e ∈ g.adjList u, 1 ≤ e.weight)
    (hres : graph_max_flow g s t = some f) :
    0 ≤ f ∧
    FlowInv (build_capacity_matrix g)
      (maxflow_loop g.n s t
        ((build_capacity_matrix g).map
          (fun row : List Int => (row.map Int.natAbs).sum)).sum.succ
        (build_capacity_matrix g, 0)).1 g.n s t f ∧
    (bfs_find_path
      (maxflow_loop g.n s t
        ((build_capacity_matrix g).map
          (fun row : List Int => (row.map Int.natAbs).sum)).sum.succ
        (build_capacity_matrix g, 0)).1 g.n s t).found = false := by
  obtain ⟨hmat, hsup⟩ := build_capacity_matrix_facts g
  have hnn : ∀ u v : Nat, 0 ≤ capAt (build_capacity_matrix g) u v := by
    intro u v
    by_cases h0 : capAt (build_capacity_matrix g) u v = 0
    · omega
    · obtain ⟨hne, e, he, hdst, hwt⟩ := hsup u v h0
      have hun : u < g.n := by
        by_contra hc
        unfold Graph.adjList at he
        rw [List.getD_eq_default _ _ (by omega)] at he
        cases he
      have := hw u hun e he
      omega
  unfold graph_max_flow at hres
  rw [if_neg (by push_cast; omega)] at hres
  dsimp only at hres
  rw [Int.toNat_natCast, Int.toNat_natCast] at hres
  have hbound : (∑ v ∈ Finset.range g.n,
      capAt (build_capacity_matrix g) s v)
      < 0 + (((build_capacity_matrix g).map
          (fun row : List Int => (row.map Int.natAbs).sum)).sum + 1 : Nat) := by
    have hrowlen : ((build_capacity_matrix g).getD s []).length = g.n :=
      hmat.2 s hsn
    have h1 : (∑ v ∈ Finset.range g.n,
        capAt (build_capacity_matrix g) s v)
        ≤ ((((build_capacity_matrix g).getD s []).map Int.natAbs).sum :
          Int) := by
      have := sum_range_getD_int ((build_capacity_matrix g).getD s [])
      rw [hrowlen] at this
      exact this
    have h2 : ((((build_capacity_matrix g).getD s []).map Int.natAbs).sum)
        ≤ ((build_capacity_matrix g).map
            (fun row : List Int => (row.map Int.natAbs).sum)).sum := by
      refine List.single_le_sum (fun x _ => Nat.zero_le x) _ ?_
      refine List.mem_map.mpr ?_
      refine ⟨(build_capacity_matrix g).getD s [], ?_, rfl⟩
      rw [List.getD_eq_getElem _ _ (by rw [hmat.1]; omega)]
      exact List.getElem_mem _
    have h2' := (Nat.cast_le (α := Int)).mpr h2
    rw [Nat.cast_add, Nat.cast_one]
    omega
  obtain ⟨hFfin, hnofind, hge0⟩ := maxflow_loop_spec
    (build_capacity_matrix g) g.n s t hsn htn hst
    (((build_capacity_matrix g).map
      (fun row : List Int => (row.map Int.natAbs).sum)).sum + 1)
    (build_capacity_matrix g) 0
    (flowinv_init (build_capacity_matrix g) g.n s t hmat hnn) hbound
  have hfeq : (maxflow_loop g.n s t
      (((build_capacity_matrix g).map
        (fun row : List Int => (row.map Int.natAbs).sum)).sum + 1)
      (build_capacity_matrix g, 0)).2 = f := Option.some.inj hres
  rw [hfeq] at hFfin hge0
  exact ⟨hge0, hFfin, hnofind⟩

/-! ### C2: Menger — edge-disjoint paths (unit weights) -/

/-- An `s`–`t` path: it starts at `s`, ends at `t`, and every
consecutive pair is an adjacency of `g`. -/
def IsSTPath (g : Graph) (s t : Nat) (p : List Nat) : Prop :=
  p.head? = some s ∧ p.getLast? = some t ∧ List.Chain' g.adjacent p

/-- A family of edge-disjoint `s`–`t` paths: every member is an
`s`–`t` path and no undirected edge is traversed twice, within a path
or across paths. -/
def DisjointPaths (g : Graph) (s t : Nat) (ps : List (List Nat)) : Prop :=
  (∀ p ∈ ps, IsSTPath g s t p) ∧ ((ps.map pairsOf).sum).Nodup

theorem pairsOf_eq_zip : ∀ p : List Nat,
    pairsOf p
      = (((p.zip p.tail).map (fun e => normPair e.1 e.2) :
          List (Nat × Nat)) : Multiset (Nat × Nat)) := by
  intro p
  induction p with
  | nil => rfl
  | cons a q ih =>
    cases q with
    | nil => rfl
    | cons b q' =>
      show normPair a b ::ₘ pairsOf (b :: q') = _
      rw [ih]
      rfl

/-- A walk from inside the cut `S` to outside it crosses the cut at
some consecutive pair. -/
theorem exists_crossing (S : Finset Nat) :
    ∀ (p : List Nat) (a b : Nat), p.head? = some a → p.getLast? = some b →
    a ∈ S → b ∉ S →
    ∃ e ∈ p.zip p.tail, e.1 ∈ S ∧ e.2 ∉ S := by
  intro p
  induction p with
  | nil =>
    intro a b ha
    cases ha
  | cons x q ih =>
    intro a b ha hb haS hbS
    have hxa : x = a := by simpa using ha
    cases q with
    | nil =>
      have hxb : x = b := by simpa using hb
      exact absurd (hxa ▸ haS) (hxb ▸ hbS)
    | cons y q' =>
      rw [List.getLast?_cons_cons] at hb
      by_cases hyS : y ∈ S
      · obtain ⟨e, he, heS⟩ := ih y b rfl hb hyS hbS
        exact ⟨e, List.mem_cons_of_mem _ he, heS⟩
      · exact ⟨(x, y), List.mem_cons_self _ _, hxa ▸ haS, hyS⟩

theorem mem_tail_zip : ∀ (q : List Nat) (x : Nat), x ∈ q.tail →
    ∃ u : Nat, (u, x) ∈ q.zip q.tail := by
  intro q
  induction q with
  | nil =>
    intro x hx
    cases hx
  | cons a tl ih =>
    intro x hx
    cases tl with
    | nil => cases hx
    | cons b tl' =>
      rcases List.mem_cons.mp hx with rfl | hx'
      · exact ⟨a, List.mem_cons_self _ _⟩
      · obtain ⟨u, hu⟩ := ih x hx'
        exact ⟨u, List.mem_cons_of_mem _ hu⟩

theorem mat_replicate (n : Nat) :
    Mat n (List.replicate n (List.replicate n (0 : Int))) := by
  refine ⟨List.length_replicate _ _, ?_⟩
  intro u hu
  rw [List.getD_eq_getElem _ _ (by simpa using hu), List.getElem_replicate]
  exact List.length_replicate _ _

theorem cap_nonneg (g : Graph) (hlen : g.adj.length = g.n)
    (hw : ∀ u : Nat, u < g.n → ∀ e ∈ g.adjList u, 1 ≤ e.weight) :
    ∀ u v : Nat, 0 ≤ capAt (build_capacity_matrix g) u v := by
  intro u v
  by_cases h0 : capAt (build_capacity_matrix g) u v = 0
  · omega
  · obtain ⟨hne, e, he, hdst, hwt⟩ :=
      (build_capacity_matrix_facts g).2 u v h0
    have hun : u < g.n := by
      by_contra hc
      unfold Graph.adjList at he
      rw [List.getD_eq_default _ _ (by omega)] at he
      cases he
    have := hw u hun e he
    omega

theorem cap_le_one (g : Graph) (hlen : g.adj.length = g.n)
    (hw1 : ∀ u : Nat, u < g.n → ∀ e ∈ g.adjList u, e.weight = 1) :
    ∀ u v : Nat, capAt (build_capacity_matrix g) u v ≤ 1 := by
  intro u v
  by_cases h0 : capAt (build_capacity_matrix g) u v = 0
  · omega
  · obtain ⟨hne, e, he, hdst, hwt⟩ :=
      (build_capacity_matrix_facts g).2 u v h0
    have hun : u < g.n := by
      by_contra hc
      unfold Graph.adjList at he
      rw [List.getD_eq_default _ _ (by omega)] at he
      cases he
    have := hw1 u hun e he
    omega

theorem bcm_entry_mat {n : Nat} {m : List (List Int)} (hM : Mat n m)
    (u : Nat) (hu : u < n) (e : EdgeNode) : Mat n (bcm_entry u m e) := by
  unfold bcm_entry
  split_ifs
  · refine ⟨by rw [List.length_set]; exact hM.1, ?_⟩
    intro a ha
    by_cases hau : u = a
    · subst hau
      rw [getD_set_self _ _ _ _ (by rw [hM.1]; omega), List.length_set]
      exact hM.2 u hu
    · rw [getD_set_ne _ _ _ hau]
      exact hM.2 a ha
  · exact hM

theorem bcm_entry_row_ne (v : Nat) (m : List (List Int)) (e : EdgeNode)
    (u d : Nat) (hvu : v ≠ u) :
    capAt (bcm_entry v m e) u d = capAt m u d := by
  unfold bcm_entry
  split_ifs
  · unfold capAt
    rw [getD_set_ne _ _ _ hvu]
  · rfl

theorem bcm_fold_row_mat {n : Nat} (u : Nat) (hu : u < n) :
    ∀ (es : List EdgeNode) (m : List (List Int)), Mat n m →
    Mat n (es.foldl (bcm_entry u) m) := by
  intro es
  induction es with
  | nil => exact fun m hm => hm
  | cons e es ih =>
    intro m hm
    rw [List.foldl_cons]
    exact ih _ (bcm_entry_mat hm u hu e)

theorem bcm_fold_row_ne (v : Nat) (u d : Nat) (hvu : v ≠ u) :
    ∀ (es : List EdgeNode) (m : List (List Int)),
    capAt (es.foldl (bcm_entry v) m) u d = capAt m u d := by
  intro es
  induction es with
  | nil => exact fun m => rfl
  | cons e es ih =>
    intro m
    rw [List.foldl_cons, ih, bcm_entry_row_ne v m e u d hvu]

theorem bcm_row_keep {n : Nat} (u d : Nat) (hu : u < n) :
    ∀ (es : List EdgeNode) (m : List (List Int)), Mat n m →
    (∀ e ∈ es, e.dst < n ∧ e.weight ≠ 0) →
    capAt m u d ≠ 0 →
    capAt (es.foldl (bcm_entry u) m) u d ≠ 0 := by
  intro es
  induction es with
  | nil => exact fun m _ _ h => h
  | cons e es ih =>
    intro m hm hes h
    rw [List.foldl_cons]
    refine ih _ (bcm_entry_mat hm u hu e)
      (fun x hx => hes x (List.mem_cons_of_mem _ hx)) ?_
    obtain ⟨hed, hew⟩ := hes e (List.mem_cons_self _ _)
    unfold bcm_entry
    split_ifs with hne
    · rw [capAt_set_entry hm u e.dst e.weight u d hu hed]
      split_ifs with hcond
      · exact hew
      · exact h
    · exact h

theorem bcm_row_sets {n : Nat} (u : Nat) (hu : u < n) :
    ∀ (es : List EdgeNode) (m : List (List Int)), Mat n m →
    (∀ e ∈ es, e.dst < n ∧ e.weight ≠ 0) →
    ∀ e ∈ es, u ≠ e.dst →
    capAt (es.foldl (bcm_entry u) m) u e.dst ≠ 0 := by
  intro es
  induction es with
  | nil =>
    intro m _ _ e he
    cases he
  | cons e0 es ih =>
    intro m hm hes e he hne
    rw [List.foldl_cons]
    rcases List.mem_cons.mp he with rfl | he'
    · refine bcm_row_keep u e.dst hu es _ (bcm_entry_mat hm u hu e)
        (fun x hx => hes x (List.mem_cons_of_mem _ hx)) ?_
      obtain ⟨hed, hew⟩ := hes e (List.mem_cons_self _ _)
      unfold bcm_entry
      rw [if_pos hne]
      rw [capAt_set_entry hm u e.dst e.weight u e.dst hu hed]
      rw [if_pos ⟨rfl, rfl⟩]
      exact hew
    · exact ih _ (bcm_entry_mat hm u hu e0)
        (fun x hx => hes x (List.mem_cons_of_mem _ hx)) e he' hne

theorem bcm_rows_keep (g : Graph) (u d : Nat) (hu : u < g.n)
    (hdst : ∀ x : Nat, x < g.n → ∀ e ∈ g.adjList x, e.dst < g.n)
    (hw : ∀ x : Nat, x < g.n → ∀ e ∈ g.adjList x, 1 ≤ e.weight) :
    ∀ (us : List Nat), (∀ x ∈ us, x < g.n) →
    ∀ m : List (List Int), Mat g.n m →
    capAt m u d ≠ 0 →
    capAt (us.foldl
      (fun m x => (g.adjList x).foldl (bcm_entry x) m) m) u d ≠ 0 := by
  intro us
  induction us with
  | nil => exact fun _ m _ h => h
  | cons x us ih =>
    intro hus m hm h
    rw [List.foldl_cons]
    have hx : x < g.n := hus x (List.mem_cons_self _ _)
    refine ih (fun z hz => hus z (List.mem_cons_of_mem _ hz)) _
      (bcm_fold_row_mat x hx _ m hm) ?_
    by_cases hxu : x = u
    · subst hxu
      refine bcm_row_keep x d hx _ m hm ?_ h
      intro e he
      have := hw x hx e he
      exact ⟨hdst x hx e he, by omega⟩
    · rw [bcm_fold_row_ne x u d hxu]
      exact h

theorem bcm_complete (g : Graph) (hlen : g.adj.length = g.n)
    (hdst : ∀ x : Nat, x < g.n → ∀ e ∈ g.adjList x, e.dst < g.n)
    (hw : ∀ x : Nat, x < g.n → ∀ e ∈ g.adjList x, 1 ≤ e.weight) :
    ∀ u : Nat, u < g.n → ∀ e ∈ g.adjList u, u ≠ e.dst →
    capAt (build_capacity_matrix g) u e.dst ≠ 0 := by
  have hgen : ∀ (us : List Nat), (∀ x ∈ us, x < g.n) →
      ∀ m : List (List Int), Mat g.n m →
      ∀ u ∈ us, ∀ e ∈ g.adjList u, u ≠ e.dst →
      capAt (us.foldl
        (fun m x => (g.adjList x).foldl (bcm_entry x) m) m) u e.dst ≠ 0 := by
    intro us
    induction us with
    | nil =>
      intro _ m _ u hu
      cases hu
    | cons x us ih =>
      intro hus m hm u hu e he hne
      rw [List.foldl_cons]
      have hx : x < g.n := hus x (List.mem_cons_self _ _)
      rcases List.mem_cons.mp hu with rfl | hu'
      · refine bcm_rows_keep g u e.dst (hus u (List.mem_cons_self _ _))
          hdst hw us (fun z hz => hus z (List.mem_cons_of_mem _ hz)) _
          (bcm_fold_row_mat u hx _ m hm) ?_
        refine bcm_row_sets u hx _ m hm ?_ e he hne
        intro e' he'
        have := hw u hx e' he'
        exact ⟨hdst u hx e' he', by omega⟩
      · exact ih (fun z hz => hus z (List.mem_cons_of_mem _ hz)) _
          (bcm_fold_row_mat x hx _ m hm) u hu' e he hne
  intro u hu e he hne
  unfold build_capacity_matrix
  exact hgen (List.range g.n) (fun x hx => List.mem_range.mp hx) _
    (mat_replicate g.n) u (List.mem_range.mpr hu) e he hne

theorem cap_pos_of_adjacent (g : Graph) (hlen : g.adj.length = g.n)
    (hdst : ∀ x : Nat, x < g.n → ∀ e ∈ g.adjList x, e.dst < g.n)
    (hw : ∀ x : Nat, x < g.n → ∀ e ∈ g.adjList x, 1 ≤ e.weight)
    (u v : Nat) (hu : u < g.n) (huv : u ≠ v)
    (hadj : g.adjacent u v) :
    1 ≤ capAt (build_capacity_matrix g) u v := by
  obtain ⟨e, he, hev⟩ := hadj
  have h0 : capAt (build_capacity_matrix g) u v ≠ 0 := by
    rw [← hev]
    exact bcm_complete g hlen hdst hw u hu e he (hev ▸ huv)
  obtain ⟨_, e', he', _, hwt⟩ := (build_capacity_matrix_facts g).2 u v h0
  have := hw u hu e' he'
  omega

theorem chain_verts_bound {R : Nat → Nat → Prop} {n : Nat}
    (hR : ∀ a b : Nat, R a b → b < n) :
    ∀ (p : List Nat) (a : Nat), p.head? = some a → a < n →
    List.Chain' R p → ∀ x ∈ p, x < n := by
  intro p
  induction p with
  | nil =>
    intro a _ _ _ x hx
    cases hx
  | cons y q ih =>
    intro a ha han hch x hx
    have hya : y = a := by simpa using ha
    rcases List.mem_cons.mp hx with rfl | hx'
    · exact hya ▸ han
    · cases q with
      | nil => cases hx'
      | cons z q' =>
        obtain ⟨hyz, hch'⟩ := List.chain'_cons.mp hch
        exact ih z rfl (hR y z hyz) hch' x hx'

/-- An integral flow on the capacity matrix: antisymmetric, bounded by
the capacities, supported on `[0,n)²`, conserved away from the
endpoints and with divergence `f` at the source. -/
def UnitFlow (cap : List (List Int)) (n s t : Nat) (F : Nat → Nat → Int)
    (f : Int) : Prop :=
  (∀ u v : Nat, F u v = - F v u) ∧
  (∀ u v : Nat, F u v ≤ capAt cap u v) ∧
  (∀ u v : Nat, ¬(u < n ∧ v < n) → F u v = 0) ∧
  (∀ w : Nat, w < n → w ≠ s → w ≠ t →
    (∑ v ∈ Finset.range n, F w v) = 0) ∧
  (∑ v ∈ Finset.range n, F s v) = f

/-- With positive flow value, the sink is reachable from the source
along edges carrying positive flow. -/
theorem reach_t (cap : List (List Int)) (n s t : Nat)
    (F : Nat → Nat → Int) (f : Int)
    (hUF : UnitFlow cap n s t F f) (hsn : s < n) (hf : 0 < f) :
    Relation.ReflTransGen (fun a b => 0 < F a b) s t := by
  classical
  by_contra hnr
  obtain ⟨hanti, hcap, hsupp, hcons, hval⟩ := hUF
  have hsS : s ∈ (Finset.range n).filter
      (fun v => Relation.ReflTransGen (fun a b => 0 < F a b) s v) :=
    Finset.mem_filter.mpr ⟨Finset.mem_range.mpr hsn,
      Relation.ReflTransGen.refl⟩
  have htS : t ∉ (Finset.range n).filter
      (fun v => Relation.ReflTransGen (fun a b => 0 < F a b) s v) :=
    fun h => hnr (Finset.mem_filter.mp h).2
  have hid := flow_cut_identity F n s t (fun u v _ _ => hanti u v) hcons
    _ (Finset.filter_subset _ _) hsS htS
  rw [hval] at hid
  have hle : (∑ u ∈ (Finset.range n).filter
      (fun v => Relation.ReflTransGen (fun a b => 0 < F a b) s v),
      ∑ v ∈ Finset.range n \ (Finset.range n).filter
        (fun v => Relation.ReflTransGen (fun a b => 0 < F a b) s v),
      F u v) ≤ 0 := by
    refine Finset.sum_nonpos ?_
    intro u hu
    refine Finset.sum_nonpos ?_
    intro v hv
    by_contra hpos
    push_neg at hpos
    obtain ⟨hvr, hvS⟩ := Finset.mem_sdiff.mp hv
    have hru := (Finset.mem_filter.mp hu).2
    exact hvS (Finset.mem_filter.mpr ⟨hvr, hru.tail hpos⟩)
  omega

/-- Reachability yields a concrete walk. -/
theorem rtg_chain_list {R : Nat → Nat → Prop} {a b : Nat}
    (h : Relation.ReflTransGen R a b) :
    ∃ p : List Nat, p.head? = some a ∧ p.getLast? = some b ∧
      List.Chain' R p := by
  induction h with
  | refl => exact ⟨[a], rfl, rfl, List.chain'_singleton a⟩
  | @tail x y hax hxy ih =>
    obtain ⟨p, hh, hl, hc⟩ := ih
    cases p with
    | nil => cases hh
    | cons z q =>
      refine ⟨z :: (q ++ [y]), hh, ?_, ?_⟩
      · show ((z :: q) ++ [y]).getLast? = some y
        exact List.getLast?_concat _
      · show List.Chain' R ((z :: q) ++ [y])
        refine List.chain'_append.mpr ⟨hc, List.chain'_singleton y, ?_⟩
        intro u hu w hw
        rw [hl] at hu
        have hu' : x = u := by simpa using hu
        have hw' : y = w := by simpa using hw
        rw [← hu', ← hw']
        exact hxy

theorem dup_split : ∀ (p : List Nat), ¬ p.Nodup →
    ∃ (x : Nat) (xs ys zs : List Nat), p = xs ++ x :: ys ++ x :: zs := by
  intro p
  induction p with
  | nil =>
    intro h
    exact absurd List.nodup_nil h
  | cons a q ih =>
    intro h
    by_cases haq : a ∈ q
    · obtain ⟨l1, l2, rfl⟩ := List.append_of_mem haq
      exact ⟨a, [], l1, l2, rfl⟩
    · have hq : ¬ q.Nodup := fun hnd => h (List.nodup_cons.mpr ⟨haq, hnd⟩)
      obtain ⟨x, xs, ys, zs, rfl⟩ := ih hq
      exact ⟨x, a :: xs, ys, zs, rfl⟩

theorem head?_append_cons {α : Type _} (xs : List α) (x : α)
    (l l' : List α) : (xs ++ x :: l).head? = (xs ++ x :: l').head? := by
  cases xs <;> rfl

theorem getLast?_append_cons {α : Type _} (xs : List α) (x : α)
    (l : List α) : (xs ++ x :: l).getLast? = (x :: l).getLast? :=
  List.getLast?_append_of_ne_nil xs (by simp)

/-- Any walk with distinct endpoints contains a duplicate-free walk
with the same endpoints over the same step relation. -/
theorem chain_dedup {R : Nat → Nat → Prop} :
    ∀ (N : Nat) (p : List Nat) (a b : Nat), p.length ≤ N →
    p.head? = some a → p.getLast? = some b → List.Chain' R p →
    ∃ q : List Nat, q.Nodup ∧ q.head? = some a ∧ q.getLast? = some b ∧
      List.Chain' R q := by
  intro N
  induction N with
  | zero =>
    intro p a b hN hh
    rw [List.length_eq_zero.mp (Nat.le_zero.mp hN)] at hh
    cases hh
  | succ N ih =>
    intro p a b hN hh hl hc
    by_cases hnd : p.Nodup
    · exact ⟨p, hnd, hh, hl, hc⟩
    · obtain ⟨x, xs, ys, zs, rfl⟩ := dup_split p hnd
      rw [List.append_assoc, List.cons_append] at hh hl hc hN
      refine ih (xs ++ x :: zs) a b ?_ ?_ ?_ ?_
      · simp only [List.length_append, List.length_cons] at hN ⊢
        omega
      · rw [head?_append_cons xs x zs (ys ++ x :: zs)]
        exact hh
      · rw [getLast?_append_cons]
        rw [getLast?_append_cons] at hl
        rw [show (x :: (ys ++ x :: zs)) = (x :: ys) ++ (x :: zs) from rfl,
          getLast?_append_cons] at hl
        exact hl
      · obtain ⟨hxs, hrest, hlink⟩ := List.chain'_append.mp hc
        rw [show (x :: (ys ++ x :: zs)) = (x :: ys) ++ (x :: zs) from rfl]
          at hrest
        obtain ⟨_, hzs, _⟩ := List.chain'_append.mp hrest
        refine List.chain'_append.mpr ⟨hxs, hzs, ?_⟩
        intro u hu w hw
        exact hlink u hu w hw

/-- The flow left after routing one unit along the walk `p`. -/
def subtractPath (F : Nat → Nat → Int) (p : List Nat) (u v : Nat) : Int :=
  F u v - ((p.zip p.tail).count (u, v) : Int)
    + ((p.zip p.tail).count (v, u) : Int)

theorem subtractPath_row (n : Nat) (F : Nat → Nat → Int) (p : List Nat)
    (hverts : ∀ x ∈ p, x < n) (w : Nat) :
    (∑ v ∈ Finset.range n, subtractPath F p w v)
      = (∑ v ∈ Finset.range n, F w v)
        - ((p.zip p.tail).countP (fun e => e.1 == w) : Int)
        + ((p.zip p.tail).countP (fun e => e.2 == w) : Int) := by
  unfold subtractPath
  rw [Finset.sum_add_distrib, Finset.sum_sub_distrib]
  rw [sum_count_fst w _
    (fun e he => hverts e.2
      (List.mem_of_mem_tail (zip_pairs_mem p e.1 e.2 he).2))]
  rw [sum_count_snd w _
    (fun e he => hverts e.1 (zip_pairs_mem p e.1 e.2 he).1)]

theorem subtract_unit_flow (cap : List (List Int)) (n s t : Nat)
    (F : Nat → Nat → Int) (f : Int) (p : List Nat)
    (hUF : UnitFlow cap n s t F f)
    (hcapnn : ∀ u v : Nat, 0 ≤ capAt cap u v)
    (hsn : s < n) (hst : s ≠ t)
    (hnd : p.Nodup) (hh : p.head? = some s) (hl : p.getLast? = some t)
    (hch : List.Chain' (fun a b => 0 < F a b) p) :
    UnitFlow cap n s t (subtractPath F p) (f - 1) := by
  obtain ⟨hanti, hcap, hsupp, hcons, hval⟩ := hUF
  have hverts : ∀ x ∈ p, x < n := by
    refine chain_verts_bound ?_ p s hh hsn hch
    intro a b hab
    by_contra hc
    have := hsupp a b (fun hx => hc hx.2)
    omega
  have hprest : ∃ r : List Nat, p = s :: r ∧ r ≠ [] := by
    cases p with
    | nil => cases hh
    | cons z q =>
      have hz : z = s := by simpa using hh
      subst hz
      refine ⟨q, rfl, ?_⟩
      intro h0
      subst h0
      have : z = t := by simpa using hl
      exact hst this
  refine ⟨?_, ?_, ?_, ?_, ?_⟩
  · intro u v
    unfold subtractPath
    have := hanti u v
    omega
  · intro u v
    unfold subtractPath
    by_cases h2 : (v, u) ∈ p.zip p.tail
    · have hpos : 0 < F v u := chain'_zip_pairs p hch (v, u) h2
      have hFuv : F u v ≤ -1 := by
        have := hanti u v
        omega
      have hc2 : (p.zip p.tail).count (v, u) ≤ 1 :=
        nodup_count_le_one_pairs _ (zip_pairs_nodup p hnd) (v, u)
      have hc1 : (p.zip p.tail).count (u, v) = 0 :=
        List.count_eq_zero.mpr
          (fun h1 => zip_pairs_no_sym p hnd v u h2 h1)
      have := hcapnn u v
      rw [hc1]
      push_cast
      omega
    · have hc2 : (p.zip p.tail).count (v, u) = 0 := List.count_eq_zero.mpr h2
      have hc1 : (0 : Int) ≤ ((p.zip p.tail).count (u, v) : Int) := by
        exact_mod_cast Nat.zero_le _
      have := hcap u v
      rw [hc2]
      push_cast
      omega
  · intro u v h
    unfold subtractPath
    have h1 : (p.zip p.tail).count (u, v) = 0 := by
      refine List.count_eq_zero.mpr ?_
      intro hm
      exact h ⟨hverts u (zip_pairs_mem p u v hm).1,
        hverts v (List.mem_of_mem_tail (zip_pairs_mem p u v hm).2)⟩
    have h2 : (p.zip p.tail).count (v, u) = 0 := by
      refine List.count_eq_zero.mpr ?_
      intro hm
      exact h ⟨hverts u (List.mem_of_mem_tail (zip_pairs_mem p v u hm).2),
        hverts v (zip_pairs_mem p v u hm).1⟩
    rw [hsupp u v h, h1, h2]
    rfl
  · intro w hwn hws hwt
    rw [subtractPath_row n F p hverts w]
    rw [hcons w hwn hws hwt]
    rw [zip_countP_fst w p hnd, zip_countP_snd w p hnd]
    by_cases hwp : w ∈ p
    · have hwd : w ∈ p.dropLast := mem_dropLast_of_ne_last p w t hwp hl hwt
      have hwtl : w ∈ p.tail := by
        obtain ⟨r, hp, _⟩ := hprest
        rw [hp] at hwp ⊢
        rcases List.mem_cons.mp hwp with rfl | hw'
        · exact absurd rfl hws
        · exact hw'
      rw [if_pos hwd, if_pos hwtl]
      push_cast
    · have hwd : w ∉ p.dropLast := fun hmem => hwp (List.dropLast_subset p hmem)
      have hwtl : w ∉ p.tail := fun hmem => hwp (List.mem_of_mem_tail hmem)
      rw [if_neg hwd, if_neg hwtl]
      push_cast
  · rw [subtractPath_row n F p hverts s]
    rw [hval]
    rw [zip_countP_fst s p hnd, zip_countP_snd s p hnd]
    obtain ⟨r, hp, hrne⟩ := hprest
    have hsd : s ∈ p.dropLast := by
      rw [hp]
      cases r with
      | nil => exact absurd rfl hrne
      | cons z q =>
        rw [show (s :: z :: q).dropLast = s :: (z :: q).dropLast from rfl]
        exact List.mem_cons_self _ _
    have hstl : s ∉ p.tail := by
      rw [hp]
      intro hmem
      have := List.nodup_cons.mp (hp ▸ hnd)
      exact this.1 hmem
    rw [if_pos hsd, if_neg hstl]
    omega

/-- Flow decomposition for unit capacities: an integral flow of value
`k` on the capacity matrix of an all-weight-one graph yields `k`
edge-disjoint `s`–`t` paths, each traversed edge carrying positive
flow. -/
theorem unit_flow_decompose (g : Graph) (s t : Nat)
    (hlen : g.adj.length = g.n)
    (hw1 : ∀ u : Nat, u < g.n → ∀ e ∈ g.adjList u, e.weight = 1)
    (hsn : s < g.n) (hst : s ≠ t) :
    ∀ (k : Nat) (F : Nat → Nat → Int),
    UnitFlow (build_capacity_matrix g) g.n s t F (k : Int) →
    ∃ ps : List (List Nat), ps.length = k ∧
      (∀ p ∈ ps, IsSTPath g s t p) ∧
      ((ps.map pairsOf).sum).Nodup ∧
      (∀ pr ∈ (ps.map pairsOf).sum, ∃ u v : Nat,
        pr = normPair u v ∧ 0 < F u v) := by
  have hw : ∀ u : Nat, u < g.n → ∀ e ∈ g.adjList u, 1 ≤ e.weight :=
    fun u hu e he => by rw [hw1 u hu e he]
  have hcapnn := cap_nonneg g hlen hw
  have hcap1 := cap_le_one g hlen hw1
  intro k
  induction k with
  | zero =>
    intro F _
    refine ⟨[], rfl, ?_, by simp, ?_⟩
    · intro p hp
      cases hp
    · intro pr hpr
      simp at hpr
  | succ k ih =>
    intro F hUF
    have hf : 0 < ((k + 1 : Nat) : Int) := by positivity
    have hrt := reach_t (build_capacity_matrix g) g.n s t F _ hUF hsn hf
    obtain ⟨p0, hh0, hl0, hc0⟩ := rtg_chain_list hrt
    obtain ⟨q, hqnd, hqh, hql, hqc⟩ :=
      chain_dedup p0.length p0 s t le_rfl hh0 hl0 hc0
    have hanti := hUF.1
    have hcapF := hUF.2.1
    have hsupp := hUF.2.2.1
    have hverts : ∀ x ∈ q, x < g.n := by
      refine chain_verts_bound ?_ q s hqh hsn hqc
      intro a b hab
      by_contra hc
      have := hsupp a b (fun hx => hc hx.2)
      omega
    have hone : ∀ e ∈ q.zip q.tail, F e.1 e.2 = 1 := by
      intro e he
      have hpos := chain'_zip_pairs q hqc e he
      have h1 := hcapF e.1 e.2
      have h2 := hcap1 e.1 e.2
      omega
    have hkill : ∀ e ∈ q.zip q.tail,
        subtractPath F q e.1 e.2 = 0 ∧ subtractPath F q e.2 e.1 = 0 := by
      intro e he
      have hF1 := hone e he
      have hc1 : (q.zip q.tail).count (e.1, e.2) = 1 := by
        have hle := nodup_count_le_one_pairs _ (zip_pairs_nodup q hqnd)
          (e.1, e.2)
        have hge : 0 < (q.zip q.tail).count (e.1, e.2) :=
          List.count_pos_iff.mpr he
        omega
      have hc2 : (q.zip q.tail).count (e.2, e.1) = 0 :=
        List.count_eq_zero.mpr
          (fun h2 => zip_pairs_no_sym q hqnd e.1 e.2 he h2)
      have hFba : F e.2 e.1 = -1 := by
        have := hanti e.1 e.2
        omega
      unfold subtractPath
      rw [hc1, hc2]
      push_cast
      omega
    have hF' : UnitFlow (build_capacity_matrix g) g.n s t
        (subtractPath F q) ((k : Int)) := by
      have := subtract_unit_flow (build_capacity_matrix g) g.n s t F
        ((k + 1 : Nat) : Int) q hUF hcapnn hsn hst hqnd hqh hql hqc
      have hcast : ((k + 1 : Nat) : Int) - 1 = (k : Int) := by
        push_cast
        ring
      rw [hcast] at this
      exact this
    obtain ⟨ps, hpslen, hpaths, hnodup, hpos⟩ := ih (subtractPath F q) hF'
    have hsum : ((q :: ps).map pairsOf).sum
        = pairsOf q + (ps.map pairsOf).sum := by
      rw [List.map_cons, List.sum_cons]
    have hqpath : IsSTPath g s t q := by
      refine ⟨hqh, hql, ?_⟩
      refine List.Chain'.imp ?_ hqc
      intro a b hab
      have hFc := hcapF a b
      have hne : capAt (build_capacity_matrix g) a b ≠ 0 := by omega
      obtain ⟨_, e, he, hed, _⟩ := (build_capacity_matrix_facts g).2 a b hne
      exact ⟨e, he, hed⟩
    have hqpairs_nd : (pairsOf q).Nodup := by
      rw [pairsOf_eq_zip]
      refine Multiset.coe_nodup.mpr ?_
      refine List.Nodup.map_on ?_ (zip_pairs_nodup q hqnd)
      intro e1 h1 e2 h2 heq
      rcases (normPair_eq_iff e1.1 e1.2 e2.1 e2.2).mp heq with hsame | hcross
      · exact Prod.ext hsame.1 hsame.2
      · exfalso
        have h1' : (e2.2, e2.1) ∈ q.zip q.tail := by
          have : e1 = (e2.2, e2.1) := Prod.ext hcross.1 hcross.2
          rw [← this]
          exact h1
        exact zip_pairs_no_sym q hqnd e2.1 e2.2 h2 h1'
    have hmem_pairs : ∀ pr ∈ pairsOf q,
        ∃ e ∈ q.zip q.tail, pr = normPair e.1 e.2 := by
      intro pr hpr
      rw [pairsOf_eq_zip] at hpr
      obtain ⟨e, he, hpr'⟩ := List.mem_map.mp (Multiset.mem_coe.mp hpr)
      exact ⟨e, he, hpr'.symm⟩
    refine ⟨q :: ps, by rw [List.length_cons, hpslen], ?_, ?_, ?_⟩
    · intro p hp
      rcases List.mem_cons.mp hp with rfl | hp'
      · exact hqpath
      · exact hpaths p hp'
    · rw [hsum]
      refine Multiset.nodup_add.mpr ⟨hqpairs_nd, hnodup, ?_⟩
      rw [Multiset.disjoint_left]
      intro pr hprq hprr
      obtain ⟨u, v, hpr, hFpos'⟩ := hpos pr hprr
      obtain ⟨e, he, hpre⟩ := hmem_pairs pr hprq
      have hk := hkill e he
      rcases (normPair_eq_iff u v e.1 e.2).mp (hpr ▸ hpre : normPair u v = normPair e.1 e.2) with hsame | hcross
      · rw [hsame.1, hsame.2] at hFpos'
        omega
      · rw [hcross.1, hcross.2] at hFpos'
        omega
    · intro pr hpr
      rw [hsum] at hpr
      rcases Multiset.mem_add.mp hpr with hprq | hprr
      · obtain ⟨e, he, hpre⟩ := hmem_pairs pr hprq
        exact ⟨e.1, e.2, hpre, chain'_zip_pairs q hqc e he⟩
      · obtain ⟨u, v, hpru, hFpos'⟩ := hpos pr hprr
        refine ⟨u, v, hpru, ?_⟩
        by_cases h2 : (v, u) ∈ q.zip q.tail
        · have hk : subtractPath F q u v = 0 := (hkill (v, u) h2).2
          omega
        · have hc2 : (q.zip q.tail).count (v, u) = 0 :=
            List.count_eq_zero.mpr h2
          have hc1 : (0 : Int) ≤ ((q.zip q.tail).count (u, v) : Int) := by
            exact_mod_cast Nat.zero_le _
          unfold subtractPath at hFpos'
          rw [hc2] at hFpos'
          push_cast at hFpos'
          omega

/-- One distinct crossing edge of the cut per path of an edge-disjoint
family. -/
theorem crossing_list (g : Graph) (s t : Nat) (S : Finset Nat)
    (hlen : g.adj.length = g.n)
    (hdst : ∀ x : Nat, x < g.n → ∀ e ∈ g.adjList x, e.dst < g.n)
    (hsn : s < g.n) (hsS : s ∈ S) (htS : t ∉ S) :
    ∀ ps : List (List Nat), (∀ p ∈ ps, IsSTPath g s t p) →
    ((ps.map pairsOf).sum).Nodup →
    ∃ L : List (Nat × Nat), L.length = ps.length ∧ L.Nodup ∧
      ∀ pr ∈ L, pr ∈ (ps.map pairsOf).sum ∧
        ∃ u v : Nat, pr = normPair u v ∧ u ∈ S ∧ v ∉ S ∧ u < g.n ∧
          v < g.n ∧ g.adjacent u v := by
  have hR : ∀ a b : Nat, g.adjacent a b → b < g.n := by
    intro a b hab
    obtain ⟨e, he, hed⟩ := hab
    have han : a < g.n := by
      by_contra hc
      unfold Graph.adjList at he
      rw [List.getD_eq_default _ _ (by omega)] at he
      cases he
    rw [← hed]
    exact hdst a han e he
  intro ps
  induction ps with
  | nil =>
    intro _ _
    exact ⟨[], rfl, List.nodup_nil, fun pr h => absurd h (List.not_mem_nil pr)⟩
  | cons p ps ih =>
    intro hall hnd
    have hsum : ((p :: ps).map pairsOf).sum
        = pairsOf p + (ps.map pairsOf).sum := by
      rw [List.map_cons, List.sum_cons]
    rw [hsum] at hnd
    obtain ⟨hndp, hndr, hdisj⟩ := Multiset.nodup_add.mp hnd
    obtain ⟨L, hLlen, hLnd, hLmem⟩ :=
      ih (fun p' hp' => hall p' (List.mem_cons_of_mem _ hp')) hndr
    obtain ⟨hph, hpl, hpc⟩ := hall p (List.mem_cons_self _ _)
    obtain ⟨e, he, heS, heS'⟩ := exists_crossing S p s t hph hpl hsS htS
    have hadj : g.adjacent e.1 e.2 := chain'_zip_pairs p hpc e he
    have hverts : ∀ x ∈ p, x < g.n := chain_verts_bound hR p s hph hsn hpc
    have hprP : normPair e.1 e.2 ∈ pairsOf p := by
      rw [pairsOf_eq_zip]
      exact Multiset.mem_coe.mpr (List.mem_map.mpr ⟨e, he, rfl⟩)
    refine ⟨normPair e.1 e.2 :: L, by simp [hLlen], ?_, ?_⟩
    · refine List.nodup_cons.mpr ⟨?_, hLnd⟩
      intro hmem
      exact Multiset.disjoint_left.mp hdisj hprP (hLmem _ hmem).1
    · intro pr hpr
      rcases List.mem_cons.mp hpr with rfl | hpr'
      · exact ⟨by rw [hsum]; exact Multiset.mem_add.mpr (Or.inl hprP),
          e.1, e.2, rfl, heS, heS',
          hverts e.1 (zip_pairs_mem p e.1 e.2 he).1,
          hverts e.2 (List.mem_of_mem_tail (zip_pairs_mem p e.1 e.2 he).2),
          hadj⟩
      · obtain ⟨hm, rest⟩ := hLmem pr hpr'
        exact ⟨by rw [hsum]; exact Multiset.mem_add.mpr (Or.inr hm), rest⟩

/-- Menger upper bound: an edge-disjoint family of `s`–`t` paths is no
larger than any cut capacity. -/
theorem paths_le_cut (g : Graph) (s t : Nat) (S : Finset Nat)
    (hlen : g.adj.length = g.n)
    (hdst : ∀ x : Nat, x < g.n → ∀ e ∈ g.adjList x, e.dst < g.n)
    (hw : ∀ u : Nat, u < g.n → ∀ e ∈ g.adjList u, 1 ≤ e.weight)
    (hsn : s < g.n) (hS : S ⊆ Finset.range g.n) (hsS : s ∈ S)
    (htS : t ∉ S) (ps : List (List Nat))
    (hps : DisjointPaths g s t ps) :
    (ps.length : Int) ≤ cutCap (build_capacity_matrix g) g.n S := by
  classical
  obtain ⟨hall, hnd⟩ := hps
  obtain ⟨L, hLlen, hLnd, hLmem⟩ :=
    crossing_list g s t S hlen hdst hsn hsS htS ps hall hnd
  have horient : ∀ pr ∈ L, ∃ u v : Nat,
      (if pr.1 ∈ S then pr else (pr.2, pr.1)) = (u, v) ∧ u ∈ S ∧
      v ∈ Finset.range g.n \ S ∧
      1 ≤ capAt (build_capacity_matrix g) u v ∧ pr = normPair u v := by
    intro pr hpr
    obtain ⟨_, u, v, hpr', huS, hvS, hun, hvn, hadj⟩ := hLmem pr hpr
    have huv : u ≠ v := fun h => hvS (h ▸ huS)
    have hcapuv : 1 ≤ capAt (build_capacity_matrix g) u v :=
      cap_pos_of_adjacent g hlen hdst hw u v hun huv hadj
    have hvm : v ∈ Finset.range g.n \ S :=
      Finset.mem_sdiff.mpr ⟨Finset.mem_range.mpr hvn, hvS⟩
    refine ⟨u, v, ?_, huS, hvm, hcapuv, hpr'⟩
    unfold normPair at hpr'
    by_cases hlt : u < v
    · rw [if_pos hlt] at hpr'
      rw [hpr']
      rw [if_pos huS]
    · rw [if_neg hlt] at hpr'
      rw [hpr']
      rw [if_neg hvS]
  have hTnd : (L.map
      (fun pr => if pr.1 ∈ S then pr else (pr.2, pr.1))).Nodup := by
    refine List.Nodup.map_on ?_ hLnd
    intro pr1 h1 pr2 h2 heq
    obtain ⟨u1, v1, ho1, _, _, _, hn1⟩ := horient pr1 h1
    obtain ⟨u2, v2, ho2, _, _, _, hn2⟩ := horient pr2 h2
    rw [ho1, ho2] at heq
    obtain ⟨hu, hv⟩ := Prod.mk.injEq u1 v1 u2 v2 ▸ heq
    rw [hn1, hn2, hu, hv]
  have hTsub : (L.map
      (fun pr => if pr.1 ∈ S then pr else (pr.2, pr.1))).toFinset
      ⊆ S ×ˢ (Finset.range g.n \ S) := by
    intro x hx
    obtain ⟨pr, hpr, hx'⟩ := List.mem_map.mp (List.mem_toFinset.mp hx)
    obtain ⟨u, v, ho, huS, hvm, _, _⟩ := horient pr hpr
    rw [← hx', ho]
    exact Finset.mem_product.mpr ⟨huS, hvm⟩
  have hTcap : ∀ x ∈ (L.map
      (fun pr => if pr.1 ∈ S then pr else (pr.2, pr.1))).toFinset,
      1 ≤ capAt (build_capacity_matrix g) x.1 x.2 := by
    intro x hx
    obtain ⟨pr, hpr, hx'⟩ := List.mem_map.mp (List.mem_toFinset.mp hx)
    obtain ⟨u, v, ho, _, _, hcap, _⟩ := horient pr hpr
    rw [← hx', ho]
    exact hcap
  have hcard : (L.map
      (fun pr => if pr.1 ∈ S then pr else (pr.2, pr.1))).toFinset.card
      = ps.length := by
    rw [List.toFinset_card_of_nodup hTnd, List.length_map, hLlen]
  have h1 : (ps.length : Int)
      ≤ ∑ x ∈ (L.map
        (fun pr => if pr.1 ∈ S then pr else (pr.2, pr.1))).toFinset,
        capAt (build_capacity_matrix g) x.1 x.2 := by
    rw [← hcard]
    have := Finset.card_nsmul_le_sum
      ((L.map (fun pr => if pr.1 ∈ S then pr else (pr.2, pr.1))).toFinset)
      (fun x => capAt (build_capacity_matrix g) x.1 x.2) 1 hTcap
    simpa using this
  have h2 : (∑ x ∈ (L.map
      (fun pr => if pr.1 ∈ S then pr else (pr.2, pr.1))).toFinset,
      capAt (build_capacity_matrix g) x.1 x.2)
      ≤ ∑ x ∈ S ×ˢ (Finset.range g.n \ S),
        capAt (build_capacity_matrix g) x.1 x.2 := by
    refine Finset.sum_le_sum_of_subset_of_nonneg hTsub ?_
    intro i _ _
    exact cap_nonneg g hlen hw i.1 i.2
  have h3 : (∑ x ∈ S ×ˢ (Finset.range g.n \ S),
      capAt (build_capacity_matrix g) x.1 x.2)
      = cutCap (build_capacity_matrix g) g.n S := by
    unfold cutCap
    exact Finset.sum_product S (Finset.range g.n \ S)
      (fun x => capAt (build_capacity_matrix g) x.1 x.2)
  omega

/-- C2: for in-range distinct `s`, `t` on a well-formed graph with
positive weights, a value returned by `graph_max_flow` is nonnegative
and equals the minimum `s`–`t` cut capacity of the capacity matrix
built from the graph (some cut attains it and it bounds every cut),
and when every edge weight is the default 1 it equals the maximum
number of edge-disjoint `s`–`t` paths (a family of that size exists
and no edge-disjoint family is larger). -/
theorem max_flow_correct (g : Graph) (s t : Nat) (f : Int)
    (hlen : g.adj.length = g.n)
    (hdst : ∀ u : Nat, u < g.n → ∀ e ∈ g.adjList u, e.dst < g.n)
    (hw : ∀ u : Nat, u < g.n → ∀ e ∈ g.adjList u, 1 ≤ e.weight)
    (hsn : s < g.n) (htn : t < g.n) (hst : s ≠ t)
    (hres : graph_max_flow g s t = some f) :
    0 ≤ f ∧
    (∃ S : Finset Nat, S ⊆ Finset.range g.n ∧ s ∈ S ∧ t ∉ S ∧
      f = cutCap (build_capacity_matrix g) g.n S) ∧
    (∀ S : Finset Nat, S ⊆ Finset.range g.n → s ∈ S → t ∉ S →
      f ≤ cutCap (build_capacity_matrix g) g.n S) ∧
    ((∀ u : Nat, u < g.n → ∀ e ∈ g.adjList u, e.weight = 1) →
      (∃ ps : List (List Nat), DisjointPaths g s t ps ∧
        (ps.length : Int) = f) ∧
      (∀ ps : List (List Nat), DisjointPaths g s t ps →
        (ps.length : Int) ≤ f)) := by
  obtain ⟨hge0, hFfin, hnofind⟩ :=
    graph_max_flow_mincut g s t f hlen hsn htn hst hw hres
  obtain ⟨S0, hS0sub, hsS0, htS0, hfeq⟩ :=
    final_cut (build_capacity_matrix g)
      (maxflow_loop g.n s t
        ((build_capacity_matrix g).map
          (fun row : List Int => (row.map Int.natAbs).sum)).sum.succ
        (build_capacity_matrix g, 0)).1 g.n s t f hFfin hsn htn hst hnofind
  refine ⟨hge0, ⟨S0, hS0sub, hsS0, htS0, hfeq⟩, ?_, ?_⟩
  · intro S hS hsS htS
    exact flowinv_le_cut hFfin S hS hsS htS
  · intro hw1
    have hUF : UnitFlow (build_capacity_matrix g) g.n s t
        (fun u v => if u < g.n ∧ v < g.n then
          Fnet (build_capacity_matrix g)
            (maxflow_loop g.n s t
              ((build_capacity_matrix g).map
                (fun row : List Int => (row.map Int.natAbs).sum)).sum.succ
              (build_capacity_matrix g, 0)).1 u v
          else 0) f := by
      refine ⟨?_, ?_, ?_, ?_, ?_⟩
      · intro u v
        dsimp only
        by_cases h : u < g.n ∧ v < g.n
        · rw [if_pos h, if_pos ⟨h.2, h.1⟩]
          exact flowinv_anti hFfin u v h.1 h.2
        · rw [if_neg h, if_neg (fun hx => h ⟨hx.2, hx.1⟩)]
          ring
      · intro u v
        dsimp only
        by_cases h : u < g.n ∧ v < g.n
        · rw [if_pos h]
          unfold Fnet
          have := hFfin.hnn u v
          omega
        · rw [if_neg h]
          exact cap_nonneg g hlen hw u v
      · intro u v h
        dsimp only
        rw [if_neg h]
      · intro w hwn hws hwt
        dsimp only
        have hcg : ∀ v ∈ Finset.range g.n,
            (if w < g.n ∧ v < g.n then
              Fnet (build_capacity_matrix g)
                (maxflow_loop g.n s t
                  ((build_capacity_matrix g).map
                    (fun row : List Int => (row.map Int.natAbs).sum)).sum.succ
                  (build_capacity_matrix g, 0)).1 w v
              else 0)
            = Fnet (build_capacity_matrix g)
                (maxflow_loop g.n s t
                  ((build_capacity_matrix g).map
                    (fun row : List Int => (row.map Int.natAbs).sum)).sum.succ
                  (build_capacity_matrix g, 0)).1 w v := by
          intro v hv
          rw [if_pos ⟨hwn, Finset.mem_range.mp hv⟩]
        rw [Finset.sum_congr rfl hcg]
        exact hFfin.hcons w hwn hws hwt
      · dsimp only
        have hcg : ∀ v ∈ Finset.range g.n,
            (if s < g.n ∧ v < g.n then
              Fnet (build_capacity_matrix g)
                (maxflow_loop g.n s t
                  ((build_capacity_matrix g).map
                    (fun row : List Int => (row.map Int.natAbs).sum)).sum.succ
                  (build_capacity_matrix g, 0)).1 s v
              else 0)
            = Fnet (build_capacity_matrix g)
                (maxflow_loop g.n s t
                  ((build_capacity_matrix g).map
                    (fun row : List Int => (row.map Int.natAbs).sum)).sum.succ
                  (build_capacity_matrix g, 0)).1 s v := by
          intro v hv
          rw [if_pos ⟨hsn, Finset.mem_range.mp hv⟩]
        rw [Finset.sum_congr rfl hcg]
        exact hFfin.hval
    constructor
    · have hUF' : UnitFlow (build_capacity_matrix g) g.n s t
          (fun u v => if u < g.n ∧ v < g.n then
            Fnet (build_capacity_matrix g)
              (maxflow_loop g.n s t
                ((build_capacity_matrix g).map
                  (fun row : List Int => (row.map Int.natAbs).sum)).sum.succ
                (build_capacity_matrix g, 0)).1 u v
            else 0) ((f.toNat : Nat) : Int) := by
        rw [Int.toNat_of_nonneg hge0]
        exact hUF
      obtain ⟨ps, hpslen, hpaths, hnodup, _⟩ :=
        unit_flow_decompose g s t hlen hw1 hsn hst f.toNat _ hUF'
      refine ⟨ps, ⟨hpaths, hnodup⟩, ?_⟩
      rw [hpslen]
      exact Int.toNat_of_nonneg hge0
    · intro ps hps
      have := paths_le_cut g s t S0 hlen hdst hw hsn hS0sub hsS0 htS0 ps hps
      omega

theorem max_flow_correct_witness :
    (0 : Int) ≤ 1 ∧
    (∃ S : Finset Nat, S ⊆ Finset.range (2 : Nat) ∧ 0 ∈ S ∧ 1 ∉ S ∧
      (1 : Int)
        = cutCap (build_capacity_matrix ⟨2, [[⟨1, 1⟩], [⟨0, 1⟩]]⟩) 2 S) ∧
    (∀ S : Finset Nat, S ⊆ Finset.range (2 : Nat) → 0 ∈ S → 1 ∉ S →
      (1 : Int)
        ≤ cutCap (build_capacity_matrix ⟨2, [[⟨1, 1⟩], [⟨0, 1⟩]]⟩) 2 S) ∧
    ((∀ u : Nat, u < (2 : Nat) →
        ∀ e ∈ Graph.adjList ⟨2, [[⟨1, 1⟩], [⟨0, 1⟩]]⟩ u, e.weight = 1) →
      (∃ ps : List (List Nat),
        DisjointPaths ⟨2, [[⟨1, 1⟩], [⟨0, 1⟩]]⟩ 0 1 ps ∧
        (ps.length : Int) = 1) ∧
      (∀ ps : List (List Nat),
        DisjointPaths ⟨2, [[⟨1, 1⟩], [⟨0, 1⟩]]⟩ 0 1 ps →
        (ps.length : Int) ≤ 1)) :=
  max_flow_correct ⟨2, [[⟨1, 1⟩], [⟨0, 1⟩]]⟩ 0 1 1 (by decide) (by decide)
    (by decide) (by decide) (by decide) (by decide) (by decide)


section SanityPrim

-- S4 weighted: n=4, edges (0,1,5),(1,2,3),(2,3,7): connected, weight 15
example :
    graph_mst_prim
      ⟨4, [[⟨1, 5⟩], [⟨0, 5⟩, ⟨2, 3⟩], [⟨1, 3⟩, ⟨3, 7⟩], [⟨2, 7⟩]]⟩
      = some ⟨[(0, 1, 5), (1, 2, 3), (2, 3, 7)], 15, true⟩ := by decide

-- disconnected: two components
example :
    graph_mst_prim ⟨3, [[⟨1, 2⟩], [⟨0, 2⟩], []]⟩
      = some ⟨[], 0, false⟩ := by decide

-- triangle with weights 1,2,3 picks the two lightest
example :
    (graph_mst_prim
      ⟨3, [[⟨1, 1⟩, ⟨2, 3⟩], [⟨0, 1⟩, ⟨2, 2⟩], [⟨0, 3⟩, ⟨1, 2⟩]]⟩).map
      (fun r => r.total_weight) = some 3 := by decide

example : graph_mst_prim ⟨1, [[]]⟩ = some ⟨[], 0, true⟩ := by decide

end SanityPrim

section Sanity

example :
    (Graph.graph_create 2).map
      (fun g => (Graph.graph_add_edge g 0 1).1) = some 0 := by decide

example :
    Graph.graph_get_edge_weight
      ((Graph.graph_create 2).map
        (fun g => (Graph.graph_add_edge g 0 1).2)) 0 1 = 1 := by decide

example :
    Graph.graph_get_edge_weight
      ((Graph.graph_create 2).map
        (fun g => (Graph.graph_add_weighted_edge g 0 1 7).2)) 1 0 = 7 := by
  decide

end Sanity
